import Mathlib

/-!
# LZW codec of `compress42.c`

A shallow embedding of `compress` (the encoder) and `is_compressed` (the
validating decoder) of `src/C/compress/compress42.c`.

Conventions of the embedding.

* C `int` / `long` variables are `Int`; bytes and `unsigned short` cells are `Nat`.
  `x >> 3` is `x / 8`, `x & 7` is `x % 8`, `x << 3` is `x * 8` on `Int`.
* Arrays (`inbuf`, `outbuf`, `htab`, `codetab`) are functions from the index to
  the cell, updated with `upd`.
* The build configuration is the default one of the file: `USERMEM = 450000`, hence
  `BITS = 16`, `HSIZE = 69001`, no `FAST`, no `MAXSEG_64K`; `BYTEORDER` ends up
  undefined, so `output` and `input` are the portable byte-wise variants.
* `BUFSIZ` comes from `<stdio.h>` and is a parameter of every definition that
  depends on it (`IBUFSIZ = OBUFSIZ = BUFSIZ`).
* Loops that C does not bound syntactically carry a fuel argument and return
  `none` when it is exhausted.
-/

namespace Compress42

/-! ## Constants -/

def BITS : Int := 16
def HSIZE : Int := 69001
def FIRST : Int := 257
def CLEAR : Int := 256
def INIT_BITS : Int := 9
def CHECK_GAP : Int := 10000
def MAGIC_1 : Nat := 0x1f
def MAGIC_2 : Nat := 0x9d
def BIT_MASK : Nat := 0x1f
def BLOCK_MODE : Nat := 0x80

/-- The macro `MAXCODE(n)`, that is `1L << n`. -/
def MAXCODE (n : Int) : Int := 2 ^ n.toNat

/-- Array store `a[i] = v`. -/
def upd {α : Type} (a : Int → α) (i : Int) (v : α) : Int → α :=
  fun j => if j = i then v else a j

/-- C remainder `a % b` (truncating). -/
def crem (a b : Int) : Int := Int.tmod a b

/-- C quotient `a / b` (truncating). -/
def cdiv (a b : Int) : Int := Int.tdiv a b

/-- The expression `(o-1)+((n<<3)-((o-b-1+(n<<3))%(n<<3)))` that moves a bit
offset `o` to the next group boundary counted from `b`. -/
def pad_to_group (o b n : Int) : Int :=
  (o - 1) + (n * 8 - crem (o - b - 1 + n * 8) (n * 8))

/-- The macro `output(b,o,c,n)` (portable variant): returns the buffer and the new offset. -/
def output (b : Int → Nat) (o : Int) (c : Nat) (n : Int) : (Int → Nat) × Int :=
  let p := o / 8
  let i := c <<< (o % 8).toNat
  let b1 := upd b p (b p ||| (i % 256))
  let b2 := upd b1 (p + 1) (b1 (p + 1) ||| ((i >>> 8) % 256))
  let b3 := upd b2 (p + 2) (b2 (p + 2) ||| ((i >>> 16) % 256))
  (b3, o + n)

/-- The macro `input(b,o,c,n,m)` (portable variant): the code read at offset `o`. -/
def input (b : Int → Nat) (o : Int) (m : Int) : Int :=
  let p := o / 8
  (((b p ||| (b (p + 1) <<< 8) ||| (b (p + 2) <<< 16)) >>> (o % 8).toNat) &&& m.toNat : Nat)

/-- The bytes `a[0], ..., a[n-1]`. -/
def bytes_of (a : Int → Nat) (n : Int) : List Nat :=
  (List.range n.toNat).map (fun i : Nat => a (i : Int))

/-! ## The encoder `compress` -/

/-- Local and global variables of `compress`. -/
structure CState where
  outbuf : Int → Nat
  htab : Int → Int
  codetab : Int → Nat
  rpos : Int
  rlop : Int
  rsize : Int
  outbits : Int
  boff : Int
  n_bits : Int
  stcode : Bool
  free_ent : Int
  extcode : Int
  ratio : Int
  checkpoint : Int
  c : Nat
  ent : Nat
  bytes_in : Int
  bytes_out : Int
  written : List Nat

/-- The value of `fcode.code`: the union of a `long` with `{char_type c; unsigned short ent;}`
(byte 0 is `c`, byte 1 is padding left at zero by `fcode.code = 0`, bytes 2-3 are `ent`). -/
def fcode_code (c ent : Nat) : Int := ((c + 65536 * ent : Nat) : Int)

/-- The secondary probe loop `do { if ((hp -= disp) < 0) hp += HSIZE; ... } while (i != -1)`.
Returns `(true, hp)` at `hfound` and `(false, hp)` at an empty slot. -/
def probe_loop (htab : Int → Int) (fc disp : Int) : Nat → Int → Option (Bool × Int)
  | 0, _ => none
  | fuel + 1, hp =>
    let hp1 := hp - disp
    let hp2 := if hp1 < 0 then hp1 + HSIZE else hp1
    let i := htab hp2
    if i = fc then some (true, hp2)
    else if i ≠ -1 then probe_loop htab fc disp fuel hp2
    else some (false, hp2)

/-- The hash lookup of the pair `(ent, c)` (the `#ifndef FAST` block). -/
def lookup (htab : Int → Int) (c ent : Nat) : Option (Bool × Int) :=
  let fc := fcode_code c ent
  let hp : Int := (((c <<< 8) ^^^ ent : Nat) : Int)
  let i := htab hp
  if i = fc then some (true, hp)
  else if i ≠ -1 then probe_loop htab fc ((HSIZE - hp) - 1) HSIZE.toNat hp
  else some (false, hp)

/-- The block at the top of the `do` loop that widens the codes or freezes the table. -/
def grow (BUFSIZ maxbits : Int) (s : CState) : CState :=
  if s.free_ent ≥ s.extcode ∧ (s.ent : Int) < FIRST then
    if s.n_bits < maxbits then
      let o := pad_to_group s.outbits s.boff s.n_bits
      let n := s.n_bits + 1
      { s with boff := o, outbits := o, n_bits := n,
               extcode := if n < maxbits then MAXCODE n + 1 else MAXCODE n }
    else
      { s with extcode := MAXCODE 16 + BUFSIZ, stcode := false }
  else s

/-- The block that checks the compression ratio and possibly clears the table. -/
def check_ratio (s : CState) : CState :=
  if s.stcode = false ∧ s.bytes_in ≥ s.checkpoint ∧ (s.ent : Int) < FIRST then
    let checkpoint := s.bytes_in + CHECK_GAP
    let rat : Int :=
      if s.bytes_in > 0x007fffff then
        let r := (s.bytes_out + s.outbits / 8) / 256
        if r = 0 then 0x7fffffff else cdiv s.bytes_in r
      else cdiv (s.bytes_in * 256) (s.bytes_out + s.outbits / 8)
    if rat ≥ s.ratio then { s with checkpoint := checkpoint, ratio := rat }
    else
      let r := output s.outbuf s.outbits CLEAR.toNat s.n_bits
      let o := pad_to_group r.2 s.boff s.n_bits
      { s with checkpoint := checkpoint, ratio := 0, htab := fun _ => -1,
               outbuf := r.1, outbits := o, boff := o,
               n_bits := INIT_BITS, extcode := MAXCODE INIT_BITS + 1,
               free_ent := FIRST, stcode := true }
  else s

/-- The block that writes `OBUFSIZ` bytes once the buffer holds that many. -/
def flush (BUFSIZ : Int) (s : CState) : CState :=
  if s.outbits ≥ BUFSIZ * 8 then
    let outbits := s.outbits - BUFSIZ * 8
    let k := outbits / 8 + 1
    { s with written := s.written ++ bytes_of s.outbuf BUFSIZ,
             outbits := outbits,
             boff := -(crem (BUFSIZ * 8 - s.boff) (s.n_bits * 8)),
             bytes_out := s.bytes_out + BUFSIZ,
             outbuf := fun j =>
               if 0 ≤ j ∧ j < k then s.outbuf (j + BUFSIZ)
               else if k ≤ j ∧ j < k + BUFSIZ then 0
               else s.outbuf j }
  else s

/-- The block that fixes how many input bytes the inner loop takes. `sizeof` is
unsigned, so the second comparison and its quotient are taken modulo `2^64`. -/
def budget (BUFSIZ : Int) (s : CState) : CState :=
  let i0 := s.rsize - s.rlop
  let i1 := if i0 > s.extcode - s.free_ent then s.extcode - s.free_ent else i0
  let lim := (((BUFSIZ + 2048 - 32) * 8 - s.outbits) % 2 ^ 64) / (s.n_bits % 2 ^ 64)
  let i2 := if i1 % 2 ^ 64 > lim then lim else i1
  let i3 := if s.stcode = false ∧ i2 > s.checkpoint - s.bytes_in then s.checkpoint - s.bytes_in else i2
  { s with rlop := s.rlop + i3, bytes_in := s.bytes_in + i3 }

/-- The test made at the labels `next` and `endlop`: a byte is taken while
`rpos < rlop`, and beyond `rlop` while the pending prefix is a table code. -/
def scan_cond (s : CState) : Prop :=
  s.rpos < s.rlop ∨ ((s.ent : Int) ≥ FIRST ∧ s.rpos < s.rsize)

instance (s : CState) : Decidable (scan_cond s) := by
  unfold scan_cond; infer_instance

/-- The label `hfound`, after the byte `c` has been taken: the pending prefix
becomes the code found. -/
def hit_state (s : CState) (c code : Nat) : CState :=
  { s with c := c, rpos := s.rpos + 1, ent := code }

/-- The block after a failed lookup that ended at the empty slot `hp`: emit the
pending prefix, make `c` the new prefix and, while `stcode` is set, enter the pair. -/
def miss_state (s : CState) (c : Nat) (hp : Int) : CState :=
  let r := output s.outbuf s.outbits s.ent s.n_bits
  let s2 := { s with c := c, rpos := s.rpos + 1, outbuf := r.1, outbits := r.2, ent := c }
  if s.stcode then
    { s2 with codetab := upd s.codetab hp (s.free_ent % 65536).toNat,
              free_ent := s.free_ent + 1,
              htab := upd s.htab hp (fcode_code c s.ent) }
  else s2

/-- One pass from the label `next2` back to `next`: take a byte, look the pair up,
and either go on with the code found or emit the pending prefix. -/
def byte_step (inbuf : Int → Nat) (s : CState) : Option CState :=
  match lookup s.htab (inbuf s.rpos) s.ent with
  | none => none
  | some (true, hp) => some (hit_state s (inbuf s.rpos) (s.codetab hp))
  | some (false, hp) => some (miss_state s (inbuf s.rpos) hp)

/-- The labels `next`, `next2`, `hfound` and `endlop` of the inner loop. -/
def scan (inbuf : Int → Nat) : Nat → CState → Option CState
  | 0, s => if scan_cond s then none else some s
  | fuel + 1, s =>
    if scan_cond s then (byte_step inbuf s).bind (scan inbuf fuel) else some s

/-- The blocks at the top of the `do` loop, up to the `goto next`. -/
def round_top (BUFSIZ maxbits : Int) (s : CState) : CState :=
  budget BUFSIZ (flush BUFSIZ (check_ratio (grow BUFSIZ maxbits s)))

/-- The block after `endlop` that accounts for the bytes taken beyond `rlop`. -/
def round_end (s : CState) : CState :=
  if s.rpos > s.rlop then
    { s with bytes_in := s.bytes_in + (s.rpos - s.rlop), rlop := s.rpos }
  else s

/-- The `do ... while (rlop < rsize)` loop over one buffer of input. -/
def rounds (BUFSIZ maxbits : Int) (inbuf : Int → Nat) : Nat → CState → Option CState
  | 0, _ => none
  | fuel + 1, s =>
    let s1 := round_top BUFSIZ maxbits s
    match scan inbuf (s1.rsize - s1.rpos).toNat s1 with
    | none => none
    | some s2 =>
      let s3 := round_end s2
      if s3.rlop < s3.rsize then rounds BUFSIZ maxbits inbuf fuel s3 else some s3

/-- The state at the start of the `do` loop for a buffer just read. -/
def chunk_start (s : CState) (chunk : List Nat) : CState :=
  if s.bytes_in = 0 then
    { s with rsize := chunk.length, ent := chunk.getD 0 0, rpos := 1, rlop := 0 }
  else { s with rsize := chunk.length, rpos := 0, rlop := 0 }

/-- The array `inbuf` holding the bytes of one `read`. -/
def chunk_buf (chunk : List Nat) : Int → Nat := fun i => chunk.getD i.toNat 0

/-- The loop `while ((rsize = read(fdin, inbuf, IBUFSIZ)) > 0)`; every `read`
returns the next `IBUFSIZ` bytes of the input, or what is left of it. -/
def reads (BUFSIZ maxbits : Int) : Nat → CState → List Nat → Option CState
  | 0, _, _ => none
  | fuel + 1, s, rest =>
    let chunk := rest.take BUFSIZ.toNat
    if chunk.length = 0 then some s
    else
      match rounds BUFSIZ maxbits (chunk_buf chunk) (chunk.length + 1) (chunk_start s chunk) with
      | none => none
      | some s2 => reads BUFSIZ maxbits fuel s2 (rest.drop BUFSIZ.toNat)

/-- The state before the first `read`. -/
def compress_init (maxbits : Int) (block_mode : Nat) : CState :=
  { outbuf := upd (upd (upd (fun _ => 0) 0 MAGIC_1) 1 MAGIC_2) 2 ((maxbits.toNat ||| block_mode) % 256),
    htab := fun _ => -1,
    codetab := fun _ => 0,
    rpos := 0, rlop := 0, rsize := 0,
    outbits := 3 * 8, boff := 3 * 8,
    n_bits := INIT_BITS,
    stcode := true,
    free_ent := FIRST,
    extcode := MAXCODE INIT_BITS + 1,
    ratio := 0,
    checkpoint := CHECK_GAP,
    c := 0, ent := 0,
    bytes_in := 0, bytes_out := 0,
    written := [] }

/-- The statement `if (bytes_in > 0) output(outbuf,outbits,fcode.e.ent,n_bits);`
after the reading loop. -/
def last_code (s : CState) : CState :=
  if s.bytes_in > 0 then
    let r := output s.outbuf s.outbits s.ent s.n_bits
    { s with outbuf := r.1, outbits := r.2 }
  else s

/-- The final `write` of `(outbits+7)>>3` bytes and the update of `bytes_out`. -/
def last_write (s : CState) : CState :=
  let n := (s.outbits + 7) / 8
  { s with written := s.written ++ bytes_of s.outbuf n, bytes_out := s.bytes_out + n }

/-- The state of `compress` just before it returns, `none` if a loop ran out of fuel. -/
def compress_state (BUFSIZ maxbits : Int) (block_mode : Nat) (input : List Nat) : Option CState :=
  (reads BUFSIZ maxbits (input.length + 1) (compress_init maxbits block_mode) input).map
    (fun s => last_write (last_code s))

/-- The function `compress(fdin, fdout)`: the bytes written to `fdout` for the bytes
`input` read from `fdin`, with the globals `maxbits` and `block_mode` as arguments. -/
def compress (BUFSIZ maxbits : Int) (block_mode : Nat) (input : List Nat) : Option (List Nat) :=
  (compress_state BUFSIZ maxbits block_mode input).map (fun s => s.written)

/-! ## The validating decoder `is_compressed` -/

/-- The globals `is_compressed` reads before writing them: what earlier calls
left in `inbuf`, in `codetab` (`tab_prefixof`), in the bytes of `htab`
(`tab_suffixof`) and in `exit_code`. The decoder stack `de_stack` grows down from
`&htab[HSIZE-1]` and stays clear of the first `2^16` bytes of `htab`. -/
structure Globals where
  inbuf : Int → Nat
  codetab : Int → Nat
  htab_bytes : Int → Nat
  exit_code : Int

/-- Local and global variables of `is_compressed`; `out` lists the bytes stored
to `outbuf` so far, in the order they are stored. -/
structure DState where
  inbuf : Int → Nat
  insize : Int
  rsize : Int
  posbits : Int
  inbits : Int
  n_bits : Int
  maxcode : Int
  bitmask : Int
  maxbits : Int
  block_mode : Nat
  maxmaxcode : Int
  free_ent : Int
  oldcode : Int
  finchar : Int
  outpos : Int
  tab_prefixof : Int → Nat
  tab_suffixof : Int → Nat
  bytes_in : Int
  out : List Nat

/-- The macro `clear_tab_prefixof()`: `memset(codetab, 0, 256)` zeroes the first
128 cells of the `unsigned short` array. -/
def clear_tab_prefixof (t : Int → Nat) : Int → Nat :=
  fun i => if 0 ≤ i ∧ i < 128 then 0 else t i

/-- The label `resetbuf`: drop the bytes already consumed, then fix `inbits`.
No `read` is left in the function, so `rsize` becomes 0 once fewer than
`sizeof(inbuf)-IBUFSIZ = 64` bytes remain. -/
def resetbuf (s : DState) : DState :=
  let o := s.posbits / 8
  let e := if o ≤ s.insize then s.insize - o else 0
  let inbuf : Int → Nat := fun i => if 0 ≤ i ∧ i < e then s.inbuf (i + o) else s.inbuf i
  let rsize := if e < 64 then 0 else s.rsize
  let insize := if e < 64 then e + rsize else e
  let inbits := if rsize > 0 then (insize - crem insize s.n_bits) * 8
                else insize * 8 - (s.n_bits - 1)
  { s with inbuf := inbuf, insize := insize, posbits := 0, rsize := rsize, inbits := inbits }

/-- The loop `while (code >= 256)` that pushes the suffixes of a prefix chain. -/
def walk (tp ts : Int → Nat) : Nat → Int → List Nat → Option (Int × List Nat)
  | 0, _, _ => none
  | fuel + 1, code, stack =>
    if code ≥ 256 then walk tp ts fuel (tp code) (ts code :: stack)
    else some (code, stack)

/-- The value of `outpos` after the block that copies `i` stack bytes to `outbuf`
in pieces of at most `OBUFSIZ - outpos` bytes. -/
def put_loop (BUFSIZ : Int) : Nat → Int → Int → Int
  | 0, outpos, _ => outpos
  | fuel + 1, outpos, i =>
    let i1 := if i > BUFSIZ - outpos then BUFSIZ - outpos else i
    let outpos1 := if i1 > 0 then outpos + i1 else outpos
    let outpos2 := if outpos1 ≥ BUFSIZ then 0 else outpos1
    if i - i1 > 0 then put_loop BUFSIZ fuel outpos2 (i - i1) else outpos2

/-- The value of `outpos` after the stack has been copied out. -/
def put_stack (BUFSIZ : Int) (outpos : Int) (i : Int) : Int :=
  if outpos + i ≥ BUFSIZ then put_loop BUFSIZ (i.toNat + 1) outpos i else outpos + i

/-- Outcome of one pass through the body of `while (inbits > posbits)`. -/
inductive DStep where
  | cont (s : DState)
  | ret (r : Int) (s : DState)
  | stuck

/-- One pass through the body of `while (inbits > posbits)`; a `goto resetbuf`
runs `resetbuf` and comes back to the loop test. -/
def dbody (BUFSIZ : Int) (s : DState) : DStep :=
  if s.free_ent > s.maxcode then
    let n := s.n_bits + 1
    DStep.cont (resetbuf { s with
      posbits := pad_to_group s.posbits 0 s.n_bits,
      n_bits := n,
      maxcode := if n = s.maxbits then s.maxmaxcode else MAXCODE n - 1,
      bitmask := 2 ^ n.toNat - 1 })
  else
    let code := input s.inbuf s.posbits s.bitmask
    let s1 := { s with posbits := s.posbits + s.n_bits }
    if s.oldcode = -1 then
      if code ≥ 256 then DStep.ret 0 s1
      else DStep.cont { s1 with out := s.out ++ [code.toNat % 256], outpos := s.outpos + 1,
                                finchar := code, oldcode := code }
    else if code = CLEAR ∧ s.block_mode ≠ 0 then
      DStep.cont (resetbuf { s1 with
        tab_prefixof := clear_tab_prefixof s.tab_prefixof,
        free_ent := FIRST - 1,
        posbits := pad_to_group s1.posbits 0 s.n_bits,
        n_bits := INIT_BITS,
        maxcode := MAXCODE INIT_BITS - 1,
        bitmask := 2 ^ INIT_BITS.toNat - 1 })
    else if code > s.free_ent then
      DStep.ret 0 { s1 with posbits := s1.posbits - s.n_bits }
    else
      let start : Int × List Nat :=
        if code ≥ s.free_ent then (s.oldcode, [s.finchar.toNat % 256]) else (code, [])
      match walk s.tab_prefixof s.tab_suffixof 65537 start.1 start.2 with
      | none => DStep.stuck
      | some (code1, stack1) =>
        let finchar := s.tab_suffixof code1
        let stack := finchar :: stack1
        let s2 := { s1 with finchar := finchar, out := s.out ++ stack,
                            outpos := put_stack BUFSIZ s.outpos stack.length }
        let s3 := if s.free_ent < s.maxmaxcode then
            { s2 with tab_prefixof := upd s.tab_prefixof s.free_ent (s.oldcode.toNat % 65536),
                      tab_suffixof := upd s.tab_suffixof s.free_ent (finchar % 256),
                      free_ent := s.free_ent + 1 }
          else s2
        DStep.cont { s3 with oldcode := code }

/-- One turn of the nest `do { resetbuf: ...; while (inbits > posbits) {...};
bytes_in += rsize; } while (rsize > 0); return 1;`, taken from the test of the
inner loop. -/
def dnext (BUFSIZ : Int) (s : DState) : DStep :=
  if s.inbits > s.posbits then dbody BUFSIZ s
  else
    let s1 := { s with bytes_in := s.bytes_in + s.rsize }
    if s.rsize > 0 then DStep.cont (resetbuf s1) else DStep.ret 1 s1

/-- The decoding loops, run until a `return`. -/
def drun (BUFSIZ : Int) : Nat → DState → Option (Int × DState)
  | 0, _ => none
  | fuel + 1, s =>
    match dnext BUFSIZ s with
    | DStep.cont s1 => drun BUFSIZ fuel s1
    | DStep.ret r s1 => some (r, s1)
    | DStep.stuck => none

/-- What a call of `is_compressed` leaves behind: the value returned, the global
`exit_code`, and the bytes stored to `outbuf`. -/
structure ZResult where
  ret : Int
  exit_code : Int
  out : List Nat
deriving DecidableEq, Repr

/-- The content of `inbuf` after the `memcpy` of at most `sizeof(inbuf)` bytes. -/
def load_inbuf (g : Globals) (inbuffer : List Nat) (insize : Int) : Int → Nat :=
  fun i => if 0 ≤ i ∧ i < insize then inbuffer.getD i.toNat 0 else g.inbuf i

/-- The state of the decoder when it first reaches `resetbuf`. -/
def decode_init (g : Globals) (inbuf : Int → Nat) (insize : Int) : DState :=
  let maxbits : Int := ((inbuf 2 &&& BIT_MASK : Nat) : Int)
  let block_mode : Nat := inbuf 2 &&& BLOCK_MODE
  { inbuf := inbuf, insize := insize, rsize := insize,
    posbits := 3 * 8, inbits := 0,
    n_bits := INIT_BITS,
    maxcode := MAXCODE INIT_BITS - 1,
    bitmask := 2 ^ INIT_BITS.toNat - 1,
    maxbits := maxbits, block_mode := block_mode,
    maxmaxcode := MAXCODE maxbits,
    free_ent := if block_mode ≠ 0 then FIRST else 256,
    oldcode := -1, finchar := 0, outpos := 0,
    tab_prefixof := clear_tab_prefixof g.codetab,
    tab_suffixof := fun i => if 0 ≤ i ∧ i ≤ 255 then i.toNat else g.htab_bytes i,
    bytes_in := insize,
    out := [] }

/-- The number of bytes `is_compressed` copies to `inbuf`: the comparison
`insize < sizeof(inbuf)` caps it at `IBUFSIZ + 64`. -/
def load_size (BUFSIZ : Int) (inbuffer : List Nat) : Int :=
  if (inbuffer.length : Int) < BUFSIZ + 64 then inbuffer.length else BUFSIZ + 64

/-- The state in which the decoding loops are entered, after the first `resetbuf`. -/
def decode_start (BUFSIZ : Int) (g : Globals) (inbuffer : List Nat) : DState :=
  resetbuf (decode_init g (load_inbuf g inbuffer (load_size BUFSIZ inbuffer))
    (load_size BUFSIZ inbuffer))

/-- The part of `is_compressed` after the header checks. -/
def decode_loop (BUFSIZ : Int) (g : Globals) (inbuffer : List Nat) : Option ZResult :=
  (drun BUFSIZ (32 * (load_size BUFSIZ inbuffer).toNat + 64) (decode_start BUFSIZ g inbuffer)).map
    (fun r => { ret := r.1, exit_code := g.exit_code, out := r.2.out })

/-- The function `is_compressed(inbuffer, insize)` called on a buffer of
`inbuffer.length` bytes; `none` stands for a run that does not return. -/
def is_compressed (BUFSIZ : Int) (g : Globals) (inbuffer : List Nat) : Option ZResult :=
  let insize := load_size BUFSIZ inbuffer
  let inbuf := load_inbuf g inbuffer insize
  if insize < 3 ∨ inbuf 0 ≠ MAGIC_1 ∨ inbuf 1 ≠ MAGIC_2 then
    some { ret := 0, exit_code := if insize > 0 then 1 else g.exit_code, out := [] }
  else if ((inbuf 2 &&& BIT_MASK : Nat) : Int) > BITS then
    some { ret := 0, exit_code := 4, out := [] }
  else decode_loop BUFSIZ g inbuffer

/-- The globals of a process that has not yet touched its tables (static storage
is zero, `exit_code` starts at -1). -/
def fresh : Globals :=
  { inbuf := fun _ => 0, codetab := fun _ => 0, htab_bytes := fun _ => 0, exit_code := -1 }

/-- Composition used by the round-trip statements: encode, then validate the
encoder's output. -/
def roundtrip (BUFSIZ maxbits : Int) (block_mode : Nat) (g : Globals) (input : List Nat) :
    Option ZResult :=
  (compress BUFSIZ maxbits block_mode input).bind (is_compressed BUFSIZ g)

/-- The input of the classic example. -/
def tobe : List Nat := "TOBEORNOTTOBEORTOBEORNOT".toList.map Char.toNat

/-- A stream with bit 0 of its first byte flipped. -/
def flip_bit0 : List Nat → List Nat
  | [] => []
  | b :: t => (b ^^^ 1) :: t

/-! ## A buffer-free reading of the decoder

`is_compressed` shifts `inbuf` at every `resetbuf` and, while `rsize > 0`, consumes
it in whole groups. The definitions below describe the same decoder on the
unshifted buffer, with absolute bit positions; `decode_loop_eq_aresult`
relates the two. -/

/-- The stream a decoder run works on: the bytes `buf 0 .. buf (N-1)` and the
header fields. -/
structure ACfg where
  buf : Int → Nat
  N : Int
  maxbits : Int
  block_mode : Nat
  maxmaxcode : Int

/-- Decoder variables with absolute bit positions: `pos` is the offset of the next
code in the stream, `base` the offset at which the current group numbering starts. -/
structure AState where
  pos : Int
  base : Int
  n_bits : Int
  maxcode : Int
  bitmask : Int
  free_ent : Int
  oldcode : Int
  finchar : Int
  tab_prefixof : Int → Nat
  tab_suffixof : Int → Nat
  out : List Nat

/-- Outcome of one step on absolute positions. -/
inductive AStep where
  | cont (a : AState)
  | ret (r : Int) (a : AState)
  | stuck

/-- One step on absolute positions: stop when no complete code is left, widen
the codes, or read and decode one code. -/
def astep (c : ACfg) (a : AState) : AStep :=
  if a.pos + a.n_bits > 8 * c.N then AStep.ret 1 a
  else if a.free_ent > a.maxcode then
    let n := a.n_bits + 1
    let p := pad_to_group a.pos a.base a.n_bits
    AStep.cont { a with
      pos := p, base := p, n_bits := n,
      maxcode := if n = c.maxbits then c.maxmaxcode else MAXCODE n - 1,
      bitmask := 2 ^ n.toNat - 1 }
  else
    let code := input c.buf a.pos a.bitmask
    let a1 := { a with pos := a.pos + a.n_bits }
    if a.oldcode = -1 then
      if code ≥ 256 then AStep.ret 0 a1
      else AStep.cont { a1 with out := a.out ++ [code.toNat % 256], finchar := code, oldcode := code }
    else if code = CLEAR ∧ c.block_mode ≠ 0 then
      let p := pad_to_group a1.pos a.base a.n_bits
      AStep.cont { a1 with
        tab_prefixof := clear_tab_prefixof a.tab_prefixof,
        free_ent := FIRST - 1,
        pos := p, base := p,
        n_bits := INIT_BITS,
        maxcode := MAXCODE INIT_BITS - 1,
        bitmask := 2 ^ INIT_BITS.toNat - 1 }
    else if code > a.free_ent then AStep.ret 0 a
    else
      let start : Int × List Nat :=
        if code ≥ a.free_ent then (a.oldcode, [a.finchar.toNat % 256]) else (code, [])
      match walk a.tab_prefixof a.tab_suffixof 65537 start.1 start.2 with
      | none => AStep.stuck
      | some (code1, stack1) =>
        let finchar := a.tab_suffixof code1
        let stack := finchar :: stack1
        let a2 := { a1 with finchar := finchar, out := a.out ++ stack }
        let a3 := if a.free_ent < c.maxmaxcode then
            { a2 with tab_prefixof := upd a.tab_prefixof a.free_ent (a.oldcode.toNat % 65536),
                      tab_suffixof := upd a.tab_suffixof a.free_ent (finchar % 256),
                      free_ent := a.free_ent + 1 }
          else a2
        AStep.cont { a3 with oldcode := code }

/-- Steps on absolute positions that end in a `return` of `r` with output `out`. -/
inductive ARuns (c : ACfg) : AState → Int → List Nat → Prop where
  | done {a a1 : AState} {r : Int} : astep c a = AStep.ret r a1 → ARuns c a r a1.out
  | step {a a1 : AState} {r : Int} {out : List Nat} :
      astep c a = AStep.cont a1 → ARuns c a1 r out → ARuns c a r out

/-- The stream of a call `is_compressed(inbuffer, insize)`. -/
def acfg (BUFSIZ : Int) (g : Globals) (inbuffer : List Nat) : ACfg :=
  let insize := load_size BUFSIZ inbuffer
  let inbuf := load_inbuf g inbuffer insize
  { buf := inbuf, N := insize,
    maxbits := ((inbuf 2 &&& BIT_MASK : Nat) : Int),
    block_mode := inbuf 2 &&& BLOCK_MODE,
    maxmaxcode := MAXCODE ((inbuf 2 &&& BIT_MASK : Nat) : Int) }

/-- The decoder variables after the header, on absolute positions. -/
def astart (g : Globals) (c : ACfg) : AState :=
  { pos := 24, base := 24,
    n_bits := INIT_BITS,
    maxcode := MAXCODE INIT_BITS - 1,
    bitmask := 2 ^ INIT_BITS.toNat - 1,
    free_ent := if c.block_mode ≠ 0 then FIRST else 256,
    oldcode := -1, finchar := 0,
    tab_prefixof := clear_tab_prefixof g.codetab,
    tab_suffixof := fun i => if 0 ≤ i ∧ i ≤ 255 then i.toNat else g.htab_bytes i,
    out := [] }

/-- Ranges that hold at every test of the inner loop of `is_compressed`. -/
structure DInv (s : DState) : Prop where
  posbits_nn : 0 ≤ s.posbits
  insize_nn : 0 ≤ s.insize
  nb_lo : 9 ≤ s.n_bits
  nb_hi : s.n_bits ≤ 17
  rsize_nn : 0 ≤ s.rsize
  inbits_eq : s.inbits = if s.rsize > 0 then (s.insize - crem s.insize s.n_bits) * 8
                         else s.insize * 8 - (s.n_bits - 1)
  pos_mod : s.posbits % s.n_bits = 0
  pos_le : s.rsize > 0 → s.posbits ≤ s.inbits
  fe_hi : s.free_ent ≤ 65536
  mc_lo : 2 ^ s.n_bits.toNat - 1 ≤ s.maxcode
  mm_hi : s.maxmaxcode ≤ 65536
  mm_def : s.maxmaxcode = MAXCODE s.maxbits
  bitmask_eq : s.bitmask = 2 ^ s.n_bits.toNat - 1

/-- The shifted-buffer state `s` and the absolute state `a` describe the same
point of a run: `d` bytes have been dropped from the front of `inbuf`. -/
structure Rel (c : ACfg) (a : AState) (s : DState) : Prop where
  inv : DInv s
  drop : ∃ d : Int, 0 ≤ d ∧ d + s.insize = c.N ∧
    (∀ i, 0 ≤ i → i < s.insize → s.inbuf i = c.buf (d + i)) ∧
    (a.pos = 8 * d + s.posbits ∨ (s.insize = 0 ∧ s.posbits = 0 ∧ s.rsize = 0 ∧ 8 * c.N ≤ a.pos))
  grp : (a.pos - a.base - s.posbits) % (8 * s.n_bits) = 0
  base_le : a.base ≤ a.pos
  n_bits_eq : s.n_bits = a.n_bits
  maxcode_eq : s.maxcode = a.maxcode
  bitmask_eq : s.bitmask = a.bitmask
  free_ent_eq : s.free_ent = a.free_ent
  oldcode_eq : s.oldcode = a.oldcode
  finchar_eq : s.finchar = a.finchar
  tp_eq : s.tab_prefixof = a.tab_prefixof
  ts_eq : s.tab_suffixof = a.tab_suffixof
  out_eq : s.out = a.out
  maxbits_eq : s.maxbits = c.maxbits
  block_eq : s.block_mode = c.block_mode
  mm_eq : s.maxmaxcode = c.maxmaxcode

/-- The termination measure of the decoding loops. -/
def dmeasure (s : DState) : Nat :=
  32 * (s.insize - s.posbits / 8).toNat + 3 * (17 - s.n_bits).toNat + (if s.rsize > 0 then 1 else 0)

/-- Bytes left in `inbuf` after the shift of `resetbuf`. -/
def bytes_left (s : DState) : Int :=
  if s.posbits / 8 ≤ s.insize then s.insize - s.posbits / 8 else 0

/-- What `sim_step` asserts of a turn that continues. -/
def StepOK (c : ACfg) (a : AState) (s s1 : DState) (r : AStep) : Prop :=
  dmeasure s1 < dmeasure s ∧
    ((Rel c a s1 ∧ 0 < s.rsize ∧ s1.rsize = 0) ∨ ∃ a1, r = AStep.cont a1 ∧ Rel c a1 s1)

/-- Ranges kept by the steps on absolute positions. -/
def AInv (a : AState) : Prop :=
  0 ≤ a.base ∧ a.base ≤ a.pos ∧ 9 ≤ a.n_bits ∧ a.bitmask = 2 ^ a.n_bits.toNat - 1

/-- The states the decoding loops pass through, starting from `s0`. -/
inductive DReach (B : Int) (s0 : DState) : DState → Prop where
  | refl : DReach B s0 s0
  | step {s1 s2 : DState} : DReach B s0 s1 → dnext B s1 = DStep.cont s2 → DReach B s0 s2

/-- The update of `hp` in the secondary probe: `if ((hp -= disp) < 0) hp += HSIZE`. -/
def pstep (disp hp : Int) : Int :=
  if hp - disp < 0 then hp - disp + HSIZE else hp - disp

/-- The slot examined after `k` secondary probes that started at `hp`. -/
def ppos (disp hp : Int) (k : Nat) : Int := (pstep disp)^[k] hp

/-- The primary slot `(c << (BITS-8)) ^ ent` of a pair. -/
def key_hp (c ent : Nat) : Int := (((c <<< 8) ^^^ ent : Nat) : Int)

/-- The secondary displacement `(HSIZE - hp) - 1` of a pair. -/
def key_disp (c ent : Nat) : Int := HSIZE - key_hp c ent - 1

/-- The hash table holds exactly the pairs of `dict`, the pair at index `j` with
code `257 + j`, each in one slot that its probe sequence reaches before any empty slot. -/
structure TInv (htab : Int → Int) (codetab : Int → Nat) (dict : List (Nat × Nat)) : Prop where
  keys : ∀ p ∈ dict, p.1 < 65536 ∧ p.2 < 256
  nodup : dict.Nodup
  sound : ∀ hp, htab hp ≠ -1 → 0 ≤ hp ∧ hp < HSIZE ∧
    ∃ j p, dict[j]? = some p ∧ htab hp = fcode_code p.2 p.1 ∧ codetab hp = 257 + j
  inj : ∀ hp hp', htab hp ≠ -1 → htab hp' ≠ -1 → codetab hp = codetab hp' → hp = hp'
  reach : ∀ p ∈ dict, ∃ k, k < 69001 ∧
    htab (ppos (key_disp p.2 p.1) (key_hp p.2 p.1) k) = fcode_code p.2 p.1 ∧
    ∀ i, i < k → htab (ppos (key_disp p.2 p.1) (key_hp p.2 p.1) i) ≠ -1

/-- Control points of `compress`: between two `read`s with the bytes `pre` consumed,
at the head of the `do` loop for the buffer `chunk`, and at the label `next` in a
turn of that loop that started with `rlop = r0`. -/
inductive Point where
  | between (pre : List Nat)
  | round (pre chunk : List Nat)
  | next (pre chunk : List Nat) (r0 : Int)

/-- The bit capacity `(sizeof(outbuf) - 32) * 8` used to bound a turn of the `do` loop. -/
def LIM (B : Int) : Int := (B + 2048 - 32) * 8

/-- Facts about the variables of `compress` that hold at every control point;
`dict` lists the pairs in the table in the order they were entered. -/
structure CBase (B mb : Int) (dict : List (Nat × Nat)) (s : CState) : Prop where
  tinv : TInv s.htab s.codetab dict
  dlen : (dict.length : Int) = s.free_ent - 257
  fe_le : s.free_ent ≤ s.extcode
  fe_hi : s.free_ent ≤ 65536
  st_ext : s.stcode = true → s.extcode ≤ 65536 ∧ s.extcode ≤ MAXCODE s.n_bits + 1
  nst_ext : s.stcode = false → s.extcode = MAXCODE 16 + B
  nb_lo : 9 ≤ s.n_bits
  nb_hi : s.n_bits ≤ mb
  ent_ok : s.ent < 256 ∨ (257 ≤ (s.ent : Int) ∧ (s.ent : Int) < s.free_ent)
  ob_nn : 0 ≤ s.outbits
  boff_le : s.boff ≤ s.outbits
  ob_ent : (s.ent : Int) ≥ FIRST → s.outbits ≤ LIM B
  fe_ent : (s.ent : Int) ≥ FIRST → s.free_ent < s.extcode

/-- Facts that hold at the head of the `do` loop for the buffer `chunk`. -/
structure RoundInv (B : Int) (pre chunk : List Nat) (s : CState) : Prop where
  ob_hi : s.outbits ≤ LIM B + 16
  rsize_eq : s.rsize = chunk.length
  bytes_ok : ∀ b ∈ chunk, b < 256
  rlop_nn : 0 ≤ s.rlop
  rlop_le : s.rlop ≤ s.rpos
  rpos_le : s.rpos ≤ s.rsize
  rlop_lt : s.rlop < s.rsize
  ent_pos : (s.ent : Int) ≥ FIRST → s.rpos < s.rsize
  bi : s.bytes_in = pre.length + s.rlop

/-- Facts that hold at the label `next` in a turn that started with `rlop = r0`. -/
structure NextInv (B : Int) (pre chunk : List Nat) (r0 : Int) (s : CState) : Prop where
  ob_hi : s.outbits ≤ LIM B + 16
  rsize_eq : s.rsize = chunk.length
  bytes_ok : ∀ b ∈ chunk, b < 256
  rpos_nn : 0 ≤ s.rpos
  rpos_le : s.rpos ≤ s.rsize
  rlop_le : s.rlop ≤ s.rsize
  r0_nn : 0 ≤ r0
  r0_le : r0 ≤ s.rpos
  fe_bud : s.rpos < s.rlop → s.free_ent + (s.rlop - s.rpos) ≤ s.extcode
  ob_bud : s.rpos < s.rlop → s.outbits + (s.rlop - s.rpos) * s.n_bits ≤ LIM B
  prog : r0 < s.rlop ∨ r0 < s.rpos ∨ scan_cond s
  bi : s.bytes_in = pre.length + s.rlop

/-- The invariant of `compress`, per control point. -/
def CInv (B mb : Int) : Point → List (Nat × Nat) → CState → Prop
  | Point.between pre, dict, s => CBase B mb dict s ∧ s.outbits ≤ LIM B + 16 ∧ s.bytes_in = pre.length
  | Point.round pre chunk, dict, s => CBase B mb dict s ∧ RoundInv B pre chunk s
  | Point.next pre chunk r0, dict, s => CBase B mb dict s ∧ NextInv B pre chunk r0 s

/-- The bytes `compress` has produced so far, addressed from the start of the
output: those already written, then the content of `outbuf`. -/
def stream (s : CState) : Int → Nat :=
  fun i => if i < s.written.length then s.written.getD i.toNat 0
           else s.outbuf (i - s.written.length)

/-- The bit at offset `q` of a byte array. -/
def bit_at (b : Int → Nat) (q : Int) : Bool := (b (q / 8)).testBit (q % 8).toNat

/-- The offset in the whole output of the next bit `compress` will produce. -/
def Labs (s : CState) : Int := 8 * s.written.length + s.outbits

/-- The output buffer holds bytes, and nothing at or beyond `outbits`. -/
structure Clean (s : CState) : Prop where
  bytes : ∀ j, s.outbuf j < 256
  wbytes : ∀ b ∈ s.written, b < 256
  zero : ∀ j, s.outbits ≤ 8 * j → s.outbuf j = 0
  part : s.outbuf (s.outbits / 8) < 2 ^ (s.outbits % 8).toNat

/-- The output so far starts with the three header bytes. -/
structure Hdr (mb : Int) (bm : Nat) (s : CState) : Prop where
  len : 24 ≤ Labs s
  ob_nn : 0 ≤ s.outbits
  b0 : stream s 0 = MAGIC_1
  b1 : stream s 1 = MAGIC_2
  b2 : stream s 2 = (mb.toNat ||| bm) % 256

/-- The output of `s2` continues that of `s1`: every byte and every bit below
`Labs s1` is kept. -/
def Ext (s1 s2 : CState) : Prop :=
  Labs s1 ≤ Labs s2 ∧
    (∀ i, 0 ≤ i → 8 * (i + 1) ≤ Labs s1 → stream s2 i = stream s1 i) ∧
    ∀ q, 0 ≤ q → q < Labs s1 → bit_at (stream s2) q = bit_at (stream s1) q

/-- The string of a code, read off the pairs entered so far, newest first: the pair
at the head has the code `257 + (number of older pairs)`; a code that is not in the
list stands for itself. -/
def expandR : List (Nat × Nat) → Nat → List Nat
  | [], code => [code]
  | (e, c) :: d, code => if code = 257 + d.length then expandR d e ++ [c] else expandR d code

/-- The string of a code, for the pairs `dict` in the order they were entered. -/
def expand (dict : List (Nat × Nat)) (code : Nat) : List Nat := expandR dict.reverse code

/-- Every pair of `dict` extends a byte or an older pair by a byte. -/
def DictOK (dict : List (Nat × Nat)) : Prop :=
  ∀ (j e c : Nat), dict[j]? = some (e, c) → c < 256 ∧ (e < 256 ∨ (257 ≤ e ∧ e < 257 + j))

/-- The states the steps on absolute positions pass through, starting from `a0`. -/
inductive AReach (c : ACfg) (a0 : AState) : AState → Prop where
  | refl : AReach c a0 a0
  | step {a1 a2 : AState} : AReach c a0 a1 → astep c a1 = AStep.cont a2 → AReach c a0 a2

/-- Facts about the output side of `compress` that hold in block mode with
`maxbits ≥ 10`: the buffer is clean, group boundaries are byte boundaries, `extcode`
is the bound of the current width, a frozen table is full, and while entries are
being made the offset within the group follows the number of entries. -/
structure CEnc (mb : Int) (dict : List (Nat × Nat)) (s : CState) : Prop where
  clean : Clean s
  dok : DictOK dict
  boff8 : s.boff % 8 = 0
  ext_eq : s.stcode = true →
    s.extcode = if s.n_bits < mb then MAXCODE s.n_bits + 1 else MAXCODE s.n_bits
  frozen : s.stcode = false → s.n_bits = mb ∧ s.free_ent = MAXCODE mb
  align : s.stcode = true →
    (s.outbits - s.boff - s.n_bits * (s.free_ent - 1)) % (8 * s.n_bits) = 0

/-- A stream `c` that starts with the output `compress` has produced so far. -/
structure Compat (mb : Int) (c : ACfg) (s : CState) : Prop where
  maxbits_eq : c.maxbits = mb
  block : c.block_mode ≠ 0
  mm : c.maxmaxcode = MAXCODE mb
  bytes : ∀ i, 0 ≤ i → i < c.N → c.buf i < 256
  len : Labs s ≤ 8 * c.N
  bits : ∀ q, 0 ≤ q → q < Labs s → bit_at c.buf q = bit_at (stream s) q

/-- The decoder state `a` has read exactly the codes `compress` has produced up to
the state `s`, and `cons` is the input consumed so far: the decoder stands at the end
of the output, its table holds the pairs of `dict` except possibly the newest, and
its output followed by the string of the pending prefix is `cons`. -/
structure SRel (mb : Int) (dict : List (Nat × Nat)) (cons : List Nat) (s : CState)
    (a : AState) : Prop where
  pos_eq : a.pos = Labs s
  base_nn : 0 ≤ a.base
  base8 : a.base % 8 = 0
  base_le : a.base ≤ a.pos
  nb_lo : 9 ≤ a.n_bits
  bitmask_eq : a.bitmask = 2 ^ a.n_bits.toNat - 1
  mc : a.maxcode = if a.n_bits = mb then MAXCODE mb else MAXCODE a.n_bits - 1
  width : (a.n_bits = s.n_bits ∧ (a.base - 8 * s.written.length - s.boff) % (8 * s.n_bits) = 0) ∨
    (a.n_bits + 1 = s.n_bits ∧ a.free_ent = MAXCODE a.n_bits ∧
      (a.pos - a.base) % (8 * a.n_bits) = 0 ∧ (s.outbits - s.boff) % (8 * s.n_bits) = 0)
  phase : (a.oldcode = -1 ∧ a.free_ent = 257 ∧ s.free_ent = 257 ∧ s.stcode = true ∧
      a.out = [] ∧ dict = []) ∨
    (a.oldcode ≠ -1 ∧
      (a.free_ent = s.free_ent - 1 ∨ (s.stcode = false ∧ a.free_ent = s.free_ent)))
  tabs : ∀ j : Nat, 257 + (j : Int) < a.free_ent →
    ∃ e c, dict[j]? = some (e, c) ∧ a.tab_prefixof (257 + j) = e ∧ a.tab_suffixof (257 + j) = c
  lits : ∀ i : Nat, i < 256 → a.tab_suffixof i = i
  pend : a.oldcode ≠ -1 → a.free_ent = s.free_ent - 1 → dict ≠ [] →
    0 ≤ a.oldcode ∧
    dict.getLast? = some (a.oldcode.toNat, (expand dict s.ent).headD 0) ∧
    a.finchar = (((expand dict a.oldcode.toNat).headD 0 : Nat) : Int)
  out_eq : (cons = [] ∧ a.oldcode = -1) ∨ a.out ++ expand dict s.ent = cons

/-- The input consumed when `compress` stands at a control point. -/
def cons_of : Point → CState → List Nat
  | Point.between pre, _ => pre
  | Point.round pre chunk, s => pre ++ chunk.take s.rpos.toNat
  | Point.next pre chunk _, s => pre ++ chunk.take s.rpos.toNat

/-- Whatever stream the output so far is the start of, the decoder reads all of
that output and then stands in a state related to `s`. -/
def Sim (g : Globals) (mb : Int) (pt : Point) (dict : List (Nat × Nat)) (s : CState) : Prop :=
  ∀ c, Compat mb c s → ∃ a, AReach c (astart g c) a ∧ SRel mb dict (cons_of pt s) s a

/-- Inside the `do` loop at least one byte has been consumed. -/
def Started : Point → CState → Prop
  | Point.between _, _ => True
  | Point.round pre _, s => pre = [] → 1 ≤ s.rpos
  | Point.next pre _ _, s => pre = [] → 1 ≤ s.rpos

/-- A state of `compress` in non-block mode (`maxbits = 10`, header byte `0x0A`) with
a frozen table, past its checkpoint, and a recorded ratio above the current one. -/
def frozen_state : CState :=
  { compress_init 10 0 with
    stcode := false, n_bits := 10, free_ent := 1024, extcode := MAXCODE 16 + 8192,
    checkpoint := 10000, bytes_in := 20000, ratio := 2000000, ent := 0x41 }

/-- The states `compress` passes through, per control point, for the globals
`maxbits = mb` and `block_mode = bm` and reads of at most `B` bytes. -/
inductive CReach (B mb : Int) (bm : Nat) : Point → CState → Prop where
  | init : CReach B mb bm (Point.between []) (compress_init mb bm)
  | start {pre chunk : List Nat} {s : CState} :
      CReach B mb bm (Point.between pre) s → chunk ≠ [] → (chunk.length : Int) ≤ B →
      (∀ b ∈ chunk, b < 256) → CReach B mb bm (Point.round pre chunk) (chunk_start s chunk)
  | top {pre chunk : List Nat} {s : CState} :
      CReach B mb bm (Point.round pre chunk) s →
      CReach B mb bm (Point.next pre chunk s.rlop) (round_top B mb s)
  | byte {pre chunk : List Nat} {r0 : Int} {s s' : CState} :
      CReach B mb bm (Point.next pre chunk r0) s → scan_cond s →
      byte_step (chunk_buf chunk) s = some s' → CReach B mb bm (Point.next pre chunk r0) s'
  | again {pre chunk : List Nat} {r0 : Int} {s : CState} :
      CReach B mb bm (Point.next pre chunk r0) s → ¬ scan_cond s →
      (round_end s).rlop < (round_end s).rsize →
      CReach B mb bm (Point.round pre chunk) (round_end s)
  | done {pre chunk : List Nat} {r0 : Int} {s : CState} :
      CReach B mb bm (Point.next pre chunk r0) s → ¬ scan_cond s →
      ¬ (round_end s).rlop < (round_end s).rsize →
      CReach B mb bm (Point.between (pre ++ chunk)) (round_end s)

/-- While entries are made `extcode` is at most `2 ^ mb`, and a frozen table
ends below `2 ^ mb`. -/
def FeOK (mb : Int) (s : CState) : Prop :=
  (s.stcode = true → s.extcode ≤ MAXCODE mb) ∧ (s.stcode = false → s.free_ent ≤ MAXCODE mb)

/-- The state in which a turn of the decoding loops ends. -/
def DStep.after (d : DStep) (s : DState) : DState :=
  match d with
  | DStep.cont s1 => s1
  | DStep.ret _ s1 => s1
  | DStep.stuck => s

/-- A block-mode stream: the header `1F 9D 90`, the 9-bit codes `0x61` and 256
(CLEAR), padding to the end of the group of nine bytes, and the code `0x62`. -/
def clear_stream : List Nat :=
  [0x1f, 0x9d, 0x90, 0x61, 0x00, 0x02, 0, 0, 0, 0, 0, 0, 0x62, 0x00]

/-- What a turn of the decoding loops does to the string table: the
`clear_tab_prefixof()` of a CLEAR code, or the entry written at `index`. -/
inductive TabEvent where
  | clear
  | entry (index : Int)
deriving DecidableEq, Repr

/-- The table event of the turn taken from `s`, by the tests of the loops in the
order of the source: none when the inner loop is left (`inbits <= posbits`), when
the width changes (`free_ent > maxcode`), for the first code (`oldcode == -1`),
for a code above `free_ent` and when the table is full
(`free_ent >= maxmaxcode`). -/
def turn_event (s : DState) : Option TabEvent :=
  if s.inbits > s.posbits then
    if s.free_ent > s.maxcode then none
    else if s.oldcode = -1 then none
    else if input s.inbuf s.posbits s.bitmask = CLEAR ∧ s.block_mode ≠ 0 then
      some TabEvent.clear
    else if input s.inbuf s.posbits s.bitmask > s.free_ent then none
    else if s.free_ent < s.maxmaxcode then some (TabEvent.entry s.free_ent)
    else none
  else none

/-- The table events of the turns that lead from one state of the decoding loops
to another, in the order of the turns. -/
inductive DTrace (B : Int) : DState → List TabEvent → DState → Prop where
  | nil (s : DState) : DTrace B s [] s
  | quiet {s s1 s2 : DState} {evs : List TabEvent} :
      dnext B s = DStep.cont s1 → turn_event s = none → DTrace B s1 evs s2 → DTrace B s evs s2
  | event {s s1 s2 : DState} {e : TabEvent} {evs : List TabEvent} :
      dnext B s = DStep.cont s1 → turn_event s = some e → DTrace B s1 evs s2 →
      DTrace B s (e :: evs) s2

/-- The indices of the entries in a list of table events count up from `f`, and
from `FIRST - 1 = 256` again after each clear. -/
def counts_from : Int → List TabEvent → Prop
  | _, [] => True
  | f, TabEvent.entry k :: evs => k = f ∧ counts_from (f + 1) evs
  | _, TabEvent.clear :: evs => counts_from (FIRST - 1) evs

/-- A block-mode stream: the header `1F 9D 90`, the 9-bit codes `0x61`, `0x62`
and 256 (CLEAR), padding to the end of the group of nine bytes, and the codes
`0x63` and `0x64`. -/
def alloc_stream : List Nat :=
  [0x1f, 0x9d, 0x90, 0x61, 0xc4, 0x00, 0x04, 0, 0, 0, 0, 0, 0x63, 0xc8, 0x00]

/-- The state of the decoder on `alloc_stream` after `k` turns of its loops. -/
def alloc_run : Nat → DState
  | 0 => decode_start 8192 fresh alloc_stream
  | k + 1 => (dnext 8192 (alloc_run k)).after (alloc_run k)

/-- Seven bytes after which the pair `(257, 67)` is in the table of the encoder, in
the slot of its first secondary probe: its primary slot `0x4201` holds the pair
`(1, 66)`, and `ent` is 257 again. -/
def probe_input : List Nat := [1, 66, 1, 66, 67, 1, 66]

/-- The state of `compress` (with `maxbits = 12`, in block mode) when it has read
`probe_input`. -/
def probe_state : CState :=
  (reads 8192 12 8 (compress_init 12 BLOCK_MODE) probe_input).getD (compress_init 12 BLOCK_MODE)

end Compress42

namespace Ssdeep

/-! ## The fuzzy hasher: constants and the rolling hash (`ssdeep-2.10/fuzzy.c`)

Bytes and characters are natural numbers below 256, a C string is the list of
its characters before the terminating NUL, and a `uint32_t` is a natural
number reduced modulo `2 ^ 32` after every operation that can leave the range.
-/

def ROLLING_WINDOW : Nat := 7
def MIN_BLOCKSIZE : Nat := 3
def HASH_PRIME : Nat := 0x01000193
def HASH_INIT : Nat := 0x28021967
def NUM_BLOCKHASHES : Nat := 31
def SPAMSUM_LENGTH : Nat := 64
def FUZZY_MAX_RESULT : Nat := 2 * SPAMSUM_LENGTH + 20
def FUZZY_FLAG_ELIMSEQ : Nat := 1
def FUZZY_FLAG_NOTRUNC : Nat := 2

/-- The characters of a string literal, as the C code sees them. -/
def chars (s : String) : List Nat := s.toList.map Char.toNat

/-- Subtraction of `uint32_t` values. -/
def sub32 (a b : Nat) : Nat := (a + (2 ^ 32 - b % 2 ^ 32)) % 2 ^ 32

/-- The `struct roll_state`. -/
structure roll_state where
  window : List Nat
  h1 : Nat
  h2 : Nat
  h3 : Nat
  n : Nat
deriving DecidableEq

/-- The state after `roll_init`: every field is zero. -/
def roll_init : roll_state :=
  { window := List.replicate ROLLING_WINDOW 0, h1 := 0, h2 := 0, h3 := 0, n := 0 }

/-- One byte enters the rolling hash: `roll_hash`. -/
def roll_hash (self : roll_state) (c : Nat) : roll_state :=
  let h2 := sub32 self.h2 self.h1
  let h2 := (h2 + ROLLING_WINDOW * c) % 2 ^ 32
  let h1 := (self.h1 + c) % 2 ^ 32
  let h1 := sub32 h1 (self.window.getD (self.n % ROLLING_WINDOW) 0)
  { window := self.window.set (self.n % ROLLING_WINDOW) c,
    h1 := h1,
    h2 := h2,
    h3 := Nat.xor ((self.h3 <<< 5) % 2 ^ 32) c,
    n := (self.n + 1) % 2 ^ 32 }

/-- The value of `roll_sum`. -/
def roll_sum (self : roll_state) : Nat := (self.h1 + self.h2 + self.h3) % 2 ^ 32

/-- The FNV step `sum_hash`. -/
def sum_hash (c h : Nat) : Nat := Nat.xor ((h * HASH_PRIME) % 2 ^ 32) c

/-! ## The fuzzy hasher: block hashes and the engine -/

/-- The `struct blockhash_context`; `digest` holds the characters
`digest[0 .. dlen)` and `dlen` is its length. -/
structure blockhash_context where
  h : Nat
  halfh : Nat
  digest : List Nat
deriving DecidableEq

/-- The number of characters stored in a block hash. -/
def blockhash_context.dlen (b : blockhash_context) : Nat := b.digest.length

/-- The content of a slot that no code has written yet. -/
def blank : blockhash_context := { h := 0, halfh := 0, digest := [] }

/-- The `struct fuzzy_state`; `bh` has `NUM_BLOCKHASHES` slots. -/
structure fuzzy_state where
  bhstart : Nat
  bhend : Nat
  bh : List blockhash_context
  total_size : Nat
  roll : roll_state
deriving DecidableEq

/-- The slot `self->bh[i]`. -/
def fuzzy_state.slot (self : fuzzy_state) (i : Nat) : blockhash_context := self.bh.getD i blank

/-- The macro `SSDEEP_BS`. -/
def SSDEEP_BS (index : Nat) : Nat := (MIN_BLOCKSIZE <<< index) % 2 ^ 32

/-- The state `fuzzy_new` returns (the allocation succeeds). -/
def fuzzy_new : fuzzy_state :=
  { bhstart := 0,
    bhend := 1,
    bh := { h := HASH_INIT, halfh := HASH_INIT, digest := [] } ::
      List.replicate (NUM_BLOCKHASHES - 1) blank,
    total_size := 0,
    roll := roll_init }

/-- The function `fuzzy_try_fork_blockhash`; `none` is a failed `assert`. -/
def fuzzy_try_fork_blockhash (self : fuzzy_state) : Option fuzzy_state :=
  if self.bhend ≥ NUM_BLOCKHASHES then some self
  else if ¬ (self.bhend > 0) then none
  else
    let obh := self.slot (self.bhend - 1)
    some { self with
      bh := self.bh.set self.bhend { h := obh.h, halfh := obh.halfh, digest := [] },
      bhend := self.bhend + 1 }

/-- The function `fuzzy_try_reduce_blockhash`; `none` is a failed `assert`. -/
def fuzzy_try_reduce_blockhash (self : fuzzy_state) : Option fuzzy_state :=
  if ¬ (self.bhstart < self.bhend) then none
  else if self.bhend - self.bhstart < 2 then some self
  else if SSDEEP_BS self.bhstart * SPAMSUM_LENGTH ≥ self.total_size then some self
  else if (self.slot (self.bhstart + 1)).dlen < SPAMSUM_LENGTH / 2 then some self
  else some { self with bhstart := self.bhstart + 1 }

/-- The alphabet `b64`. -/
def b64 : List Nat :=
  chars "ABCDEFGHIJKLMNOPQRSTUVWXYZabcdefghijklmnopqrstuvwxyz0123456789+/"

/-- The first loop of `fuzzy_engine_step`: the slots `lo ≤ i < hi` take the byte
`c`; `i` is the index of the head of the list, and the slots from `hi` on are
not touched. -/
def hash_slots (c lo hi : Nat) : Nat → List blockhash_context → List blockhash_context
  | _, [] => []
  | i, b :: t =>
    if hi ≤ i then b :: t
    else
      (if lo ≤ i then { b with h := sum_hash c b.h, halfh := sum_hash c b.halfh } else b) ::
        hash_slots c lo hi (i + 1) t

/-- The body of the second loop of `fuzzy_engine_step` at a reset point of slot
`i`, lines 202-223; `none` is a failed `assert`. -/
def slot_step (i : Nat) (self : fuzzy_state) : Option fuzzy_state :=
  (if (self.slot i).dlen = 0 then fuzzy_try_fork_blockhash self else some self).bind
    fun s1 =>
      if (s1.slot i).dlen < SPAMSUM_LENGTH - 1 then
        let b := s1.slot i
        let digest := b.digest ++ [b64.getD (b.h % 64) 0]
        some { s1 with
          bh := s1.bh.set i
            { h := HASH_INIT,
              halfh := if digest.length < SPAMSUM_LENGTH / 2 then HASH_INIT else b.halfh,
              digest := digest } }
      else fuzzy_try_reduce_blockhash s1

/-- The second loop of `fuzzy_engine_step` from index `i` on, for the rolling sum
`h`. The loop leaves at the latest when `i` reaches `bhend`, which is at most
`NUM_BLOCKHASHES`; `fuel` bounds the rounds and `none` is a failed `assert` or
the end of the fuel. -/
def emit_loop (h : Nat) : Nat → Nat → fuzzy_state → Option fuzzy_state
  | 0, _, _ => none
  | fuel + 1, i, self =>
    if i < self.bhend then
      if h % SSDEEP_BS i ≠ SSDEEP_BS i - 1 then some self
      else (slot_step i self).bind (emit_loop h fuel (i + 1))
    else some self

/-- The function `fuzzy_engine_step`. -/
def fuzzy_engine_step (self : fuzzy_state) (c : Nat) : Option fuzzy_state :=
  let roll := roll_hash self.roll c
  let h := roll_sum roll
  emit_loop h (NUM_BLOCKHASHES + 1) self.bhstart
    { self with roll := roll, bh := hash_slots c self.bhstart self.bhend 0 self.bh }

/-- The loop of `fuzzy_update`: the bytes go through `fuzzy_engine_step` in order. -/
def feed : fuzzy_state → List Nat → Option fuzzy_state
  | self, [] => some self
  | self, c :: t => (fuzzy_engine_step self c).bind fun s => feed s t

/-- The function `fuzzy_update`: `total_size` (a `size_t`) is raised first. -/
def fuzzy_update (self : fuzzy_state) (buffer : List Nat) : Option fuzzy_state :=
  feed { self with total_size := (self.total_size + buffer.length) % 2 ^ 64 } buffer

/-! ## The fuzzy hasher: the digest -/

/-- The ways a call ends: it returns 0 and leaves a value, it returns -1, or an
`assert` fails. -/
inductive Outcome (α : Type) where
  | ok (a : α)
  | fail
  | abort
deriving DecidableEq

/-- The loop of `memcpy_eliminate_sequences` behind the first three characters:
`dst` is what has been written, last character first. -/
def elim_copy : List Nat → List Nat → List Nat
  | dst, [] => dst.reverse
  | dst, c :: src =>
    if c = dst.getD 0 0 ∧ c = dst.getD 1 0 ∧ c = dst.getD 2 0 then elim_copy dst src
    else elim_copy (c :: dst) src

/-- The characters `memcpy_eliminate_sequences` writes; their number is its
return value. -/
def memcpy_eliminate_sequences (src : List Nat) : List Nat :=
  elim_copy (src.take 3).reverse (src.drop 3)

/-- The decimal digits of `n`, as `%u` prints them; `fuel` bounds the number of
digits. -/
def dec_digits : Nat → Nat → List Nat → List Nat
  | 0, _, acc => acc
  | fuel + 1, n, acc =>
    if n / 10 = 0 then (48 + n % 10) :: acc
    else dec_digits fuel (n / 10) ((48 + n % 10) :: acc)

/-- The text `%u` prints for `n`. -/
def dec (n : Nat) : List Nat := dec_digits (n + 1) n []

/-- The initial blocksize guess of `fuzzy_digest`, lines 278-285; `none` is the
return of -1. The loop leaves when `bi` reaches `NUM_BLOCKHASHES`, so more than
`NUM_BLOCKHASHES` rounds of `fuel` are never used up. -/
def guess_loop (total_size : Nat) : Nat → Nat → Option Nat
  | 0, _ => none
  | fuel + 1, bi =>
    if SSDEEP_BS bi * SPAMSUM_LENGTH < total_size then
      if bi + 1 ≥ NUM_BLOCKHASHES then none else guess_loop total_size fuel (bi + 1)
    else some bi

/-- The loop `while (bi >= self->bhend) --bi;` (with `bhend > 0`). -/
def below_end (bhend : Nat) : Nat → Nat
  | 0 => 0
  | bi + 1 => if bi + 1 ≥ bhend then below_end bhend bi else bi + 1

/-- The loop `while (bi > self->bhstart && self->bh[bi].dlen < SPAMSUM_LENGTH / 2) --bi;`. -/
def long_enough (self : fuzzy_state) : Nat → Nat
  | 0 => 0
  | bi + 1 =>
    if bi + 1 > self.bhstart ∧ (self.slot (bi + 1)).dlen < SPAMSUM_LENGTH / 2 then
      long_enough self bi
    else bi + 1

/-- The slot `fuzzy_digest` settles on, lines 270-290, or the return of -1. -/
def choose_bi (self : fuzzy_state) : Option Nat :=
  (guess_loop self.total_size (NUM_BLOCKHASHES + 1) self.bhstart).map
    fun bi => long_enough self (below_end self.bhend bi)

/-- The tail character of a part, lines 311-318 and 342-350: it is written, and
it counts unless `FUZZY_FLAG_ELIMSEQ` is set and it repeats the three
characters before it. -/
def with_tail (flags : Nat) (part : List Nat) (c : Nat) : List Nat :=
  if flags &&& FUZZY_FLAG_ELIMSEQ = 0 ∨ part.length < 3 ∨
      c ≠ part.reverse.getD 0 0 ∨ c ≠ part.reverse.getD 1 0 ∨ c ≠ part.reverse.getD 2 0 then
    part ++ [c]
  else part

/-- The copy of the first `i` characters of a digest, lines 302-305 and 331-335. -/
def copy_part (flags : Nat) (digest : List Nat) (i : Nat) : List Nat :=
  if flags &&& FUZZY_FLAG_ELIMSEQ ≠ 0 then memcpy_eliminate_sequences (digest.take i)
  else digest.take i

/-- The first part of the digest and the colon behind it, lines 300-322, with
the room `remain` that is left behind them. -/
def first_part (self : fuzzy_state) (flags h bi : Nat) (remain : Int) :
    Outcome (List Nat × Int) :=
  let b := self.slot bi
  if ¬ ((b.dlen : Int) ≤ remain) then Outcome.abort
  else
    let part := copy_part flags b.digest b.dlen
    let remain := remain - part.length
    if h ≠ 0 ∧ ¬ (remain > 0) then Outcome.abort
    else
      let s1 := if h ≠ 0 then with_tail flags part (b64.getD (b.h % 64) 0) else part
      let remain := remain - ((s1.length : Int) - part.length)
      if ¬ (remain > 0) then Outcome.abort
      else Outcome.ok (s1 ++ [58], remain - 1)

/-- The second part of the digest, lines 323-360. -/
def second_part (self : fuzzy_state) (flags h bi : Nat) (remain : Int) : Outcome (List Nat) :=
  if bi < self.bhend - 1 then
    let b := self.slot (bi + 1)
    let i := if flags &&& FUZZY_FLAG_NOTRUNC = 0 ∧ b.dlen > SPAMSUM_LENGTH / 2 - 1
      then SPAMSUM_LENGTH / 2 - 1 else b.dlen
    if ¬ ((i : Int) ≤ remain) then Outcome.abort
    else
      let part := copy_part flags b.digest i
      let remain := remain - part.length
      if h ≠ 0 ∧ ¬ (remain > 0) then Outcome.abort
      else
        let h2 := if flags &&& FUZZY_FLAG_NOTRUNC ≠ 0 then b.h else b.halfh
        Outcome.ok (if h ≠ 0 then with_tail flags part (b64.getD (h2 % 64) 0) else part)
  else if h ≠ 0 then
    if ¬ ((self.slot bi).dlen = 0) then Outcome.abort
    else if ¬ (remain > 0) then Outcome.abort
    else Outcome.ok [b64.getD ((self.slot bi).h % 64) 0]
  else Outcome.ok []

/-- The function `fuzzy_digest`: the string left in `result`. -/
def fuzzy_digest (self : fuzzy_state) (flags : Nat) : Outcome (List Nat) :=
  let h := roll_sum self.roll
  let remain : Int := (FUZZY_MAX_RESULT : Int) - 1
  if ¬ (self.bhstart = 0 ∨
      SSDEEP_BS self.bhstart / 2 * SPAMSUM_LENGTH < self.total_size) then Outcome.abort
  else
    match choose_bi self with
    | none => Outcome.fail
    | some bi =>
      if bi > 0 ∧ (self.slot bi).dlen < SPAMSUM_LENGTH / 2 then Outcome.abort
      else
        let head := dec (SSDEEP_BS bi) ++ [58]
        if ¬ ((head.length : Int) < remain) then Outcome.abort
        else
          match first_part self flags h bi (remain - head.length) with
          | Outcome.ok (s1, remain) =>
            match second_part self flags h bi remain with
            | Outcome.ok s2 => Outcome.ok (head ++ s1 ++ s2)
            | Outcome.fail => Outcome.fail
            | Outcome.abort => Outcome.abort
          | Outcome.fail => Outcome.fail
          | Outcome.abort => Outcome.abort

/-- The function `fuzzy_hash_buf` on a buffer of `buf.length` bytes (a length
that fits `uint32_t`); the allocation in `fuzzy_new` succeeds. -/
def fuzzy_hash_buf (buf : List Nat) : Outcome (List Nat) :=
  match fuzzy_update fuzzy_new buf with
  | none => Outcome.abort
  | some ctx => fuzzy_digest ctx 0

/-! ## The edit distance (`fuzzy/edit_dist.c`, built with `TRN_SPEEDUP`) -/

def MIN_DIST : Int := 100
def STRLENTHRESHOLD : Nat := (4000 / 4 - 3) / 2

def min3 (x y z : Int) : Int := if x < y then (if x < z then x else z) else (if z < y then z else y)

def min2 (x y : Int) : Int := if x < y then x else y

/-- The registers of `edit_distn` that the loops change. -/
structure ed_state where
  buffer : List Int
  index : Nat
  low : Int
deriving DecidableEq

/-- The macro `ar`, with `ins = del = 1`. -/
def ar (buffer : List Int) (radix : Nat) (x y : Int) (index : Nat) : Int :=
  if x = 0 then y * 1 else if y = 0 then x * 1 else buffer.getD (index % radix) 0

/-- The loop for row 1, lines 204-219, from column `col` on. -/
def first_row (from_ to_ : List Nat) (from_len : Nat) : Nat → Nat → ed_state → ed_state
  | 0, _, s => s
  | fuel + 1, col, s =>
    if col < from_len then
      let v := min3 ((col : Int) * 1 + (if from_.getD col 0 = to_.getD 0 0 then 0 else 3))
        (((col : Int) + 1) * 1 + 1) (s.buffer.getD (s.index - 1) 0 + 1)
      first_row from_ to_ from_len fuel (col + 1)
        { buffer := s.buffer.set s.index v,
          index := s.index + 1,
          low := if v < s.low then v else s.low }
    else s

/-- The inner loop of lines 228-247 for the string row `row`, from column `col` on. -/
def next_row (from_ to_ : List Nat) (from_len radix row : Nat) : Nat → Nat → ed_state → ed_state
  | 0, _, s => s
  | fuel + 1, col, s =>
    if col < from_len then
      let v := min3
        (ar s.buffer radix row col (s.index + from_len + 2) +
          (if from_.getD col 0 = to_.getD row 0 then 0 else 3))
        (ar s.buffer radix row ((col : Int) + 1) (s.index + from_len + 3) + 1)
        (ar s.buffer radix ((row : Int) + 1) col (s.index + radix - 1) + 1)
      let b1 := s.buffer.set s.index v
      let v := if from_.getD col 0 = to_.getD (row - 1) 0 ∧ col > 0 ∧
          from_.getD (col - 1) 0 = to_.getD row 0 then
          min2 v (ar b1 radix ((row : Int) - 1) ((col : Int) - 1) (s.index + 1) + 5)
        else v
      next_row from_ to_ from_len radix row fuel (col + 1)
        { buffer := s.buffer.set s.index v,
          index := (s.index + 1) % radix,
          low := if v < s.low ∨ col = 0 then v else s.low }
    else s

/-- The outer loop of lines 227-258 from row `row` on. -/
def all_rows (from_ to_ : List Nat) (from_len to_len radix : Nat) : Nat → Nat → ed_state → ed_state
  | 0, _, s => s
  | fuel + 1, row, s =>
    if row < to_len then
      let s1 := next_row from_ to_ from_len radix row from_len 0 s
      if s1.low > MIN_DIST then s1
      else all_rows from_ to_ from_len to_len radix fuel (row + 1) s1
    else s

/-- The function `edit_distn`. The loops run over `col < from_len` and
`row < to_len`, so `from_len` and `to_len` rounds of fuel are what they use. -/
def edit_distn (from_ : List Nat) (from_len : Nat) (to_ : List Nat) (to_len : Nat) : Int :=
  if from_len = 0 then (if to_len = 0 then 0 else (to_len : Int) * 1)
  else if to_len = 0 then (from_len : Int) * 1
  else
    let radix := 2 * from_len + 3
    let swapped : Bool := decide (from_len > to_len ∧ from_len > STRLENTHRESHOLD)
    let from1 := if swapped then to_ else from_
    let to1 := if swapped then from_ else to_
    let from_len1 := if swapped then to_len else from_len
    let to_len1 := if swapped then from_len else to_len
    let v0 := min2 (1 + 1) (if from1.getD 0 0 = to1.getD 0 0 then 0 else 3)
    let s0 : ed_state :=
      { buffer := (List.replicate radix (0 : Int)).set 0 v0, index := 1, low := v0 }
    let s1 := first_row from1 to1 from_len1 from_len1 1 s0
    let s2 := all_rows from1 to1 from_len1 to_len1 radix to_len1 1 s1
    s2.buffer.getD ((s2.index + radix - 1) % radix) 0

/-! ## The comparison of two signatures (`fuzzy.c`, lines 456-718) -/

/-- The rolling sums after each character of a string. -/
def roll_sums : roll_state → List Nat → List Nat
  | _, [] => []
  | st, c :: t => roll_sum (roll_hash st c) :: roll_sums (roll_hash st c) t

/-- The function `has_common_substring`: the two loops return 1 at the first
pair `(i, j)` that passes the tests. -/
def has_common_substring (s1 s2 : List Nat) : Nat :=
  let hashes := roll_sums roll_init s1
  let num_hashes := s1.length
  let sums2 := roll_sums roll_init s2
  if (List.range s2.length).any fun i =>
      decide (¬ (i < ROLLING_WINDOW - 1)) &&
      (List.range num_hashes).any fun j =>
        decide (ROLLING_WINDOW - 1 ≤ j) &&
        (decide (hashes.getD j 0 ≠ 0 ∧ hashes.getD j 0 = sums2.getD i 0) &&
          (decide ((s2.drop (i - (ROLLING_WINDOW - 1))).length ≥ ROLLING_WINDOW) &&
            decide ((s2.drop (i - (ROLLING_WINDOW - 1))).take ROLLING_WINDOW =
              (s1.drop (j - (ROLLING_WINDOW - 1))).take ROLLING_WINDOW)))
  then 1 else 0

/-- The loop of `eliminate_sequences` behind the first three characters; `p3`,
`p2`, `p1` are the three characters of `str` before the next one. -/
def elim_rest (p3 p2 p1 : Nat) : List Nat → List Nat
  | [] => []
  | c :: t =>
    if c ≠ p1 ∨ c ≠ p2 ∨ c ≠ p3 then c :: elim_rest p2 p1 c t else elim_rest p2 p1 c t

/-- The function `eliminate_sequences` (the copy succeeds). -/
def eliminate_sequences (str : List Nat) : List Nat :=
  match str with
  | a :: b :: c :: t => a :: b :: c :: elim_rest a b c t
  | _ => str

/-- The function `score_strings`; `score` is a `uint32_t`. -/
def score_strings (s1 s2 : List Nat) (block_size : Nat) : Nat :=
  let len1 := s1.length
  let len2 := s2.length
  if len1 > SPAMSUM_LENGTH ∨ len2 > SPAMSUM_LENGTH then 0
  else if has_common_substring s1 s2 = 0 then 0
  else
    let score := (edit_distn s1 len1 s2 len2 % 2 ^ 32).toNat
    let score := ((score * SPAMSUM_LENGTH) % 2 ^ 32 / (len1 + len2)) % 2 ^ 32
    let score := (100 * score) % 2 ^ 32 / 64
    if score ≥ 100 then 0
    else
      let score := 100 - score
      if score > block_size / MIN_BLOCKSIZE * min len1 len2 then
        (block_size / MIN_BLOCKSIZE * min len1 len2) % 2 ^ 32
      else score

/-- The white space `%u` skips. -/
def isspace (c : Nat) : Bool := c = 32 || (9 ≤ c && c ≤ 13)

def isdigit (c : Nat) : Bool := 48 ≤ c && c ≤ 57

/-- The value of a run of decimal digits. -/
def digits_value (ds : List Nat) : Nat := ds.foldl (fun v d => v * 10 + (d - 48)) 0

/-- The call `sscanf(str, "%u:", &block_size)`: the value stored when the call
returns 1, `none` when it returns anything else. The directive reads white
space, an optional sign and decimal digits as `strtoul` does; a value out of
the range of `unsigned long` is read as its largest value, a minus sign negates,
and the store keeps the low 32 bits. -/
def scan_u (str : List Nat) : Option Nat :=
  let s := str.dropWhile isspace
  let neg : Bool := s.head? = some 45
  let s := if s.head? = some 45 ∨ s.head? = some 43 then s.tail else s
  let ds := s.takeWhile isdigit
  if ds = [] then none
  else
    let v := digits_value ds
    let v := if v ≥ 2 ^ 64 then 2 ^ 64 - 1 else if neg then (2 ^ 64 - v) % 2 ^ 64 else v
    some (v % 2 ^ 32)

/-- The call `strchr(str, c)`: the string from the first `c` on. -/
def strchr (str : List Nat) (c : Nat) : Option (List Nat) :=
  match str.dropWhile (fun x => x != c) with
  | [] => none
  | r => some r

/-- The string in front of the first `c`: what is left of `str` when a NUL is
written over that character. -/
def chop (str : List Nat) (c : Nat) : List Nat := str.takeWhile (fun x => x != c)

/-- The conversion of a `uint32_t` to `int`. -/
def to_int (n : Nat) : Int := if n < 2 ^ 31 then (n : Int) else (n : Int) - 2 ^ 32

/-- The function `fuzzy_compare` on two strings (neither pointer is NULL, the
copies succeed). -/
def fuzzy_compare (str1 str2 : List Nat) : Int :=
  match scan_u str1, scan_u str2 with
  | some block_size1, some block_size2 =>
    if block_size1 ≠ block_size2 ∧ block_size1 ≠ (block_size2 * 2) % 2 ^ 32 ∧
        block_size2 ≠ (block_size1 * 2) % 2 ^ 32 then 0
    else
      match strchr str1 58, strchr str2 58 with
      | some r1, some r2 =>
        let s1 := eliminate_sequences r1.tail
        let s2 := eliminate_sequences r2.tail
        match strchr s1 58, strchr s2 58 with
        | some t1, some t2 =>
          let s1_1 := chop s1 58
          let s2_1 := chop s2 58
          let s1_2 := chop t1.tail 44
          let s2_2 := chop t2.tail 44
          if block_size1 = block_size2 then
            let score1 := score_strings s1_1 s2_1 block_size1
            let score2 := score_strings s1_2 s2_2 ((block_size1 * 2) % 2 ^ 32)
            to_int (if score1 > score2 then score1 else score2)
          else if block_size1 = (block_size2 * 2) % 2 ^ 32 then
            to_int (score_strings s1_1 s2_2 block_size1)
          else
            to_int (score_strings s1_2 s2_1 block_size2)
        | _, _ => -1
      | _, _ => -1
  | _, _ => -1

/-! ## Notions used in the statements and proofs -/

/-- The two parts of a signature as `fuzzy_compare` cuts them out, lines 639-693. -/
def pieces (str : List Nat) : Option (List Nat × List Nat) :=
  match strchr str 58 with
  | none => none
  | some r =>
    match strchr (eliminate_sequences r.tail) 58 with
    | none => none
    | some t => some (chop (eliminate_sequences r.tail) 58, chop t.tail 44)

/-- The score `fuzzy_compare` returns for compatible blocksizes, lines 698-717. -/
def combine (block_size1 block_size2 : Nat) (p1 p2 : List Nat × List Nat) : Int :=
  if block_size1 = block_size2 then
    to_int (if score_strings p1.1 p2.1 block_size1 >
        score_strings p1.2 p2.2 ((block_size1 * 2) % 2 ^ 32)
      then score_strings p1.1 p2.1 block_size1
      else score_strings p1.2 p2.2 ((block_size1 * 2) % 2 ^ 32))
  else if block_size1 = (block_size2 * 2) % 2 ^ 32 then
    to_int (score_strings p1.1 p2.2 block_size1)
  else
    to_int (score_strings p1.2 p2.1 block_size2)


/-- What holds of every state that `fuzzy_new` and `fuzzy_update` produce. -/
structure Inv (s : fuzzy_state) : Prop where
  len : s.bh.length = NUM_BLOCKHASHES
  start_lt : s.bhstart < s.bhend
  end_le : s.bhend ≤ NUM_BLOCKHASHES
  dlen_le : ∀ i, i < s.bhend → (s.slot i).dlen ≤ SPAMSUM_LENGTH - 1
  alpha : ∀ i, i < s.bhend → ∀ c ∈ (s.slot i).digest, c ∈ b64
  used : ∀ i, i + 1 < s.bhend → 0 < (s.slot i).dlen
  last : s.bhend < NUM_BLOCKHASHES → (s.slot (s.bhend - 1)).dlen = 0
  half : 0 < s.bhstart → SPAMSUM_LENGTH / 2 ≤ (s.slot s.bhstart).dlen
  size : 0 < s.bhstart → SSDEEP_BS (s.bhstart - 1) * SPAMSUM_LENGTH < s.total_size

/-- A sequence of calls of `fuzzy_update`, one for each chunk. -/
def updates : fuzzy_state → List (List Nat) → Option fuzzy_state
  | self, [] => some self
  | self, buffer :: rest => (fuzzy_update self buffer).bind fun s => updates s rest

/-- The state `B` has seen the same bytes as `A` but was told of less input in
time, so it may have dropped fewer of its low slots. -/
structure Lag (A B : fuzzy_state) : Prop where
  roll : B.roll = A.roll
  bhend : B.bhend = A.bhend
  start_le : B.bhstart ≤ A.bhstart
  size_le : B.total_size ≤ A.total_size
  slots : ∀ j, A.bhstart ≤ j → B.slot j = A.slot j

/-- The matrix of the comment in lines 146-164 of `edit_dist.c` for the costs of
`TRN_SPEEDUP`: `matrix from_ to_ x y` is the entry for the first `x` characters
of `to_` and the first `y` characters of `from_`. -/
def matrix (from_ to_ : List Nat) : Nat → Nat → Int
  | 0, y => y
  | x + 1, 0 => x + 1
  | x + 1, y + 1 =>
    let v := min3 (matrix from_ to_ x y + (if from_.getD y 0 = to_.getD x 0 then 0 else 3))
      (matrix from_ to_ x (y + 1) + 1) (matrix from_ to_ (x + 1) y + 1)
    if from_.getD y 0 = to_.getD (x - 1) 0 ∧ y > 0 ∧ from_.getD (y - 1) 0 = to_.getD x 0 ∧
        x > 0 then
      min2 v (matrix from_ to_ (x - 1) (y - 1) + 5)
    else v
termination_by x y => (x, y)
decreasing_by
  all_goals simp_wf
  · exact Prod.Lex.left _ _ (by omega)
  · exact Prod.Lex.left _ _ (by omega)
  · exact Prod.Lex.right _ (by omega)
  · exact Prod.Lex.left _ _ (by omega)

/-- The state of the buffer of `edit_distn` when `k` entries have been
computed, row by row: the last `2 * from_len + 2` of them are in their places. -/
structure BufOK (from_ to_ : List Nat) (m radix k : Nat) (s : ed_state) : Prop where
  len : s.buffer.length = radix
  idx : s.index = k % radix
  cells : ∀ r c, c < m → r * m + c < k → k ≤ r * m + c + 2 * m + 2 →
    s.buffer.getD ((r * m + c) % radix) 0 = matrix from_ to_ (r + 1) (c + 1)

/-- A test of equality of two block hashes, field by field. -/
def same_slot (a b : blockhash_context) : Bool :=
  a.h == b.h && (a.halfh == b.halfh && a.digest == b.digest)

/-- A test of equality of two arrays of block hashes. -/
def same_slots : List blockhash_context → List blockhash_context → Bool
  | [], [] => true
  | a :: s, b :: t => same_slot a b && same_slots s t
  | _, _ => false

/-- A test of equality of two states, field by field. -/
def same_state (a b : fuzzy_state) : Bool :=
  a.bhstart == b.bhstart && (a.bhend == b.bhend && (same_slots a.bh b.bh &&
    (a.total_size == b.total_size && (a.roll.window == b.roll.window &&
      (a.roll.h1 == b.roll.h1 && (a.roll.h2 == b.roll.h2 && (a.roll.h3 == b.roll.h3 &&
        a.roll.n == b.roll.n)))))))

/-- The test that a run ends in the state `b`. -/
def ends_in (r : Option fuzzy_state) (b : fuzzy_state) : Bool :=
  match r with
  | some a => same_state a b
  | none => false

/-! ## The states of a run over a long text

The text `The quick brown fox jumps over the lazy dog`, repeated 100 times, is fed
in ten parts; these are the states between the parts. -/

/-- The text, ten times. -/
def fox10 : List Nat :=
  (List.replicate 10 (chars "The quick brown fox jumps over the lazy dog")).flatten

/-- The state before the first byte, for an input of 4300 bytes. -/
def fox_state_0 : fuzzy_state := { fuzzy_new with total_size := 4300 }

/-- The state after 10 copies of the text, for an input of 4300 bytes. -/
def fox_state_1 : fuzzy_state :=
  { bhstart := 0,
    bhend := 6,
    bh := [
      { h := 514307456, halfh := 2928647612,
        digest := [70, 74, 75, 75, 73, 85, 75, 97, 99, 109, 117, 74, 75, 75, 73, 85, 75, 97, 99,
          109, 117, 74, 75, 75, 73, 85, 75, 97, 99, 109, 117, 74, 75, 75, 73,
          85, 75, 97, 99, 109, 117, 74, 75, 75, 73, 85, 75, 97, 99, 109, 117,
          74, 75, 75, 73, 85, 75, 97, 99, 109, 117, 74, 75] },
      { h := 688997858, halfh := 688997858,
        digest := [70, 72, 73, 71, 89, 73, 71, 89, 73, 71, 89, 73, 71, 89, 73, 71, 89, 73, 71, 89,
          73, 71, 89, 73, 71, 89, 73, 71, 89, 73, 71] },
      { h := 2380424543, halfh := 2380424543,
        digest := [70] },
      { h := 2380424543, halfh := 2380424543,
        digest := [70] },
      { h := 2380424543, halfh := 2380424543,
        digest := [70] },
      { h := 2506957793, halfh := 2506957793,
        digest := [] }] ++
      List.replicate 25 blank,
    total_size := 4300,
    roll := { window := [100, 111, 103, 97, 122, 121, 32], h1 := 686, h2 := 2719, h3 := 3011616135, n := 430 } }

/-- The state after 20 copies of the text, for an input of 4300 bytes. -/
def fox_state_2 : fuzzy_state :=
  { bhstart := 1,
    bhend := 6,
    bh := [
      { h := 3076648327, halfh := 619403835,
        digest := [70, 74, 75, 75, 73, 85, 75, 97, 99, 109, 117, 74, 75, 75, 73, 85, 75, 97, 99,
          109, 117, 74, 75, 75, 73, 85, 75, 97, 99, 109, 117, 74, 75, 75, 73,
          85, 75, 97, 99, 109, 117, 74, 75, 75, 73, 85, 75, 97, 99, 109, 117,
          74, 75, 75, 73, 85, 75, 97, 99, 109, 117, 74, 75] },
      { h := 688997858, halfh := 722857012,
        digest := [70, 72, 73, 71, 89, 73, 71, 89, 73, 71, 89, 73, 71, 89, 73, 71, 89, 73, 71, 89,
          73, 71, 89, 73, 71, 89, 73, 71, 89, 73, 71, 89, 73, 71, 89, 73, 71,
          89, 73, 71, 89, 73, 71, 89, 73, 71, 89, 73, 71, 89, 73, 71, 89, 73,
          71, 89, 73, 71, 89, 73, 71] },
      { h := 4061936313, halfh := 4061936313,
        digest := [70] },
      { h := 4061936313, halfh := 4061936313,
        digest := [70] },
      { h := 4061936313, halfh := 4061936313,
        digest := [70] },
      { h := 3116460643, halfh := 3116460643,
        digest := [] }] ++
      List.replicate 25 blank,
    total_size := 4300,
    roll := { window := [122, 121, 32, 100, 111, 103, 97], h1 := 686, h2 := 2719, h3 := 3011616135, n := 860 } }

/-- The state after 30 copies of the text, for an input of 4300 bytes. -/
def fox_state_3 : fuzzy_state :=
  { bhstart := 1,
    bhend := 6,
    bh := [
      { h := 3076648327, halfh := 619403835,
        digest := [70, 74, 75, 75, 73, 85, 75, 97, 99, 109, 117, 74, 75, 75, 73, 85, 75, 97, 99,
          109, 117, 74, 75, 75, 73, 85, 75, 97, 99, 109, 117, 74, 75, 75, 73,
          85, 75, 97, 99, 109, 117, 74, 75, 75, 73, 85, 75, 97, 99, 109, 117,
          74, 75, 75, 73, 85, 75, 97, 99, 109, 117, 74, 75] },
      { h := 13890890, halfh := 1567522526,
        digest := [70, 72, 73, 71, 89, 73, 71, 89, 73, 71, 89, 73, 71, 89, 73, 71, 89, 73, 71, 89,
          73, 71, 89, 73, 71, 89, 73, 71, 89, 73, 71, 89, 73, 71, 89, 73, 71,
          89, 73, 71, 89, 73, 71, 89, 73, 71, 89, 73, 71, 89, 73, 71, 89, 73,
          71, 89, 73, 71, 89, 73, 71, 89, 73] },
      { h := 1493083, halfh := 1493083,
        digest := [70] },
      { h := 1493083, halfh := 1493083,
        digest := [70] },
      { h := 1493083, halfh := 1493083,
        digest := [70] },
      { h := 2372811821, halfh := 2372811821,
        digest := [] }] ++
      List.replicate 25 blank,
    total_size := 4300,
    roll := { window := [111, 103, 97, 122, 121, 32, 100], h1 := 686, h2 := 2719, h3 := 3011616135, n := 1290 } }

/-- The state after 40 copies of the text, for an input of 4300 bytes. -/
def fox_state_4 : fuzzy_state :=
  { bhstart := 1,
    bhend := 6,
    bh := [
      { h := 3076648327, halfh := 619403835,
        digest := [70, 74, 75, 75, 73, 85, 75, 97, 99, 109, 117, 74, 75, 75, 73, 85, 75, 97, 99,
          109, 117, 74, 75, 75, 73, 85, 75, 97, 99, 109, 117, 74, 75, 75, 73,
          85, 75, 97, 99, 109, 117, 74, 75, 75, 73, 85, 75, 97, 99, 109, 117,
          74, 75, 75, 73, 85, 75, 97, 99, 109, 117, 74, 75] },
      { h := 1279621468, halfh := 3062108688,
        digest := [70, 72, 73, 71, 89, 73, 71, 89, 73, 71, 89, 73, 71, 89, 73, 71, 89, 73, 71, 89,
          73, 71, 89, 73, 71, 89, 73, 71, 89, 73, 71, 89, 73, 71, 89, 73, 71,
          89, 73, 71, 89, 73, 71, 89, 73, 71, 89, 73, 71, 89, 73, 71, 89, 73,
          71, 89, 73, 71, 89, 73, 71, 89, 73] },
      { h := 880232101, halfh := 880232101,
        digest := [70] },
      { h := 880232101, halfh := 880232101,
        digest := [70] },
      { h := 880232101, halfh := 880232101,
        digest := [70] },
      { h := 3893549567, halfh := 3893549567,
        digest := [] }] ++
      List.replicate 25 blank,
    total_size := 4300,
    roll := { window := [121, 32, 100, 111, 103, 97, 122], h1 := 686, h2 := 2719, h3 := 3011616135, n := 1720 } }

/-- The state after 50 copies of the text, for an input of 4300 bytes. -/
def fox_state_5 : fuzzy_state :=
  { bhstart := 1,
    bhend := 6,
    bh := [
      { h := 3076648327, halfh := 619403835,
        digest := [70, 74, 75, 75, 73, 85, 75, 97, 99, 109, 117, 74, 75, 75, 73, 85, 75, 97, 99,
          109, 117, 74, 75, 75, 73, 85, 75, 97, 99, 109, 117, 74, 75, 75, 73,
          85, 75, 97, 99, 109, 117, 74, 75, 75, 73, 85, 75, 97, 99, 109, 117,
          74, 75, 75, 73, 85, 75, 97, 99, 109, 117, 74, 75] },
      { h := 2512539654, halfh := 3835049146,
        digest := [70, 72, 73, 71, 89, 73, 71, 89, 73, 71, 89, 73, 71, 89, 73, 71, 89, 73, 71, 89,
          73, 71, 89, 73, 71, 89, 73, 71, 89, 73, 71, 89, 73, 71, 89, 73, 71,
          89, 73, 71, 89, 73, 71, 89, 73, 71, 89, 73, 71, 89, 73, 71, 89, 73,
          71, 89, 73, 71, 89, 73, 71, 89, 73] },
      { h := 2966933111, halfh := 2966933111,
        digest := [70] },
      { h := 2966933111, halfh := 2966933111,
        digest := [70] },
      { h := 2966933111, halfh := 2966933111,
        digest := [70] },
      { h := 2579004889, halfh := 2579004889,
        digest := [] }] ++
      List.replicate 25 blank,
    total_size := 4300,
    roll := { window := [103, 97, 122, 121, 32, 100, 111], h1 := 686, h2 := 2719, h3 := 3011616135, n := 2150 } }

/-- The state after 60 copies of the text, for an input of 4300 bytes. -/
def fox_state_6 : fuzzy_state :=
  { bhstart := 1,
    bhend := 6,
    bh := [
      { h := 3076648327, halfh := 619403835,
        digest := [70, 74, 75, 75, 73, 85, 75, 97, 99, 109, 117, 74, 75, 75, 73, 85, 75, 97, 99,
          109, 117, 74, 75, 75, 73, 85, 75, 97, 99, 109, 117, 74, 75, 75, 73,
          85, 75, 97, 99, 109, 117, 74, 75, 75, 73, 85, 75, 97, 99, 109, 117,
          74, 75, 75, 73, 85, 75, 97, 99, 109, 117, 74, 75] },
      { h := 944548408, halfh := 3761309772,
        digest := [70, 72, 73, 71, 89, 73, 71, 89, 73, 71, 89, 73, 71, 89, 73, 71, 89, 73, 71, 89,
          73, 71, 89, 73, 71, 89, 73, 71, 89, 73, 71, 89, 73, 71, 89, 73, 71,
          89, 73, 71, 89, 73, 71, 89, 73, 71, 89, 73, 71, 89, 73, 71, 89, 73,
          71, 89, 73, 71, 89, 73, 71, 89, 73] },
      { h := 883307505, halfh := 883307505,
        digest := [70] },
      { h := 883307505, halfh := 883307505,
        digest := [70] },
      { h := 883307505, halfh := 883307505,
        digest := [70] },
      { h := 3810254331, halfh := 3810254331,
        digest := [] }] ++
      List.replicate 25 blank,
    total_size := 4300,
    roll := { window := [32, 100, 111, 103, 97, 122, 121], h1 := 686, h2 := 2719, h3 := 3011616135, n := 2580 } }

/-- The state after 70 copies of the text, for an input of 4300 bytes. -/
def fox_state_7 : fuzzy_state :=
  { bhstart := 1,
    bhend := 6,
    bh := [
      { h := 3076648327, halfh := 619403835,
        digest := [70, 74, 75, 75, 73, 85, 75, 97, 99, 109, 117, 74, 75, 75, 73, 85, 75, 97, 99,
          109, 117, 74, 75, 75, 73, 85, 75, 97, 99, 109, 117, 74, 75, 75, 73,
          85, 75, 97, 99, 109, 117, 74, 75, 75, 73, 85, 75, 97, 99, 109, 117,
          74, 75, 75, 73, 85, 75, 97, 99, 109, 117, 74, 75] },
      { h := 1514958082, halfh := 2178005750,
        digest := [70, 72, 73, 71, 89, 73, 71, 89, 73, 71, 89, 73, 71, 89, 73, 71, 89, 73, 71, 89,
          73, 71, 89, 73, 71, 89, 73, 71, 89, 73, 71, 89, 73, 71, 89, 73, 71,
          89, 73, 71, 89, 73, 71, 89, 73, 71, 89, 73, 71, 89, 73, 71, 89, 73,
          71, 89, 73, 71, 89, 73, 71, 89, 73] },
      { h := 991712947, halfh := 991712947,
        digest := [70] },
      { h := 991712947, halfh := 991712947,
        digest := [70] },
      { h := 991712947, halfh := 991712947,
        digest := [70] },
      { h := 2942809285, halfh := 2942809285,
        digest := [] }] ++
      List.replicate 25 blank,
    total_size := 4300,
    roll := { window := [97, 122, 121, 32, 100, 111, 103], h1 := 686, h2 := 2719, h3 := 3011616135, n := 3010 } }

/-- The state after 80 copies of the text, for an input of 4300 bytes. -/
def fox_state_8 : fuzzy_state :=
  { bhstart := 1,
    bhend := 6,
    bh := [
      { h := 3076648327, halfh := 619403835,
        digest := [70, 74, 75, 75, 73, 85, 75, 97, 99, 109, 117, 74, 75, 75, 73, 85, 75, 97, 99,
          109, 117, 74, 75, 75, 73, 85, 75, 97, 99, 109, 117, 74, 75, 75, 73,
          85, 75, 97, 99, 109, 117, 74, 75, 75, 73, 85, 75, 97, 99, 109, 117,
          74, 75, 75, 73, 85, 75, 97, 99, 109, 117, 74, 75] },
      { h := 2921139284, halfh := 3768338856,
        digest := [70, 72, 73, 71, 89, 73, 71, 89, 73, 71, 89, 73, 71, 89, 73, 71, 89, 73, 71, 89,
          73, 71, 89, 73, 71, 89, 73, 71, 89, 73, 71, 89, 73, 71, 89, 73, 71,
          89, 73, 71, 89, 73, 71, 89, 73, 71, 89, 73, 71, 89, 73, 71, 89, 73,
          71, 89, 73, 71, 89, 73, 71, 89, 73] },
      { h := 3123009021, halfh := 3123009021,
        digest := [70] },
      { h := 3123009021, halfh := 3123009021,
        digest := [70] },
      { h := 3123009021, halfh := 3123009021,
        digest := [70] },
      { h := 4132276247, halfh := 4132276247,
        digest := [] }] ++
      List.replicate 25 blank,
    total_size := 4300,
    roll := { window := [100, 111, 103, 97, 122, 121, 32], h1 := 686, h2 := 2719, h3 := 3011616135, n := 3440 } }

/-- The state after 90 copies of the text, for an input of 4300 bytes. -/
def fox_state_9 : fuzzy_state :=
  { bhstart := 1,
    bhend := 6,
    bh := [
      { h := 3076648327, halfh := 619403835,
        digest := [70, 74, 75, 75, 73, 85, 75, 97, 99, 109, 117, 74, 75, 75, 73, 85, 75, 97, 99,
          109, 117, 74, 75, 75, 73, 85, 75, 97, 99, 109, 117, 74, 75, 75, 73,
          85, 75, 97, 99, 109, 117, 74, 75, 75, 73, 85, 75, 97, 99, 109, 117,
          74, 75, 75, 73, 85, 75, 97, 99, 109, 117, 74, 75] },
      { h := 2200054526, halfh := 3075716786,
        digest := [70, 72, 73, 71, 89, 73, 71, 89, 73, 71, 89, 73, 71, 89, 73, 71, 89, 73, 71, 89,
          73, 71, 89, 73, 71, 89, 73, 71, 89, 73, 71, 89, 73, 71, 89, 73, 71,
          89, 73, 71, 89, 73, 71, 89, 73, 71, 89, 73, 71, 89, 73, 71, 89, 73,
          71, 89, 73, 71, 89, 73, 71, 89, 73] },
      { h := 3237932303, halfh := 3237932303,
        digest := [70] },
      { h := 3237932303, halfh := 3237932303,
        digest := [70] },
      { h := 3237932303, halfh := 3237932303,
        digest := [70] },
      { h := 3729501073, halfh := 3729501073,
        digest := [] }] ++
      List.replicate 25 blank,
    total_size := 4300,
    roll := { window := [122, 121, 32, 100, 111, 103, 97], h1 := 686, h2 := 2719, h3 := 3011616135, n := 3870 } }

/-- The state after 100 copies of the text, for an input of 4300 bytes. -/
def fox_state_10 : fuzzy_state :=
  { bhstart := 1,
    bhend := 6,
    bh := [
      { h := 3076648327, halfh := 619403835,
        digest := [70, 74, 75, 75, 73, 85, 75, 97, 99, 109, 117, 74, 75, 75, 73, 85, 75, 97, 99,
          109, 117, 74, 75, 75, 73, 85, 75, 97, 99, 109, 117, 74, 75, 75, 73,
          85, 75, 97, 99, 109, 117, 74, 75, 75, 73, 85, 75, 97, 99, 109, 117,
          74, 75, 75, 73, 85, 75, 97, 99, 109, 117, 74, 75] },
      { h := 1858003888, halfh := 2617317252,
        digest := [70, 72, 73, 71, 89, 73, 71, 89, 73, 71, 89, 73, 71, 89, 73, 71, 89, 73, 71, 89,
          73, 71, 89, 73, 71, 89, 73, 71, 89, 73, 71, 89, 73, 71, 89, 73, 71,
          89, 73, 71, 89, 73, 71, 89, 73, 71, 89, 73, 71, 89, 73, 71, 89, 73,
          71, 89, 73, 71, 89, 73, 71, 89, 73] },
      { h := 1850906665, halfh := 1850906665,
        digest := [70] },
      { h := 1850906665, halfh := 1850906665,
        digest := [70] },
      { h := 1850906665, halfh := 1850906665,
        digest := [70] },
      { h := 1499288019, halfh := 1499288019,
        digest := [] }] ++
      List.replicate 25 blank,
    total_size := 4300,
    roll := { window := [111, 103, 97, 122, 121, 32, 100], h1 := 686, h2 := 2719, h3 := 3011616135, n := 4300 } }

/-! ## Notions used in the statements about the rolling hash and the digest -/

/-- The state of the rolling hash after the bytes `xs` went through `roll_hash`,
starting from `roll_init`. -/
def roll_feed (xs : List Nat) : roll_state := xs.foldl roll_hash roll_init

/-- The last seven bytes of `xs`, oldest first; an input shorter than seven
bytes is padded with zero bytes on the left. -/
def last7 (xs : List Nat) : List Nat := (List.replicate 7 0 ++ xs).drop xs.length

/-- The sum of the bytes of `w`, each multiplied by its position, the head of
the list having the position `i`. -/
def weigh : Nat → List Nat → Nat
  | _, [] => 0
  | i, c :: t => i * c + weigh (i + 1) t

/-- The value of `h3` after the bytes `w`, starting from `a`. -/
def h3_of (a : Nat) (w : List Nat) : Nat :=
  w.foldl (fun h c => Nat.xor ((h <<< 5) % 2 ^ 32) c) a

/-- The string `t` with every character left out that continues a run of three
or more: `last` is the character before `t` and `run` the length of the run of
`last` that ends there. -/
def cap_run (last run : Nat) : List Nat → List Nat
  | [] => []
  | c :: t =>
    if c = last then
      if 3 ≤ run then cap_run c (run + 1) t else c :: cap_run c (run + 1) t
    else c :: cap_run c 1 t

/-- The string `s` with every run of identical characters cut down to its first
three. -/
def cap_runs : List Nat → List Nat
  | [] => []
  | c :: t => c :: cap_run c 1 t

/-- The ways a call of `fuzzy_digest` ends, with the line of the `assert` that
failed. -/
inductive Ended (α : Type) where
  | ok (a : α)
  | fail
  | abort_at (line : Nat)
deriving DecidableEq

/-- The outcome with the line of the `assert` forgotten. -/
def Ended.forget {α : Type} : Ended α → Outcome α
  | Ended.ok a => Outcome.ok a
  | Ended.fail => Outcome.fail
  | Ended.abort_at _ => Outcome.abort

/-- The first part of the digest and the colon behind it, lines 300-322, with
the line of a failing `assert`. -/
def first_part_at (self : fuzzy_state) (flags h bi : Nat) (remain : Int) :
    Ended (List Nat × Int) :=
  let b := self.slot bi
  if ¬ ((b.dlen : Int) ≤ remain) then Ended.abort_at 301
  else
    let part := copy_part flags b.digest b.dlen
    let remain := remain - part.length
    if h ≠ 0 ∧ ¬ (remain > 0) then Ended.abort_at 310
    else
      let s1 := if h ≠ 0 then with_tail flags part (b64.getD (b.h % 64) 0) else part
      let remain := remain - ((s1.length : Int) - part.length)
      if ¬ (remain > 0) then Ended.abort_at 320
      else Ended.ok (s1 ++ [58], remain - 1)

/-- The second part of the digest, lines 323-360, with the line of a failing
`assert`. -/
def second_part_at (self : fuzzy_state) (flags h bi : Nat) (remain : Int) : Ended (List Nat) :=
  if bi < self.bhend - 1 then
    let b := self.slot (bi + 1)
    let i := if flags &&& FUZZY_FLAG_NOTRUNC = 0 ∧ b.dlen > SPAMSUM_LENGTH / 2 - 1
      then SPAMSUM_LENGTH / 2 - 1 else b.dlen
    if ¬ ((i : Int) ≤ remain) then Ended.abort_at 330
    else
      let part := copy_part flags b.digest i
      let remain := remain - part.length
      if h ≠ 0 ∧ ¬ (remain > 0) then Ended.abort_at 339
      else
        let h2 := if flags &&& FUZZY_FLAG_NOTRUNC ≠ 0 then b.h else b.halfh
        Ended.ok (if h ≠ 0 then with_tail flags part (b64.getD (h2 % 64) 0) else part)
  else if h ≠ 0 then
    if ¬ ((self.slot bi).dlen = 0) then Ended.abort_at 354
    else if ¬ (remain > 0) then Ended.abort_at 355
    else Ended.ok [b64.getD ((self.slot bi).h % 64) 0]
  else Ended.ok []

/-- The function `fuzzy_digest`, with the line of a failing `assert`. -/
def fuzzy_digest_at (self : fuzzy_state) (flags : Nat) : Ended (List Nat) :=
  let h := roll_sum self.roll
  let remain : Int := (FUZZY_MAX_RESULT : Int) - 1
  if ¬ (self.bhstart = 0 ∨
      SSDEEP_BS self.bhstart / 2 * SPAMSUM_LENGTH < self.total_size) then Ended.abort_at 274
  else
    match choose_bi self with
    | none => Ended.fail
    | some bi =>
      if bi > 0 ∧ (self.slot bi).dlen < SPAMSUM_LENGTH / 2 then Ended.abort_at 291
      else
        let head := dec (SSDEEP_BS bi) ++ [58]
        if ¬ ((head.length : Int) < remain) then Ended.abort_at 297
        else
          match first_part_at self flags h bi (remain - head.length) with
          | Ended.ok (s1, remain) =>
            match second_part_at self flags h bi remain with
            | Ended.ok s2 => Ended.ok (head ++ s1 ++ s2)
            | Ended.fail => Ended.fail
            | Ended.abort_at l => Ended.abort_at l
          | Ended.fail => Ended.fail
          | Ended.abort_at l => Ended.abort_at l

/-- No slot holds more than `SPAMSUM_LENGTH - 1` characters. -/
def Short (s : fuzzy_state) : Prop := ∀ i, (s.slot i).dlen ≤ SPAMSUM_LENGTH - 1

/-! ## The early exit of the edit distance (`fuzzy/edit_dist.c`, line 256) -/

/-- The row at which the loop of lines 227-258 is left by the `break` of line
256, from row `row` on; `none` when the loop runs to its end. -/
def break_row (from_ to_ : List Nat) (from_len to_len radix : Nat) :
    Nat → Nat → ed_state → Option Nat
  | 0, _, _ => none
  | fuel + 1, row, s =>
    if row < to_len then
      let s1 := next_row from_ to_ from_len radix row from_len 0 s
      if s1.low > MIN_DIST then some row
      else break_row from_ to_ from_len to_len radix fuel (row + 1) s1
    else none

/-- The row at which `edit_distn` takes the `break` of line 256; `none` when it
does not take it. -/
def edit_distn_break (from_ : List Nat) (from_len : Nat) (to_ : List Nat) (to_len : Nat) :
    Option Nat :=
  if from_len = 0 then none
  else if to_len = 0 then none
  else
    let radix := 2 * from_len + 3
    let swapped : Bool := decide (from_len > to_len ∧ from_len > STRLENTHRESHOLD)
    let from1 := if swapped then to_ else from_
    let to1 := if swapped then from_ else to_
    let from_len1 := if swapped then to_len else from_len
    let to_len1 := if swapped then from_len else to_len
    let v0 := min2 (1 + 1) (if from1.getD 0 0 = to1.getD 0 0 then 0 else 3)
    let s0 : ed_state :=
      { buffer := (List.replicate radix (0 : Int)).set 0 v0, index := 1, low := v0 }
    let s1 := first_row from1 to1 from_len1 from_len1 1 s0
    break_row from1 to1 from_len1 to_len1 radix to_len1 1 s1

/-! ## Notions used in the statements about the engine and the edit distance -/

/-- The slot `j` is in use, holds at least 31 characters, and its `halfh` is `v`. -/
def HalfKept (j v : Nat) (s : fuzzy_state) : Prop :=
  j < s.bhend ∧ 31 ≤ (s.slot j).dlen ∧ (s.slot j).halfh = v

/-- An input of 385 bytes: 87 bytes that end a block of the blocksizes 3, 6 and 12
sixty-three times, then 298 bytes that end no block. -/
def reduce_input : List Nat :=
  [1, 32, 1, 3, 32, 1, 3, 65, 34, 2, 65, 3, 33, 1, 33, 34, 3, 64, 1, 1, 2, 1, 33, 1, 32, 1, 32,
    4, 1, 2, 4, 1, 2, 64, 2, 3, 67, 2, 64, 1, 1, 35, 35, 35, 2, 1, 1, 33, 1, 1, 34, 65, 34, 4,
    1, 2, 64, 1, 34, 64, 1, 1, 35, 35, 67, 34, 3, 4, 4, 1, 1, 1, 35, 35, 32, 1, 32, 1, 4, 131,
    34, 65, 1, 1, 4, 4, 3, 39, 7, 7, 7, 7, 39, 7, 7, 39, 7, 39, 7, 7, 7, 7, 7, 7, 39, 7, 7, 39,
    7, 39, 7, 7, 7, 7, 7, 7, 39, 7, 7, 39, 7, 39, 7, 7, 7, 7, 7, 7, 39, 7, 7, 39, 7, 39, 7, 7,
    7, 7, 7, 7, 39, 7, 7, 39, 7, 39, 7, 7, 7, 7, 7, 7, 39, 7, 7, 39, 7, 39, 7, 7, 7, 7, 7, 7,
    39, 7, 7, 39, 7, 39, 7, 7, 7, 7, 7, 7, 39, 7, 7, 39, 7, 39, 7, 7, 7, 7, 7, 7, 39, 7, 7, 39,
    7, 39, 7, 7, 7, 7, 7, 7, 39, 7, 7, 39, 7, 39, 7, 7, 7, 7, 7, 7, 39, 7, 7, 39, 7, 39, 7, 7,
    7, 7, 7, 7, 39, 7, 7, 39, 7, 39, 7, 7, 7, 7, 7, 7, 39, 7, 7, 39, 7, 39, 7, 7, 7, 7, 7, 7,
    39, 7, 7, 39, 7, 39, 7, 7, 7, 7, 7, 7, 39, 7, 7, 39, 7, 39, 7, 7, 7, 7, 7, 7, 39, 7, 7, 39,
    7, 39, 7, 7, 7, 7, 7, 7, 39, 7, 7, 39, 7, 39, 7, 7, 7, 7, 7, 7, 39, 7, 7, 39, 7, 39, 7, 7,
    7, 7, 7, 7, 39, 7, 7, 39, 7, 39, 7, 7, 7, 7, 7, 7, 39, 7, 7, 39, 7, 39, 7, 7, 7, 7, 7, 7,
    39, 7, 7, 39, 7, 39, 7, 7, 7, 7, 7, 7, 39, 7, 7, 39, 7, 39, 7, 7, 7, 7, 7, 7, 39, 7, 7, 39,
    7, 39, 7, 7, 7, 7, 7, 7, 39, 7, 7, 39, 7, 39, 7, 7, 7, 7, 7, 7, 39, 7, 7, 39, 7]

/-- One row of the table of `lcs`: the values for `a :: s` against the suffixes
of the second string, from the row `up` for `s`. -/
def lcs_row (a : Nat) (up : List Nat → Nat) : List Nat → Nat
  | [] => 0
  | b :: t => if a = b then up t + 1 else max (up (b :: t)) (lcs_row a up t)

/-- The length of a longest common subsequence of two strings: for `a :: s` and
`b :: t` it is `lcs s t + 1` when `a = b`, and the larger of `lcs s (b :: t)`
and `lcs (a :: s) t` otherwise (`lcs_cons_cons`). -/
def lcs : List Nat → List Nat → Nat
  | [], _ => 0
  | a :: s, t => lcs_row a (lcs s) t

/-- One edit operation and its cost under `TRN_SPEEDUP`: a character is
inserted (1), deleted (1) or replaced by another (3), or two adjacent characters
change places (5). -/
inductive Edit : List Nat → List Nat → Nat → Prop where
  | ins (u v : List Nat) (c : Nat) : Edit (u ++ v) (u ++ c :: v) 1
  | del (u v : List Nat) (c : Nat) : Edit (u ++ c :: v) (u ++ v) 1
  | sub (u v : List Nat) (c d : Nat) : Edit (u ++ c :: v) (u ++ d :: v) 3
  | swap (u v : List Nat) (c d : Nat) : Edit (u ++ c :: d :: v) (u ++ d :: c :: v) 5

/-- A sequence of edit operations that turns the first string into the second,
with the sum of the costs. -/
inductive Script : List Nat → List Nat → Nat → Prop where
  | done (a : List Nat) : Script a a 0
  | step {a b c : List Nat} {k n : Nat} : Edit a b k → Script b c n → Script a c (k + n)

/-- The number `n` is the least cost of a sequence of edit operations that
turns `a` into `b`. -/
def Distance (a b : List Nat) (n : Nat) : Prop :=
  Script a b n ∧ ∀ k, Script a b k → n ≤ k

end Ssdeep

namespace Compress42

/-! ## Basic facts -/

theorem drun_succ (B : Int) (f : Nat) (s : DState) :
    drun B (f + 1) s =
      match dnext B s with
      | DStep.cont s1 => drun B f s1
      | DStep.ret r s1 => some (r, s1)
      | DStep.stuck => none := rfl

theorem load_size_of_le (B : Int) (buf : List Nat) (h : (buf.length : Int) ≤ B + 64) :
    load_size B buf = buf.length := by
  unfold load_size
  split <;> omega

theorem load_inbuf_lt (g : Globals) (l : List Nat) (n i : Int) (h0 : 0 ≤ i) (h : i < n) :
    load_inbuf g l n i = l.getD i.toNat 0 := by
  unfold load_inbuf
  rw [if_pos ⟨h0, h⟩]

theorem compress_nil (B mb : Int) (bm : Nat) :
    compress B mb bm [] = some [0x1f, 0x9d, (mb.toNat ||| bm) % 256] := by
  simp [compress, compress_state, reads, compress_init, last_code, last_write, bytes_of, upd,
    List.range_succ, MAGIC_1, MAGIC_2]

theorem header_only (B : Int) (g : Globals) (b : Nat) (hB : 256 ≤ B) (hb : b &&& 0x1f ≤ 16) :
    is_compressed B g [0x1f, 0x9d, b] = some ⟨1, g.exit_code, []⟩ := by
  have hins : load_size B [0x1f, 0x9d, b] = 3 := by
    rw [load_size_of_le]
    · simp
    · simp; omega
  have hb2 : ¬ (((b &&& 0x1f : Nat) : Int) > 16) := by omega
  have hf : 32 * (3:Int).toNat + 64 = 159 + 1 := by decide
  simp only [is_compressed, decode_loop, decode_start, hins]
  simp [load_inbuf, MAGIC_1, MAGIC_2, BITS, BIT_MASK, hb2, hf, drun_succ, dnext, resetbuf,
    decode_init, INIT_BITS]

theorem bad_header (B : Int) (g : Globals) (buf : List Nat) (hB : 256 ≤ B) (hne : buf ≠ [])
    (hbad : buf.length < 3 ∨ buf.getD 0 0 ≠ 0x1f ∨ buf.getD 1 0 ≠ 0x9d) :
    is_compressed B g buf = some ⟨0, 1, []⟩ := by
  have hlen : 0 < buf.length := List.length_pos.mpr hne
  have hpos : load_size B buf > 0 := by unfold load_size; split <;> omega
  have hcond : load_size B buf < 3 ∨ load_inbuf g buf (load_size B buf) 0 ≠ MAGIC_1 ∨
      load_inbuf g buf (load_size B buf) 1 ≠ MAGIC_2 := by
    by_cases h3 : load_size B buf < 3
    · exact Or.inl h3
    · right
      have h3' : buf.length ≥ 3 := by unfold load_size at h3; split at h3 <;> omega
      rcases hbad with h | h | h
      · omega
      · left; simpa [load_inbuf, MAGIC_1, hpos] using h
      · right
        have : (1:Int) < load_size B buf := by omega
        simpa [load_inbuf, MAGIC_2, this] using h
  simp only [is_compressed]
  rw [if_pos hcond, if_pos hpos]

/-! ## Bit offsets and padding -/

theorem two_pow_toNat (k : Nat) : (((2:Int) ^ k - 1).toNat : Nat) = 2 ^ k - 1 := by
  have h : ((2:Int) ^ k - 1) = ((2 ^ k - 1 : Nat) : Int) := by
    have : 1 ≤ 2 ^ k := Nat.one_le_two_pow
    push_cast [Nat.cast_sub this]
    rfl
  rw [h, Int.toNat_ofNat]

theorem input_shift (b b' : Int → Nat) (d o n : Int) (hn9 : 9 ≤ n)
    (h : ∀ j, o / 8 ≤ j → 8 * j < o + n → b j = b' (d + j)) :
    input b o (2 ^ n.toNat - 1) = input b' (8 * d + o) (2 ^ n.toNat - 1) := by
  unfold input
  have e1 : (8 * d + o) / 8 = d + o / 8 := by omega
  have e2 : (8 * d + o) % 8 = o % 8 := by omega
  simp only [e1, e2, two_pow_toNat]
  congr 1
  apply Nat.eq_of_testBit_eq
  intro i
  simp only [Nat.testBit_and, Nat.testBit_shiftRight, Nat.testBit_or, Nat.testBit_shiftLeft,
    Nat.testBit_two_pow_sub_one]
  by_cases hi : i < n.toNat
  · have h0 := h (o / 8) le_rfl (by omega)
    have h1 := h (o / 8 + 1) (by omega) (by omega)
    rw [h0, h1, show d + (o / 8 + 1) = d + o / 8 + 1 by ring]
    by_cases h2c : 8 * (o / 8 + 2) < o + n
    · rw [h (o / 8 + 2) (by omega) h2c, show d + (o / 8 + 2) = d + o / 8 + 2 by ring]
    · have hlt : ¬ ((o % 8).toNat + i ≥ 16) := by omega
      simp [hlt]
  · simp [hi]

/-- The padding expression with the remainder taken as a modulus. -/
theorem pad_emod (o b n : Int) (hn : 1 ≤ n) (hb : b ≤ o) :
    pad_to_group o b n = o - 1 + (n * 8 - (o - b - 1 + n * 8) % (n * 8)) := by
  unfold pad_to_group crem
  rw [Int.tmod_eq_emod (by omega) (by omega)]

theorem pad_ge (o b n : Int) (hn : 1 ≤ n) (hb : b ≤ o) : o ≤ pad_to_group o b n := by
  rw [pad_emod o b n hn hb]
  have := Int.emod_lt_of_pos (o - b - 1 + n * 8) (show 0 < n * 8 by omega)
  omega

theorem pad_lt (o b n : Int) (hn : 1 ≤ n) (hb : b ≤ o) : pad_to_group o b n < o + n * 8 := by
  rw [pad_emod o b n hn hb]
  have := Int.emod_nonneg (o - b - 1 + n * 8) (show n * 8 ≠ 0 by omega)
  omega

theorem pad_aligned (o b n : Int) (hn : 1 ≤ n) (hb : b ≤ o) :
    (pad_to_group o b n - b) % (n * 8) = 0 := by
  rw [pad_emod o b n hn hb]
  have h := Int.emod_add_ediv (o - b - 1 + n * 8) (n * 8)
  have e : o - 1 + (n * 8 - (o - b - 1 + n * 8) % (n * 8)) - b
      = n * 8 * ((o - b - 1 + n * 8) / (n * 8)) := by linarith
  rw [e, Int.mul_emod_right]

/-- Padding moves two offsets that agree modulo the group size by the same amount. -/
theorem pad_shift (p b o n : Int) (hn : 1 ≤ n) (hb : b ≤ p) (ho : 0 ≤ o)
    (h : (p - b - o) % (8 * n) = 0) :
    pad_to_group p b n - p = pad_to_group o 0 n - o := by
  rw [pad_emod p b n hn hb, pad_emod o 0 n hn ho]
  have e : (p - b - 1 + n * 8) % (n * 8) = (o - 0 - 1 + n * 8) % (n * 8) := by
    apply Int.emod_eq_emod_iff_emod_sub_eq_zero.mpr
    have : p - b - 1 + n * 8 - (o - 0 - 1 + n * 8) = p - b - o := by ring
    rw [this, mul_comm n 8]
    exact h
  rw [e]
  ring

theorem pad_mod8 (o n : Int) (hn : 1 ≤ n) (ho : 0 ≤ o) : pad_to_group o 0 n % 8 = 0 := by
  have h := pad_aligned o 0 n hn ho
  rw [sub_zero] at h
  have h2 : (8 : Int) ∣ n * 8 := Dvd.intro_left n rfl
  have h3 := Int.emod_emod_of_dvd (pad_to_group o 0 n) h2
  rw [h] at h3
  simpa using h3.symm

theorem toNat_pow_le (n : Int) (h : (2:Int) ^ n.toNat ≤ 65536) : n ≤ 16 := by
  by_contra hc
  have h17 : 17 ≤ n.toNat := by omega
  have : (2:Int) ^ 17 ≤ 2 ^ n.toNat := pow_le_pow_right₀ (by norm_num) h17
  norm_num at this
  omega

/-! ## The decoder on absolute positions -/

theorem crem_nonneg_eq (a n : Int) (ha : 0 ≤ a) (hn : 0 ≤ n) : crem a n = a % n :=
  Int.tmod_eq_emod ha hn

theorem emod_le_self (a n : Int) (ha : 0 ≤ a) (hn : 0 < n) : a % n ≤ a := by
  have h1 := Int.emod_add_ediv a n
  have h2 : 0 ≤ a / n := Int.ediv_nonneg ha (le_of_lt hn)
  nlinarith

theorem bytes_left_nonneg (s : DState) : 0 ≤ bytes_left s := by
  unfold bytes_left; split <;> omega

theorem resetbuf_insize (s : DState) : (resetbuf s).insize = bytes_left s := by
  show (if bytes_left s < 64 then bytes_left s + (if bytes_left s < 64 then 0 else s.rsize)
    else bytes_left s) = bytes_left s
  by_cases h : bytes_left s < 64 <;> simp [h]

theorem resetbuf_rsize (s : DState) :
    (resetbuf s).rsize = if bytes_left s < 64 then 0 else s.rsize := rfl

theorem resetbuf_posbits (s : DState) : (resetbuf s).posbits = 0 := rfl

theorem resetbuf_inbits (s : DState) :
    (resetbuf s).inbits = if (resetbuf s).rsize > 0
      then ((resetbuf s).insize - crem (resetbuf s).insize s.n_bits) * 8
      else (resetbuf s).insize * 8 - (s.n_bits - 1) := rfl

theorem resetbuf_inbuf (s : DState) (i : Int) :
    (resetbuf s).inbuf i =
      if 0 ≤ i ∧ i < bytes_left s then s.inbuf (i + s.posbits / 8) else s.inbuf i := rfl

theorem dmeasure_resetbuf (s : DState) :
    dmeasure (resetbuf s) ≤ 32 * (s.insize - s.posbits / 8).toNat + 3 * (17 - s.n_bits).toNat
      + (if s.rsize > 0 then 1 else 0) := by
  have h1 : ((resetbuf s).insize - (resetbuf s).posbits / 8).toNat
      ≤ (s.insize - s.posbits / 8).toNat := by
    rw [resetbuf_insize, resetbuf_posbits]
    unfold bytes_left; split <;> omega
  have h2 : (if (resetbuf s).rsize > 0 then 1 else 0) ≤ (if s.rsize > 0 then 1 else 0) := by
    rw [resetbuf_rsize]
    by_cases h2 : bytes_left s < 64 <;> by_cases h3 : s.rsize > 0 <;> simp [h2, h3]
  have h3 : (resetbuf s).n_bits = s.n_bits := rfl
  unfold dmeasure
  rw [h3]
  omega

/-- The relation holds again after a `goto resetbuf` taken at a byte boundary. -/
theorem rel_after_reset (c : ACfg) (a : AState) (s : DState) (d : Int)
    (hp : 0 ≤ s.posbits) (hp8 : s.posbits % 8 = 0) (hin : 0 ≤ s.insize)
    (hn9 : 9 ≤ s.n_bits) (hn17 : s.n_bits ≤ 17) (hr : 0 ≤ s.rsize)
    (hd : 0 ≤ d) (hdN : d + s.insize = c.N)
    (hbuf : ∀ i, 0 ≤ i → i < s.insize → s.inbuf i = c.buf (d + i))
    (hpos : a.pos = 8 * d + s.posbits)
    (hgrp : (a.pos - a.base) % (8 * s.n_bits) = 0) (hbase : a.base ≤ a.pos)
    (hfe : s.free_ent ≤ 65536) (hmc : 2 ^ s.n_bits.toNat - 1 ≤ s.maxcode)
    (hmm : s.maxmaxcode ≤ 65536) (hmd : s.maxmaxcode = MAXCODE s.maxbits)
    (hbm : s.bitmask = 2 ^ s.n_bits.toNat - 1)
    (e1 : s.n_bits = a.n_bits) (e2 : s.maxcode = a.maxcode) (e3 : s.bitmask = a.bitmask)
    (e4 : s.free_ent = a.free_ent) (e5 : s.oldcode = a.oldcode) (e6 : s.finchar = a.finchar)
    (e7 : s.tab_prefixof = a.tab_prefixof) (e8 : s.tab_suffixof = a.tab_suffixof)
    (e9 : s.out = a.out) (e10 : s.maxbits = c.maxbits) (e11 : s.block_mode = c.block_mode)
    (e12 : s.maxmaxcode = c.maxmaxcode) :
    Rel c a (resetbuf s) ∧
    dmeasure (resetbuf s) ≤ 32 * (s.insize - s.posbits / 8).toNat + 3 * (17 - s.n_bits).toNat
      + (if s.rsize > 0 then 1 else 0) ∧
    ((s.insize - s.posbits / 8 < 64) → (resetbuf s).rsize = 0) := by
  have hbl := bytes_left_nonneg s
  have hI : DInv (resetbuf s) :=
    { posbits_nn := le_refl _
      insize_nn := by rw [resetbuf_insize]; exact hbl
      nb_lo := hn9
      nb_hi := hn17
      rsize_nn := by rw [resetbuf_rsize]; split <;> omega
      inbits_eq := rfl
      pos_mod := Int.zero_emod _
      pos_le := by
        intro hrs
        rw [resetbuf_inbits, if_pos hrs, resetbuf_insize, resetbuf_posbits,
          crem_nonneg_eq _ _ hbl (by omega)]
        have := emod_le_self (bytes_left s) s.n_bits hbl (by omega)
        omega
      fe_hi := hfe
      mc_lo := hmc
      mm_hi := hmm
      mm_def := hmd
      bitmask_eq := hbm }
  have hdrop : ∃ d' : Int, 0 ≤ d' ∧ d' + (resetbuf s).insize = c.N ∧
      (∀ i, 0 ≤ i → i < (resetbuf s).insize → (resetbuf s).inbuf i = c.buf (d' + i)) ∧
      (a.pos = 8 * d' + (resetbuf s).posbits ∨
        ((resetbuf s).insize = 0 ∧ (resetbuf s).posbits = 0 ∧ (resetbuf s).rsize = 0 ∧
          8 * c.N ≤ a.pos)) := by
    simp only [resetbuf_insize, resetbuf_posbits, resetbuf_rsize, resetbuf_inbuf]
    by_cases ho : s.posbits / 8 ≤ s.insize
    · have hbe : bytes_left s = s.insize - s.posbits / 8 := by unfold bytes_left; rw [if_pos ho]
      refine ⟨d + s.posbits / 8, by omega, by omega, ?_, Or.inl (by omega)⟩
      intro i hi0 hi
      rw [if_pos ⟨hi0, hi⟩, hbuf _ (by omega) (by omega)]
      congr 1; ring
    · have hbe : bytes_left s = 0 := by unfold bytes_left; rw [if_neg ho]
      have h8 : 8 * c.N ≤ a.pos := by omega
      refine ⟨c.N, by omega, by omega, ?_, Or.inr ?_⟩
      · intro i hi0 hi; omega
      · simp [hbe, h8]
  refine ⟨⟨hI, hdrop, ?_, hbase, e1, e2, e3, e4, e5, e6, e7, e8, e9, e10, e11, e12⟩, ?_, ?_⟩
  · rw [resetbuf_posbits, sub_zero]; exact hgrp
  · exact dmeasure_resetbuf s
  · intro h
    rw [resetbuf_rsize, if_pos]
    unfold bytes_left; split <;> omega

theorem mul_div_emod_zero (p n : Int) (h : p % n = 0) : n * (p / n) = p := by
  have := Int.emod_add_ediv p n
  omega

/-- When the inner loop test succeeds a whole code lies inside the buffer. -/
theorem rel_avail (c : ACfg) (a : AState) (s : DState) (h : Rel c a s)
    (hav : s.inbits > s.posbits) :
    (∃ d : Int, 0 ≤ d ∧ d + s.insize = c.N ∧
      (∀ i, 0 ≤ i → i < s.insize → s.inbuf i = c.buf (d + i)) ∧ a.pos = 8 * d + s.posbits) ∧
    s.posbits + s.n_bits ≤ 8 * s.insize ∧ (s.rsize > 0 → s.posbits + s.n_bits ≤ s.inbits) := by
  have hI := h.inv
  have hn9 := hI.nb_lo
  have hib := hI.inbits_eq
  have key : s.posbits + s.n_bits ≤ 8 * s.insize ∧ (s.rsize > 0 → s.posbits + s.n_bits ≤ s.inbits) := by
    by_cases hrs : s.rsize > 0
    · rw [if_pos hrs, crem_nonneg_eq _ _ hI.insize_nn (by omega)] at hib
      have h1 := mul_div_emod_zero s.posbits s.n_bits hI.pos_mod
      have h2 := Int.emod_add_ediv s.insize s.n_bits
      have h3 : 0 ≤ s.insize % s.n_bits := Int.emod_nonneg _ (by omega)
      have h4 : s.inbits = s.n_bits * (8 * (s.insize / s.n_bits)) := by rw [hib]; linarith
      have h5 : s.posbits / s.n_bits < 8 * (s.insize / s.n_bits) := by
        by_contra hc
        have : s.n_bits * (8 * (s.insize / s.n_bits)) ≤ s.n_bits * (s.posbits / s.n_bits) :=
          Int.mul_le_mul_of_nonneg_left (by omega) (by omega)
        omega
      have h6 : s.n_bits * (s.posbits / s.n_bits + 1) ≤ s.n_bits * (8 * (s.insize / s.n_bits)) :=
        Int.mul_le_mul_of_nonneg_left (by omega) (by omega)
      have h7 : s.posbits + s.n_bits ≤ s.inbits := by rw [h4]; linarith
      exact ⟨by omega, fun _ => h7⟩
    · rw [if_neg hrs] at hib
      exact ⟨by omega, fun h => absurd h hrs⟩
  refine ⟨?_, key⟩
  obtain ⟨d, hd, hdN, hbuf, hpos⟩ := h.drop
  rcases hpos with hpos | ⟨hi0, hp0, hr0, _⟩
  · exact ⟨d, hd, hdN, hbuf, hpos⟩
  · exfalso; omega

/-- The code read from the shifted buffer is the code at the absolute position. -/
theorem rel_input (c : ACfg) (a : AState) (s : DState) (h : Rel c a s)
    (hav : s.inbits > s.posbits) :
    input s.inbuf s.posbits s.bitmask = input c.buf a.pos a.bitmask := by
  obtain ⟨⟨d, hd, hdN, hbuf, hpos⟩, hle, _⟩ := rel_avail c a s h hav
  have hI := h.inv
  rw [← h.bitmask_eq, hI.bitmask_eq, hpos]
  apply input_shift _ _ _ _ _ hI.nb_lo
  intro j hj1 hj2
  have := hI.posbits_nn
  exact hbuf j (by omega) (by omega)

/-- The relation holds again after a code has been read without `goto resetbuf`. -/
theorem rel_advance (c : ACfg) (a a2 : AState) (s s2 : DState) (h : Rel c a s)
    (hav : s.inbits > s.posbits)
    (k1 : s2.inbuf = s.inbuf) (k2 : s2.insize = s.insize) (k3 : s2.rsize = s.rsize)
    (k4 : s2.inbits = s.inbits) (k5 : s2.n_bits = s.n_bits) (k6 : s2.maxcode = s.maxcode)
    (k7 : s2.bitmask = s.bitmask) (k8 : s2.maxbits = s.maxbits)
    (k9 : s2.block_mode = s.block_mode) (k10 : s2.maxmaxcode = s.maxmaxcode)
    (k11 : s2.posbits = s.posbits + s.n_bits)
    (m1 : a2.pos = a.pos + a.n_bits) (m2 : a2.base = a.base) (m3 : a2.n_bits = a.n_bits)
    (m4 : a2.maxcode = a.maxcode) (m5 : a2.bitmask = a.bitmask)
    (hfe : s2.free_ent ≤ 65536)
    (e4 : s2.free_ent = a2.free_ent) (e5 : s2.oldcode = a2.oldcode)
    (e6 : s2.finchar = a2.finchar) (e7 : s2.tab_prefixof = a2.tab_prefixof)
    (e8 : s2.tab_suffixof = a2.tab_suffixof) (e9 : s2.out = a2.out) :
    StepOK c a s s2 (AStep.cont a2) := by
  obtain ⟨⟨d, hd, hdN, hbuf, hpos⟩, hle, hle2⟩ := rel_avail c a s h hav
  have hI := h.inv
  have hn9 := hI.nb_lo
  have hpn := hI.posbits_nn
  have hne := h.n_bits_eq
  have hI2 : DInv s2 :=
    { posbits_nn := by rw [k11]; omega
      insize_nn := by rw [k2]; exact hI.insize_nn
      nb_lo := by rw [k5]; exact hI.nb_lo
      nb_hi := by rw [k5]; exact hI.nb_hi
      rsize_nn := by rw [k3]; exact hI.rsize_nn
      inbits_eq := by rw [k4, k3, k2, k5]; exact hI.inbits_eq
      pos_mod := by
        rw [k11, k5, Int.add_emod_self]; exact hI.pos_mod
      pos_le := by rw [k3, k11, k4]; exact hle2
      fe_hi := hfe
      mc_lo := by rw [k5, k6]; exact hI.mc_lo
      mm_hi := by rw [k10]; exact hI.mm_hi
      mm_def := by rw [k10, k8]; exact hI.mm_def
      bitmask_eq := by rw [k7, k5]; exact hI.bitmask_eq }
  refine ⟨?_, Or.inr ⟨a2, rfl, ⟨hI2, ⟨d, hd, by rw [k2]; exact hdN, by rw [k1, k2]; exact hbuf,
      Or.inl (by rw [m1, k11]; omega)⟩,
    ?_, by rw [m1, m2]; have := h.base_le; omega, by rw [k5, m3]; exact hne,
    by rw [k6, m4]; exact h.maxcode_eq, by rw [k7, m5]; exact h.bitmask_eq, e4, e5, e6, e7, e8, e9,
    by rw [k8]; exact h.maxbits_eq, by rw [k9]; exact h.block_eq,
    by rw [k10]; exact h.mm_eq⟩⟩⟩
  · unfold dmeasure
    rw [k2, k3, k5, k11]
    have : (s.insize - (s.posbits + s.n_bits) / 8).toNat < (s.insize - s.posbits / 8).toNat := by
      omega
    omega
  · rw [m1, m2, k11, k5]
    have e : a.pos + a.n_bits - a.base - (s.posbits + s.n_bits) = a.pos - a.base - s.posbits := by
      rw [hne]; ring
    rw [e]; exact h.grp

/-- The relation after the `goto resetbuf` that follows a padded position. -/
theorem rel_pad_reset (c : ACfg) (a a2 : AState) (s s2 : DState) (h : Rel c a s)
    (hav : s.inbits > s.posbits) (p q : Int) (hp : 0 ≤ p) (hq : a.base ≤ q)
    (hqp : (q - a.base - p) % (8 * s.n_bits) = 0) (hqd : q - a.pos = p - s.posbits)
    (k1 : s2.inbuf = s.inbuf) (k2 : s2.insize = s.insize) (k3 : s2.rsize = s.rsize)
    (k8 : s2.maxbits = s.maxbits)
    (k9 : s2.block_mode = s.block_mode) (k10 : s2.maxmaxcode = s.maxmaxcode)
    (k11 : s2.posbits = pad_to_group p 0 s.n_bits)
    (m1 : a2.pos = pad_to_group q a.base s.n_bits) (m2 : a2.base = a2.pos)
    (hn9 : 9 ≤ s2.n_bits) (hn17 : s2.n_bits ≤ 17)
    (hfe : s2.free_ent ≤ 65536) (hmc : 2 ^ s2.n_bits.toNat - 1 ≤ s2.maxcode)
    (hbm : s2.bitmask = 2 ^ s2.n_bits.toNat - 1)
    (e1 : s2.n_bits = a2.n_bits) (e2 : s2.maxcode = a2.maxcode) (e3 : s2.bitmask = a2.bitmask)
    (e4 : s2.free_ent = a2.free_ent) (e5 : s2.oldcode = a2.oldcode)
    (e6 : s2.finchar = a2.finchar) (e7 : s2.tab_prefixof = a2.tab_prefixof)
    (e8 : s2.tab_suffixof = a2.tab_suffixof) (e9 : s2.out = a2.out)
    (hmeas : 32 * (s.insize - p / 8).toNat + 3 * (17 - s2.n_bits).toNat
      + (if s.rsize > 0 then 1 else 0) < dmeasure s) :
    StepOK c a s (resetbuf s2) (AStep.cont a2) := by
  obtain ⟨⟨d, hd, hdN, hbuf, hpos⟩, hle, hle2⟩ := rel_avail c a s h hav
  have hI := h.inv
  have hn1 : 1 ≤ s.n_bits := by have := hI.nb_lo; omega
  have hge := pad_ge p 0 s.n_bits hn1 hp
  have hsh := pad_shift q a.base p s.n_bits hn1 hq hp hqp
  have key := rel_after_reset c a2 s2 d (by rw [k11]; omega)
    (by rw [k11]; exact pad_mod8 p s.n_bits hn1 hp) (by rw [k2]; exact hI.insize_nn) hn9 hn17
    (by rw [k3]; exact hI.rsize_nn) hd (by rw [k2]; exact hdN) (by rw [k1, k2]; exact hbuf)
    (by rw [m1, k11]; omega) (by rw [m2]; simp) (by rw [m2]) hfe hmc
    (by rw [k10]; exact hI.mm_hi) (by rw [k10, k8]; exact hI.mm_def) hbm e1 e2 e3 e4 e5 e6 e7 e8 e9
    (by rw [k8]; exact h.maxbits_eq) (by rw [k9]; exact h.block_eq) (by rw [k10]; exact h.mm_eq)
  refine ⟨lt_of_le_of_lt (le_trans key.2.1 ?_) hmeas, Or.inr ⟨a2, rfl, key.1⟩⟩
  rw [k2, k3, k11]
  have : (s.insize - pad_to_group p 0 s.n_bits / 8).toNat ≤ (s.insize - p / 8).toNat := by omega
  omega

/-- The decoding loops on shifted buffers follow the steps on absolute positions;
the only extra turn is the `resetbuf` that ends the phase `rsize > 0`. -/
theorem sim_step (B : Int) (c : ACfg) (a : AState) (s : DState) (h : Rel c a s) :
    match dnext B s with
    | DStep.cont s1 => StepOK c a s s1 (astep c a)
    | DStep.ret r s1 => ∃ a1, astep c a = AStep.ret r a1 ∧ a1.out = s1.out
    | DStep.stuck => astep c a = AStep.stuck := by
  have hI := h.inv
  have hn9 := hI.nb_lo
  have hn17 := hI.nb_hi
  have hpn := hI.posbits_nn
  by_cases hav : s.inbits > s.posbits
  · obtain ⟨⟨d, hd, hdN, hbuf, hpos⟩, hle, hle2⟩ := rel_avail c a s h hav
    have hA : ¬ (a.pos + a.n_bits > 8 * c.N) := by rw [← h.n_bits_eq]; omega
    have hcode := rel_input c a s h hav
    have hn1 : 1 ≤ s.n_bits := by omega
    simp only [dnext, if_pos hav, dbody, astep, if_neg hA]
    simp only [← h.free_ent_eq, ← h.maxcode_eq, ← hcode, ← h.oldcode_eq, ← h.block_eq,
      ← h.tp_eq, ← h.ts_eq, ← h.finchar_eq, ← h.mm_eq, ← h.n_bits_eq, ← h.maxbits_eq, ← h.out_eq]
    by_cases hfe : s.free_ent > s.maxcode
    · simp only [if_pos hfe]
      have hn16 : s.n_bits ≤ 16 := by
        apply toNat_pow_le
        have := hI.mc_lo; have := hI.fe_hi
        omega
      refine rel_pad_reset c a _ s _ h hav s.posbits a.pos hpn h.base_le h.grp (by omega)
        (by rfl) (by rfl) (by rfl) (by rfl) (by rfl) (by rfl) (by rfl) (by rfl) (by rfl)
        (by show 9 ≤ s.n_bits + 1; omega) (by show s.n_bits + 1 ≤ 17; omega) hI.fe_hi
        (by
          show 2 ^ (s.n_bits + 1).toNat - 1 ≤
            (if s.n_bits + 1 = s.maxbits then s.maxmaxcode else MAXCODE (s.n_bits + 1) - 1)
          split
          · rename_i he
            rw [hI.mm_def, ← he]; unfold MAXCODE; omega
          · unfold MAXCODE; exact le_refl _)
        (by rfl) (by rfl) (by rfl) (by rfl) (by rfl) (by rfl) (by rfl) (by rfl) (by rfl) (by rfl) ?_
      show 32 * (s.insize - s.posbits / 8).toNat + 3 * (17 - (s.n_bits + 1)).toNat + _ < dmeasure s
      unfold dmeasure
      omega
    · simp only [if_neg hfe]
      by_cases hold : s.oldcode = -1
      · simp only [if_pos hold]
        by_cases hc : input s.inbuf s.posbits s.bitmask ≥ 256
        · simp only [if_pos hc]
          exact ⟨_, rfl, rfl⟩
        · simp only [if_neg hc]
          exact rel_advance c a _ s _ h hav (by rfl) (by rfl) (by rfl) (by rfl) (by rfl) (by rfl)
            (by rfl) (by rfl) (by rfl) (by rfl) (by rfl) (by rw [h.n_bits_eq]) (by rfl) h.n_bits_eq
            h.maxcode_eq (by rfl) hI.fe_hi (by rfl) (by rfl) (by rfl) (by rfl) (by rfl) (by rfl)
      · simp only [if_neg hold]
        by_cases hclr : input s.inbuf s.posbits s.bitmask = CLEAR ∧ s.block_mode ≠ 0
        · simp only [if_pos hclr]
          refine rel_pad_reset c a _ s _ h hav (s.posbits + s.n_bits) (a.pos + s.n_bits)
            (by omega) (by have := h.base_le; omega)
            (by
              have e : a.pos + s.n_bits - a.base - (s.posbits + s.n_bits)
                  = a.pos - a.base - s.posbits := by ring
              rw [e]; exact h.grp)
            (by omega)
            (by rfl) (by rfl) (by rfl) (by rfl) (by rfl) (by rfl) (by rfl) (by rfl) (by rfl)
            (by show (9 : Int) ≤ INIT_BITS; decide) (by show INIT_BITS ≤ 17; decide)
            (by show FIRST - 1 ≤ 65536; decide) (by exact le_refl _)
            (by rfl) (by rfl) (by rfl) (by rfl) (by rfl) (by rfl) (by rfl) (by rfl) (by rfl) (by rfl) ?_
          show 32 * (s.insize - (s.posbits + s.n_bits) / 8).toNat + 3 * (17 - INIT_BITS).toNat + _
            < dmeasure s
          unfold dmeasure INIT_BITS
          have : (s.insize - (s.posbits + s.n_bits) / 8).toNat + 1 ≤ (s.insize - s.posbits / 8).toNat := by
            omega
          have e17 : ((17 : Int) - 9).toNat = 8 := rfl
          rw [e17]
          omega
        · simp only [if_neg hclr]
          by_cases hbad : input s.inbuf s.posbits s.bitmask > s.free_ent
          · simp only [if_pos hbad]
            exact ⟨a, rfl, h.out_eq.symm⟩
          · simp only [if_neg hbad]
            cases hw : walk s.tab_prefixof s.tab_suffixof 65537
                (if input s.inbuf s.posbits s.bitmask ≥ s.free_ent
                  then (s.oldcode, [s.finchar.toNat % 256])
                  else (input s.inbuf s.posbits s.bitmask, [])).1
                (if input s.inbuf s.posbits s.bitmask ≥ s.free_ent
                  then (s.oldcode, [s.finchar.toNat % 256])
                  else (input s.inbuf s.posbits s.bitmask, [])).2 with
            | none => rfl
            | some r =>
              obtain ⟨code1, stack1⟩ := r
              simp only []
              by_cases hm : s.free_ent < s.maxmaxcode
              · simp only [if_pos hm]
                exact rel_advance c a _ s _ h hav (by rfl) (by rfl) (by rfl) (by rfl) (by rfl)
                  (by rfl) (by rfl) (by rfl) (by rfl) (by rfl) (by rfl) (by rw [h.n_bits_eq])
                  (by rfl) h.n_bits_eq h.maxcode_eq (by rfl)
                  (by show s.free_ent + 1 ≤ 65536; have := hI.mm_hi; omega)
                  (by rfl) (by rfl) (by rfl) (by rfl) (by rfl) (by rfl)
              · simp only [if_neg hm]
                exact rel_advance c a _ s _ h hav (by rfl) (by rfl) (by rfl) (by rfl) (by rfl)
                  (by rfl) (by rfl) (by rfl) (by rfl) (by rfl) (by rfl) (by rw [h.n_bits_eq])
                  (by rfl) h.n_bits_eq h.maxcode_eq (by rfl) hI.fe_hi
                  (by rfl) (by rfl) (by rfl) (by rfl) (by rfl) (by rfl)
  · simp only [dnext, if_neg hav]
    by_cases hrs : s.rsize > 0
    · simp only [if_pos hrs]
      obtain ⟨d, hd, hdN, hbuf, hpos⟩ := h.drop
      rcases hpos with hpos | ⟨_, _, hr0, _⟩
      swap
      · omega
      have hib := hI.inbits_eq
      rw [if_pos hrs, crem_nonneg_eq _ _ hI.insize_nn (by omega)] at hib
      have hpe : s.posbits = s.inbits := le_antisymm (hI.pos_le hrs) (not_lt.mp hav)
      have h2 := Int.emod_add_ediv s.insize s.n_bits
      have h3 : s.insize % s.n_bits < s.n_bits := Int.emod_lt_of_pos _ (by omega)
      have h3' : 0 ≤ s.insize % s.n_bits := Int.emod_nonneg _ (by omega)
      have h4 : s.posbits = 8 * s.n_bits * (s.insize / s.n_bits) := by rw [hpe, hib]; linarith
      have h5 : s.posbits % (8 * s.n_bits) = 0 := by rw [h4]; exact Int.mul_emod_right _ _
      have hp8' : s.posbits = 8 * (s.insize - s.insize % s.n_bits) := by rw [hpe, hib]; ring
      have h6 : (a.pos - a.base) % (8 * s.n_bits) = 0 := by
        have := h.grp
        have e : a.pos - a.base = (a.pos - a.base - s.posbits) + s.posbits := by ring
        rw [e, Int.add_emod, this, h5]; rfl
      have key := rel_after_reset c a { s with bytes_in := s.bytes_in + s.rsize } d hpn
        (by show s.posbits % 8 = 0; omega) hI.insize_nn hI.nb_lo hI.nb_hi hI.rsize_nn hd hdN
        hbuf hpos h6 h.base_le hI.fe_hi hI.mc_lo hI.mm_hi hI.mm_def hI.bitmask_eq h.n_bits_eq
        h.maxcode_eq h.bitmask_eq h.free_ent_eq h.oldcode_eq h.finchar_eq h.tp_eq h.ts_eq h.out_eq
        h.maxbits_eq h.block_eq h.mm_eq
      have hr0 := key.2.2 (by show s.insize - s.posbits / 8 < 64; omega)
      refine ⟨?_, Or.inl ⟨key.1, hrs, hr0⟩⟩
      have hbl : bytes_left { s with bytes_in := s.bytes_in + s.rsize } = s.insize - s.posbits / 8 := by
        unfold bytes_left; rw [if_pos (by show s.posbits / 8 ≤ s.insize; omega)]
      unfold dmeasure
      rw [resetbuf_insize, resetbuf_posbits, hr0, hbl, if_pos hrs]
      show 32 * (s.insize - s.posbits / 8 - 0 / 8).toNat + 3 * (17 - s.n_bits).toNat
          + (if (0:Int) > 0 then 1 else 0) < _
      simp only [gt_iff_lt, lt_self_iff_false, if_false]
      omega
    · simp only [if_neg hrs]
      have hA : a.pos + a.n_bits > 8 * c.N := by
        have hib := hI.inbits_eq
        rw [if_neg hrs] at hib
        rw [← h.n_bits_eq]
        obtain ⟨d, hd, hdN, hbuf, hpos⟩ := h.drop
        rcases hpos with hpos | ⟨_, _, _, h8⟩ <;> omega
      refine ⟨a, ?_, h.out_eq.symm⟩
      unfold astep
      rw [if_pos hA]

theorem astep_det_ret {c : ACfg} {a a1 a2 : AState} {r : Int}
    (h1 : astep c a = AStep.ret r a1) (h2 : astep c a = AStep.cont a2) : False := by
  rw [h1] at h2; cases h2

/-- Runs on absolute positions are deterministic. -/
theorem ARuns.det {c : ACfg} {a : AState} {r r' : Int} {out out' : List Nat}
    (h : ARuns c a r out) (h' : ARuns c a r' out') : r = r' ∧ out = out' := by
  induction h with
  | done h1 =>
    cases h' with
    | done h2 => rw [h1] at h2; cases h2; exact ⟨rfl, rfl⟩
    | step h2 _ => exact (astep_det_ret h1 h2).elim
  | step h1 _ ih =>
    cases h' with
    | done h2 => exact (astep_det_ret h2 h1).elim
    | step h2 h3 => rw [h1] at h2; cases h2; exact ih h3

/-- A return of the decoding loops is a return of the run on absolute positions. -/
theorem drun_sound (B : Int) (c : ACfg) :
    ∀ (f : Nat) (s : DState) (a : AState) (r : Int) (s' : DState), Rel c a s →
      drun B f s = some (r, s') → ARuns c a r s'.out := by
  intro f
  induction f with
  | zero => intro s a r s' _ h; simp [drun] at h
  | succ f ih =>
    intro s a r s' hrel h
    rw [drun_succ] at h
    have hs := sim_step B c a s hrel
    cases hd : dnext B s with
    | cont s1 =>
      rw [hd] at h hs
      rcases hs.2 with ⟨hr, _, _⟩ | ⟨a1, ha, hr⟩
      · exact ih s1 a r s' hr h
      · exact ARuns.step ha (ih s1 a1 r s' hr h)
    | ret r1 s1 =>
      rw [hd] at h hs
      obtain ⟨a1, ha, ho⟩ := hs
      simp only [Option.some.injEq, Prod.mk.injEq] at h
      obtain ⟨rfl, rfl⟩ := h
      rw [← ho]
      exact ARuns.done ha
    | stuck =>
      rw [hd] at h
      simp at h

/-- A return of the run on absolute positions is a return of the decoding loops,
given fuel above the measure. -/
theorem drun_complete (B : Int) (c : ACfg) {a : AState} {r : Int} {out : List Nat}
    (h : ARuns c a r out) :
    ∀ (f : Nat) (s : DState), Rel c a s → dmeasure s < f →
      ∃ s', drun B f s = some (r, s') ∧ s'.out = out := by
  induction h with
  | @done a a1 r h1 =>
    intro f
    induction f with
    | zero => intro s _ hm; omega
    | succ f ih =>
      intro s hrel hm
      rw [drun_succ]
      have hs := sim_step B c a s hrel
      cases hd : dnext B s with
      | cont s1 =>
        rw [hd] at hs
        rcases hs.2 with ⟨hr, _, _⟩ | ⟨a2, ha, _⟩
        · exact ih s1 hr (by have := hs.1; omega)
        · exact (astep_det_ret h1 ha).elim
      | ret r1 s1 =>
        rw [hd] at hs
        obtain ⟨a2, ha, ho⟩ := hs
        rw [h1] at ha
        cases ha
        exact ⟨s1, rfl, ho.symm⟩
      | stuck =>
        rw [hd] at hs
        rw [h1] at hs
        cases hs
  | @step a a1 r out h1 _ ih0 =>
    intro f
    induction f with
    | zero => intro s _ hm; omega
    | succ f ih =>
      intro s hrel hm
      rw [drun_succ]
      have hs := sim_step B c a s hrel
      cases hd : dnext B s with
      | cont s1 =>
        rw [hd] at hs
        rcases hs.2 with ⟨hr, _, _⟩ | ⟨a2, ha, hr⟩
        · exact ih s1 hr (by have := hs.1; omega)
        · rw [h1] at ha
          cases ha
          exact ih0 f s1 hr (by have := hs.1; omega)
      | ret r1 s1 =>
        rw [hd] at hs
        obtain ⟨a2, ha, _⟩ := hs
        exact (astep_det_ret ha h1).elim
      | stuck =>
        rw [hd] at hs
        rw [h1] at hs
        cases hs

theorem MAXCODE_le (n : Int) (h : n ≤ 16) : MAXCODE n ≤ 65536 := by
  unfold MAXCODE
  have h16 : n.toNat ≤ 16 := by omega
  have : (2:Int) ^ n.toNat ≤ 2 ^ 16 := pow_le_pow_right₀ (by norm_num) h16
  norm_num at this
  exact this

/-- The decoder starts in related states. -/
theorem rel_start (B : Int) (g : Globals) (buf : List Nat)
    (h3 : 3 ≤ load_size B buf) (hmb : (acfg B g buf).maxbits ≤ 16) :
    Rel (acfg B g buf) (astart g (acfg B g buf)) (decode_start B g buf) ∧
    dmeasure (decode_start B g buf) ≤ 32 * (load_size B buf).toNat + 25 := by
  have key := rel_after_reset (acfg B g buf) (astart g (acfg B g buf))
    (decode_init g (load_inbuf g buf (load_size B buf)) (load_size B buf)) 0
    (by show (0 : Int) ≤ 3 * 8; decide) (by show (3 * 8 : Int) % 8 = 0; decide)
    (by show 0 ≤ load_size B buf; omega) (by show (9 : Int) ≤ INIT_BITS; decide)
    (by show INIT_BITS ≤ 17; decide)
    (by show 0 ≤ load_size B buf; omega) (le_refl _) (by simp [decode_init, acfg])
    (by intro i _ _; simp [decode_init, acfg]) (by show (24 : Int) = 8 * 0 + 3 * 8; decide)
    (by simp [astart])
    (by simp [astart])
    (by simp only [decode_init, FIRST]; split <;> decide)
    (by exact le_refl _)
    (by exact MAXCODE_le _ hmb) (by rfl) (by rfl) (by rfl) (by rfl) (by rfl) (by rfl) (by rfl)
    (by rfl) (by rfl) (by rfl) (by rfl) (by rfl) (by rfl) (by rfl)
  refine ⟨key.1, le_trans key.2.1 ?_⟩
  show 32 * (load_size B buf - 24 / 8).toNat + 3 * (17 - INIT_BITS).toNat + _ ≤ _
  have e17 : ((17 : Int) - INIT_BITS).toNat = 8 := rfl
  rw [e17]
  split <;> omega

/-- After the header checks, `is_compressed` returns what the run on absolute
positions returns. -/
theorem decode_loop_iff (B : Int) (g : Globals) (buf : List Nat)
    (h3 : 3 ≤ load_size B buf) (hmb : (acfg B g buf).maxbits ≤ 16) (r : Int) (out : List Nat) :
    decode_loop B g buf = some ⟨r, g.exit_code, out⟩ ↔
      ARuns (acfg B g buf) (astart g (acfg B g buf)) r out := by
  obtain ⟨hrel, hm⟩ := rel_start B g buf h3 hmb
  constructor
  · intro h
    unfold decode_loop at h
    cases hd : drun B (32 * (load_size B buf).toNat + 64) (decode_start B g buf) with
    | none => rw [hd] at h; simp at h
    | some p =>
      rw [hd] at h
      simp only [Option.map_some', Option.some.injEq, ZResult.mk.injEq] at h
      obtain ⟨rfl, _, rfl⟩ := h
      exact drun_sound B _ _ _ _ _ _ hrel hd
  · intro h
    obtain ⟨s', hs, ho⟩ := drun_complete B _ h (32 * (load_size B buf).toNat + 64) _ hrel (by omega)
    unfold decode_loop
    rw [hs]
    simp [ho]

theorem astep_spec (c : ACfg) (a : AState) (h : AInv a) :
    match astep c a with
    | AStep.cont a1 => AInv a1 ∧ a.out <+: a1.out
    | AStep.ret r a1 => a1.out = a.out ∧ (r = 1 → 8 * c.N < a.pos + a.n_bits)
    | AStep.stuck => True := by
  obtain ⟨hb0, hbp, hn9, hbm⟩ := h
  have hn1 : 1 ≤ a.n_bits := by omega
  unfold astep
  by_cases hA : a.pos + a.n_bits > 8 * c.N
  · simp only [if_pos hA]
    exact ⟨by trivial, fun _ => hA⟩
  · simp only [if_neg hA]
    by_cases hfe : a.free_ent > a.maxcode
    · simp only [if_pos hfe]
      have := pad_ge a.pos a.base a.n_bits hn1 hbp
      exact ⟨⟨by show 0 ≤ pad_to_group a.pos a.base a.n_bits; omega, le_refl _,
        by show 9 ≤ a.n_bits + 1; omega, rfl⟩, List.prefix_refl _⟩
    · simp only [if_neg hfe]
      by_cases hold : a.oldcode = -1
      · simp only [if_pos hold]
        by_cases hc : input c.buf a.pos a.bitmask ≥ 256
        · simp only [if_pos hc]
          exact ⟨by trivial, fun h => absurd h (by decide)⟩
        · simp only [if_neg hc]
          exact ⟨⟨hb0, by show a.base ≤ a.pos + a.n_bits; omega, hn9, hbm⟩, List.prefix_append _ _⟩
      · simp only [if_neg hold]
        by_cases hclr : input c.buf a.pos a.bitmask = CLEAR ∧ c.block_mode ≠ 0
        · simp only [if_pos hclr]
          have := pad_ge (a.pos + a.n_bits) a.base a.n_bits hn1 (by omega)
          exact ⟨⟨by show 0 ≤ pad_to_group (a.pos + a.n_bits) a.base a.n_bits; omega, le_refl _,
            by show (9 : Int) ≤ INIT_BITS; decide, rfl⟩, List.prefix_refl _⟩
        · simp only [if_neg hclr]
          by_cases hbad : input c.buf a.pos a.bitmask > a.free_ent
          · simp only [if_pos hbad]
            exact ⟨by trivial, fun h => absurd h (by decide)⟩
          · simp only [if_neg hbad]
            generalize walk a.tab_prefixof a.tab_suffixof 65537 _ _ = w
            cases w with
            | none => trivial
            | some r =>
              obtain ⟨code1, stack1⟩ := r
              by_cases hm : a.free_ent < c.maxmaxcode
              · simp only [if_pos hm]
                exact ⟨⟨hb0, by show a.base ≤ a.pos + a.n_bits; omega, hn9, hbm⟩,
                  List.prefix_append _ _⟩
              · simp only [if_neg hm]
                exact ⟨⟨hb0, by show a.base ≤ a.pos + a.n_bits; omega, hn9, hbm⟩,
                  List.prefix_append _ _⟩

/-- A step that finds a whole code inside a shorter stream does not depend on
what follows that stream. -/
theorem astep_congr (c c' : ACfg) (a : AState) (h : AInv a)
    (hbuf : ∀ i, 0 ≤ i → i < c'.N → c'.buf i = c.buf i)
    (h1 : c'.maxbits = c.maxbits) (h2 : c'.block_mode = c.block_mode)
    (h3 : c'.maxmaxcode = c.maxmaxcode) (hN : c'.N ≤ c.N)
    (hav : a.pos + a.n_bits ≤ 8 * c'.N) : astep c' a = astep c a := by
  obtain ⟨hb0, hbp, hn9, hbm⟩ := h
  have hin : input c'.buf a.pos a.bitmask = input c.buf a.pos a.bitmask := by
    rw [hbm]
    have := input_shift c'.buf c.buf 0 a.pos a.n_bits hn9
      (by intro j hj1 hj2; rw [zero_add]; exact hbuf j (by omega) (by omega))
    simpa using this
  have hA' : ¬ (a.pos + a.n_bits > 8 * c'.N) := by omega
  have hA : ¬ (a.pos + a.n_bits > 8 * c.N) := by omega
  simp only [astep, if_neg hA, if_neg hA', hin, h1, h2, h3]

theorem ARuns.out_prefix {c : ACfg} {a : AState} {r : Int} {out : List Nat}
    (h : ARuns c a r out) (hI : AInv a) : a.out <+: out := by
  induction h with
  | @done a a1 r h1 =>
    have := astep_spec c a hI
    rw [h1] at this
    rw [this.1]
  | @step a a1 r out h1 _ ih =>
    have := astep_spec c a hI
    rw [h1] at this
    exact List.IsPrefix.trans this.2 (ih this.1)

/-- An accepting run stays accepting on a shorter stream, with a prefix of the output. -/
theorem ARuns.truncate {c c' : ACfg} {a : AState} {r : Int} {out : List Nat}
    (h : ARuns c a r out) (hI : AInv a) (hr : r = 1)
    (hbuf : ∀ i, 0 ≤ i → i < c'.N → c'.buf i = c.buf i)
    (e1 : c'.maxbits = c.maxbits) (e2 : c'.block_mode = c.block_mode)
    (e3 : c'.maxmaxcode = c.maxmaxcode) (hN : c'.N ≤ c.N) :
    ∃ out', ARuns c' a 1 out' ∧ out' <+: out := by
  induction h with
  | @done a a1 r h1 =>
    have hs := astep_spec c a hI
    rw [h1] at hs
    have hA : a.pos + a.n_bits > 8 * c'.N := by have := hs.2 hr; omega
    refine ⟨a.out, @ARuns.done _ a a _ (by unfold astep; rw [if_pos hA]), ?_⟩
    rw [hs.1]
  | @step a a1 r out h1 h2' ih =>
    have hs := astep_spec c a hI
    rw [h1] at hs
    by_cases hA : a.pos + a.n_bits > 8 * c'.N
    · refine ⟨a.out, @ARuns.done _ a a _ (by unfold astep; rw [if_pos hA]), ?_⟩
      exact List.IsPrefix.trans hs.2 (h2'.out_prefix hs.1)
    · obtain ⟨out', ho, hp⟩ := ih hs.1 hr
      have hc := astep_congr c c' a hI hbuf e1 e2 e3 hN (by omega)
      exact ⟨out', ARuns.step (hc.trans h1) ho, hp⟩

theorem astart_inv (g : Globals) (c : ACfg) : AInv (astart g c) :=
  ⟨by show (0 : Int) ≤ 24; decide, le_refl _, by show (9 : Int) ≤ INIT_BITS; decide, rfl⟩

/-- An accepted buffer has passed both header tests and owes its result to the
decoding loops. -/
theorem accepted_header (B : Int) (g : Globals) (F : List Nat) (r : ZResult)
    (h : is_compressed B g F = some r) (hr : r.ret = 1) :
    3 ≤ load_size B F ∧ load_inbuf g F (load_size B F) 0 = MAGIC_1 ∧
    load_inbuf g F (load_size B F) 1 = MAGIC_2 ∧ (acfg B g F).maxbits ≤ 16 ∧
    decode_loop B g F = some r := by
  unfold is_compressed at h
  simp only [] at h
  split at h
  · simp only [Option.some.injEq] at h; rw [← h] at hr; exact absurd hr (by show ¬ ((0 : Int) = 1); decide)
  · rename_i h1
    split at h
    · simp only [Option.some.injEq] at h; rw [← h] at hr; exact absurd hr (by show ¬ ((0 : Int) = 1); decide)
    · rename_i h2
      simp only [not_or, not_lt, ne_eq, not_not, BITS, gt_iff_lt] at h1 h2
      exact ⟨h1.1, h1.2.1, h1.2.2, h2, h⟩

theorem is_compressed_of_header (B : Int) (g : Globals) (F : List Nat)
    (h3 : 3 ≤ load_size B F) (h0 : load_inbuf g F (load_size B F) 0 = MAGIC_1)
    (h1 : load_inbuf g F (load_size B F) 1 = MAGIC_2) (hm : (acfg B g F).maxbits ≤ 16) :
    is_compressed B g F = decode_loop B g F := by
  unfold is_compressed
  simp only []
  rw [if_neg (by rw [h0, h1]; simp; omega), if_neg (by simpa [BITS, acfg] using hm)]

theorem getD_dropLast (F : List Nat) (i : Nat) (h : i + 1 < F.length) :
    F.dropLast.getD i 0 = F.getD i 0 := by
  rw [List.dropLast_eq_take]
  simp only [List.getD_eq_getElem?_getD, List.getElem?_take]
  rw [if_pos (by omega)]

theorem load_inbuf_dropLast (g : Globals) (F : List Nat) (n i : Int) (h0 : 0 ≤ i)
    (hn : i < n) (hi : i + 1 < F.length) :
    load_inbuf g F.dropLast n i = load_inbuf g F (n + 1) i := by
  rw [load_inbuf_lt _ _ _ _ h0 hn, load_inbuf_lt _ _ _ _ h0 (by omega), getD_dropLast _ _ (by omega)]

theorem is_compressed_valid_magic (B : Int) (g : Globals) (l : List Nat) (hB : 256 ≤ B)
    (hl3 : 3 ≤ l.length) (hl0 : l.getD 0 0 = 0x1f) (hl1 : l.getD 1 0 = 0x9d) :
    3 ≤ load_size B l ∧ (acfg B g l).maxbits = ((l.getD 2 0 &&& 0x1f : Nat) : Int) ∧
    is_compressed B g l =
      if ((l.getD 2 0 &&& 0x1f : Nat) : Int) > 16 then some ⟨0, 4, []⟩ else decode_loop B g l := by
  have hsz : (3 : Int) ≤ load_size B l := by unfold load_size; split <;> omega
  have hcond : ¬ (load_size B l < 3 ∨ load_inbuf g l (load_size B l) 0 ≠ MAGIC_1 ∨
      load_inbuf g l (load_size B l) 1 ≠ MAGIC_2) := by
    rw [load_inbuf_lt g l _ 0 (by omega) (by omega), load_inbuf_lt g l _ 1 (by omega) (by omega)]
    have t0 : (0 : Int).toNat = 0 := rfl
    have t1 : (1 : Int).toNat = 1 := rfl
    rw [t0, t1, hl0, hl1]
    simp only [MAGIC_1, MAGIC_2, ne_eq, not_true_eq_false, or_false, not_lt]
    exact hsz
  refine ⟨hsz, ?_, ?_⟩
  · simp only [acfg]
    rw [load_inbuf_lt g l _ 2 (by omega) (by omega)]
    rfl
  · simp only [is_compressed]
    rw [if_neg hcond, load_inbuf_lt g l _ 2 (by omega) (by omega)]
    rfl

/-- Every state the decoding loops reach is related to a state of the run on
absolute positions from which the run can be resumed. -/
theorem reach_rel (B : Int) (c : ACfg) (a0 : AState) (s0 s : DState) (h : DReach B s0 s)
    (hrel : Rel c a0 s0) :
    ∃ a, Rel c a s ∧ ∀ r out, ARuns c a r out → ARuns c a0 r out := by
  induction h with
  | refl => exact ⟨a0, hrel, fun _ _ h => h⟩
  | @step s1 s2 _ hd ih =>
    obtain ⟨a, hr, hlift⟩ := ih
    have hs := sim_step B c a s1 hr
    rw [hd] at hs
    rcases hs.2 with ⟨hr2, _, _⟩ | ⟨a1, ha, hr2⟩
    · exact ⟨a, hr2, hlift⟩
    · exact ⟨a1, hr2, fun r out h => hlift r out (ARuns.step ha h)⟩

/-! ## The hash probe -/

theorem prime_HSIZE : Nat.Prime 69001 := by norm_num

theorem pstep_range (disp hp : Int) (hd0 : 0 < disp) (hd : disp < HSIZE) (h0 : 0 ≤ hp)
    (h1 : hp < HSIZE) : 0 ≤ pstep disp hp ∧ pstep disp hp < HSIZE := by
  unfold pstep; unfold HSIZE at *; split <;> omega

theorem ppos_succ (disp hp : Int) (k : Nat) :
    ppos disp hp (k + 1) = ppos disp (pstep disp hp) k := by
  unfold ppos; rw [Function.iterate_succ_apply]

theorem ppos_succ' (disp hp : Int) (k : Nat) :
    ppos disp hp (k + 1) = pstep disp (ppos disp hp k) := by
  unfold ppos; rw [Function.iterate_succ_apply']

theorem ppos_range (disp hp : Int) (hd0 : 0 < disp) (hd : disp < HSIZE) (h0 : 0 ≤ hp)
    (h1 : hp < HSIZE) (k : Nat) :
    0 ≤ ppos disp hp k ∧ ppos disp hp k < HSIZE ∧
      (ppos disp hp k - (hp - k * disp)) % HSIZE = 0 := by
  induction k with
  | zero => simp [ppos, h0, h1]
  | succ k ih =>
    rw [ppos_succ']
    obtain ⟨a, b, c⟩ := ih
    have := pstep_range disp _ hd0 hd a b
    refine ⟨this.1, this.2, ?_⟩
    have e : ((k + 1 : Nat) : Int) * disp = k * disp + disp := by push_cast; ring
    rw [e]
    unfold pstep
    simp only [HSIZE] at a b c hd ⊢
    split <;> omega

theorem ppos_inj (disp hp : Int) (hd0 : 0 < disp) (hd : disp < HSIZE) (h0 : 0 ≤ hp)
    (h1 : hp < HSIZE) (i j : Nat) (hi : i < 69001) (hj : j < 69001)
    (h : ppos disp hp i = ppos disp hp j) : i = j := by
  obtain ⟨_, _, ci⟩ := ppos_range disp hp hd0 hd h0 h1 i
  obtain ⟨_, _, cj⟩ := ppos_range disp hp hd0 hd h0 h1 j
  rw [h] at ci
  have hH : HSIZE = ((69001 : Nat) : Int) := rfl
  rw [hH] at ci cj hd
  have hdvd : ((69001 : Nat) : Int) ∣ ((i : Int) - j) * disp := by
    have e : ((i : Int) - j) * disp
        = (ppos disp hp j - (hp - i * disp)) - (ppos disp hp j - (hp - j * disp)) := by ring
    rw [e]
    exact Int.dvd_sub (Int.dvd_of_emod_eq_zero ci) (Int.dvd_of_emod_eq_zero cj)
  rcases Int.Prime.dvd_mul' prime_HSIZE hdvd with h2 | h2
  · obtain ⟨q, hq⟩ := h2
    omega
  · obtain ⟨q, hq⟩ := h2
    omega

theorem probe_loop_spec (htab : Int → Int) (fc disp : Int) : ∀ (f : Nat) (hp : Int),
    match probe_loop htab fc disp f hp with
    | some (b, h) => ∃ k, 1 ≤ k ∧ k ≤ f ∧ h = ppos disp hp k ∧
        (∀ i, 1 ≤ i → i < k → htab (ppos disp hp i) ≠ fc ∧ htab (ppos disp hp i) ≠ -1) ∧
        (b = true → htab h = fc) ∧ (b = false → htab h = -1 ∧ htab h ≠ fc)
    | none => ∀ i, 1 ≤ i → i ≤ f → htab (ppos disp hp i) ≠ fc ∧ htab (ppos disp hp i) ≠ -1 := by
  intro f
  induction f with
  | zero => intro hp; simp only [probe_loop]; intro i h1 h2; omega
  | succ f ih =>
    intro hp
    simp only [probe_loop]
    have hstep : (if hp - disp < 0 then hp - disp + HSIZE else hp - disp) = pstep disp hp := rfl
    rw [hstep]
    have hp1 : ppos disp hp 1 = pstep disp hp := rfl
    by_cases h1 : htab (pstep disp hp) = fc
    · rw [if_pos h1]
      exact ⟨1, le_refl _, by omega, hp1.symm, fun i a b => by omega, fun _ => h1,
        fun h => (by cases h)⟩
    · rw [if_neg h1]
      by_cases h2 : htab (pstep disp hp) ≠ -1
      · rw [if_pos h2]
        have := ih (pstep disp hp)
        cases hr : probe_loop htab fc disp f (pstep disp hp) with
        | none =>
          rw [hr] at this
          intro i hi1 hi2
          rcases Nat.eq_or_lt_of_le hi1 with e | e
          · rw [← e, hp1]; exact ⟨h1, h2⟩
          · obtain ⟨i', rfl⟩ : ∃ i', i = i' + 1 := ⟨i - 1, by omega⟩
            rw [ppos_succ]
            exact this i' (by omega) (by omega)
        | some r =>
          obtain ⟨b, h⟩ := r
          rw [hr] at this
          obtain ⟨k, hk1, hk2, hk3, hk4, hk5⟩ := this
          refine ⟨k + 1, by omega, by omega, by rw [ppos_succ]; exact hk3, ?_, hk5⟩
          intro i hi1 hi2
          rcases Nat.eq_or_lt_of_le hi1 with e | e
          · rw [← e, hp1]; exact ⟨h1, h2⟩
          · obtain ⟨i', rfl⟩ : ∃ i', i = i' + 1 := ⟨i - 1, by omega⟩
            rw [ppos_succ]
            exact hk4 i' (by omega) (by omega)
      · rw [if_neg h2]
        have h2' : htab (pstep disp hp) = -1 := not_not.mp h2
        exact ⟨1, le_refl _, by omega, hp1.symm, fun i a b => by omega,
          fun h => (by cases h), fun _ => ⟨h2', h1⟩⟩

theorem key_hp_range (c ent : Nat) (hc : c < 256) (he : ent < 65536) :
    0 ≤ key_hp c ent ∧ key_hp c ent < 65536 := by
  unfold key_hp
  have h1 : c <<< 8 < 2 ^ 16 := by
    rw [Nat.shiftLeft_eq]; omega
  have h2 : (c <<< 8) ^^^ ent < 2 ^ 16 := Nat.xor_lt_two_pow h1 (by omega)
  constructor <;> omega

/-- The hash lookup examines the probe sequence of the pair up to the first slot
that holds the pair or is empty. -/
theorem lookup_spec (htab : Int → Int) (c ent : Nat) (hc : c < 256) (he : ent < 65536)
    (hfree : ∃ k, k < 69001 ∧ htab (ppos (key_disp c ent) (key_hp c ent) k) = -1) :
    ∃ b k, k < 69001 ∧ lookup htab c ent = some (b, ppos (key_disp c ent) (key_hp c ent) k) ∧
      (∀ i, i < k → htab (ppos (key_disp c ent) (key_hp c ent) i) ≠ fcode_code c ent ∧
        htab (ppos (key_disp c ent) (key_hp c ent) i) ≠ -1) ∧
      (b = true → htab (ppos (key_disp c ent) (key_hp c ent) k) = fcode_code c ent) ∧
      (b = false → htab (ppos (key_disp c ent) (key_hp c ent) k) = -1) := by
  obtain ⟨k0, hk0, hfree⟩ := hfree
  have hp0 : ppos (key_disp c ent) (key_hp c ent) 0 = key_hp c ent := rfl
  unfold lookup
  simp only []
  have e1 : (((c <<< 8 ^^^ ent : Nat)) : Int) = key_hp c ent := rfl
  have e2 : HSIZE - key_hp c ent - 1 = key_disp c ent := rfl
  rw [e1, e2]
  by_cases h1 : htab (key_hp c ent) = fcode_code c ent
  · rw [if_pos h1]
    exact ⟨true, 0, by omega, rfl, fun i hi => by omega, fun _ => h1, fun h => (by cases h)⟩
  · rw [if_neg h1]
    by_cases h2 : htab (key_hp c ent) ≠ -1
    · rw [if_pos h2]
      have hs := probe_loop_spec htab (fcode_code c ent) (key_disp c ent) HSIZE.toNat (key_hp c ent)
      have hH : HSIZE.toNat = 69001 := rfl
      rw [hH] at hs ⊢
      cases hr : probe_loop htab (fcode_code c ent) (key_disp c ent) 69001 (key_hp c ent) with
      | none =>
        rw [hr] at hs
        exfalso
        rcases Nat.eq_zero_or_pos k0 with e | e
        · rw [e, hp0] at hfree; exact h2 hfree
        · exact (hs k0 e (by omega)).2 hfree
      | some r =>
        obtain ⟨b, h⟩ := r
        rw [hr] at hs
        obtain ⟨k, hk1, hk2, hk3, hk4, hk5, hk6⟩ := hs
        have hall : ∀ i, i < k → htab (ppos (key_disp c ent) (key_hp c ent) i) ≠ fcode_code c ent ∧
            htab (ppos (key_disp c ent) (key_hp c ent) i) ≠ -1 := by
          intro i hi
          rcases Nat.eq_zero_or_pos i with e | e
          · rw [e, hp0]; exact ⟨h1, h2⟩
          · exact hk4 i e hi
        have hk : k < 69001 := by
          by_contra hc'
          exact (hall k0 (by omega)).2 hfree
        refine ⟨b, k, hk, by rw [hk3], hall, by rw [← hk3]; exact hk5, ?_⟩
        rw [← hk3]; exact fun hb => (hk6 hb).1
    · rw [if_neg h2]
      exact ⟨false, 0, by omega, rfl, fun i hi => by omega, fun h => (by cases h),
        fun _ => not_not.mp h2⟩

theorem fcode_code_inj (c ent c' ent' : Nat) (hc : c < 65536) (hc' : c' < 65536)
    (h : fcode_code c ent = fcode_code c' ent') : c = c' ∧ ent = ent' := by
  unfold fcode_code at h
  have h' : c + 65536 * ent = c' + 65536 * ent' := by exact_mod_cast h
  omega

theorem fcode_code_ne (c ent : Nat) : fcode_code c ent ≠ -1 := by
  unfold fcode_code; omega

theorem key_disp_range (c ent : Nat) (hc : c < 256) (he : ent < 65536) :
    0 < key_disp c ent ∧ key_disp c ent < HSIZE := by
  have := key_hp_range c ent hc he
  unfold key_disp HSIZE
  omega

theorem key_ppos_range (c ent : Nat) (hc : c < 256) (he : ent < 65536) (k : Nat) :
    0 ≤ ppos (key_disp c ent) (key_hp c ent) k ∧ ppos (key_disp c ent) (key_hp c ent) k < HSIZE := by
  have h1 := key_hp_range c ent hc he
  have h2 := key_disp_range c ent hc he
  have := ppos_range _ _ h2.1 h2.2 h1.1 (by unfold HSIZE; omega) k
  exact ⟨this.1, this.2.1⟩

/-- A table with fewer pairs than slots has an empty slot on every probe sequence. -/
theorem tinv_free (htab : Int → Int) (codetab : Int → Nat) (dict : List (Nat × Nat))
    (h : TInv htab codetab dict) (hlen : dict.length ≤ 65279) (c ent : Nat) (hc : c < 256)
    (he : ent < 65536) :
    ∃ k, k < 69001 ∧ htab (ppos (key_disp c ent) (key_hp c ent) k) = -1 := by
  by_contra hcon
  have hall : ∀ k, k < 69001 → htab (ppos (key_disp c ent) (key_hp c ent) k) ≠ -1 := by
    intro k hk hk2; exact hcon ⟨k, hk, hk2⟩
  have h1 := key_hp_range c ent hc he
  have h2 := key_disp_range c ent hc he
  have hcode : ∀ k, k < 69001 →
      codetab (ppos (key_disp c ent) (key_hp c ent) k) - 257 < 65280 := by
    intro k hk
    obtain ⟨_, _, j, p, hj, _, hct⟩ := h.sound _ (hall k hk)
    have hjl : j < dict.length := by
      by_contra hc2
      rw [List.getElem?_eq_none (by omega)] at hj
      cases hj
    omega
  let g : Fin 69001 → Fin 65280 := fun k =>
    ⟨codetab (ppos (key_disp c ent) (key_hp c ent) k.val) - 257, hcode k.val k.isLt⟩
  have hinj : Function.Injective g := by
    intro a b hab
    have hab' : codetab (ppos (key_disp c ent) (key_hp c ent) a.val) - 257
        = codetab (ppos (key_disp c ent) (key_hp c ent) b.val) - 257 := by
      simpa [g] using congrArg Fin.val hab
    obtain ⟨_, _, ja, pa, _, _, hcta⟩ := h.sound _ (hall a.val a.isLt)
    obtain ⟨_, _, jb, pb, _, _, hctb⟩ := h.sound _ (hall b.val b.isLt)
    have hce : codetab (ppos (key_disp c ent) (key_hp c ent) a.val)
        = codetab (ppos (key_disp c ent) (key_hp c ent) b.val) := by omega
    have hpe := h.inj _ _ (hall a.val a.isLt) (hall b.val b.isLt) hce
    exact Fin.ext (ppos_inj _ _ h2.1 h2.2 h1.1 (by unfold HSIZE; omega) _ _ a.isLt b.isLt hpe)
  have := Fintype.card_le_of_injective g hinj
  simp only [Fintype.card_fin] at this
  omega

/-- What a lookup in a well-formed table returns. -/
theorem lookup_tinv (htab : Int → Int) (codetab : Int → Nat) (dict : List (Nat × Nat))
    (h : TInv htab codetab dict) (hlen : dict.length ≤ 65279) (c ent : Nat) (hc : c < 256)
    (he : ent < 65536) :
    ∃ b hp, lookup htab c ent = some (b, hp) ∧
      (b = true → ∃ j, dict[j]? = some (ent, c) ∧ codetab hp = 257 + j) ∧
      (b = false → (ent, c) ∉ dict ∧ htab hp = -1 ∧
        TInv (upd htab hp (fcode_code c ent)) (upd codetab hp (257 + dict.length))
          (dict ++ [(ent, c)])) := by
  obtain ⟨b, k, hk, hl, hbefore, hT, hF⟩ :=
    lookup_spec htab c ent hc he (tinv_free htab codetab dict h hlen c ent hc he)
  refine ⟨b, _, hl, ?_, ?_⟩
  · intro hb
    have hfc := hT hb
    obtain ⟨_, _, j, p, hj, hv, hct⟩ := h.sound _ (by rw [hfc]; exact fcode_code_ne _ _)
    rw [hfc] at hv
    have hp2 := (h.keys p (List.getElem?_mem hj)).2
    obtain ⟨e1, e2⟩ := fcode_code_inj _ _ _ _ (by omega) (by omega) hv
    refine ⟨j, ?_, hct⟩
    rw [hj]; congr 1; exact Prod.ext e2.symm e1.symm
  · intro hb
    have hemp := hF hb
    have hnot : (ent, c) ∉ dict := by
      intro hmem
      obtain ⟨k', hk', hv', hb'⟩ := h.reach _ hmem
      simp only [] at hv' hb'
      rcases Nat.lt_trichotomy k' k with hlt | heq | hgt
      · exact (hbefore k' hlt).1 hv'
      · rw [heq, hemp] at hv'; exact fcode_code_ne _ _ hv'.symm
      · exact hb' k hgt hemp
    refine ⟨hnot, hemp, ?_⟩
    have hr := key_ppos_range c ent hc he k
    obtain ⟨hp, hhp⟩ : ∃ hp, hp = ppos (key_disp c ent) (key_hp c ent) k := ⟨_, rfl⟩
    rw [← hhp] at hemp hr ⊢
    refine ⟨?_, ?_, ?_, ?_, ?_⟩
    · intro p hp'
      rcases List.mem_append.mp hp' with h1 | h1
      · exact h.keys p h1
      · simp only [List.mem_singleton] at h1; rw [h1]; exact ⟨he, hc⟩
    · exact List.Nodup.append h.nodup (List.nodup_singleton _)
        (by simpa [List.disjoint_singleton] using hnot)
    · intro hp' hne
      by_cases e : hp' = hp
      · rw [e]
        refine ⟨hr.1, hr.2, dict.length, (ent, c), by simp, by simp [upd], by simp [upd]⟩
      · have hne' : htab hp' ≠ -1 := by simpa [upd, e] using hne
        obtain ⟨a, b', j, p, hj, hv, hct⟩ := h.sound hp' hne'
        refine ⟨a, b', j, p, ?_, by simpa [upd, e] using hv, by simpa [upd, e] using hct⟩
        rw [List.getElem?_append_left (by
          by_contra hc2; rw [List.getElem?_eq_none (by omega)] at hj; cases hj)]
        exact hj
    · intro x y hx hy hxy
      by_cases ex : x = hp <;> by_cases ey : y = hp
      · rw [ex, ey]
      · exfalso
        have hy' : htab y ≠ -1 := by simpa [upd, ey] using hy
        obtain ⟨_, _, j, p, hj, _, hct⟩ := h.sound y hy'
        have hjl : j < dict.length := by
          by_contra hc2; rw [List.getElem?_eq_none (by omega)] at hj; cases hj
        simp [upd, ex, ey] at hxy
        omega
      · exfalso
        have hx' : htab x ≠ -1 := by simpa [upd, ex] using hx
        obtain ⟨_, _, j, p, hj, _, hct⟩ := h.sound x hx'
        have hjl : j < dict.length := by
          by_contra hc2; rw [List.getElem?_eq_none (by omega)] at hj; cases hj
        simp [upd, ex, ey] at hxy
        omega
      · have hx' : htab x ≠ -1 := by simpa [upd, ex] using hx
        have hy' : htab y ≠ -1 := by simpa [upd, ey] using hy
        exact h.inj x y hx' hy' (by simpa [upd, ex, ey] using hxy)
    · intro p hp'
      rcases List.mem_append.mp hp' with h1 | h1
      · obtain ⟨k', hk', hv', hb'⟩ := h.reach p h1
        refine ⟨k', hk', ?_, ?_⟩
        · have : ppos (key_disp p.2 p.1) (key_hp p.2 p.1) k' ≠ hp := by
            intro e; rw [e, hemp] at hv'; exact fcode_code_ne _ _ hv'.symm
          simpa [upd, this] using hv'
        · intro i hi
          have := hb' i hi
          unfold upd; split
          · exact fcode_code_ne _ _
          · exact this
      · simp only [List.mem_singleton] at h1
        subst h1
        refine ⟨k, hk, by rw [← hhp]; simp [upd], ?_⟩
        intro i hi
        have := (hbefore i hi).2
        unfold upd; split
        · exact fcode_code_ne _ _
        · exact this

/-! ## A proof rule for the loops of `compress` -/

theorem byte_step_fields (inbuf : Int → Nat) (s s' : CState) (h : byte_step inbuf s = some s') :
    s'.rpos = s.rpos + 1 ∧ s'.rsize = s.rsize ∧ s'.rlop = s.rlop := by
  unfold byte_step at h
  split at h
  · cases h
  · simp only [Option.some.injEq] at h; subst h; exact ⟨rfl, rfl, rfl⟩
  · simp only [Option.some.injEq] at h; subst h
    unfold miss_state
    simp only []
    split <;> exact ⟨rfl, rfl, rfl⟩

theorem grow_fields (B mb : Int) (s : CState) :
    (grow B mb s).rsize = s.rsize ∧ (grow B mb s).rpos = s.rpos ∧ (grow B mb s).rlop = s.rlop := by
  unfold grow; split
  · split <;> exact ⟨rfl, rfl, rfl⟩
  · exact ⟨rfl, rfl, rfl⟩

theorem check_ratio_fields (s : CState) :
    (check_ratio s).rsize = s.rsize ∧ (check_ratio s).rpos = s.rpos ∧
      (check_ratio s).rlop = s.rlop := by
  unfold check_ratio
  simp only []
  split_ifs <;> exact ⟨rfl, rfl, rfl⟩

theorem flush_fields (B : Int) (s : CState) :
    (flush B s).rsize = s.rsize ∧ (flush B s).rpos = s.rpos ∧ (flush B s).rlop = s.rlop := by
  unfold flush; split <;> exact ⟨rfl, rfl, rfl⟩

theorem round_top_fields (B mb : Int) (s : CState) :
    (round_top B mb s).rsize = s.rsize ∧ (round_top B mb s).rpos = s.rpos := by
  unfold round_top budget
  simp only []
  rw [(flush_fields _ _).1, (check_ratio_fields _).1, (grow_fields _ _ _).1,
    (flush_fields _ _).2.1, (check_ratio_fields _).2.1, (grow_fields _ _ _).2.1]
  exact ⟨rfl, rfl⟩

theorem round_end_rsize (s : CState) : (round_end s).rsize = s.rsize := by
  unfold round_end; split <;> rfl

/-- The inner loop keeps an invariant of the label `next` and ends with the loop
test false. -/
theorem scan_rule (inbuf : Int → Nat) (P : CState → Prop)
    (hstep : ∀ s, P s → scan_cond s → ∃ s', byte_step inbuf s = some s' ∧ P s')
    (hlt : ∀ s, P s → scan_cond s → s.rpos < s.rsize) :
    ∀ (fuel : Nat) (s : CState), P s → (s.rsize - s.rpos).toNat ≤ fuel →
      ∃ s', scan inbuf fuel s = some s' ∧ P s' ∧ ¬ scan_cond s' := by
  intro fuel
  induction fuel with
  | zero =>
    intro s hP hf
    by_cases hc : scan_cond s
    · have := hlt s hP hc; omega
    · exact ⟨s, by simp [scan, hc], hP, hc⟩
  | succ f ih =>
    intro s hP hf
    by_cases hc : scan_cond s
    · obtain ⟨s1, h1, hP1⟩ := hstep s hP hc
      obtain ⟨e1, e2, _⟩ := byte_step_fields inbuf s s1 h1
      have := hlt s hP hc
      obtain ⟨s2, h2, hP2, hc2⟩ := ih s1 hP1 (by rw [e1, e2]; omega)
      exact ⟨s2, by simp [scan, hc, h1, h2], hP2, hc2⟩
    · exact ⟨s, by simp [scan, hc], hP, hc⟩

/-- The loops of `compress` keep an invariant given per control point. -/
theorem compress_rule (B mb : Int) (hB : 1 ≤ B) (Inv : Point → CState → Prop)
    (h_start : ∀ pre chunk s, Inv (Point.between pre) s → chunk ≠ [] → (chunk.length : Int) ≤ B →
      (∀ b ∈ chunk, b < 256) → Inv (Point.round pre chunk) (chunk_start s chunk))
    (h_top : ∀ pre chunk s, Inv (Point.round pre chunk) s →
      Inv (Point.next pre chunk s.rlop) (round_top B mb s))
    (h_byte : ∀ pre chunk r0 s, Inv (Point.next pre chunk r0) s → scan_cond s →
      ∃ s', byte_step (chunk_buf chunk) s = some s' ∧ Inv (Point.next pre chunk r0) s')
    (h_end : ∀ pre chunk r0 s, Inv (Point.next pre chunk r0) s → ¬ scan_cond s →
      r0 < (round_end s).rlop ∧
      (if (round_end s).rlop < (round_end s).rsize then Inv (Point.round pre chunk) (round_end s)
       else Inv (Point.between (pre ++ chunk)) (round_end s)))
    (h_lt : ∀ pre chunk r0 s, Inv (Point.next pre chunk r0) s → scan_cond s → s.rpos < s.rsize)
    (h_rs : ∀ pre chunk s, Inv (Point.round pre chunk) s → s.rsize = chunk.length ∧ 0 ≤ s.rlop) :
    ∀ (input pre : List Nat) (s : CState), (∀ b ∈ input, b < 256) → Inv (Point.between pre) s →
      ∃ s', reads B mb (input.length + 1) s input = some s' ∧ Inv (Point.between (pre ++ input)) s' := by
  -- the `do` loop
  have hrounds : ∀ (pre chunk : List Nat) (fuel : Nat) (s : CState), Inv (Point.round pre chunk) s →
      (s.rsize - s.rlop).toNat < fuel →
      ∃ s', rounds B mb (chunk_buf chunk) fuel s = some s' ∧ Inv (Point.between (pre ++ chunk)) s' := by
    intro pre chunk fuel
    induction fuel with
    | zero => intro s _ hf; omega
    | succ f ih =>
      intro s hR hf
      have hT := h_top pre chunk s hR
      obtain ⟨s2, hs2, hP2, hc2⟩ := scan_rule (chunk_buf chunk) (Inv (Point.next pre chunk s.rlop))
        (h_byte pre chunk s.rlop) (h_lt pre chunk s.rlop) _ _ hT (le_refl _)
      obtain ⟨hprog, hE⟩ := h_end pre chunk s.rlop s2 hP2 hc2
      simp only [rounds, hs2]
      by_cases hlt : (round_end s2).rlop < (round_end s2).rsize
      · rw [if_pos hlt] at hE ⊢
        have e1 := (h_rs pre chunk _ hE).1
        have e2 := (h_rs pre chunk s hR).1
        exact ih _ hE (by omega)
      · rw [if_neg hlt] at hE ⊢
        exact ⟨_, rfl, hE⟩
  have hreads : ∀ (fuel : Nat) (input pre : List Nat) (s : CState), input.length < fuel →
      (∀ b ∈ input, b < 256) → Inv (Point.between pre) s →
      ∃ s', reads B mb fuel s input = some s' ∧ Inv (Point.between (pre ++ input)) s' := by
    intro fuel
    induction fuel with
    | zero => intro input pre s hf; omega
    | succ f ih =>
      intro input pre s hf hg hI
      have hBn : 1 ≤ B.toNat := by omega
      by_cases hnil : input = []
      · subst hnil
        exact ⟨s, by simp [reads], by simpa using hI⟩
      · have hlen : 0 < input.length := List.length_pos.mpr hnil
        have htl : (input.take B.toNat).length ≠ 0 := by
          rw [List.length_take]; omega
        have hR := h_start pre (input.take B.toNat) s hI
          (by intro h; rw [h] at htl; exact htl rfl)
          (by rw [List.length_take]; omega)
          (fun b hb => hg b (List.mem_of_mem_take hb))
        have hrs := h_rs pre _ _ hR
        obtain ⟨s2, hs2, hI2⟩ := hrounds pre (input.take B.toNat) ((input.take B.toNat).length + 1)
          (chunk_start s (input.take B.toNat)) hR (by omega)
        have hdl : (input.drop B.toNat).length < f := by
          rw [List.length_drop]; omega
        obtain ⟨s3, hs3, hI3⟩ := ih (input.drop B.toNat) (pre ++ input.take B.toNat) s2 hdl
          (fun b hb => hg b (List.mem_of_mem_drop hb)) hI2
        refine ⟨s3, ?_, ?_⟩
        · rw [reads]
          simp only [htl, if_false, hs2]
          exact hs3
        · rw [List.append_assoc, List.take_append_drop] at hI3
          exact hI3
  intro input pre s hg hI
  exact hreads _ input pre s (by omega) hg hI

/-! ## The invariant of `compress` -/

theorem MAXCODE_vals (n : Int) (h9 : 9 ≤ n) (h16 : n ≤ 16) :
    MAXCODE (n + 1) = 2 * MAXCODE n ∧ 512 ≤ MAXCODE n ∧ MAXCODE n ≤ 65536 ∧
      (n ≤ 15 → MAXCODE n ≤ 32768) := by
  unfold MAXCODE
  interval_cases n <;> decide

theorem output_snd (b : Int → Nat) (o : Int) (c : Nat) (n : Int) : (output b o c n).2 = o + n := rfl

theorem chunk_buf_lt (chunk : List Nat) (h : ∀ b ∈ chunk, b < 256) (i : Int) :
    chunk_buf chunk i < 256 := by
  unfold chunk_buf
  rw [List.getD_eq_getElem?_getD]
  cases hg : chunk[i.toNat]? with
  | none => simp
  | some v => simpa using h v (List.getElem?_mem hg)

/-- What one pass from `next2` to `next` does, in terms of the pairs in the table. -/
theorem byte_step_spec (B mb : Int) (inbuf : Int → Nat) (dict : List (Nat × Nat)) (s : CState)
    (hb : CBase B mb dict s) (hc : inbuf s.rpos < 256) :
    (∃ j, dict[j]? = some (s.ent, inbuf s.rpos) ∧
      byte_step inbuf s = some (hit_state s (inbuf s.rpos) (257 + j))) ∨
    ((s.ent, inbuf s.rpos) ∉ dict ∧ ∃ hp, s.htab hp = -1 ∧
      byte_step inbuf s = some (miss_state s (inbuf s.rpos) hp) ∧
      TInv (upd s.htab hp (fcode_code (inbuf s.rpos) s.ent)) (upd s.codetab hp (257 + dict.length))
        (dict ++ [(s.ent, inbuf s.rpos)])) := by
  have he : s.ent < 65536 := by
    have := hb.fe_hi
    rcases hb.ent_ok with h | h <;> omega
  have hlen : dict.length ≤ 65279 := by have := hb.dlen; have := hb.fe_hi; omega
  obtain ⟨b, hp, hl, hT, hF⟩ := lookup_tinv s.htab s.codetab dict hb.tinv hlen (inbuf s.rpos) s.ent hc he
  cases b with
  | true =>
    obtain ⟨j, hj, hct⟩ := hT rfl
    left
    refine ⟨j, hj, ?_⟩
    unfold byte_step
    rw [hl]
    simp only [hct]
  | false =>
    obtain ⟨hnot, hemp, hti⟩ := hF rfl
    right
    refine ⟨hnot, hp, hemp, ?_, hti⟩
    unfold byte_step
    rw [hl]

theorem scan_cond_lt (B : Int) (pre chunk : List Nat) (r0 : Int) (s : CState)
    (hn : NextInv B pre chunk r0 s) (hc : scan_cond s) : s.rpos < s.rsize := by
  have := hn.rlop_le
  rcases hc with h | h <;> omega

theorem mul_ge_of_pos (a n : Int) (ha : 1 ≤ a) (hn : 0 ≤ n) : n ≤ a * n := by nlinarith

/-- The invariant is kept by a pass that finds the pair in the table. -/
theorem cinv_hit (B mb : Int) (pre chunk : List Nat) (r0 : Int) (dict : List (Nat × Nat))
    (s : CState) (c j : Nat) (hb : CBase B mb dict s) (hn : NextInv B pre chunk r0 s)
    (hc : scan_cond s) (hj : j < dict.length) :
    CBase B mb dict (hit_state s c (257 + j)) ∧
      NextInv B pre chunk r0 (hit_state s c (257 + j)) := by
  have hlt := scan_cond_lt B pre chunk r0 s hn hc
  have hn9 := hb.nb_lo
  have hfree : s.free_ent < s.extcode := by
    rcases hc with h | h
    · have := hn.fe_bud h; omega
    · exact hb.fe_ent h.1
  have hob : s.outbits ≤ LIM B := by
    rcases hc with h | h
    · have := hn.ob_bud h
      have := mul_ge_of_pos (s.rlop - s.rpos) s.n_bits (by omega) (by omega)
      omega
    · exact hb.ob_ent h.1
  have hdl := hb.dlen
  refine ⟨⟨hb.tinv, hb.dlen, hb.fe_le, hb.fe_hi, hb.st_ext, hb.nst_ext, hb.nb_lo, hb.nb_hi, ?_,
    hb.ob_nn, hb.boff_le, fun _ => hob, fun _ => hfree⟩,
    ⟨hn.ob_hi, hn.rsize_eq, hn.bytes_ok, ?_, ?_, hn.rlop_le, hn.r0_nn, ?_, ?_, ?_, ?_, hn.bi⟩⟩
  · right
    show 257 ≤ ((257 + j : Nat) : Int) ∧ ((257 + j : Nat) : Int) < s.free_ent
    push_cast; omega
  · show 0 ≤ s.rpos + 1; have := hn.rpos_nn; omega
  · show s.rpos + 1 ≤ s.rsize; omega
  · show r0 ≤ s.rpos + 1; have := hn.r0_le; omega
  · show s.rpos + 1 < s.rlop → s.free_ent + (s.rlop - (s.rpos + 1)) ≤ s.extcode
    intro h; have := hn.fe_bud (by omega); omega
  · show s.rpos + 1 < s.rlop → s.outbits + (s.rlop - (s.rpos + 1)) * s.n_bits ≤ LIM B
    intro h
    have := hn.ob_bud (by omega)
    have e : (s.rlop - (s.rpos + 1)) * s.n_bits = (s.rlop - s.rpos) * s.n_bits - s.n_bits := by ring
    omega
  · right; left
    show r0 < s.rpos + 1; have := hn.r0_le; omega

/-- The invariant is kept by a pass that emits the pending prefix. -/
theorem cinv_miss (B mb : Int) (hmb : mb ≤ 16) (pre chunk : List Nat) (r0 : Int)
    (dict : List (Nat × Nat)) (s : CState) (c : Nat) (hp : Int) (hc256 : c < 256)
    (hb : CBase B mb dict s) (hn : NextInv B pre chunk r0 s) (hc : scan_cond s)
    (hti : TInv (upd s.htab hp (fcode_code c s.ent)) (upd s.codetab hp (257 + dict.length))
      (dict ++ [(s.ent, c)])) :
    CBase B mb (if s.stcode then dict ++ [(s.ent, c)] else dict) (miss_state s c hp) ∧
      NextInv B pre chunk r0 (miss_state s c hp) := by
  have hlt := scan_cond_lt B pre chunk r0 s hn hc
  have hn9 := hb.nb_lo
  have hn16 := hb.nb_hi
  have hfree : s.free_ent < s.extcode := by
    rcases hc with h | h
    · have := hn.fe_bud h; omega
    · exact hb.fe_ent h.1
  have hob : s.outbits + s.n_bits ≤ LIM B + 16 ∧ (s.rpos < s.rlop → s.outbits + s.n_bits ≤ LIM B) := by
    constructor
    · rcases hc with h | h
      · have := hn.ob_bud h
        have := mul_ge_of_pos (s.rlop - s.rpos) s.n_bits (by omega) (by omega)
        omega
      · have := hb.ob_ent h.1; omega
    · intro h
      have := hn.ob_bud h
      have := mul_ge_of_pos (s.rlop - s.rpos) s.n_bits (by omega) (by omega)
      omega
  have hdl := hb.dlen
  have hcF : ¬ ((c : Int) ≥ FIRST) := by unfold FIRST; omega
  have hbud : s.rpos + 1 < s.rlop →
      s.outbits + s.n_bits + (s.rlop - (s.rpos + 1)) * s.n_bits ≤ LIM B := by
    intro h
    have := hn.ob_bud (by omega)
    have e : (s.rlop - (s.rpos + 1)) * s.n_bits = (s.rlop - s.rpos) * s.n_bits - s.n_bits := by ring
    omega
  have hnext : ∀ (s2 : CState), s2.rsize = s.rsize → s2.rpos = s.rpos + 1 → s2.rlop = s.rlop →
      s2.outbits = s.outbits + s.n_bits → s2.n_bits = s.n_bits → s2.bytes_in = s.bytes_in →
      s2.extcode = s.extcode → (s2.free_ent ≤ s.free_ent + 1) →
      NextInv B pre chunk r0 s2 := by
    intro s2 e1 e2 e3 e4 e5 e6 e7 e8
    refine ⟨by rw [e4]; exact hob.1, by rw [e1]; exact hn.rsize_eq, hn.bytes_ok, by rw [e2]; have := hn.rpos_nn; omega,
      by rw [e1, e2]; omega, by rw [e1, e3]; exact hn.rlop_le, hn.r0_nn,
      by rw [e2]; have := hn.r0_le; omega, ?_, ?_, ?_, by rw [e6, e3]; exact hn.bi⟩
    · rw [e2, e3, e7]; intro h; have := hn.fe_bud (by omega); omega
    · rw [e2, e3, e4, e5]; exact hbud
    · right; left; rw [e2]; have := hn.r0_le; omega
  cases hst : s.stcode with
  | true =>
    have hms : miss_state s c hp =
        { s with c := c, rpos := s.rpos + 1, outbuf := (output s.outbuf s.outbits s.ent s.n_bits).1,
                 outbits := s.outbits + s.n_bits, ent := c,
                 codetab := upd s.codetab hp (s.free_ent % 65536).toNat,
                 free_ent := s.free_ent + 1,
                 htab := upd s.htab hp (fcode_code c s.ent) } := by
      simp [miss_state, hst, output_snd]
    have hext := hb.st_ext hst
    have hcode : (s.free_ent % 65536).toNat = 257 + dict.length := by omega
    rw [hms]
    simp only [if_true]
    refine ⟨⟨by simp only [hcode]; exact hti, by simp only [List.length_append, List.length_singleton]; push_cast; omega,
      by show s.free_ent + 1 ≤ s.extcode; omega, by show s.free_ent + 1 ≤ 65536; omega,
      fun _ => hext, fun h => (by rw [hst] at h; cases h), hb.nb_lo, hb.nb_hi, Or.inl hc256,
      by show 0 ≤ s.outbits + s.n_bits; have := hb.ob_nn; omega,
      by show s.boff ≤ s.outbits + s.n_bits; have := hb.boff_le; omega,
      fun h => absurd h hcF, fun h => absurd h hcF⟩,
      hnext _ rfl rfl rfl rfl rfl rfl rfl (le_refl _)⟩
  | false =>
    have hms : miss_state s c hp =
        { s with c := c, rpos := s.rpos + 1, outbuf := (output s.outbuf s.outbits s.ent s.n_bits).1,
                 outbits := s.outbits + s.n_bits, ent := c } := by
      simp [miss_state, hst, output_snd]
    rw [hms]
    simp only [Bool.false_eq_true, if_false]
    refine ⟨⟨hb.tinv, hb.dlen, hb.fe_le, hb.fe_hi, hb.st_ext, hb.nst_ext, hb.nb_lo, hb.nb_hi,
      Or.inl hc256,
      by show 0 ≤ s.outbits + s.n_bits; have := hb.ob_nn; omega,
      by show s.boff ≤ s.outbits + s.n_bits; have := hb.boff_le; omega,
      fun h => absurd h hcF, fun h => absurd h hcF⟩,
      hnext _ rfl rfl rfl rfl rfl rfl rfl (by show s.free_ent ≤ s.free_ent + 1; omega)⟩

theorem crem_nonpos (a b : Int) (ha : a ≤ 0) (hb : 0 < b) : crem a b = -((-a) % b) := by
  obtain ⟨m, hm⟩ := Int.eq_ofNat_of_zero_le (show 0 ≤ -a by omega)
  obtain ⟨n, rfl⟩ := Int.eq_ofNat_of_zero_le (show 0 ≤ b by omega)
  have ha' : a = -(m : Int) := by omega
  subst ha'
  rw [hm]
  cases m with
  | zero => simp [crem]
  | succ k => rfl

/-- What the widening block does, by cases. -/
theorem grow_cases (B mb : Int) (s : CState) :
    (grow B mb s = s ∧ ¬ (s.free_ent ≥ s.extcode ∧ (s.ent : Int) < FIRST)) ∨
    (s.free_ent ≥ s.extcode ∧ (s.ent : Int) < FIRST ∧ s.n_bits < mb ∧
      grow B mb s = { s with boff := pad_to_group s.outbits s.boff s.n_bits,
                             outbits := pad_to_group s.outbits s.boff s.n_bits,
                             n_bits := s.n_bits + 1,
                             extcode := if s.n_bits + 1 < mb then MAXCODE (s.n_bits + 1) + 1
                                        else MAXCODE (s.n_bits + 1) }) ∨
    (s.free_ent ≥ s.extcode ∧ (s.ent : Int) < FIRST ∧ ¬ s.n_bits < mb ∧
      grow B mb s = { s with extcode := MAXCODE 16 + B, stcode := false }) := by
  unfold grow
  by_cases h1 : s.free_ent ≥ s.extcode ∧ (s.ent : Int) < FIRST
  · by_cases h2 : s.n_bits < mb
    · right; left; rw [if_pos h1, if_pos h2]; exact ⟨h1.1, h1.2, h2, rfl⟩
    · right; right; rw [if_pos h1, if_neg h2]; exact ⟨h1.1, h1.2, h2, rfl⟩
  · left; rw [if_neg h1]; exact ⟨rfl, h1⟩

theorem stcode_of_full (B mb : Int) (hB : 1 ≤ B) (dict : List (Nat × Nat)) (s : CState)
    (hb : CBase B mb dict s) (h : s.free_ent ≥ s.extcode) : s.stcode = true := by
  cases hst : s.stcode with
  | true => rfl
  | false =>
    have := hb.nst_ext hst
    have := hb.fe_hi
    have : MAXCODE 16 = 65536 := by decide
    omega

theorem grow_cinv (B mb : Int) (hB : 1 ≤ B) (hmb : mb ≤ 16) (dict : List (Nat × Nat))
    (s : CState) (hb : CBase B mb dict s) :
    CBase B mb dict (grow B mb s) ∧
    ((s.ent : Int) < FIRST → (grow B mb s).free_ent < (grow B mb s).extcode) ∧
    (grow B mb s).outbits ≤ s.outbits + 128 ∧
    ((grow B mb s).stcode = false → (grow B mb s).outbits = s.outbits) ∧
    (grow B mb s).ent = s.ent ∧ (grow B mb s).bytes_in = s.bytes_in ∧
    (grow B mb s).checkpoint = s.checkpoint := by
  have hn9 := hb.nb_lo
  have hn16 := hb.nb_hi
  have hfe := hb.fe_le
  have hob := hb.ob_nn
  rcases grow_cases B mb s with ⟨e, hno⟩ | ⟨h1, h2, h3, e⟩ | ⟨h1, h2, h3, e⟩
  · rw [e]
    refine ⟨hb, fun h => ?_, by omega, fun _ => rfl, rfl, rfl, rfl⟩
    by_contra hc
    exact hno ⟨by omega, h⟩
  · have hent : ¬ ((s.ent : Int) ≥ FIRST) := by omega
    have hst := stcode_of_full B mb hB dict s hb h1
    have hext := hb.st_ext hst
    obtain ⟨m1, m2, m3, m4⟩ := MAXCODE_vals s.n_bits hn9 (by omega)
    obtain ⟨k1, k2, k3, k4⟩ := MAXCODE_vals (s.n_bits + 1) (by omega) (by omega)
    have hpg := pad_ge s.outbits s.boff s.n_bits (by omega) hb.boff_le
    have hpl := pad_lt s.outbits s.boff s.n_bits (by omega) hb.boff_le
    have hx : (if s.n_bits + 1 < mb then MAXCODE (s.n_bits + 1) + 1 else MAXCODE (s.n_bits + 1))
        ≤ 65536 ∧ (if s.n_bits + 1 < mb then MAXCODE (s.n_bits + 1) + 1 else MAXCODE (s.n_bits + 1))
        ≤ MAXCODE (s.n_bits + 1) + 1 ∧ s.free_ent <
        (if s.n_bits + 1 < mb then MAXCODE (s.n_bits + 1) + 1 else MAXCODE (s.n_bits + 1)) := by
      split_ifs with hlt
      · have := k4 (by omega); omega
      · omega
    rw [e]
    refine ⟨⟨hb.tinv, hb.dlen, le_of_lt hx.2.2, hb.fe_hi, fun _ => ⟨hx.1, hx.2.1⟩,
      fun h => (by rw [hst] at h; cases h), by show 9 ≤ s.n_bits + 1; omega,
      by show s.n_bits + 1 ≤ mb; omega, hb.ent_ok,
      by show 0 ≤ pad_to_group s.outbits s.boff s.n_bits; omega, le_refl _,
      fun h => absurd h hent, fun h => absurd h hent⟩,
      fun _ => hx.2.2, by show pad_to_group s.outbits s.boff s.n_bits ≤ s.outbits + 128; omega,
      fun h => (by rw [hst] at h; cases h), rfl, rfl, rfl⟩
  · rw [e]
    have hent : ¬ ((s.ent : Int) ≥ FIRST) := by omega
    have hm : MAXCODE 16 = 65536 := by decide
    have := hb.fe_hi
    refine ⟨⟨hb.tinv, hb.dlen, by show s.free_ent ≤ MAXCODE 16 + B; omega, hb.fe_hi,
      fun h => (by cases h), fun _ => rfl, hb.nb_lo, hb.nb_hi, hb.ent_ok, hb.ob_nn, hb.boff_le,
      hb.ob_ent, fun h => absurd h hent⟩,
      fun _ => by show s.free_ent < MAXCODE 16 + B; omega, by show s.outbits ≤ s.outbits + 128; omega,
      fun _ => rfl, rfl, rfl, rfl⟩
/-- What the ratio block does, by cases. -/
theorem check_ratio_cases (s : CState) :
    (check_ratio s = s ∧ ¬ (s.stcode = false ∧ s.bytes_in ≥ s.checkpoint ∧ (s.ent : Int) < FIRST)) ∨
    ((s.stcode = false ∧ s.bytes_in ≥ s.checkpoint ∧ (s.ent : Int) < FIRST) ∧
      ∃ rat, check_ratio s = { s with checkpoint := s.bytes_in + CHECK_GAP, ratio := rat }) ∨
    ((s.stcode = false ∧ s.bytes_in ≥ s.checkpoint ∧ (s.ent : Int) < FIRST) ∧
      check_ratio s =
        { s with checkpoint := s.bytes_in + CHECK_GAP, ratio := 0, htab := fun _ => -1,
                 outbuf := (output s.outbuf s.outbits CLEAR.toNat s.n_bits).1,
                 outbits := pad_to_group (s.outbits + s.n_bits) s.boff s.n_bits,
                 boff := pad_to_group (s.outbits + s.n_bits) s.boff s.n_bits,
                 n_bits := INIT_BITS, extcode := MAXCODE INIT_BITS + 1,
                 free_ent := FIRST, stcode := true }) := by
  unfold check_ratio
  by_cases h1 : s.stcode = false ∧ s.bytes_in ≥ s.checkpoint ∧ (s.ent : Int) < FIRST
  · rw [if_pos h1]
    simp only []
    split_ifs
    all_goals first
      | exact Or.inr (Or.inl ⟨h1, _, rfl⟩)
      | exact Or.inr (Or.inr ⟨h1, rfl⟩)
  · left; rw [if_neg h1]; exact ⟨rfl, h1⟩

theorem tinv_empty (codetab : Int → Nat) : TInv (fun _ => -1) codetab [] :=
  ⟨fun p hp => (by cases hp), List.nodup_nil, fun hp h => absurd rfl h,
    fun hp hp' h => absurd rfl h, fun p hp => (by cases hp)⟩

theorem check_ratio_cinv (B mb : Int) (hmb : mb ≤ 16) (dict : List (Nat × Nat))
    (s : CState) (hb : CBase B mb dict s) :
    (∃ dict', CBase B mb dict' (check_ratio s)) ∧
    ((s.ent : Int) < FIRST → s.free_ent < s.extcode →
      (check_ratio s).free_ent < (check_ratio s).extcode) ∧
    ((check_ratio s).outbits ≤ s.outbits + 144 ∧
      (s.stcode = true → (check_ratio s).outbits = s.outbits)) ∧
    ((s.ent : Int) < FIRST → (check_ratio s).stcode = false →
      (check_ratio s).bytes_in < (check_ratio s).checkpoint) ∧
    (check_ratio s).ent = s.ent ∧ (check_ratio s).bytes_in = s.bytes_in := by
  have hn9 := hb.nb_lo
  have hn16 := hb.nb_hi
  have hob := hb.ob_nn
  rcases check_ratio_cases s with ⟨e, hno⟩ | ⟨h1, rat, e⟩ | ⟨h1, e⟩
  · rw [e]
    refine ⟨⟨dict, hb⟩, fun _ h => h, ⟨by omega, fun _ => rfl⟩, fun h1 h2 => ?_, rfl, rfl⟩
    by_contra hc
    exact hno ⟨h2, by omega, h1⟩
  · rw [e]
    refine ⟨⟨dict, ⟨hb.tinv, hb.dlen, hb.fe_le, hb.fe_hi, hb.st_ext, hb.nst_ext, hb.nb_lo,
      hb.nb_hi, hb.ent_ok, hb.ob_nn, hb.boff_le, hb.ob_ent, hb.fe_ent⟩⟩, fun _ h => h,
      ⟨by show s.outbits ≤ s.outbits + 144; omega, fun _ => rfl⟩, fun _ _ => ?_, rfl, rfl⟩
    show s.bytes_in < s.bytes_in + CHECK_GAP
    unfold CHECK_GAP; omega
  · rw [e]
    have hent : ¬ ((s.ent : Int) ≥ FIRST) := by have := h1.2.2; omega
    have hbo : s.boff ≤ s.outbits + s.n_bits := by have := hb.boff_le; omega
    have hpg := pad_ge (s.outbits + s.n_bits) s.boff s.n_bits (by omega) hbo
    have hpl := pad_lt (s.outbits + s.n_bits) s.boff s.n_bits (by omega) hbo
    have hm9 : MAXCODE INIT_BITS = 512 := by decide
    have h256 : s.ent < 256 := by
      have := h1.2.2; unfold FIRST at this; have := hb.ent_ok; omega
    refine ⟨⟨[], ⟨tinv_empty _, by show ((0 : Nat) : Int) = FIRST - 257; unfold FIRST; rfl,
      by show FIRST ≤ MAXCODE INIT_BITS + 1; rw [hm9]; unfold FIRST; omega,
      by show FIRST ≤ 65536; unfold FIRST; omega,
      fun _ => ⟨by show MAXCODE INIT_BITS + 1 ≤ 65536; rw [hm9]; omega, le_refl _⟩,
      fun h => (by cases h), by show 9 ≤ INIT_BITS; unfold INIT_BITS; omega,
      by show INIT_BITS ≤ mb; unfold INIT_BITS; omega,
      Or.inl h256,
      by show 0 ≤ pad_to_group (s.outbits + s.n_bits) s.boff s.n_bits; omega, le_refl _,
      fun h => absurd h hent, fun h => absurd h hent⟩⟩,
      fun _ _ => by show FIRST < MAXCODE INIT_BITS + 1; rw [hm9]; unfold FIRST; omega,
      ⟨by show pad_to_group (s.outbits + s.n_bits) s.boff s.n_bits ≤ s.outbits + 144; omega,
       fun h => (by rw [h1.1] at h; cases h)⟩,
      fun _ h => (by cases h), rfl, rfl⟩
/-- What the flushing block does, by cases. -/
theorem flush_cases (B : Int) (s : CState) :
    (flush B s = s ∧ s.outbits < B * 8) ∨
    (s.outbits ≥ B * 8 ∧ flush B s =
      { s with written := s.written ++ bytes_of s.outbuf B,
               outbits := s.outbits - B * 8,
               boff := -(crem (B * 8 - s.boff) (s.n_bits * 8)),
               bytes_out := s.bytes_out + B,
               outbuf := fun j =>
                 if 0 ≤ j ∧ j < (s.outbits - B * 8) / 8 + 1 then s.outbuf (j + B)
                 else if (s.outbits - B * 8) / 8 + 1 ≤ j ∧ j < (s.outbits - B * 8) / 8 + 1 + B then 0
                 else s.outbuf j }) := by
  unfold flush
  by_cases h : s.outbits ≥ B * 8
  · right; rw [if_pos h]; exact ⟨h, rfl⟩
  · left; rw [if_neg h]; exact ⟨rfl, by omega⟩

theorem flush_boff (B o b n : Int) (hn : 9 ≤ n) (hbo : b ≤ o) (ho : B * 8 ≤ o) :
    -(crem (B * 8 - b) (n * 8)) ≤ o - B * 8 := by
  by_cases hc : b ≤ B * 8
  · have := Int.tmod_nonneg (n * 8) (show 0 ≤ B * 8 - b by omega)
    unfold crem; omega
  · rw [crem_nonpos _ _ (by omega) (by omega)]
    have := emod_le_self (-(B * 8 - b)) (n * 8) (by omega) (by omega)
    omega

theorem flush_cinv (B mb : Int) (hB : 256 ≤ B) (dict : List (Nat × Nat))
    (s : CState) (hb : CBase B mb dict s) :
    CBase B mb dict (flush B s) ∧
    (flush B s).outbits ≤ s.outbits ∧
    (s.outbits ≤ LIM B + 160 → (flush B s).outbits ≤ LIM B - 16) ∧
    (flush B s).free_ent = s.free_ent ∧ (flush B s).extcode = s.extcode ∧
    (flush B s).stcode = s.stcode ∧ (flush B s).checkpoint = s.checkpoint ∧
    (flush B s).bytes_in = s.bytes_in ∧ (flush B s).ent = s.ent ∧
    (flush B s).n_bits = s.n_bits := by
  rcases flush_cases B s with ⟨e, h⟩ | ⟨h, e⟩
  · rw [e]
    exact ⟨hb, le_refl _, fun _ => by unfold LIM; omega, rfl, rfl, rfl, rfl, rfl, rfl, rfl⟩
  · rw [e]
    have hbo := flush_boff B s.outbits s.boff s.n_bits hb.nb_lo hb.boff_le h
    refine ⟨⟨hb.tinv, hb.dlen, hb.fe_le, hb.fe_hi, hb.st_ext, hb.nst_ext, hb.nb_lo, hb.nb_hi,
      hb.ent_ok, by show 0 ≤ s.outbits - B * 8; omega, hbo,
      fun h' => by show s.outbits - B * 8 ≤ LIM B; have := hb.ob_ent h'; omega, hb.fe_ent⟩,
      by show s.outbits - B * 8 ≤ s.outbits; omega,
      fun h' => by show s.outbits - B * 8 ≤ LIM B - 16; unfold LIM at h' ⊢; omega,
      rfl, rfl, rfl, rfl, rfl, rfl, rfl⟩

/-- The number of bytes the budget block grants, and its bounds. -/
theorem budget_spec (B : Int) (hB : 1 ≤ B) (hB2 : B < 2 ^ 31) (s : CState)
    (hn9 : 9 ≤ s.n_bits) (hn16 : s.n_bits ≤ 16) (hlo : s.rlop < s.rsize)
    (hfe : s.free_ent < s.extcode) (hext : s.extcode ≤ 65536 + B) (hfe0 : 0 ≤ s.free_ent)
    (hob : s.outbits ≤ LIM B) (hob0 : 0 ≤ s.outbits) :
    ∃ i3 : Int, budget B s = { s with rlop := s.rlop + i3, bytes_in := s.bytes_in + i3 } ∧
      i3 ≤ s.rsize - s.rlop ∧ i3 ≤ s.extcode - s.free_ent ∧
      i3 * s.n_bits ≤ LIM B - s.outbits ∧
      (s.outbits ≤ LIM B - 16 → (s.stcode = false → s.bytes_in < s.checkpoint) → 1 ≤ i3) := by
  refine ⟨_, rfl, ?_⟩
  have e1 : ((B + 2048 - 32) * 8 - s.outbits) % 2 ^ 64 = LIM B - s.outbits := by
    unfold LIM at hob ⊢
    exact Int.emod_eq_of_lt (by omega) (by omega)
  have e2 : s.n_bits % 2 ^ 64 = s.n_bits := Int.emod_eq_of_lt (by omega) (by omega)
  have hlim := Int.ediv_mul_le (LIM B - s.outbits) (show s.n_bits ≠ 0 by omega)
  have hlim0 : 0 ≤ (LIM B - s.outbits) / s.n_bits := Int.ediv_nonneg (by omega) (by omega)
  have hlim1 : s.outbits ≤ LIM B - 16 → 1 ≤ (LIM B - s.outbits) / s.n_bits := by
    intro h
    have := Int.lt_ediv_add_one_mul_self (LIM B - s.outbits) (show 0 < s.n_bits by omega)
    by_contra hc
    have h0 : (LIM B - s.outbits) / s.n_bits = 0 := by omega
    rw [h0] at this
    omega
  simp only [e1, e2]
  generalize hl : (LIM B - s.outbits) / s.n_bits = lim at *
  generalize hi1 : (if s.rsize - s.rlop > s.extcode - s.free_ent then s.extcode - s.free_ent
    else s.rsize - s.rlop) = i1
  have hi1b : 1 ≤ i1 ∧ i1 ≤ s.rsize - s.rlop ∧ i1 ≤ s.extcode - s.free_ent := by
    rw [← hi1]; split_ifs <;> omega
  have e3 : i1 % 2 ^ 64 = i1 := Int.emod_eq_of_lt (by omega) (by omega)
  rw [e3]
  generalize hi2 : (if i1 > lim then lim else i1) = i2
  have hi2b : i2 ≤ i1 ∧ i2 ≤ lim ∧ (1 ≤ lim → 1 ≤ i2) := by
    rw [← hi2]; split_ifs <;> omega
  have hmul : ∀ i3 : Int, i3 ≤ lim → i3 * s.n_bits ≤ LIM B - s.outbits := by
    intro i3 h
    have := Int.mul_le_mul_of_nonneg_right h (show 0 ≤ s.n_bits by omega)
    omega
  split_ifs with hc
  · exact ⟨by omega, by omega, hmul _ (by omega), fun h1 h2 => by have := h2 hc.1; omega⟩
  · exact ⟨by omega, by omega, hmul _ (by omega), fun h1 _ => by have := hlim1 h1; omega⟩

theorem cbase_congr (B mb : Int) (dict : List (Nat × Nat)) (s s' : CState)
    (hb : CBase B mb dict s) (e1 : s'.htab = s.htab) (e2 : s'.codetab = s.codetab)
    (e3 : s'.free_ent = s.free_ent) (e4 : s'.extcode = s.extcode) (e5 : s'.stcode = s.stcode)
    (e6 : s'.n_bits = s.n_bits) (e7 : s'.ent = s.ent) (e8 : s'.outbits = s.outbits)
    (e9 : s'.boff = s.boff) : CBase B mb dict s' := by
  refine ⟨?_, ?_, ?_, ?_, ?_, ?_, ?_, ?_, ?_, ?_, ?_, ?_, ?_⟩
  · rw [e1, e2]; exact hb.tinv
  · rw [e3]; exact hb.dlen
  · rw [e3, e4]; exact hb.fe_le
  · rw [e3]; exact hb.fe_hi
  · rw [e5, e4, e6]; exact hb.st_ext
  · rw [e5, e4]; exact hb.nst_ext
  · rw [e6]; exact hb.nb_lo
  · rw [e6]; exact hb.nb_hi
  · rw [e7, e3]; exact hb.ent_ok
  · rw [e8]; exact hb.ob_nn
  · rw [e8, e9]; exact hb.boff_le
  · rw [e7, e8]; exact hb.ob_ent
  · rw [e7, e3, e4]; exact hb.fe_ent

theorem cbase_ext_le (B mb : Int) (hB : 1 ≤ B) (dict : List (Nat × Nat)) (s : CState)
    (hb : CBase B mb dict s) : s.extcode ≤ 65536 + B ∧ 257 ≤ s.free_ent := by
  have hm : MAXCODE 16 = 65536 := by decide
  have := hb.dlen
  cases hst : s.stcode with
  | true => have := (hb.st_ext hst).1; omega
  | false => have := hb.nst_ext hst; omega

/-- The head of the `do` loop establishes the invariant of the label `next`. -/
theorem cinv_top (B mb : Int) (hB : 256 ≤ B) (hB2 : B < 2 ^ 31) (hmb : mb ≤ 16)
    (pre chunk : List Nat) (dict : List (Nat × Nat)) (s : CState)
    (hb : CBase B mb dict s) (hr : RoundInv B pre chunk s) :
    ∃ dict', CBase B mb dict' (round_top B mb s) ∧
      NextInv B pre chunk s.rlop (round_top B mb s) := by
  obtain ⟨g1, g2, g3, g4, g5, g6, g7⟩ := grow_cinv B mb (by omega) hmb dict s hb
  obtain ⟨⟨dict', r1⟩, r2, ⟨r3, r3'⟩, r4, r5, r6⟩ := check_ratio_cinv B mb hmb dict _ g1
  obtain ⟨f1, f2, f3, f4, f5, f6, f7, f8, f9, f10⟩ := flush_cinv B mb hB dict' _ r1
  obtain ⟨fg1, fg2, fg3⟩ := grow_fields B mb s
  obtain ⟨fr1, fr2, fr3⟩ := check_ratio_fields (grow B mb s)
  obtain ⟨ff1, ff2, ff3⟩ := flush_fields B (check_ratio (grow B mb s))
  unfold round_top
  generalize hs3 : flush B (check_ratio (grow B mb s)) = s3 at *
  generalize hs2 : check_ratio (grow B mb s) = s2 at *
  generalize hs1 : grow B mb s = s1 at *
  have hrs : s3.rsize = s.rsize := by omega
  have hrp : s3.rpos = s.rpos := by omega
  have hrl : s3.rlop = s.rlop := by omega
  have hent : s3.ent = s.ent := by rw [f9, r5, g5]
  have hbi : s3.bytes_in = s.bytes_in := by rw [f8, r6, g6]
  have hohi := hr.ob_hi
  have hfree : s3.free_ent < s3.extcode := by
    by_cases he : (s.ent : Int) < FIRST
    · rw [f4, f5]; exact r2 (by rw [g5]; exact he) (g2 he)
    · exact f1.fe_ent (by rw [hent]; omega)
  have hlow : (s.ent : Int) < FIRST → s3.outbits ≤ LIM B - 16 := by
    intro he
    apply f3
    cases hst : s1.stcode with
    | true => have := r3' hst; omega
    | false => have := g4 hst; omega
  have hob : s3.outbits ≤ LIM B := by
    by_cases he : (s.ent : Int) < FIRST
    · have := hlow he; omega
    · exact f1.ob_ent (by rw [hent]; omega)
  have hcp : (s.ent : Int) < FIRST → s3.stcode = false → s3.bytes_in < s3.checkpoint := by
    intro he hst
    rw [f8, f7]
    exact r4 (by rw [g5]; exact he) (by rw [← f6]; exact hst)
  obtain ⟨hx1, hx2⟩ := cbase_ext_le B mb (by omega) dict' s3 f1
  have hn16 := f1.nb_hi
  obtain ⟨i3, e, b1, b2, b3, b4⟩ := budget_spec B (by omega) hB2 s3 f1.nb_lo (by omega)
    (by rw [hrs, hrl]; exact hr.rlop_lt) hfree hx1 (by omega) hob f1.ob_nn
  rw [e]
  refine ⟨dict', cbase_congr B mb dict' s3 _ f1 rfl rfl rfl rfl rfl rfl rfl rfl rfl, ?_⟩
  have h1 := hr.rlop_nn
  have h2 := hr.rlop_le
  have h3 := hr.rpos_le
  have hn9 := f1.nb_lo
  refine ⟨by show s3.outbits ≤ LIM B + 16; omega, by show s3.rsize = _; rw [hrs]; exact hr.rsize_eq,
    hr.bytes_ok, by show 0 ≤ s3.rpos; omega, by show s3.rpos ≤ s3.rsize; omega,
    by show s3.rlop + i3 ≤ s3.rsize; omega, h1, by show s.rlop ≤ s3.rpos; omega, ?_, ?_, ?_,
    by show s3.bytes_in + i3 = pre.length + (s3.rlop + i3); have := hr.bi; omega⟩
  · show s3.rpos < s3.rlop + i3 → s3.free_ent + (s3.rlop + i3 - s3.rpos) ≤ s3.extcode
    intro _; omega
  · show s3.rpos < s3.rlop + i3 → s3.outbits + (s3.rlop + i3 - s3.rpos) * s3.n_bits ≤ LIM B
    intro _
    have := Int.mul_le_mul_of_nonneg_right (show s3.rlop + i3 - s3.rpos ≤ i3 by omega)
      (show 0 ≤ s3.n_bits by omega)
    omega
  · by_cases he : (s.ent : Int) < FIRST
    · left
      show s.rlop < s3.rlop + i3
      have := b4 (hlow he) (hcp he)
      omega
    · right; right; right
      exact ⟨by show (s3.ent : Int) ≥ FIRST; rw [hent]; omega,
        by show s3.rpos < s3.rsize; have := hr.ent_pos (by omega); omega⟩
/-- What the block after `endlop` does. -/
theorem round_end_cases (s : CState) :
    (round_end s = s ∧ s.rpos ≤ s.rlop) ∨
    (s.rpos > s.rlop ∧
      round_end s = { s with bytes_in := s.bytes_in + (s.rpos - s.rlop), rlop := s.rpos }) := by
  unfold round_end
  by_cases h : s.rpos > s.rlop
  · right; rw [if_pos h]; exact ⟨h, rfl⟩
  · left; rw [if_neg h]; exact ⟨rfl, by omega⟩

/-- The end of a turn of the `do` loop: progress, and the invariant of what follows. -/
theorem cinv_end (B mb : Int) (pre chunk : List Nat) (r0 : Int) (dict : List (Nat × Nat))
    (s : CState) (hb : CBase B mb dict s) (hn : NextInv B pre chunk r0 s) (hc : ¬ scan_cond s) :
    CBase B mb dict (round_end s) ∧ r0 < (round_end s).rlop ∧
    (round_end s).outbits = s.outbits ∧
    (if (round_end s).rlop < (round_end s).rsize then RoundInv B pre chunk (round_end s)
     else (round_end s).bytes_in = ((pre ++ chunk).length : Int)) := by
  have hc1 : ¬ (s.rpos < s.rlop) := fun h => hc (Or.inl h)
  have hc2 : ¬ ((s.ent : Int) ≥ FIRST ∧ s.rpos < s.rsize) := fun h => hc (Or.inr h)
  have hprog : r0 < s.rlop ∨ r0 < s.rpos := by
    rcases hn.prog with h | h | h
    · exact Or.inl h
    · exact Or.inr h
    · exact absurd h hc
  have h1 := hn.rpos_nn
  have h2 := hn.rpos_le
  have h3 := hn.rlop_le
  have h4 := hn.r0_le
  have h5 := hn.bi
  have h6 := hn.rsize_eq
  have hlen : ((pre ++ chunk).length : Int) = pre.length + chunk.length := by
    rw [List.length_append]; push_cast; rfl
  rcases round_end_cases s with ⟨e, h⟩ | ⟨h, e⟩
  · rw [e]
    refine ⟨hb, by omega, rfl, ?_⟩
    split_ifs with hlt
    · exact ⟨hn.ob_hi, hn.rsize_eq, hn.bytes_ok, by omega, by omega, h2, hlt,
        fun he => by by_contra hx; exact hc2 ⟨he, by omega⟩, hn.bi⟩
    · omega
  · rw [e]
    refine ⟨cbase_congr B mb dict s _ hb rfl rfl rfl rfl rfl rfl rfl rfl rfl,
      by show r0 < s.rpos; omega, rfl, ?_⟩
    split_ifs with hlt
    · exact ⟨hn.ob_hi, hn.rsize_eq, hn.bytes_ok, h1, le_refl _, h2, hlt,
        fun _ => hlt, by show s.bytes_in + (s.rpos - s.rlop) = pre.length + s.rpos; omega⟩
    · have hlt' : ¬ (s.rpos < s.rsize) := hlt
      show s.bytes_in + (s.rpos - s.rlop) = _
      omega

/-- What the start of a buffer does. -/
theorem chunk_start_cases (s : CState) (chunk : List Nat) :
    (s.bytes_in = 0 ∧ chunk_start s chunk =
      { s with rsize := chunk.length, ent := chunk.getD 0 0, rpos := 1, rlop := 0 }) ∨
    (s.bytes_in ≠ 0 ∧ chunk_start s chunk = { s with rsize := chunk.length, rpos := 0, rlop := 0 }) := by
  unfold chunk_start
  by_cases h : s.bytes_in = 0
  · left; rw [if_pos h]; exact ⟨h, rfl⟩
  · right; rw [if_neg h]; exact ⟨h, rfl⟩

/-- A buffer just read starts the `do` loop with its invariant. -/
theorem cinv_start (B mb : Int) (pre chunk : List Nat) (dict : List (Nat × Nat)) (s : CState)
    (hb : CBase B mb dict s) (ho : s.outbits ≤ LIM B + 16) (hbi : s.bytes_in = pre.length)
    (hne : chunk ≠ []) (hby : ∀ b ∈ chunk, b < 256) :
    CBase B mb dict (chunk_start s chunk) ∧ RoundInv B pre chunk (chunk_start s chunk) := by
  have hlen : 0 < chunk.length := List.length_pos.mpr hne
  have hlen' : (0 : Int) < chunk.length := by exact_mod_cast hlen
  rcases chunk_start_cases s chunk with ⟨h, e⟩ | ⟨h, e⟩
  · rw [e]
    have h0 : chunk.getD 0 0 < 256 := by
      cases chunk with
      | nil => exact absurd rfl hne
      | cons x t => exact hby x (List.mem_cons_self _ _)
    have hF : ¬ (((chunk.getD 0 0 : Nat) : Int) ≥ FIRST) := by unfold FIRST; omega
    refine ⟨⟨hb.tinv, hb.dlen, hb.fe_le, hb.fe_hi, hb.st_ext, hb.nst_ext, hb.nb_lo, hb.nb_hi,
      Or.inl h0, hb.ob_nn, hb.boff_le, fun h' => absurd h' hF, fun h' => absurd h' hF⟩,
      ⟨ho, rfl, hby, le_refl _, by show (0 : Int) ≤ 1; omega,
        by show (1 : Int) ≤ chunk.length; omega, hlen', fun h' => absurd h' hF,
        by show s.bytes_in = pre.length + 0; omega⟩⟩
  · rw [e]
    exact ⟨cbase_congr B mb dict s _ hb rfl rfl rfl rfl rfl rfl rfl rfl rfl,
      ⟨ho, rfl, hby, le_refl _, le_refl _, by show (0 : Int) ≤ chunk.length; omega, hlen',
        fun _ => hlen', by show s.bytes_in = pre.length + 0; omega⟩⟩

theorem cbase_init (B mb : Int) (bm : Nat) (hB : 0 ≤ B) (h9 : 9 ≤ mb) :
    CBase B mb [] (compress_init mb bm) ∧ (compress_init mb bm).outbits ≤ LIM B + 16 := by
  have hm9 : MAXCODE INIT_BITS = 512 := by decide
  have hF : ¬ (((0 : Nat) : Int) ≥ FIRST) := by unfold FIRST; omega
  refine ⟨⟨tinv_empty _, by show ((0 : Nat) : Int) = FIRST - 257; unfold FIRST; rfl,
    by show FIRST ≤ MAXCODE INIT_BITS + 1; rw [hm9]; unfold FIRST; omega,
    by show FIRST ≤ 65536; unfold FIRST; omega,
    fun _ => ⟨by show MAXCODE INIT_BITS + 1 ≤ 65536; rw [hm9]; omega, le_refl _⟩,
    fun h => (by cases h), by show 9 ≤ INIT_BITS; unfold INIT_BITS; omega,
    by show INIT_BITS ≤ mb; unfold INIT_BITS; omega, Or.inl (by show 0 < 256; omega),
    by show (0 : Int) ≤ 3 * 8; omega, le_refl _, fun h => absurd h hF, fun h => absurd h hF⟩, ?_⟩
  show (3 * 8 : Int) ≤ LIM B + 16
  unfold LIM; omega

/-- The bytes of the buffer after `output`, when the three bytes it touches held
nothing at or beyond the offset. -/
theorem output_bytes (b : Int → Nat) (o : Int) (v : Nat) (n : Int)
    (hz : ∀ j, o ≤ 8 * j → b j = 0) (j : Int) :
    (output b o v n).1 j =
      if j = o / 8 + 2 then ((v <<< (o % 8).toNat) >>> 16) % 256
      else if j = o / 8 + 1 then ((v <<< (o % 8).toNat) >>> 8) % 256
      else if j = o / 8 then b (o / 8) ||| ((v <<< (o % 8).toNat) % 256)
      else b j := by
  have z1 : b (o / 8 + 1) = 0 := hz _ (by omega)
  have z2 : b (o / 8 + 2) = 0 := hz _ (by omega)
  unfold output upd
  simp only []
  by_cases h2 : j = o / 8 + 2
  · subst h2
    simp [z2]
  · by_cases h1 : j = o / 8 + 1
    · subst h1
      simp [z1]
    · by_cases h0 : j = o / 8
      · subst h0
        simp
      · simp [h0, h1, h2]
theorem shl_lt (v n k : Nat) (hv : v < 2 ^ n) : v <<< k < 2 ^ (n + k) := by
  rw [Nat.shiftLeft_eq, pow_add]
  exact Nat.mul_lt_mul_of_lt_of_le hv (le_refl _) (by positivity)

theorem shr_lt (x a b : Nat) (h : x < 2 ^ (a + b)) : x >>> b < 2 ^ a := by
  rw [Nat.shiftRight_eq_div_pow]
  apply Nat.div_lt_of_lt_mul
  rw [← pow_add, add_comm]; exact h

theorem testBit_lt_false (x k i : Nat) (h : x < 2 ^ k) (hi : k ≤ i) : x.testBit i = false :=
  Nat.testBit_lt_two_pow (lt_of_lt_of_le h (Nat.pow_le_pow_right (by decide) hi))

/-- The effect of `output` on a buffer that holds nothing at or beyond the offset. -/
theorem output_spec (b : Int → Nat) (o : Int) (v : Nat) (n : Int) (h0 : 0 ≤ o)
    (hn9 : 9 ≤ n) (hn16 : n ≤ 16) (hv : v < 2 ^ n.toNat)
    (hbytes : ∀ j, b j < 256) (hz : ∀ j, o ≤ 8 * j → b j = 0)
    (hp : b (o / 8) < 2 ^ (o % 8).toNat) :
    (∀ j, (output b o v n).1 j < 256) ∧
    (∀ j, o + n ≤ 8 * j → (output b o v n).1 j = 0) ∧
    (output b o v n).1 ((o + n) / 8) < 2 ^ ((o + n) % 8).toNat ∧
    (∀ j, j < o / 8 → (output b o v n).1 j = b j) ∧
    (∀ q, 0 ≤ q → q < o → bit_at (output b o v n).1 q = bit_at b q) ∧
    (∀ t : Nat, (t : Int) < n → bit_at (output b o v n).1 (o + t) = v.testBit t) := by
  obtain ⟨k, hk⟩ := Int.eq_ofNat_of_zero_le (show 0 ≤ o % 8 by omega)
  obtain ⟨m, hm⟩ := Int.eq_ofNat_of_zero_le (show 0 ≤ n by omega)
  have hk8 : k < 8 := by omega
  have hkk : (o % 8).toNat = k := by omega
  have hmm : n.toNat = m := by omega
  rw [hkk] at hp
  rw [hmm] at hv
  have hi := shl_lt v m k hv
  have e256 : (256 : Nat) = 2 ^ 8 := by norm_num
  have ob := output_bytes b o v n hz
  rw [hkk] at ob
  refine ⟨?_, ?_, ?_, ?_, ?_, ?_⟩
  · intro j
    rw [ob]
    split_ifs
    · exact Nat.mod_lt _ (by norm_num)
    · exact Nat.mod_lt _ (by norm_num)
    · rw [e256]
      exact Nat.or_lt_two_pow (by rw [← e256]; exact hbytes _) (Nat.mod_lt _ (by positivity))
    · exact hbytes j
  · intro j hj
    rw [ob]
    split_ifs with h2 h1 h0'
    · have : v <<< k < 2 ^ (0 + 16) :=
        lt_of_lt_of_le hi (Nat.pow_le_pow_right (by decide) (by omega))
      have := shr_lt _ 0 16 this
      simp only [pow_zero, Nat.lt_one_iff] at this
      rw [this]
    · omega
    · omega
    · exact hz j (by omega)
  · by_cases hc : m + k < 16
    · have e1 : (o + n) / 8 = o / 8 + 1 := by omega
      have e2 : ((o + n) % 8).toNat = m + k - 8 := by omega
      rw [e1, e2, ob, if_neg (by omega), if_pos rfl]
      have : v <<< k < 2 ^ ((m + k - 8) + 8) := by
        rw [show m + k - 8 + 8 = m + k by omega]; exact hi
      exact lt_of_le_of_lt (Nat.mod_le _ _) (shr_lt _ _ 8 this)
    · have e1 : (o + n) / 8 = o / 8 + 2 := by omega
      have e2 : ((o + n) % 8).toNat = m + k - 16 := by omega
      rw [e1, e2, ob, if_pos rfl]
      have : v <<< k < 2 ^ ((m + k - 16) + 16) := by
        rw [show m + k - 16 + 16 = m + k by omega]; exact hi
      exact lt_of_le_of_lt (Nat.mod_le _ _) (shr_lt _ _ 16 this)
  · intro j hj
    rw [ob, if_neg (by omega), if_neg (by omega), if_neg (by omega)]
  · intro q hq0 hq
    unfold bit_at
    rw [ob]
    by_cases hj : q / 8 = o / 8
    · rw [if_neg (by omega), if_neg (by omega), if_pos hj, hj]
      have hlt : (q % 8).toNat < k := by omega
      rw [e256, Nat.testBit_or, Nat.testBit_mod_two_pow, Nat.testBit_shiftLeft]
      have : ¬ ((q % 8).toNat ≥ k) := by omega
      simp [this]
    · rw [if_neg (by omega), if_neg (by omega), if_neg hj]
  · intro t ht
    unfold bit_at
    rw [ob]
    by_cases c1 : k + t < 8
    · have e1 : (o + t) / 8 = o / 8 := by omega
      have e2 : ((o + t) % 8).toNat = k + t := by omega
      rw [e1, e2, if_neg (by omega), if_neg (by omega), if_pos rfl]
      rw [e256, Nat.testBit_or, Nat.testBit_mod_two_pow, Nat.testBit_shiftLeft,
        testBit_lt_false _ k (k + t) hp (by omega)]
      simp [c1]
    · by_cases c2 : k + t < 16
      · have e1 : (o + t) / 8 = o / 8 + 1 := by omega
        have e2 : ((o + t) % 8).toNat = k + t - 8 := by omega
        rw [e1, e2, if_neg (by omega), if_pos rfl]
        rw [e256, Nat.testBit_mod_two_pow, Nat.testBit_shiftRight, Nat.testBit_shiftLeft]
        have a1 : k + t - 8 < 8 := by omega
        have a2 : 8 + (k + t - 8) ≥ k := by omega
        have a3 : 8 + (k + t - 8) - k = t := by omega
        simp [a1, a2, a3]
      · have e1 : (o + t) / 8 = o / 8 + 2 := by omega
        have e2 : ((o + t) % 8).toNat = k + t - 16 := by omega
        rw [e1, e2, if_pos rfl]
        rw [e256, Nat.testBit_mod_two_pow, Nat.testBit_shiftRight, Nat.testBit_shiftLeft]
        have a1 : k + t - 16 < 8 := by omega
        have a2 : 16 + (k + t - 16) ≥ k := by omega
        have a3 : 16 + (k + t - 16) - k = t := by omega
        simp [a1, a2, a3]

/-- The code `input` reads at an offset is the code whose bits stand there. -/
theorem input_bits (b : Int → Nat) (o n : Int) (v : Nat) (h0 : 0 ≤ o) (hn9 : 9 ≤ n)
    (hn16 : n ≤ 16) (hb0 : b (o / 8) < 256) (hb1 : b (o / 8 + 1) < 256)
    (hv : v < 2 ^ n.toNat)
    (h : ∀ t : Nat, (t : Int) < n → bit_at b (o + t) = v.testBit t) :
    input b o (2 ^ n.toNat - 1) = v := by
  obtain ⟨k, hk⟩ := Int.eq_ofNat_of_zero_le (show 0 ≤ o % 8 by omega)
  obtain ⟨m, hm⟩ := Int.eq_ofNat_of_zero_le (show 0 ≤ n by omega)
  have hk8 : k < 8 := by omega
  have hkk : (o % 8).toNat = k := by omega
  have hmm : n.toNat = m := by omega
  rw [hmm] at hv
  unfold input
  simp only [two_pow_toNat, hkk, hmm]
  congr 1
  apply Nat.eq_of_testBit_eq
  intro i
  simp only [Nat.testBit_and, Nat.testBit_shiftRight, Nat.testBit_or, Nat.testBit_shiftLeft,
    Nat.testBit_two_pow_sub_one]
  by_cases hi : i < m
  · have hbit := h i (by omega)
    unfold bit_at at hbit
    rw [← hbit]
    by_cases c1 : k + i < 8
    · have e1 : (o + i) / 8 = o / 8 := by omega
      have e2 : ((o + i) % 8).toNat = k + i := by omega
      rw [e1, e2]
      have a1 : ¬ (k + i ≥ 8) := by omega
      have a2 : ¬ (k + i ≥ 16) := by omega
      simp [a1, a2, hi]
    · by_cases c2 : k + i < 16
      · have e1 : (o + i) / 8 = o / 8 + 1 := by omega
        have e2 : ((o + i) % 8).toNat = k + i - 8 := by omega
        rw [e1, e2]
        have a1 : k + i ≥ 8 := by omega
        have a2 : ¬ (k + i ≥ 16) := by omega
        have a3 := testBit_lt_false (b (o / 8)) 8 (k + i) hb0 (by omega)
        simp [a1, a2, a3, hi]
      · have e1 : (o + i) / 8 = o / 8 + 2 := by omega
        have e2 : ((o + i) % 8).toNat = k + i - 16 := by omega
        rw [e1, e2]
        have a1 : k + i ≥ 8 := by omega
        have a2 : k + i ≥ 16 := by omega
        have a3 := testBit_lt_false (b (o / 8)) 8 (k + i) hb0 (by omega)
        have a4 := testBit_lt_false (b (o / 8 + 1)) 8 (k + i - 8) hb1 (by omega)
        simp [a1, a2, a3, a4, hi]
  · have := testBit_lt_false v m i hv (by omega)
    simp [hi, this]

/-- The macro `output` leaves every bit below the offset as it was. -/
theorem output_low (b : Int → Nat) (o : Int) (v : Nat) (n : Int) (h0 : 0 ≤ o) :
    (∀ j, j < o / 8 → (output b o v n).1 j = b j) ∧
    (∀ q, 0 ≤ q → q < o → bit_at (output b o v n).1 q = bit_at b q) := by
  have hlow : ∀ j, j < o / 8 → (output b o v n).1 j = b j := by
    intro j hj
    unfold output upd
    simp only []
    rw [if_neg (by omega), if_neg (by omega), if_neg (by omega)]
  have hp : (output b o v n).1 (o / 8) = b (o / 8) ||| ((v <<< (o % 8).toNat) % 256) := by
    unfold output upd
    simp
  refine ⟨hlow, ?_⟩
  intro q hq0 hq
  unfold bit_at
  by_cases hj : q / 8 = o / 8
  · rw [hj, hp]
    have e256 : (256 : Nat) = 2 ^ 8 := by norm_num
    rw [e256, Nat.testBit_or, Nat.testBit_mod_two_pow, Nat.testBit_shiftLeft]
    have : ¬ ((q % 8).toNat ≥ (o % 8).toNat) := by omega
    simp [this]
  · rw [hlow _ (by omega)]

theorem Ext.refl (s : CState) : Ext s s := ⟨le_refl _, fun _ _ _ => rfl, fun _ _ _ => rfl⟩

theorem Ext.trans {s1 s2 s3 : CState} (h1 : Ext s1 s2) (h2 : Ext s2 s3) : Ext s1 s3 :=
  ⟨le_trans h1.1 h2.1,
   fun i hi hl => (h2.2.1 i hi (by have := h1.1; omega)).trans (h1.2.1 i hi hl),
   fun q hq hl => (h2.2.2 q hq (by have := h1.1; omega)).trans (h1.2.2 q hq hl)⟩

theorem stream_of_ge (s : CState) (i : Int) (h : (s.written.length : Int) ≤ i) :
    stream s i = s.outbuf (i - s.written.length) := by
  unfold stream; rw [if_neg (by omega)]

theorem stream_of_lt (s : CState) (i : Int) (h : i < (s.written.length : Int)) :
    stream s i = s.written.getD i.toNat 0 := by
  unfold stream; rw [if_pos h]

/-- A change of `outbuf` that keeps the bits below `outbits` continues the output. -/
theorem ext_of_outbuf (s s' : CState) (e1 : s'.written = s.written) (h0 : 0 ≤ s.outbits)
    (hle : s.outbits ≤ s'.outbits) (hb : ∀ j, j < s.outbits / 8 → s'.outbuf j = s.outbuf j)
    (hq : ∀ q, 0 ≤ q → q < s.outbits → bit_at s'.outbuf q = bit_at s.outbuf q) : Ext s s' := by
  refine ⟨by unfold Labs; rw [e1]; omega, ?_, ?_⟩
  · intro i hi hl
    unfold Labs at hl
    by_cases hw : i < (s.written.length : Int)
    · rw [stream_of_lt s i hw, stream_of_lt s' i (by rw [e1]; exact hw), e1]
    · rw [stream_of_ge s i (by omega), stream_of_ge s' i (by rw [e1]; omega), e1]
      exact hb _ (by omega)
  · intro q hq0 hl
    unfold Labs at hl
    unfold bit_at
    by_cases hw : q / 8 < (s.written.length : Int)
    · rw [stream_of_lt s _ hw, stream_of_lt s' _ (by rw [e1]; exact hw), e1]
    · rw [stream_of_ge s _ (by omega), stream_of_ge s' _ (by rw [e1]; omega), e1]
      have := hq (q - 8 * s.written.length) (by omega) (by omega)
      unfold bit_at at this
      rw [show (q - 8 * (s.written.length : Int)) / 8 = q / 8 - s.written.length by omega,
        show (q - 8 * (s.written.length : Int)) % 8 = q % 8 by omega] at this
      exact this

theorem hdr_of_ext (mb : Int) (bm : Nat) (s s' : CState) (h : Hdr mb bm s) (he : Ext s s')
    (h0 : 0 ≤ s'.outbits) : Hdr mb bm s' := by
  have hl := h.len
  have e := he.2.1
  exact ⟨by have := he.1; omega, h0, (e 0 (by omega) (by omega)).trans h.b0,
    (e 1 (by omega) (by omega)).trans h.b1, (e 2 (by omega) (by omega)).trans h.b2⟩

theorem ext_of_eq (s s' : CState) (e1 : s'.written = s.written) (e2 : s'.outbuf = s.outbuf)
    (e3 : s'.outbits = s.outbits) : Ext s s' := by
  refine ⟨by unfold Labs; rw [e1, e3], ?_, ?_⟩
  · intro i _ _; unfold stream; rw [e1, e2]
  · intro q _ _; unfold bit_at stream; rw [e1, e2]

theorem ext_hit (s : CState) (c code : Nat) : Ext s (hit_state s c code) :=
  ext_of_eq s _ rfl rfl rfl

theorem miss_state_out (s : CState) (c : Nat) (hp : Int) :
    (miss_state s c hp).written = s.written ∧
    (miss_state s c hp).outbuf = (output s.outbuf s.outbits s.ent s.n_bits).1 ∧
    (miss_state s c hp).outbits = s.outbits + s.n_bits ∧
    (miss_state s c hp).boff = s.boff ∧ (miss_state s c hp).n_bits = s.n_bits := by
  unfold miss_state
  simp only []
  split <;> exact ⟨rfl, rfl, rfl, rfl, rfl⟩

theorem ext_emit (s s' : CState) (v : Nat) (n : Int) (h0 : 0 ≤ s.outbits)
    (e1 : s'.written = s.written) (e2 : s'.outbuf = (output s.outbuf s.outbits v n).1)
    (hle : s.outbits ≤ s'.outbits) : Ext s s' := by
  obtain ⟨a, b⟩ := output_low s.outbuf s.outbits v n h0
  exact ext_of_outbuf s s' e1 h0 hle (by rw [e2]; exact a) (by rw [e2]; exact b)

theorem ext_miss (s : CState) (c : Nat) (hp : Int) (h0 : 0 ≤ s.outbits) (hn : 0 ≤ s.n_bits) :
    Ext s (miss_state s c hp) := by
  obtain ⟨e1, e2, e3, _, _⟩ := miss_state_out s c hp
  exact ext_emit s _ s.ent s.n_bits h0 e1 e2 (by omega)

theorem ext_grow (B mb : Int) (s : CState) (h0 : 0 ≤ s.outbits) (hb : s.boff ≤ s.outbits)
    (hn : 1 ≤ s.n_bits) : Ext s (grow B mb s) := by
  rcases grow_cases B mb s with ⟨e, _⟩ | ⟨_, _, _, e⟩ | ⟨_, _, _, e⟩
  · rw [e]; exact Ext.refl s
  · rw [e]
    exact ext_of_outbuf s _ rfl h0 (pad_ge s.outbits s.boff s.n_bits hn hb)
      (fun _ _ => rfl) (fun _ _ _ => rfl)
  · rw [e]; exact ext_of_eq s _ rfl rfl rfl

theorem ext_check_ratio (s : CState) (h0 : 0 ≤ s.outbits) (hb : s.boff ≤ s.outbits)
    (hn : 1 ≤ s.n_bits) : Ext s (check_ratio s) := by
  rcases check_ratio_cases s with ⟨e, _⟩ | ⟨_, rat, e⟩ | ⟨_, e⟩
  · rw [e]; exact Ext.refl s
  · rw [e]; exact ext_of_eq s _ rfl rfl rfl
  · rw [e]
    have := pad_ge (s.outbits + s.n_bits) s.boff s.n_bits hn (by omega)
    exact ext_emit s _ CLEAR.toNat s.n_bits h0 rfl rfl
      (by show s.outbits ≤ pad_to_group (s.outbits + s.n_bits) s.boff s.n_bits; omega)

theorem bytes_of_getD (b : Int → Nat) (n : Int) (i : Nat) (h : (i : Int) < n) :
    (bytes_of b n).getD i 0 = b i := by
  unfold bytes_of
  rw [List.getD_eq_getElem?_getD, List.getElem?_map, List.getElem?_range (by omega)]
  rfl

theorem bytes_of_length (b : Int → Nat) (n : Int) : (bytes_of b n).length = n.toNat := by
  unfold bytes_of; simp

/-- The flushing block keeps every byte of the output so far in its place. -/
theorem stream_flush (B : Int) (hB : 0 ≤ B) (s : CState) (h : s.outbits ≥ B * 8) (i : Int)
    (hi : 0 ≤ i) (hl : 8 * i < Labs s) : stream (flush B s) i = stream s i := by
  rcases flush_cases B s with ⟨_, h'⟩ | ⟨_, e⟩
  · omega
  rw [e]
  unfold Labs at hl
  have hlen : ((s.written ++ bytes_of s.outbuf B).length : Int) = s.written.length + B := by
    rw [List.length_append, bytes_of_length]; push_cast; omega
  by_cases h1 : i < (s.written.length : Int)
  · rw [stream_of_lt s i h1, stream_of_lt _ i (by show i < ((s.written ++ bytes_of s.outbuf B).length : Int); omega)]
    show (s.written ++ bytes_of s.outbuf B).getD i.toNat 0 = _
    rw [List.getD_append _ _ _ _ (by omega)]
  · rw [stream_of_ge s i (by omega)]
    by_cases h2 : i < (s.written.length : Int) + B
    · rw [stream_of_lt _ i (by show i < ((s.written ++ bytes_of s.outbuf B).length : Int); omega)]
      show (s.written ++ bytes_of s.outbuf B).getD i.toNat 0 = _
      rw [List.getD_append_right _ _ _ _ (by omega), bytes_of_getD _ _ _ (by omega)]
      congr 1; omega
    · rw [stream_of_ge _ i (by show ((s.written ++ bytes_of s.outbuf B).length : Int) ≤ i; omega)]
      show (if 0 ≤ i - ((s.written ++ bytes_of s.outbuf B).length : Int) ∧
          i - ((s.written ++ bytes_of s.outbuf B).length : Int) < (s.outbits - B * 8) / 8 + 1 then
          s.outbuf (i - ((s.written ++ bytes_of s.outbuf B).length : Int) + B) else _) = _
      rw [if_pos (by rw [hlen]; omega)]
      congr 1; rw [hlen]; omega

theorem ext_flush (B : Int) (hB : 0 ≤ B) (s : CState) (h0 : 0 ≤ s.outbits) :
    Ext s (flush B s) ∧ Labs (flush B s) = Labs s := by
  rcases flush_cases B s with ⟨e, _⟩ | ⟨h, e⟩
  · rw [e]; exact ⟨Ext.refl s, rfl⟩
  · have hL : Labs (flush B s) = Labs s := by
      rw [e]; unfold Labs
      show 8 * ((s.written ++ bytes_of s.outbuf B).length : Int) + (s.outbits - B * 8) = _
      rw [List.length_append, bytes_of_length]; push_cast; omega
    refine ⟨⟨by omega, fun i hi hl => stream_flush B hB s h i hi (by omega), ?_⟩, hL⟩
    intro q hq hl
    unfold bit_at
    rw [stream_flush B hB s h (q / 8) (by omega) (by omega)]

theorem ext_budget (B : Int) (s : CState) : Ext s (budget B s) :=
  ext_of_eq s _ rfl rfl rfl

theorem ext_round_end (s : CState) : Ext s (round_end s) := by
  rcases round_end_cases s with ⟨e, _⟩ | ⟨_, e⟩
  · rw [e]; exact Ext.refl s
  · rw [e]; exact ext_of_eq s _ rfl rfl rfl

theorem ext_chunk_start (s : CState) (chunk : List Nat) : Ext s (chunk_start s chunk) := by
  rcases chunk_start_cases s chunk with ⟨_, e⟩ | ⟨_, e⟩ <;> rw [e] <;> exact ext_of_eq s _ rfl rfl rfl

theorem ext_round_top (B mb : Int) (hB : 256 ≤ B) (hmb : mb ≤ 16) (dict : List (Nat × Nat))
    (s : CState) (hb : CBase B mb dict s) : Ext s (round_top B mb s) := by
  obtain ⟨g1, _⟩ := grow_cinv B mb (by omega) hmb dict s hb
  obtain ⟨⟨dict', r1⟩, _⟩ := check_ratio_cinv B mb hmb dict _ g1
  have hn := hb.nb_lo
  have hn1 := g1.nb_lo
  unfold round_top
  exact (((ext_grow B mb s hb.ob_nn hb.boff_le (by omega)).trans
    (ext_check_ratio _ g1.ob_nn g1.boff_le (by omega))).trans
    (ext_flush B (by omega) _ r1.ob_nn).1).trans (ext_budget B _)

theorem hdr_init (mb : Int) (bm : Nat) : Hdr mb bm (compress_init mb bm) := by
  refine ⟨by unfold Labs compress_init; simp, by unfold compress_init; simp, ?_, ?_, ?_⟩ <;>
    simp [stream, compress_init, upd]

/-- On every input `compress` runs to its end; the invariant holds there, and the
output starts with the header. -/
theorem reads_total (B mb : Int) (bm : Nat) (input : List Nat) (hB : 256 ≤ B)
    (hB2 : B < 2 ^ 31) (h9 : 9 ≤ mb) (h16 : mb ≤ 16) (hin : ∀ b ∈ input, b < 256) :
    ∃ s dict, reads B mb (input.length + 1) (compress_init mb bm) input = some s ∧
      CInv B mb (Point.between input) dict s ∧ Hdr mb bm s := by
  have key := compress_rule B mb (by omega)
    (fun pt s => ∃ dict, CInv B mb pt dict s ∧ Hdr mb bm s) ?_ ?_ ?_ ?_ ?_ ?_ input []
    (compress_init mb bm) hin ?_
  · obtain ⟨s, h1, dict, h2, h3⟩ := key
    exact ⟨s, dict, by simpa using h1, by simpa using h2, h3⟩
  · rintro pre chunk s ⟨dict, ⟨hb, ho, hbi⟩, hh⟩ hne _ hby
    obtain ⟨c1, c2⟩ := cinv_start B mb pre chunk dict s hb ho hbi hne hby
    exact ⟨dict, ⟨c1, c2⟩, hdr_of_ext mb bm _ _ hh (ext_chunk_start s chunk) c1.ob_nn⟩
  · rintro pre chunk s ⟨dict, ⟨hb, hr⟩, hh⟩
    obtain ⟨dict', c1, c2⟩ := cinv_top B mb hB hB2 h16 pre chunk dict s hb hr
    exact ⟨dict', ⟨c1, c2⟩, hdr_of_ext mb bm _ _ hh (ext_round_top B mb hB h16 dict s hb) c1.ob_nn⟩
  · rintro pre chunk r0 s ⟨dict, ⟨hb, hn⟩, hh⟩ hc
    have hlt := chunk_buf_lt chunk hn.bytes_ok s.rpos
    rcases byte_step_spec B mb (chunk_buf chunk) dict s hb hlt with ⟨j, hj, e⟩ | ⟨_, hp, _, e, hti⟩
    · have hjl : j < dict.length := by
        rcases Nat.lt_or_ge j dict.length with h | h
        · exact h
        · rw [List.getElem?_eq_none h] at hj; cases hj
      obtain ⟨c1, c2⟩ := cinv_hit B mb pre chunk r0 dict s (chunk_buf chunk s.rpos) j hb hn hc hjl
      exact ⟨_, e, dict, ⟨c1, c2⟩, hdr_of_ext mb bm _ _ hh (ext_hit _ _ _) c1.ob_nn⟩
    · obtain ⟨c1, c2⟩ := cinv_miss B mb h16 pre chunk r0 dict s (chunk_buf chunk s.rpos) hp hlt
        hb hn hc hti
      have := hb.nb_lo
      exact ⟨_, e, _, ⟨c1, c2⟩,
        hdr_of_ext mb bm _ _ hh (ext_miss _ _ _ hb.ob_nn (by omega)) c1.ob_nn⟩
  · rintro pre chunk r0 s ⟨dict, ⟨hb, hn⟩, hh⟩ hc
    obtain ⟨c1, c2, c3, c4⟩ := cinv_end B mb pre chunk r0 dict s hb hn hc
    refine ⟨c2, ?_⟩
    have hh' := hdr_of_ext mb bm _ _ hh (ext_round_end s) c1.ob_nn
    split_ifs with hlt
    · rw [if_pos hlt] at c4; exact ⟨dict, ⟨c1, c4⟩, hh'⟩
    · rw [if_neg hlt] at c4
      exact ⟨dict, ⟨c1, by rw [c3]; exact hn.ob_hi, c4⟩, hh'⟩
  · rintro pre chunk r0 s ⟨dict, ⟨hb, hn⟩, hh⟩ hc
    exact scan_cond_lt B pre chunk r0 s hn hc
  · rintro pre chunk s ⟨dict, ⟨hb, hr⟩, hh⟩
    exact ⟨hr.rsize_eq, hr.rlop_nn⟩
  · obtain ⟨c1, c2⟩ := cbase_init B mb bm (by omega) h9
    exact ⟨[], ⟨c1, c2, rfl⟩, hdr_init mb bm⟩

theorem last_code_cases (s : CState) :
    (last_code s = s ∧ ¬ s.bytes_in > 0) ∨
    (s.bytes_in > 0 ∧ last_code s =
      { s with outbuf := (output s.outbuf s.outbits s.ent s.n_bits).1,
               outbits := s.outbits + s.n_bits }) := by
  unfold last_code
  by_cases h : s.bytes_in > 0
  · right; rw [if_pos h]; exact ⟨h, rfl⟩
  · left; rw [if_neg h]; exact ⟨rfl, h⟩

theorem ext_last_code (s : CState) (h0 : 0 ≤ s.outbits) (hn : 0 ≤ s.n_bits) :
    Ext s (last_code s) ∧ 0 ≤ (last_code s).outbits := by
  rcases last_code_cases s with ⟨e, _⟩ | ⟨_, e⟩
  · rw [e]; exact ⟨Ext.refl s, h0⟩
  · rw [e]
    exact ⟨ext_emit s _ s.ent s.n_bits h0 rfl rfl (by show s.outbits ≤ s.outbits + s.n_bits; omega),
      by show 0 ≤ s.outbits + s.n_bits; omega⟩

theorem file_length (s : CState) (h0 : 0 ≤ s.outbits) :
    ((last_write s).written.length : Int) = s.written.length + (s.outbits + 7) / 8 := by
  unfold last_write
  simp only [List.length_append, bytes_of_length]
  push_cast
  omega

theorem file_getD (s : CState) (i : Nat)
    (hi : (i : Int) < s.written.length + (s.outbits + 7) / 8) :
    (last_write s).written.getD i 0 = stream s i := by
  unfold last_write
  simp only []
  by_cases h1 : i < s.written.length
  · rw [List.getD_append _ _ _ _ h1, stream_of_lt s i (by omega)]
    rfl
  · rw [List.getD_append_right _ _ _ _ (by omega), bytes_of_getD _ _ _ (by omega),
      stream_of_ge s i (by omega)]
    congr 1; omega

theorem take_three (l : List Nat) (h : 3 ≤ l.length) :
    l.take 3 = [l.getD 0 0, l.getD 1 0, l.getD 2 0] := by
  match l, h with
  | a :: b :: c :: t, _ => rfl

theorem compress_eq (B mb : Int) (bm : Nat) (input : List Nat) (s : CState)
    (h : reads B mb (input.length + 1) (compress_init mb bm) input = some s) :
    compress B mb bm input = some (last_write (last_code s)).written := by
  unfold compress compress_state
  rw [h]; rfl

/-- The output of `compress` starts with the three header bytes. -/
theorem compress_header (B mb : Int) (bm : Nat) (input : List Nat) (hB : 256 ≤ B)
    (hB2 : B < 2 ^ 31) (h9 : 9 ≤ mb) (h16 : mb ≤ 16) (hin : ∀ b ∈ input, b < 256) :
    ∃ F, compress B mb bm input = some F ∧
      F.take 3 = [MAGIC_1, MAGIC_2, (mb.toNat ||| bm) % 256] := by
  obtain ⟨s, dict, hr, hc, hh⟩ := reads_total B mb bm input hB hB2 h9 h16 hin
  have hb : CBase B mb dict s := hc.1
  have hn := hb.nb_lo
  obtain ⟨he, h0⟩ := ext_last_code s hb.ob_nn (by omega)
  have hh' := hdr_of_ext mb bm _ _ hh he h0
  have hl := hh'.len
  unfold Labs at hl
  have hlen := file_length (last_code s) h0
  refine ⟨_, compress_eq B mb bm input s hr, ?_⟩
  rw [take_three _ (by omega), file_getD _ 0 (by push_cast; omega),
    file_getD _ 1 (by push_cast; omega), file_getD _ 2 (by push_cast; omega)]
  have e0 := hh'.b0
  have e1 := hh'.b1
  have e2 := hh'.b2
  simp only [Nat.cast_zero, Nat.cast_one, Nat.cast_ofNat] at *
  rw [e0, e1, e2]

/-- The state of `compress` after the only turn of its loops on a one-byte input. -/
theorem reads_single (B mb : Int) (bm x : Nat) (hB : 256 ≤ B) (hB2 : B < 2 ^ 31) (hx : x < 256) :
    reads B mb 2 (compress_init mb bm) [x] =
      some { compress_init mb bm with rsize := 1, ent := x, rpos := 1, rlop := 1, bytes_in := 1 } := by
  have hm9 : MAXCODE INIT_BITS = 512 := by decide
  have hB1 : 1 ≤ B.toNat := by omega
  have htake : [x].take B.toNat = [x] := by
    apply List.take_of_length_le; simp; omega
  have hdrop : [x].drop B.toNat = [] := by
    apply List.drop_eq_nil_of_le; simp; omega
  have e0 : chunk_start (compress_init mb bm) [x] =
      { compress_init mb bm with rsize := 1, ent := x, rpos := 1, rlop := 0 } := by
    rcases chunk_start_cases (compress_init mb bm) [x] with ⟨_, e⟩ | ⟨h, _⟩
    · rw [e]; rfl
    · exact absurd rfl h
  generalize hs1 : ({ compress_init mb bm with rsize := 1, ent := x, rpos := 1, rlop := 0 } : CState)
    = s1 at e0
  have f1 : s1.free_ent = 257 := by subst hs1; rfl
  have f2 : s1.extcode = 513 := by subst hs1; show MAXCODE INIT_BITS + 1 = 513; rw [hm9]; rfl
  have f3 : s1.stcode = true := by subst hs1; rfl
  have f4 : s1.outbits = 24 := by subst hs1; show (3 * 8 : Int) = 24; norm_num
  have f5 : s1.rsize = 1 := by subst hs1; show (([x].length : Nat) : Int) = 1; simp
  have f6 : s1.rlop = 0 := by subst hs1; rfl
  have f7 : s1.n_bits = 9 := by subst hs1; show INIT_BITS = 9; rfl
  have f8 : s1.bytes_in = 0 := by subst hs1; rfl
  have f9 : s1.rpos = 1 := by subst hs1; rfl
  have f10 : s1.ent = x := by subst hs1; rfl
  have g1 : grow B mb s1 = s1 := by
    rcases grow_cases B mb s1 with ⟨e, _⟩ | ⟨h, _⟩ | ⟨h, _⟩
    · exact e
    · omega
    · omega
  have g2 : check_ratio s1 = s1 := by
    rcases check_ratio_cases s1 with ⟨e, _⟩ | ⟨h, _⟩ | ⟨h, _⟩
    · exact e
    · rw [f3] at h; exact absurd h.1 (by decide)
    · rw [f3] at h; exact absurd h.1 (by decide)
  have g3 : flush B s1 = s1 := by
    rcases flush_cases B s1 with ⟨e, _⟩ | ⟨h, _⟩
    · exact e
    · omega
  obtain ⟨i3, g4, b1, _, _, b4⟩ := budget_spec B (by omega) hB2 s1 (by omega) (by omega)
    (by omega) (by omega) (by omega) (by omega) (by unfold LIM; omega) (by omega)
  have hi3 : i3 = 1 := by
    have := b4 (by unfold LIM; omega) (fun h => by rw [f3] at h; cases h)
    omega
  subst hi3
  have e1 : round_top B mb s1 = { s1 with rlop := 1, bytes_in := 1 } := by
    unfold round_top
    rw [g1, g2, g3, g4, f6, f8]; rfl
  have hsc : ¬ scan_cond { s1 with rlop := 1, bytes_in := 1 } := by
    unfold scan_cond
    show ¬ (s1.rpos < 1 ∨ ((s1.ent : Int) ≥ FIRST ∧ s1.rpos < s1.rsize))
    rw [f9, f5]; omega
  have e2 : round_end { s1 with rlop := 1, bytes_in := 1 } = { s1 with rlop := 1, bytes_in := 1 } := by
    rcases round_end_cases { s1 with rlop := 1, bytes_in := 1 } with ⟨e, _⟩ | ⟨h, _⟩
    · exact e
    · have h' : s1.rpos > 1 := h
      omega
  have e3 : rounds B mb (chunk_buf [x]) 2 s1 = some { s1 with rlop := 1, bytes_in := 1 } := by
    unfold rounds
    simp only [e1]
    have : ({ s1 with rlop := 1, bytes_in := 1 } : CState).rsize -
        ({ s1 with rlop := 1, bytes_in := 1 } : CState).rpos = 0 := by
      show s1.rsize - s1.rpos = 0; omega
    rw [this]
    show (match scan (chunk_buf [x]) 0 { s1 with rlop := 1, bytes_in := 1 } with
      | none => none
      | some s2 => if (round_end s2).rlop < (round_end s2).rsize then
          rounds B mb (chunk_buf [x]) 1 (round_end s2) else some (round_end s2)) = _
    have hscan : scan (chunk_buf [x]) 0 { s1 with rlop := 1, bytes_in := 1 } =
        some { s1 with rlop := 1, bytes_in := 1 } := by
      unfold scan; rw [if_neg hsc]
    rw [hscan]
    simp only [e2]
    rw [if_neg (by show ¬ ((1 : Int) < s1.rsize); omega)]
  unfold reads
  simp only [htake, hdrop, List.length_singleton, e0]
  rw [if_neg (by decide), e3]
  simp only []
  unfold reads
  simp only [List.take_nil, List.length_nil, if_true]
  rw [← hs1]

theorem single_file (mb : Int) (bm x : Nat) (hx : x < 256) :
    (last_write (last_code
      { compress_init mb bm with rsize := 1, ent := x, rpos := 1, rlop := 1, bytes_in := 1 })).written
    = [MAGIC_1, MAGIC_2, (mb.toNat ||| bm) % 256, x, 0] := by
  have e1 : x <<< 0 = x := rfl
  have e2 : x % 256 = x := Nat.mod_eq_of_lt hx
  have e3 : (x >>> 8) % 256 = 0 := by
    rw [Nat.shiftRight_eq_div_pow]
    have : x / 2 ^ 8 = 0 := Nat.div_eq_of_lt (by omega)
    rw [this]
  simp [last_write, last_code, compress_init, bytes_of, output, upd, INIT_BITS, List.range_succ,
    e2, e3]

theorem header_byte (mb : Int) (bm : Nat) (h9 : 9 ≤ mb) (h16 : mb ≤ 16)
    (hbm : bm = 0 ∨ bm = BLOCK_MODE) :
    (mb.toNat ||| bm) % 256 = mb.toNat ||| bm ∧ (mb.toNat ||| bm) &&& 0x60 = 0 ∧
    (mb.toNat ||| bm) &&& BIT_MASK = mb.toNat ∧ (mb.toNat ||| bm) &&& BLOCK_MODE = bm := by
  obtain ⟨m, hm⟩ := Int.eq_ofNat_of_zero_le (show 0 ≤ mb by omega)
  subst hm
  have h1 : 9 ≤ m := by omega
  have h2 : m ≤ 16 := by omega
  simp only [Int.toNat_ofNat]
  rcases hbm with rfl | rfl <;> interval_cases m <;> decide

theorem expandR_lit (d : List (Nat × Nat)) (v : Nat) (hv : v < 257) : expandR d v = [v] := by
  induction d with
  | nil => rfl
  | cons x t ih =>
    obtain ⟨e, c⟩ := x
    unfold expandR
    rw [if_neg (by omega)]
    exact ih

theorem expand_lit (dict : List (Nat × Nat)) (v : Nat) (hv : v < 257) : expand dict v = [v] :=
  expandR_lit _ v hv

theorem expand_snoc (dict : List (Nat × Nat)) (x : Nat × Nat) (v : Nat)
    (hv : v ≠ 257 + dict.length) : expand (dict ++ [x]) v = expand dict v := by
  obtain ⟨e, c⟩ := x
  unfold expand
  rw [List.reverse_append, List.reverse_singleton, List.singleton_append]
  show (if v = 257 + dict.reverse.length then _ else _) = _
  rw [List.length_reverse, if_neg hv]

theorem expand_last (dict : List (Nat × Nat)) (e c : Nat) :
    expand (dict ++ [(e, c)]) (257 + dict.length) = expand dict e ++ [c] := by
  unfold expand
  rw [List.reverse_append, List.reverse_singleton, List.singleton_append]
  show (if 257 + dict.length = 257 + dict.reverse.length then _ else _) = _
  rw [List.length_reverse, if_pos rfl]

theorem dictOK_snoc (dict : List (Nat × Nat)) (e c : Nat) (h : DictOK dict) (hc : c < 256)
    (he : e < 256 ∨ (257 ≤ e ∧ e < 257 + dict.length)) : DictOK (dict ++ [(e, c)]) := by
  intro j e' c' hj
  by_cases hlt : j < dict.length
  · rw [List.getElem?_append_left hlt] at hj
    exact h j e' c' hj
  · by_cases heq : j = dict.length
    · subst heq
      rw [List.getElem?_append_right (le_refl _)] at hj
      simp at hj
      obtain ⟨rfl, rfl⟩ := hj
      exact ⟨hc, he⟩
    · rw [List.getElem?_eq_none (by simp; omega)] at hj
      cases hj

theorem dictOK_prefix (dict : List (Nat × Nat)) (x : Nat × Nat) (h : DictOK (dict ++ [x])) :
    DictOK dict := by
  intro j e c hj
  have hlt : j < dict.length := by
    rcases Nat.lt_or_ge j dict.length with h' | h'
    · exact h'
    · rw [List.getElem?_eq_none h'] at hj; cases hj
  exact h j e c (by rw [List.getElem?_append_left hlt]; exact hj)

/-- The string of a table code is the string of its prefix followed by its byte. -/
theorem expand_entry (dict : List (Nat × Nat)) (h : DictOK dict) :
    ∀ (j e c : Nat), dict[j]? = some (e, c) → expand dict (257 + j) = expand dict e ++ [c] := by
  induction dict using List.reverseRecOn with
  | nil => intro j e c hj; cases hj
  | append_singleton d x ih =>
    intro j e c hj
    have hd := dictOK_prefix d x h
    have hok := h j e c hj
    have he : e ≠ 257 + d.length → expand (d ++ [x]) e = expand d e := expand_snoc d x e
    by_cases hlt : j < d.length
    · rw [List.getElem?_append_left hlt] at hj
      rw [expand_snoc d x _ (by omega), ih hd j e c hj, he (by omega)]
    · have hjl : j < (d ++ [x]).length := by
        rcases Nat.lt_or_ge j (d ++ [x]).length with h' | h'
        · exact h'
        · rw [List.getElem?_eq_none h'] at hj; cases hj
      have heq : j = d.length := by simp at hjl; omega
      subst heq
      rw [List.getElem?_append_right (le_refl _)] at hj
      simp at hj
      subst hj
      rw [expand_last, he (by omega)]

theorem expand_ne_nil (dict : List (Nat × Nat)) (v : Nat) : expand dict v ≠ [] := by
  unfold expand
  generalize dict.reverse = d
  induction d generalizing v with
  | nil => simp [expandR]
  | cons x t ih =>
    obtain ⟨e, c⟩ := x
    unfold expandR
    split_ifs
    · simp
    · exact ih v

theorem headD_append (l1 l2 : List Nat) (h : l1 ≠ []) : (l1 ++ l2).headD 0 = l1.headD 0 := by
  cases l1 with
  | nil => exact absurd rfl h
  | cons a t => rfl
/-- The loop over the prefix chain of a code of the table pushes the string of
that code, less its first byte, and ends at that first byte. -/
theorem walk_expand (dict : List (Nat × Nat)) (hok : DictOK dict) (tp ts : Int → Nat) (D : Int)
    (htab : ∀ j : Nat, 257 + (j : Int) < D →
      ∃ e c, dict[j]? = some (e, c) ∧ tp (257 + j) = e ∧ ts (257 + j) = c) :
    ∀ (n v : Nat) (st : List Nat) (fuel : Nat), v ≤ n → v < fuel →
      (v < 256 ∨ (257 ≤ v ∧ (v : Int) < D)) →
      ∃ (c1 : Nat) (l : List Nat), walk tp ts fuel (v : Int) st = some ((c1 : Int), l ++ st) ∧
        c1 < 256 ∧ expand dict v = c1 :: l := by
  intro n
  induction n with
  | zero =>
    intro v st fuel hv hf hvalid
    have : v = 0 := by omega
    subst this
    cases fuel with
    | zero => omega
    | succ f =>
      refine ⟨0, [], ?_, by decide, expand_lit dict 0 (by decide)⟩
      unfold walk
      simp
  | succ n ih =>
    intro v st fuel hv hf hvalid
    cases fuel with
    | zero => omega
    | succ f =>
      rcases hvalid with h | ⟨h1, h2⟩
      · refine ⟨v, [], ?_, h, expand_lit dict v (by omega)⟩
        unfold walk
        rw [if_neg (by omega)]
        rfl
      · obtain ⟨j, hj⟩ : ∃ j : Nat, v = 257 + j := ⟨v - 257, by omega⟩
        subst hj
        obtain ⟨e, c, hd, htp, hts⟩ := htab j (by push_cast at h2; omega)
        obtain ⟨hc, he⟩ := hok j e c hd
        have hev : e < 257 + j := by omega
        obtain ⟨c1, l', hw, hc1, hex⟩ := ih e (c :: st) f (by omega) (by omega)
          (by rcases he with h | h
              · exact Or.inl h
              · exact Or.inr ⟨h.1, by push_cast at h2 ⊢; omega⟩)
        refine ⟨c1, l' ++ [c], ?_, hc1, ?_⟩
        · unfold walk
          rw [if_pos (by push_cast; omega)]
          push_cast
          rw [htp, hts, hw]
          simp
        · rw [expand_entry dict hok j e c hd, hex]
          rfl

/-- The decoder step that reads a code of the table, or the code about to be entered. -/
theorem astep_read (c : ACfg) (a : AState) (dict : List (Nat × Nat)) (v : Nat)
    (hok : DictOK dict) (hav : a.pos + a.n_bits ≤ 8 * c.N) (hnp : a.free_ent ≤ a.maxcode)
    (hin : input c.buf a.pos a.bitmask = (v : Int)) (hold : a.oldcode ≠ -1) (hv256 : v ≠ 256)
    (hfe : a.free_ent ≤ 65536) (hfe0 : 256 ≤ a.free_ent)
    (htab : ∀ j : Nat, 257 + (j : Int) < a.free_ent →
      ∃ e c, dict[j]? = some (e, c) ∧ a.tab_prefixof (257 + j) = e ∧ a.tab_suffixof (257 + j) = c)
    (hlit : ∀ i : Nat, i < 256 → a.tab_suffixof i = i)
    (hvalid : v < 256 ∨ (257 ≤ v ∧ (v : Int) < a.free_ent) ∨
      ((v : Int) = a.free_ent ∧ 0 ≤ a.oldcode ∧
        (a.oldcode.toNat < 256 ∨ (257 ≤ a.oldcode.toNat ∧ a.oldcode < a.free_ent)) ∧
        expand dict v = expand dict a.oldcode.toNat ++ [a.finchar.toNat % 256])) :
    ∃ a', astep c a = AStep.cont a' ∧ a'.pos = a.pos + a.n_bits ∧ a'.base = a.base ∧
      a'.n_bits = a.n_bits ∧ a'.maxcode = a.maxcode ∧ a'.bitmask = a.bitmask ∧
      a'.oldcode = v ∧ a'.out = a.out ++ expand dict v ∧
      a'.finchar = (((expand dict v).headD 0 : Nat) : Int) ∧
      (a.free_ent < c.maxmaxcode → a'.free_ent = a.free_ent + 1 ∧
        a'.tab_prefixof = upd a.tab_prefixof a.free_ent (a.oldcode.toNat % 65536) ∧
        a'.tab_suffixof = upd a.tab_suffixof a.free_ent ((expand dict v).headD 0 % 256)) ∧
      (¬ a.free_ent < c.maxmaxcode → a'.free_ent = a.free_ent ∧
        a'.tab_prefixof = a.tab_prefixof ∧ a'.tab_suffixof = a.tab_suffixof) := by
  have hA : ¬ (a.pos + a.n_bits > 8 * c.N) := by omega
  have hB : ¬ (a.free_ent > a.maxcode) := by omega
  have hC : ¬ ((v : Int) = CLEAR ∧ c.block_mode ≠ 0) := by
    intro h; apply hv256; have := h.1; unfold CLEAR at this; omega
  have hle : ¬ ((v : Int) > a.free_ent) := by
    rcases hvalid with h | h | h <;> omega
  -- the walk
  have hwalk : ∃ (c1 : Nat) (l : List Nat),
      walk a.tab_prefixof a.tab_suffixof 65537
        (if (v : Int) ≥ a.free_ent then (a.oldcode, [a.finchar.toNat % 256]) else ((v : Int), [])).1
        (if (v : Int) ≥ a.free_ent then (a.oldcode, [a.finchar.toNat % 256]) else ((v : Int), [])).2
        = some ((c1 : Int), l) ∧ c1 < 256 ∧ expand dict v = c1 :: l := by
    by_cases hk : (v : Int) ≥ a.free_ent
    · rw [if_pos hk]
      rcases hvalid with h | h | ⟨h1, h2, h3, h4⟩
      · omega
      · omega
      · obtain ⟨o, ho⟩ := Int.eq_ofNat_of_zero_le h2
        have hoo : a.oldcode.toNat = o := by omega
        rw [hoo] at h3 h4
        obtain ⟨c1, l, hw, hc1, hex⟩ := walk_expand dict hok a.tab_prefixof a.tab_suffixof
          a.free_ent htab o o [a.finchar.toNat % 256] 65537 (le_refl _) (by omega)
          (by rcases h3 with h | h
              · exact Or.inl h
              · exact Or.inr ⟨h.1, by omega⟩)
        refine ⟨c1, l ++ [a.finchar.toNat % 256], ?_, hc1, ?_⟩
        · show walk _ _ 65537 a.oldcode [a.finchar.toNat % 256] = _
          rw [ho]; exact hw
        · rw [h4, hex]; rfl
    · rw [if_neg hk]
      obtain ⟨c1, l, hw, hc1, hex⟩ := walk_expand dict hok a.tab_prefixof a.tab_suffixof
        a.free_ent htab v v [] 65537 (le_refl _) (by omega)
        (by rcases hvalid with h | h | h
            · exact Or.inl h
            · exact Or.inr h
            · omega)
      exact ⟨c1, l, by simpa using hw, hc1, hex⟩
  obtain ⟨c1, l, hw, hc1, hex⟩ := hwalk
  have hts : a.tab_suffixof (c1 : Int) = c1 := hlit c1 hc1
  have hhead : (expand dict v).headD 0 = c1 := by rw [hex]; rfl
  by_cases hmm : a.free_ent < c.maxmaxcode
  · have hstep : astep c a = AStep.cont
        { a with pos := a.pos + a.n_bits, finchar := (c1 : Int), out := a.out ++ c1 :: l,
                 tab_prefixof := upd a.tab_prefixof a.free_ent (a.oldcode.toNat % 65536),
                 tab_suffixof := upd a.tab_suffixof a.free_ent (c1 % 256),
                 free_ent := a.free_ent + 1, oldcode := (v : Int) } := by
      unfold astep
      rw [if_neg hA, if_neg hB]
      simp only [hin]
      rw [if_neg hold, if_neg hC, if_neg hle]
      simp only [hw, if_pos hmm, hts]
    refine ⟨_, hstep, rfl, rfl, rfl, rfl, rfl, rfl, ?_, ?_, ?_, fun h => absurd hmm h⟩
    · rw [hex]
    · rw [hhead]
    · intro _; rw [hhead]; exact ⟨rfl, rfl, rfl⟩
  · have hstep : astep c a = AStep.cont
        { a with pos := a.pos + a.n_bits, finchar := (c1 : Int), out := a.out ++ c1 :: l,
                 oldcode := (v : Int) } := by
      unfold astep
      rw [if_neg hA, if_neg hB]
      simp only [hin]
      rw [if_neg hold, if_neg hC, if_neg hle]
      simp only [hw, if_neg hmm, hts]
    refine ⟨_, hstep, rfl, rfl, rfl, rfl, rfl, rfl, ?_, ?_, fun h => absurd h hmm, ?_⟩
    · rw [hex]
    · rw [hhead]
    · intro _; exact ⟨rfl, rfl, rfl⟩

theorem pad_of_aligned (o b n : Int) (hn : 1 ≤ n) (hb : b ≤ o) (h : (o - b) % (8 * n) = 0) :
    pad_to_group o b n = o := by
  rw [pad_emod o b n hn hb]
  have e : (o - b - 1 + n * 8) % (n * 8) = n * 8 - 1 := by
    obtain ⟨k, hk⟩ := Int.dvd_of_emod_eq_zero h
    have : o - b - 1 + n * 8 = (n * 8 - 1) + (n * 8) * k := by rw [hk]; ring
    rw [this, Int.add_mul_emod_self_left]
    exact Int.emod_eq_of_lt (by omega) (by omega)
  rw [e]; ring

theorem pad_congr (p b q d n : Int) (hn : 1 ≤ n) (hb : b ≤ p) (hd : d ≤ q)
    (h : ((p - b) - (q - d)) % (8 * n) = 0) :
    pad_to_group p b n - p = pad_to_group q d n - q := by
  rw [pad_emod p b n hn hb, pad_emod q d n hn hd]
  have e : (p - b - 1 + n * 8) % (n * 8) = (q - d - 1 + n * 8) % (n * 8) := by
    apply Int.emod_eq_emod_iff_emod_sub_eq_zero.mpr
    have : p - b - 1 + n * 8 - (q - d - 1 + n * 8) = (p - b) - (q - d) := by ring
    rw [this, mul_comm n 8]
    exact h
  rw [e]
  ring

theorem pad_mod8' (o b n : Int) (hn : 1 ≤ n) (hb : b ≤ o) (hb8 : b % 8 = 0) :
    pad_to_group o b n % 8 = 0 := by
  have h := pad_aligned o b n hn hb
  obtain ⟨k, hk⟩ := Int.dvd_of_emod_eq_zero h
  have : pad_to_group o b n = b + 8 * (n * k) := by
    have : pad_to_group o b n = b + n * 8 * k := by omega
    rw [this]; ring
  rw [this]
  omega

theorem flush_boff_congr (B b n : Int) :
    ∃ k, -(crem (B * 8 - b) (n * 8)) = b - B * 8 + (n * 8) * k := by
  refine ⟨Int.tdiv (B * 8 - b) (n * 8), ?_⟩
  unfold crem
  rw [Int.tmod_def]
  ring

theorem stream_bit_ge (s : CState) (q : Int) (h0 : 0 ≤ q) :
    bit_at (stream s) (8 * s.written.length + q) = bit_at s.outbuf q := by
  unfold bit_at
  rw [stream_of_ge s _ (by omega)]
  rw [show (8 * (s.written.length : Int) + q) / 8 - s.written.length = q / 8 by omega,
    show (8 * (s.written.length : Int) + q) % 8 = q % 8 by omega]

theorem clean_of_eq (s s' : CState) (hc : Clean s) (e1 : s'.written = s.written)
    (e2 : s'.outbuf = s.outbuf) (e3 : s'.outbits = s.outbits) : Clean s' := by
  refine ⟨?_, ?_, ?_, ?_⟩
  · rw [e2]; exact hc.bytes
  · rw [e1]; exact hc.wbytes
  · rw [e2, e3]; exact hc.zero
  · rw [e2, e3]; exact hc.part

theorem clean_pad (s s' : CState) (hc : Clean s) (e1 : s'.written = s.written)
    (e2 : s'.outbuf = s.outbuf) (hle : s.outbits ≤ s'.outbits) (h8 : s'.outbits % 8 = 0) :
    Clean s' := by
  refine ⟨?_, ?_, ?_, ?_⟩
  · rw [e2]; exact hc.bytes
  · rw [e1]; exact hc.wbytes
  · rw [e2]; intro j hj; exact hc.zero j (by omega)
  · rw [e2, hc.zero (s'.outbits / 8) (by omega), h8]
    decide

theorem clean_emit (s s' : CState) (v : Nat) (n : Int) (hc : Clean s) (h0 : 0 ≤ s.outbits)
    (hn9 : 9 ≤ n) (hn16 : n ≤ 16) (hv : v < 2 ^ n.toNat) (e1 : s'.written = s.written)
    (e2 : s'.outbuf = (output s.outbuf s.outbits v n).1) (e3 : s'.outbits = s.outbits + n) :
    Clean s' ∧ ∀ t : Nat, (t : Int) < n → bit_at (stream s') (Labs s + t) = v.testBit t := by
  obtain ⟨o1, o2, o3, _, _, o6⟩ := output_spec s.outbuf s.outbits v n h0 hn9 hn16 hv
    hc.bytes hc.zero hc.part
  refine ⟨⟨?_, ?_, ?_, ?_⟩, ?_⟩
  · rw [e2]; exact o1
  · rw [e1]; exact hc.wbytes
  · rw [e2, e3]; exact o2
  · rw [e2, e3]; exact o3
  · intro t ht
    unfold Labs
    rw [← e1, add_assoc, stream_bit_ge s' _ (by omega), e2]
    exact o6 t ht

theorem clean_flush (B : Int) (hB : 0 ≤ B) (s : CState) (hc : Clean s) (h0 : 0 ≤ s.outbits) :
    Clean (flush B s) := by
  rcases flush_cases B s with ⟨e, _⟩ | ⟨h, e⟩
  · rw [e]; exact hc
  · rw [e]
    refine ⟨?_, ?_, ?_, ?_⟩
    · intro j
      show (if 0 ≤ j ∧ j < (s.outbits - B * 8) / 8 + 1 then s.outbuf (j + B)
        else if (s.outbits - B * 8) / 8 + 1 ≤ j ∧ j < (s.outbits - B * 8) / 8 + 1 + B then 0
        else s.outbuf j) < 256
      split_ifs
      · exact hc.bytes _
      · decide
      · exact hc.bytes _
    · intro b hb
      rcases List.mem_append.mp hb with h' | h'
      · exact hc.wbytes b h'
      · unfold bytes_of at h'
        obtain ⟨i, _, rfl⟩ := List.mem_map.mp h'
        exact hc.bytes _
    · intro j hj
      have hj' : s.outbits - B * 8 ≤ 8 * j := hj
      show (if 0 ≤ j ∧ j < (s.outbits - B * 8) / 8 + 1 then s.outbuf (j + B)
        else if (s.outbits - B * 8) / 8 + 1 ≤ j ∧ j < (s.outbits - B * 8) / 8 + 1 + B then 0
        else s.outbuf j) = 0
      split_ifs with c1 c2
      · exact hc.zero _ (by omega)
      · rfl
      · exact hc.zero _ (by omega)
    · show (if 0 ≤ (s.outbits - B * 8) / 8 ∧ (s.outbits - B * 8) / 8 < (s.outbits - B * 8) / 8 + 1
          then s.outbuf ((s.outbits - B * 8) / 8 + B)
        else _) < 2 ^ ((s.outbits - B * 8) % 8).toNat
      rw [if_pos (by omega), show (s.outbits - B * 8) / 8 + B = s.outbits / 8 by omega,
        show (s.outbits - B * 8) % 8 = s.outbits % 8 by omega]
      exact hc.part

theorem MAXCODE_dvd8 (n : Int) (h9 : 9 ≤ n) (h16 : n ≤ 16) : ∃ k, MAXCODE n = 8 * k := by
  unfold MAXCODE
  interval_cases n
  · exact ⟨64, by decide⟩
  · exact ⟨128, by decide⟩
  · exact ⟨256, by decide⟩
  · exact ⟨512, by decide⟩
  · exact ⟨1024, by decide⟩
  · exact ⟨2048, by decide⟩
  · exact ⟨4096, by decide⟩
  · exact ⟨8192, by decide⟩

theorem MAXCODE_toNat (n : Int) (h0 : 0 ≤ n) : ((2 ^ n.toNat : Nat) : Int) = MAXCODE n := by
  unfold MAXCODE; push_cast; rfl

theorem cenc_congr (mb : Int) (dict : List (Nat × Nat)) (s s' : CState) (h : CEnc mb dict s)
    (e1 : s'.written = s.written) (e2 : s'.outbuf = s.outbuf) (e3 : s'.outbits = s.outbits)
    (e4 : s'.boff = s.boff) (e5 : s'.stcode = s.stcode) (e6 : s'.n_bits = s.n_bits)
    (e7 : s'.free_ent = s.free_ent) (e8 : s'.extcode = s.extcode) : CEnc mb dict s' := by
  refine ⟨clean_of_eq s s' h.clean e1 e2 e3, h.dok, ?_, ?_, ?_, ?_⟩
  · rw [e4]; exact h.boff8
  · rw [e5, e8, e6]; exact h.ext_eq
  · rw [e5, e6, e7]; exact h.frozen
  · rw [e5, e3, e4, e6, e7]; exact h.align

/-- The pending prefix fits the current code width whenever it is about to be sent. -/
theorem ent_fits (B mb : Int) (dict : List (Nat × Nat)) (s : CState) (hmb : mb ≤ 16)
    (hb : CBase B mb dict s) (he : CEnc mb dict s)
    (hfree : s.free_ent < s.extcode ∨ (s.ent : Int) < FIRST) : s.ent < 2 ^ s.n_bits.toNat := by
  have hn9 := hb.nb_lo
  have hn16 := hb.nb_hi
  obtain ⟨m1, m2, m3, m4⟩ := MAXCODE_vals s.n_bits hn9 (by omega)
  have hM := MAXCODE_toNat s.n_bits (by omega)
  have hfe := hb.fe_le
  have key : (s.ent : Int) < MAXCODE s.n_bits := by
    by_cases hF : (s.ent : Int) < FIRST
    · unfold FIRST at hF; omega
    · have hfr := hb.fe_ent (by omega)
      have hek : (s.ent : Int) < s.free_ent := by
        rcases hb.ent_ok with h | h
        · unfold FIRST at hF; omega
        · exact h.2
      cases hst : s.stcode with
      | true =>
        have := he.ext_eq hst
        split_ifs at this <;> omega
      | false =>
        obtain ⟨f1, f2⟩ := he.frozen hst
        rw [f1]; omega
  rw [← hM] at key
  exact_mod_cast key

theorem mul_maxcode_emod (n : Int) (h9 : 9 ≤ n) (h16 : n ≤ 16) (m : Int) (hm : 9 ≤ m)
    (hm16 : m ≤ 16) : (m * MAXCODE n) % (8 * m) = 0 := by
  obtain ⟨k, hk⟩ := MAXCODE_dvd8 n h9 h16
  rw [hk, show m * (8 * k) = 8 * m * k by ring]
  exact Int.mul_emod_right _ _

theorem cenc_miss (B mb : Int) (hmb : mb ≤ 16) (dict : List (Nat × Nat)) (s : CState) (c : Nat)
    (hp : Int) (hc : c < 256) (hb : CBase B mb dict s) (he : CEnc mb dict s)
    (hfree : s.free_ent < s.extcode) :
    CEnc mb (if s.stcode then dict ++ [(s.ent, c)] else dict) (miss_state s c hp) ∧
    ∀ t : Nat, (t : Int) < s.n_bits →
      bit_at (stream (miss_state s c hp)) (Labs s + t) = s.ent.testBit t := by
  obtain ⟨e1, e2, e3, e4, e5⟩ := miss_state_out s c hp
  have hn9 := hb.nb_lo
  have hn16 := hb.nb_hi
  have hfit := ent_fits B mb dict s hmb hb he (Or.inl hfree)
  obtain ⟨cl, bits⟩ := clean_emit s (miss_state s c hp) s.ent s.n_bits he.clean hb.ob_nn hn9
    (by omega) hfit e1 e2 e3
  refine ⟨?_, bits⟩
  have hdl := hb.dlen
  cases hst : s.stcode with
  | true =>
    have e6 : (miss_state s c hp).free_ent = s.free_ent + 1 := by
      unfold miss_state; simp only [hst, if_true]
    have e7 : (miss_state s c hp).extcode = s.extcode := by
      unfold miss_state; simp only [hst, if_true]
    have e8 : (miss_state s c hp).stcode = true := by
      unfold miss_state; simp only [hst, if_true]
    simp only [if_true]
    refine ⟨cl, dictOK_snoc dict s.ent c he.dok hc ?_, by rw [e4]; exact he.boff8,
      fun _ => (by rw [e7, e5]; exact he.ext_eq hst), fun h => (by rw [e8] at h; cases h), ?_⟩
    · rcases hb.ent_ok with h | h
      · exact Or.inl h
      · right; omega
    · intro _
      rw [e3, e4, e5, e6]
      have := he.align hst
      rw [show s.outbits + s.n_bits - s.boff - s.n_bits * (s.free_ent + 1 - 1)
        = s.outbits - s.boff - s.n_bits * (s.free_ent - 1) by ring]
      exact this
  | false =>
    have e6 : (miss_state s c hp).free_ent = s.free_ent := by
      unfold miss_state; simp only [hst]; rfl
    have e7 : (miss_state s c hp).extcode = s.extcode := by
      unfold miss_state; simp only [hst]; rfl
    have e8 : (miss_state s c hp).stcode = false := by
      unfold miss_state; simp only [hst]; rfl
    simp only [Bool.false_eq_true, if_false]
    refine ⟨cl, he.dok, by rw [e4]; exact he.boff8, fun h => (by rw [e8] at h; cases h),
      fun _ => (by rw [e5, e6]; exact he.frozen hst), fun h => (by rw [e8] at h; cases h)⟩

/-- When the table is full for the current width, the output stands at a group boundary. -/
theorem full_aligned (B mb : Int) (hB : 1 ≤ B) (hmb : mb ≤ 16) (dict : List (Nat × Nat))
    (s : CState) (hb : CBase B mb dict s) (he : CEnc mb dict s) (hfull : s.free_ent ≥ s.extcode)
    (hlt : s.n_bits < mb) :
    s.stcode = true ∧ s.free_ent = MAXCODE s.n_bits + 1 ∧
    (s.outbits - s.boff) % (8 * s.n_bits) = 0 ∧ s.outbits % 8 = 0 ∧
    pad_to_group s.outbits s.boff s.n_bits = s.outbits := by
  have hst := stcode_of_full B mb hB dict s hb hfull
  have hn9 := hb.nb_lo
  have hfe := hb.fe_le
  have hex := he.ext_eq hst
  rw [if_pos hlt] at hex
  have hE : s.free_ent = MAXCODE s.n_bits + 1 := by omega
  have hal := he.align hst
  rw [hE, show MAXCODE s.n_bits + 1 - 1 = MAXCODE s.n_bits by ring] at hal
  have hm := mul_maxcode_emod s.n_bits hn9 (by omega) s.n_bits hn9 (by omega)
  have hdv : (s.outbits - s.boff) % (8 * s.n_bits) = 0 := by
    have := Int.dvd_of_emod_eq_zero hal
    have h2 := Int.dvd_of_emod_eq_zero hm
    have h3 := dvd_add this h2
    rw [show s.outbits - s.boff - s.n_bits * MAXCODE s.n_bits + s.n_bits * MAXCODE s.n_bits
      = s.outbits - s.boff by ring] at h3
    exact Int.emod_eq_zero_of_dvd h3
  have h8 : s.outbits % 8 = 0 := by
    obtain ⟨k, hk⟩ := Int.dvd_of_emod_eq_zero hdv
    have hb8 := he.boff8
    have : s.outbits = s.boff + 8 * (s.n_bits * k) := by
      have : s.outbits = s.boff + 8 * s.n_bits * k := by omega
      rw [this]; ring
    rw [this]; omega
  exact ⟨hst, hE, hdv, h8, pad_of_aligned _ _ _ (by omega) hb.boff_le hdv⟩

theorem cenc_grow (B mb : Int) (hB : 1 ≤ B) (hmb : mb ≤ 16) (dict : List (Nat × Nat))
    (s : CState) (hb : CBase B mb dict s) (he : CEnc mb dict s) :
    CEnc mb dict (grow B mb s) ∧ Labs (grow B mb s) = Labs s := by
  have hn9 := hb.nb_lo
  have hn16 := hb.nb_hi
  rcases grow_cases B mb s with ⟨e, _⟩ | ⟨h1, h2, h3, e⟩ | ⟨h1, h2, h3, e⟩
  · rw [e]; exact ⟨he, rfl⟩
  · obtain ⟨hst, hE, hdv, h8, hpad⟩ := full_aligned B mb hB hmb dict s hb he h1 h3
    rw [e, hpad]
    refine ⟨⟨clean_of_eq s _ he.clean rfl rfl rfl, he.dok, h8, fun _ => ?_,
      fun h => (by rw [hst] at h; cases h), fun _ => ?_⟩, rfl⟩
    · show (if s.n_bits + 1 < mb then MAXCODE (s.n_bits + 1) + 1 else MAXCODE (s.n_bits + 1))
        = if s.n_bits + 1 < mb then MAXCODE (s.n_bits + 1) + 1 else MAXCODE (s.n_bits + 1)
      rfl
    · show (s.outbits - s.outbits - (s.n_bits + 1) * (s.free_ent - 1)) % (8 * (s.n_bits + 1)) = 0
      rw [hE, show s.outbits - s.outbits - (s.n_bits + 1) * (MAXCODE s.n_bits + 1 - 1)
        = -((s.n_bits + 1) * MAXCODE s.n_bits) by ring]
      have hm := mul_maxcode_emod s.n_bits hn9 (by omega) (s.n_bits + 1) (by omega) (by omega)
      exact Int.emod_eq_zero_of_dvd ((Int.dvd_neg).mpr (Int.dvd_of_emod_eq_zero hm))
  · have hst := stcode_of_full B mb hB dict s hb h1
    have hex := he.ext_eq hst
    rw [if_neg h3] at hex
    have hfe := hb.fe_le
    rw [e]
    refine ⟨⟨clean_of_eq s _ he.clean rfl rfl rfl, he.dok, he.boff8,
      fun h => (by cases h), fun _ => ?_, fun h => (by cases h)⟩, rfl⟩
    show s.n_bits = mb ∧ s.free_ent = MAXCODE mb
    have : s.n_bits = mb := by omega
    rw [← this]
    exact ⟨rfl, by omega⟩

theorem cenc_check_ratio (B mb : Int) (hmb10 : 10 ≤ mb) (hmb : mb ≤ 16)
    (dict : List (Nat × Nat)) (s : CState) (hb : CBase B mb dict s) (he : CEnc mb dict s) :
    (check_ratio s).stcode = s.stcode ∧ CEnc mb dict (check_ratio s) ∧
      Labs (check_ratio s) = Labs s ∨
    s.stcode = false ∧ (s.ent : Int) < FIRST ∧ CEnc mb [] (check_ratio s) ∧
      check_ratio s =
        { s with checkpoint := s.bytes_in + CHECK_GAP, ratio := 0, htab := fun _ => -1,
                 outbuf := (output s.outbuf s.outbits CLEAR.toNat s.n_bits).1,
                 outbits := pad_to_group (s.outbits + s.n_bits) s.boff s.n_bits,
                 boff := pad_to_group (s.outbits + s.n_bits) s.boff s.n_bits,
                 n_bits := INIT_BITS, extcode := MAXCODE INIT_BITS + 1,
                 free_ent := FIRST, stcode := true } ∧
      ∀ t : Nat, (t : Int) < s.n_bits →
        bit_at (stream (check_ratio s)) (Labs s + t) = (256 : Nat).testBit t := by
  have hn9 := hb.nb_lo
  have hn16 := hb.nb_hi
  rcases check_ratio_cases s with ⟨e, _⟩ | ⟨_, rat, e⟩ | ⟨h1, e⟩
  · left; rw [e]; exact ⟨rfl, he, rfl⟩
  · left; rw [e]
    exact ⟨rfl, cenc_congr mb dict s _ he rfl rfl rfl rfl rfl rfl rfl rfl, rfl⟩
  · right
    refine ⟨h1.1, h1.2.2, ?_, e, ?_⟩
    · rw [e]
      have hv : CLEAR.toNat < 2 ^ s.n_bits.toNat := by
        have : (2 : Nat) ^ 9 ≤ 2 ^ s.n_bits.toNat := Nat.pow_le_pow_right (by decide) (by omega)
        have : CLEAR.toNat = 256 := rfl
        omega
      obtain ⟨cl, _⟩ := clean_emit s
        { s with outbuf := (output s.outbuf s.outbits CLEAR.toNat s.n_bits).1,
                 outbits := s.outbits + s.n_bits }
        CLEAR.toNat s.n_bits he.clean hb.ob_nn hn9 (by omega) hv rfl rfl rfl
      have hbo : s.boff ≤ s.outbits + s.n_bits := by have := hb.boff_le; omega
      have hp8 := pad_mod8' (s.outbits + s.n_bits) s.boff s.n_bits (by omega) hbo he.boff8
      have hpg := pad_ge (s.outbits + s.n_bits) s.boff s.n_bits (by omega) hbo
      refine ⟨clean_pad _ _ cl rfl rfl hpg hp8, fun j e c h => (by cases h), hp8, fun _ => ?_,
        fun h => (by cases h), fun _ => ?_⟩
      · show MAXCODE INIT_BITS + 1 = if INIT_BITS < mb then MAXCODE INIT_BITS + 1 else MAXCODE INIT_BITS
        rw [if_pos (by unfold INIT_BITS; omega)]
      · show (pad_to_group (s.outbits + s.n_bits) s.boff s.n_bits -
          pad_to_group (s.outbits + s.n_bits) s.boff s.n_bits - INIT_BITS * (FIRST - 1))
          % (8 * INIT_BITS) = 0
        rw [sub_self]; decide
    · have hv : CLEAR.toNat < 2 ^ s.n_bits.toNat := by
        have : (2 : Nat) ^ 9 ≤ 2 ^ s.n_bits.toNat := Nat.pow_le_pow_right (by decide) (by omega)
        have : CLEAR.toNat = 256 := rfl
        omega
      rw [e]
      have hbo : s.boff ≤ s.outbits + s.n_bits := by have := hb.boff_le; omega
      have hpg := pad_ge (s.outbits + s.n_bits) s.boff s.n_bits (by omega) hbo
      obtain ⟨_, _, _, _, _, o6⟩ := output_spec s.outbuf s.outbits CLEAR.toNat s.n_bits hb.ob_nn
        hn9 (by omega) hv he.clean.bytes he.clean.zero he.clean.part
      intro t ht
      have := hb.ob_nn
      unfold Labs
      rw [add_assoc]
      exact (stream_bit_ge _ _ (by omega)).trans (o6 t ht)

theorem cenc_flush (B mb : Int) (hB : 0 ≤ B) (dict : List (Nat × Nat)) (s : CState)
    (hb : CBase B mb dict s) (he : CEnc mb dict s) : CEnc mb dict (flush B s) := by
  rcases flush_cases B s with ⟨e, _⟩ | ⟨h, e⟩
  · rw [e]; exact he
  · have cl := clean_flush B hB s he.clean hb.ob_nn
    rw [e] at cl ⊢
    obtain ⟨k, hk⟩ := flush_boff_congr B s.boff s.n_bits
    have hb8 := he.boff8
    refine ⟨cl, he.dok, ?_, he.ext_eq, he.frozen, fun hst => ?_⟩
    · show (-(crem (B * 8 - s.boff) (s.n_bits * 8))) % 8 = 0
      rw [hk, show s.boff - B * 8 + s.n_bits * 8 * k = s.boff + 8 * (s.n_bits * k - B) by ring]
      omega
    · show (s.outbits - B * 8 - -(crem (B * 8 - s.boff) (s.n_bits * 8))
        - s.n_bits * (s.free_ent - 1)) % (8 * s.n_bits) = 0
      have hal := he.align hst
      rw [hk, show s.outbits - B * 8 - (s.boff - B * 8 + s.n_bits * 8 * k)
          - s.n_bits * (s.free_ent - 1)
        = (s.outbits - s.boff - s.n_bits * (s.free_ent - 1)) - (8 * s.n_bits) * k by ring]
      exact Int.emod_eq_zero_of_dvd (dvd_sub (Int.dvd_of_emod_eq_zero hal) (Dvd.intro k rfl))

theorem compat_of_ext (mb : Int) (c : ACfg) (s s' : CState) (h : Compat mb c s')
    (he : Ext s s') : Compat mb c s :=
  ⟨h.maxbits_eq, h.block, h.mm, h.bytes, le_trans he.1 h.len,
    fun q hq hl => (h.bits q hq (lt_of_lt_of_le hl he.1)).trans (he.2.2 q hq hl)⟩

theorem srel_congr (mb : Int) (dict : List (Nat × Nat)) (cons : List Nat) (s s' : CState)
    (a : AState) (h : SRel mb dict cons s a) (e1 : s'.written = s.written)
    (e2 : s'.outbits = s.outbits) (e3 : s'.boff = s.boff) (e4 : s'.n_bits = s.n_bits)
    (e5 : s'.free_ent = s.free_ent) (e6 : s'.stcode = s.stcode) (e7 : s'.ent = s.ent) :
    SRel mb dict cons s' a := by
  refine ⟨?_, h.base_nn, h.base8, h.base_le, h.nb_lo, h.bitmask_eq, h.mc, ?_, ?_, h.tabs,
    h.lits, ?_, ?_⟩
  · unfold Labs; rw [e1, e2]; exact h.pos_eq
  · rw [e1, e2, e3, e4]; exact h.width
  · rw [e5, e6]; exact h.phase
  · rw [e5, e7]; exact h.pend
  · rw [e7]; exact h.out_eq

theorem AReach.tail {c : ACfg} {a0 a1 : AState} (h : AReach c a0 a1) {r : Int}
    {out : List Nat} (hr : ARuns c a1 r out) : ARuns c a0 r out := by
  induction h with
  | refl => exact hr
  | step _ hs ih => exact ih (ARuns.step hs hr)

/-- The relation excludes a decoder that is one width behind while the table is
full for the encoder's width. -/
theorem srel_left_of_full (B mb : Int) (hmb : mb ≤ 16) (dict : List (Nat × Nat))
    (cons : List Nat) (s : CState) (a : AState) (hb : CBase B mb dict s) (he : CEnc mb dict s)
    (h : SRel mb dict cons s a)
    (hfull : (s.stcode = true ∧ s.free_ent ≥ s.extcode) ∨ s.stcode = false) :
    a.n_bits = s.n_bits ∧ (a.base - 8 * s.written.length - s.boff) % (8 * s.n_bits) = 0 ∧
    a.oldcode ≠ -1 := by
  have hn9 := hb.nb_lo
  have hn16 := hb.nb_hi
  have han := h.nb_lo
  have hE : s.free_ent ≥ MAXCODE s.n_bits := by
    rcases hfull with ⟨hst, hf⟩ | hst
    · have := he.ext_eq hst
      split_ifs at this <;> omega
    · obtain ⟨f1, f2⟩ := he.frozen hst
      rw [f1, f2]
  obtain ⟨m1, m2, m3, m4⟩ := MAXCODE_vals s.n_bits hn9 (by omega)
  have hold : a.oldcode ≠ -1 := by
    rcases h.phase with ⟨_, _, p3, _⟩ | ⟨p1, _⟩
    · omega
    · exact p1
  rcases h.width with ⟨w1, w2⟩ | ⟨w1, w2, _, _⟩
  · exact ⟨w1, w2, hold⟩
  · exfalso
    obtain ⟨k1, k2, k3, k4⟩ := MAXCODE_vals a.n_bits han (by omega)
    rw [show s.n_bits = a.n_bits + 1 by omega] at hE
    rcases h.phase with ⟨_, p2, _⟩ | ⟨_, p2 | ⟨_, p2⟩⟩ <;> omega

/-- A decoder that is one width behind the encoder catches up in one step. -/
theorem srel_sync (B mb : Int) (hmb : mb ≤ 16) (dict : List (Nat × Nat)) (cons : List Nat)
    (s : CState) (a : AState) (c : ACfg) (hb : CBase B mb dict s) (h : SRel mb dict cons s a)
    (hc1 : c.maxbits = mb) (hc2 : c.maxmaxcode = MAXCODE mb)
    (hroom : a.pos + s.n_bits ≤ 8 * c.N) :
    ∃ a1, (a1 = a ∨ astep c a = AStep.cont a1) ∧ SRel mb dict cons s a1 ∧
      a1.n_bits = s.n_bits ∧ (a1.base - 8 * s.written.length - s.boff) % (8 * s.n_bits) = 0 := by
  have hn9 := hb.nb_lo
  have hn16 := hb.nb_hi
  have han := h.nb_lo
  rcases h.width with ⟨w1, w2⟩ | ⟨w1, w2, w3, w4⟩
  · exact ⟨a, Or.inl rfl, h, w1, w2⟩
  · have hmc : a.maxcode = MAXCODE a.n_bits - 1 := by
      rw [h.mc, if_neg (by omega)]
    have hpad : pad_to_group a.pos a.base a.n_bits = a.pos :=
      pad_of_aligned _ _ _ (by omega) h.base_le w3
    have hstep : astep c a = AStep.cont
        { a with pos := a.pos, base := a.pos, n_bits := a.n_bits + 1,
                 maxcode := if a.n_bits + 1 = mb then MAXCODE mb else MAXCODE (a.n_bits + 1) - 1,
                 bitmask := 2 ^ (a.n_bits + 1).toNat - 1 } := by
      unfold astep
      rw [if_neg (by omega), if_pos (by omega)]
      simp only [hpad, hc1, hc2]
    have hpos := h.pos_eq
    unfold Labs at hpos
    have hb8 : a.pos % 8 = 0 := by
      obtain ⟨k, hk⟩ := Int.dvd_of_emod_eq_zero w3
      have := h.base8
      have e : a.pos = a.base + 8 * (a.n_bits * k) := by
        have : a.pos = a.base + 8 * a.n_bits * k := by omega
        rw [this]; ring
      rw [e]; omega
    have hw : (a.pos - 8 * (s.written.length : Int) - s.boff) % (8 * s.n_bits) = 0 := by
      rw [hpos, show 8 * (s.written.length : Int) + s.outbits - 8 * s.written.length - s.boff
        = s.outbits - s.boff by ring]
      exact w4
    have hbn := h.base_nn
    have hbl := h.base_le
    refine ⟨_, Or.inr hstep, ⟨h.pos_eq, by show 0 ≤ a.pos; omega, hb8, le_refl _,
      by show 9 ≤ a.n_bits + 1; omega, rfl, rfl, Or.inl ⟨by show a.n_bits + 1 = s.n_bits; omega, hw⟩,
      h.phase, h.tabs, h.lits, h.pend, h.out_eq⟩, by show a.n_bits + 1 = s.n_bits; omega, hw⟩

theorem MAXCODE_mono (n m : Int) (h : n ≤ m) : MAXCODE n ≤ MAXCODE m := by
  unfold MAXCODE
  exact pow_le_pow_right₀ (by norm_num) (Int.toNat_le_toNat h)

/-- While an entry can still be sent, the decoder of a related state has no width
change pending, and its table has room for the newest pair. -/
theorem srel_room (B mb : Int) (hmb10 : 10 ≤ mb) (hmb : mb ≤ 16) (dict : List (Nat × Nat))
    (cons : List Nat) (s : CState) (a : AState) (hb : CBase B mb dict s) (he : CEnc mb dict s)
    (h : SRel mb dict cons s a) (hw : a.n_bits = s.n_bits)
    (hfree : s.free_ent < s.extcode ∨ s.n_bits = mb) :
    a.free_ent ≤ a.maxcode ∧ s.free_ent ≤ MAXCODE mb ∧ 256 ≤ a.free_ent ∧
    a.free_ent ≤ s.free_ent := by
  have hn9 := hb.nb_lo
  have hn16 := hb.nb_hi
  have hdl := hb.dlen
  obtain ⟨m1, m2, m3, m4⟩ := MAXCODE_vals s.n_bits hn9 (by omega)
  obtain ⟨k1, k2, k3, k4⟩ := MAXCODE_vals mb (by omega) hmb
  have hmono := MAXCODE_mono s.n_bits mb hn16
  have hmc := h.mc
  rw [hw] at hmc
  have hE : s.free_ent ≤ MAXCODE s.n_bits ∧ s.free_ent ≤ MAXCODE mb := by
    cases hst : s.stcode with
    | true =>
      have := he.ext_eq hst
      have hfl := hb.fe_le
      split_ifs at this with hq
      · rcases hfree with h' | h' <;> omega
      · have : s.n_bits = mb := by omega
        rw [this] at *
        omega
    | false =>
      obtain ⟨f1, f2⟩ := he.frozen hst
      rw [f1, f2]; exact ⟨le_refl _, le_refl _⟩
  rcases h.phase with ⟨_, p2, p3, _⟩ | ⟨_, p2 | ⟨p2, p3⟩⟩
  · refine ⟨?_, hE.2, by omega, by omega⟩
    rw [hmc]; split_ifs <;> omega
  · refine ⟨?_, hE.2, by omega, by omega⟩
    rw [hmc]; split_ifs <;> omega
  · refine ⟨?_, hE.2, by omega, by omega⟩
    rw [hmc, if_pos (he.frozen p2).1]; omega

/-- The decoder of a related state reads the pending prefix as its next code and then
has put out all of the consumed input; its table then holds every pair of `dict`. -/
theorem srel_decode (B mb : Int) (hmb10 : 10 ≤ mb) (hmb : mb ≤ 16) (dict : List (Nat × Nat))
    (cons : List Nat) (s : CState) (a : AState) (c : ACfg)
    (hb : CBase B mb dict s) (he : CEnc mb dict s) (h : SRel mb dict cons s a)
    (hcons : cons ≠ []) (hw : a.n_bits = s.n_bits) (hc2 : c.maxmaxcode = MAXCODE mb)
    (hroom : a.pos + a.n_bits ≤ 8 * c.N) (hin : input c.buf a.pos a.bitmask = (s.ent : Int))
    (hfree : s.free_ent < s.extcode ∨ s.n_bits = mb) :
    ∃ a', astep c a = AStep.cont a' ∧ a'.pos = a.pos + a.n_bits ∧ a'.base = a.base ∧
      a'.n_bits = a.n_bits ∧ a'.maxcode = a.maxcode ∧ a'.bitmask = a.bitmask ∧
      a'.oldcode = s.ent ∧ a'.out = cons ∧
      a'.finchar = (((expand dict s.ent).headD 0 : Nat) : Int) ∧
      a'.free_ent = s.free_ent ∧
      (∀ j : Nat, 257 + (j : Int) < s.free_ent →
        ∃ e c, dict[j]? = some (e, c) ∧ a'.tab_prefixof (257 + j) = e ∧
          a'.tab_suffixof (257 + j) = c) ∧
      (∀ i : Nat, i < 256 → a'.tab_suffixof i = i) := by
  obtain ⟨r1, r2, r3, r4⟩ := srel_room B mb hmb10 hmb dict cons s a hb he h hw hfree
  have hdl := hb.dlen
  have hfh := hb.fe_hi
  have hout : a.out ++ expand dict s.ent = cons := by
    rcases h.out_eq with ⟨h1, _⟩ | h1
    · exact absurd h1 hcons
    · exact h1
  have hent := hb.ent_ok
  rcases h.phase with ⟨p1, p2, p3, p4, p5, p6⟩ | ⟨p1, p2⟩
  · have he256 : s.ent < 256 := by omega
    have hex : expand dict s.ent = [s.ent] := expand_lit dict s.ent (by omega)
    have hstep : astep c a = AStep.cont
        { a with pos := a.pos + a.n_bits, out := a.out ++ [s.ent], finchar := (s.ent : Int),
                 oldcode := (s.ent : Int) } := by
      unfold astep
      rw [if_neg (by omega), if_neg (by omega)]
      simp only [hin]
      rw [if_pos p1, if_neg (by omega)]
      simp only [Int.toNat_ofNat, Nat.mod_eq_of_lt he256]
    refine ⟨_, hstep, rfl, rfl, rfl, rfl, rfl, rfl, ?_, ?_, ?_, ?_, h.lits⟩
    · show a.out ++ [s.ent] = cons
      rw [← hex]; exact hout
    · rw [hex]; rfl
    · show a.free_ent = s.free_ent; omega
    · intro j hj; omega
  · -- validity of the code
    have hvalid : s.ent < 256 ∨ (257 ≤ s.ent ∧ (s.ent : Int) < a.free_ent) ∨
        ((s.ent : Int) = a.free_ent ∧ 0 ≤ a.oldcode ∧
          (a.oldcode.toNat < 256 ∨ (257 ≤ a.oldcode.toNat ∧ a.oldcode < a.free_ent)) ∧
          expand dict s.ent = expand dict a.oldcode.toNat ++ [a.finchar.toNat % 256]) := by
      rcases hent with h1 | ⟨h1, h2⟩
      · exact Or.inl h1
      · right
        by_cases hlt : (s.ent : Int) < a.free_ent
        · exact Or.inl ⟨by omega, hlt⟩
        · right
          have hD : a.free_ent = s.free_ent - 1 := by
            rcases p2 with q | ⟨_, q⟩ <;> omega
          have hne : dict ≠ [] := by
            intro h0; rw [h0] at hdl; simp at hdl; omega
          obtain ⟨q1, q2, q3⟩ := h.pend p1 hD hne
          obtain ⟨o, ho⟩ := Int.eq_ofNat_of_zero_le q1
          have hoo : a.oldcode.toNat = o := by omega
          rw [hoo] at q2 q3 ⊢
          rw [List.getLast?_eq_getElem?] at q2
          have hj : s.ent = 257 + (dict.length - 1) := by
            have : 0 < dict.length := List.length_pos.mpr hne
            omega
          obtain ⟨k1, k2⟩ := he.dok _ _ _ q2
          have hx := expand_entry dict he.dok _ _ _ q2
          rw [← hj] at hx
          have hhd : (expand dict s.ent).headD 0 = (expand dict o).headD 0 := by
            rw [hx]; exact headD_append _ _ (expand_ne_nil dict o)
          refine ⟨by omega, q1, ?_, ?_⟩
          · rcases k2 with k | k
            · exact Or.inl k
            · right; omega
          · rw [hx, q3, ← hhd]
            simp only [Int.toNat_ofNat]
            rw [Nat.mod_eq_of_lt k1]
    obtain ⟨a', hstep, b1, b2, b3, b4, b5, b6, b7, b8, b9, b10⟩ :=
      astep_read c a dict s.ent he.dok hroom r1 hin p1 (by omega) (by omega) r3 h.tabs h.lits hvalid
    have hlit' : ∀ i : Nat, i < 256 → a'.tab_suffixof i = i := by
      intro i hi
      by_cases hmm : a.free_ent < c.maxmaxcode
      · rw [(b9 hmm).2.2]
        unfold upd
        rw [if_neg (by omega)]
        exact h.lits i hi
      · rw [(b10 hmm).2.2]; exact h.lits i hi
    refine ⟨a', hstep, b1, b2, b3, b4, b5, b6, by rw [b7, hout], b8, ?_, ?_, hlit'⟩
    · rcases p2 with q | ⟨q1, q2⟩
      · rw [(b9 (by rw [hc2]; omega)).1]; omega
      · have := (he.frozen q1).2
        rw [(b10 (by rw [hc2]; omega)).1]; omega
    · intro j hj
      rcases p2 with q | ⟨q1, q2⟩
      · obtain ⟨c1, c2, c3⟩ := b9 (by rw [hc2]; omega)
        by_cases hjl : 257 + (j : Int) < a.free_ent
        · obtain ⟨e, x, t1, t2, t3⟩ := h.tabs j hjl
          refine ⟨e, x, t1, ?_, ?_⟩
          · rw [c2]; unfold upd; rw [if_neg (by omega)]; exact t2
          · rw [c3]; unfold upd; rw [if_neg (by omega)]; exact t3
        · have hjD : 257 + (j : Int) = a.free_ent := by omega
          have hne : dict ≠ [] := by
            intro h0; rw [h0] at hdl; simp at hdl; omega
          obtain ⟨q1, q2, q3⟩ := h.pend p1 q hne
          rw [List.getLast?_eq_getElem?] at q2
          have hjj : j = dict.length - 1 := by omega
          obtain ⟨k1, k2⟩ := he.dok _ _ _ q2
          refine ⟨_, _, by rw [hjj]; exact q2, ?_, ?_⟩
          · rw [c2]; unfold upd; rw [if_pos hjD]
            apply Nat.mod_eq_of_lt
            have : 0 < dict.length := List.length_pos.mpr hne
            omega
          · rw [c3]; unfold upd; rw [if_pos hjD]
            exact Nat.mod_eq_of_lt k1
      · obtain ⟨c1, c2, c3⟩ := b10 (by rw [hc2]; have := (he.frozen q1).2; omega)
        obtain ⟨e, x, t1, t2, t3⟩ := h.tabs j (by omega)
        exact ⟨e, x, t1, by rw [c2]; exact t2, by rw [c3]; exact t3⟩

theorem miss_state_ctl (s : CState) (c : Nat) (hp : Int) :
    (miss_state s c hp).ent = c ∧ (miss_state s c hp).stcode = s.stcode ∧
    (miss_state s c hp).free_ent = (if s.stcode then s.free_ent + 1 else s.free_ent) ∧
    (miss_state s c hp).rpos = s.rpos + 1 := by
  unfold miss_state
  simp only []
  cases s.stcode <;> exact ⟨rfl, rfl, rfl, rfl⟩

theorem compat_input (mb : Int) (c : ACfg) (s' : CState) (L n : Int) (v : Nat)
    (hc : Compat mb c s') (hL0 : 0 ≤ L) (hLn : L + n ≤ Labs s') (hn9 : 9 ≤ n) (hn16 : n ≤ 16)
    (hv : v < 2 ^ n.toNat)
    (hbits : ∀ t : Nat, (t : Int) < n → bit_at (stream s') (L + t) = v.testBit t) :
    input c.buf L (2 ^ n.toNat - 1) = (v : Int) := by
  have hlen := hc.len
  exact input_bits c.buf L n v hL0 hn9 hn16 (hc.bytes _ (by omega) (by omega))
    (hc.bytes _ (by omega) (by omega)) hv
    (fun t ht => (hc.bits _ (by omega) (by omega)).trans (hbits t ht))

theorem take_succ_chunk (chunk : List Nat) (r : Int) (h0 : 0 ≤ r) (hl : r < chunk.length) :
    chunk.take (r + 1).toNat = chunk.take r.toNat ++ [chunk_buf chunk r] := by
  have e : (r + 1).toNat = r.toNat + 1 := by omega
  have hlt : r.toNat < chunk.length := by omega
  rw [e, List.take_succ, List.getElem?_eq_getElem hlt]
  unfold chunk_buf
  rw [List.getD_eq_getElem?_getD, List.getElem?_eq_getElem hlt]
  rfl

/-- The relation after a pass that sent the pending prefix. -/
theorem srel_miss (B mb : Int) (dict : List (Nat × Nat)) (cons : List Nat) (s : CState)
    (a a' : AState) (c : Nat) (hp : Int) (hc256 : c < 256) (hb : CBase B mb dict s)
    (h : SRel mb dict cons s a) (hw : a.n_bits = s.n_bits)
    (hwb : (a.base - 8 * s.written.length - s.boff) % (8 * s.n_bits) = 0)
    (b1 : a'.pos = a.pos + a.n_bits) (b2 : a'.base = a.base) (b3 : a'.n_bits = a.n_bits)
    (b4 : a'.maxcode = a.maxcode) (b5 : a'.bitmask = a.bitmask) (b6 : a'.oldcode = s.ent)
    (b7 : a'.out = cons) (b8 : a'.finchar = (((expand dict s.ent).headD 0 : Nat) : Int))
    (b9 : a'.free_ent = s.free_ent)
    (b10 : ∀ j : Nat, 257 + (j : Int) < s.free_ent →
        ∃ e c, dict[j]? = some (e, c) ∧ a'.tab_prefixof (257 + j) = e ∧
          a'.tab_suffixof (257 + j) = c)
    (b11 : ∀ i : Nat, i < 256 → a'.tab_suffixof i = i) :
    SRel mb (if s.stcode then dict ++ [(s.ent, c)] else dict) (cons ++ [c])
      (miss_state s c hp) a' := by
  obtain ⟨e1, e2, e3, e4, e5⟩ := miss_state_out s c hp
  obtain ⟨f1, f2, f3, _⟩ := miss_state_ctl s c hp
  have hn9 := hb.nb_lo
  have hpos := h.pos_eq
  have hbl := h.base_le
  have hdl := hb.dlen
  have hexc : ∀ d : List (Nat × Nat), expand d c = [c] := fun d => expand_lit d c (by omega)
  refine ⟨?_, by rw [b2]; exact h.base_nn, by rw [b2]; exact h.base8, by omega,
    by rw [b3]; exact h.nb_lo, by rw [b5, b3]; exact h.bitmask_eq, by rw [b4, b3]; exact h.mc,
    Or.inl ⟨by rw [b3, e5]; exact hw, by rw [b2, e1, e4, e5]; exact hwb⟩, ?_, ?_, b11, ?_, ?_⟩
  · unfold Labs at hpos ⊢
    rw [b1, e1, e3, hpos, hw]; ring
  · right
    refine ⟨by rw [b6]; omega, ?_⟩
    rw [f2, f3, b9]
    cases hst : s.stcode with
    | true => left; simp
    | false => right; simp
  · intro j hj
    rw [b9] at hj
    obtain ⟨e, x, t1, t2, t3⟩ := b10 j hj
    refine ⟨e, x, ?_, t2, t3⟩
    have hjl : j < dict.length := by omega
    split_ifs
    · rw [List.getElem?_append_left hjl]; exact t1
    · exact t1
  · intro _ hfe _
    rw [f3, b9] at hfe
    cases hst : s.stcode with
    | true =>
      simp only [if_true]
      have hne : s.ent ≠ 257 + dict.length := by
        rcases hb.ent_ok with h1 | h1 <;> omega
      refine ⟨by rw [b6]; omega, ?_, ?_⟩
      · rw [List.getLast?_append, f1, hexc, b6]
        simp
      · rw [b6, b8]
        simp only [Int.toNat_ofNat]
        rw [expand_snoc dict _ _ hne]
    | false =>
      rw [hst] at hfe
      simp only [Bool.false_eq_true, if_false] at hfe
      omega
  · right
    rw [f1, hexc, b7]

theorem AReach.opt {c : ACfg} {a0 a a1 : AState} (h : AReach c a0 a)
    (h1 : a1 = a ∨ astep c a = AStep.cont a1) : AReach c a0 a1 := by
  rcases h1 with rfl | h1
  · exact h
  · exact AReach.step h h1

/-- The simulation is kept by a pass that sends the pending prefix. -/
theorem sim_miss (g : Globals) (B mb : Int) (hmb10 : 10 ≤ mb) (hmb : mb ≤ 16)
    (pre chunk : List Nat) (r0 : Int) (dict : List (Nat × Nat)) (s : CState) (hp : Int)
    (hb : CBase B mb dict s) (he : CEnc mb dict s) (hfree : s.free_ent < s.extcode)
    (hcons : cons_of (Point.next pre chunk r0) s ≠ [])
    (hby : ∀ b ∈ chunk, b < 256) (hr0 : 0 ≤ s.rpos) (hrl : s.rpos < chunk.length)
    (hs : Sim g mb (Point.next pre chunk r0) dict s) :
    Sim g mb (Point.next pre chunk r0)
      (if s.stcode then dict ++ [(s.ent, chunk_buf chunk s.rpos)] else dict)
      (miss_state s (chunk_buf chunk s.rpos) hp) := by
  intro c hc
  have hn9 := hb.nb_lo
  have hn16 := hb.nb_hi
  have hext := ext_miss s (chunk_buf chunk s.rpos) hp hb.ob_nn (by omega)
  obtain ⟨a, hreach, hrel⟩ := hs c (compat_of_ext mb c _ _ hc hext)
  obtain ⟨e1, e2, e3, e4, e5⟩ := miss_state_out s (chunk_buf chunk s.rpos) hp
  obtain ⟨_, _, _, f4⟩ := miss_state_ctl s (chunk_buf chunk s.rpos) hp
  have hL : Labs (miss_state s (chunk_buf chunk s.rpos) hp) = Labs s + s.n_bits := by
    unfold Labs; rw [e1, e3]; ring
  have hlen := hc.len
  have hpos := hrel.pos_eq
  obtain ⟨a1, hopt, hrel1, hw, hwb⟩ := srel_sync B mb hmb dict _ s a c hb hrel hc.maxbits_eq hc.mm
    (by omega)
  obtain ⟨ce, bits⟩ := cenc_miss B mb hmb dict s (chunk_buf chunk s.rpos) hp
    (chunk_buf_lt chunk hby _) hb he hfree
  have hpos1 := hrel1.pos_eq
  have hL0 : 0 ≤ Labs s := by unfold Labs; have := hb.ob_nn; omega
  have hin : input c.buf a1.pos a1.bitmask = (s.ent : Int) := by
    rw [hrel1.bitmask_eq, hw, hpos1]
    exact compat_input mb c _ (Labs s) s.n_bits s.ent hc hL0 (by omega) hn9 (by omega)
      (ent_fits B mb dict s hmb hb he (Or.inl hfree)) bits
  obtain ⟨a', hstep, b1, b2, b3, b4, b5, b6, b7, b8, b9, b10, b11⟩ :=
    srel_decode B mb hmb10 hmb dict _ s a1 c hb he hrel1 hcons hw hc.mm (by omega) hin
      (Or.inl hfree)
  refine ⟨a', AReach.step (hreach.opt hopt) hstep, ?_⟩
  have := srel_miss B mb dict _ s a1 a' (chunk_buf chunk s.rpos) hp (chunk_buf_lt chunk hby _)
    hb hrel1 hw hwb b1 b2 b3 b4 b5 b6 b7 b8 b9 b10 b11
  have hco : cons_of (Point.next pre chunk r0) (miss_state s (chunk_buf chunk s.rpos) hp)
      = cons_of (Point.next pre chunk r0) s ++ [chunk_buf chunk s.rpos] := by
    show pre ++ chunk.take (miss_state s (chunk_buf chunk s.rpos) hp).rpos.toNat = _
    rw [f4, take_succ_chunk chunk s.rpos hr0 hrl]
    show _ = pre ++ chunk.take s.rpos.toNat ++ _
    rw [List.append_assoc]
  rw [hco]
  exact this

/-- The simulation is kept by a pass that finds the pair in the table. -/
theorem sim_hit (g : Globals) (mb : Int) (pre chunk : List Nat) (r0 : Int)
    (dict : List (Nat × Nat)) (s : CState) (j : Nat) (hdok : DictOK dict)
    (hj : dict[j]? = some (s.ent, chunk_buf chunk s.rpos))
    (hcons : cons_of (Point.next pre chunk r0) s ≠ [])
    (hr0 : 0 ≤ s.rpos) (hrl : s.rpos < chunk.length)
    (hs : Sim g mb (Point.next pre chunk r0) dict s) :
    Sim g mb (Point.next pre chunk r0) dict (hit_state s (chunk_buf chunk s.rpos) (257 + j)) := by
  intro c hc
  obtain ⟨a, hreach, h⟩ := hs c (compat_of_ext mb c _ _ hc (ext_hit _ _ _))
  refine ⟨a, hreach, ?_⟩
  have hx := expand_entry dict hdok _ _ _ hj
  have hhd : (expand dict (257 + j)).headD 0 = (expand dict s.ent).headD 0 := by
    rw [hx]; exact headD_append _ _ (expand_ne_nil dict _)
  have hout : a.out ++ expand dict s.ent = cons_of (Point.next pre chunk r0) s := by
    rcases h.out_eq with ⟨h1, _⟩ | h1
    · exact absurd h1 hcons
    · exact h1
  refine ⟨h.pos_eq, h.base_nn, h.base8, h.base_le, h.nb_lo, h.bitmask_eq, h.mc, h.width,
    h.phase, h.tabs, h.lits, ?_, ?_⟩
  · intro p1 p2 p3
    obtain ⟨q1, q2, q3⟩ := h.pend p1 p2 p3
    refine ⟨q1, ?_, q3⟩
    show dict.getLast? = some (a.oldcode.toNat, (expand dict (257 + j)).headD 0)
    rw [hhd]; exact q2
  · right
    show a.out ++ expand dict (257 + j) = pre ++ chunk.take (s.rpos + 1).toNat
    rw [take_succ_chunk chunk s.rpos hr0 hrl, hx, ← List.append_assoc, hout]
    show pre ++ chunk.take s.rpos.toNat ++ _ = _
    rw [List.append_assoc]

theorem cons_of_congr (pt : Point) (s s' : CState) (h : s'.rpos = s.rpos) :
    cons_of pt s' = cons_of pt s := by
  cases pt <;> simp only [cons_of, h]

/-- The relation is kept by the widening block: the decoder falls one width behind. -/
theorem srel_grow (B mb : Int) (hB : 1 ≤ B) (hmb : mb ≤ 16) (dict : List (Nat × Nat))
    (cons : List Nat) (s : CState) (a : AState) (hb : CBase B mb dict s) (he : CEnc mb dict s)
    (h : SRel mb dict cons s a) : SRel mb dict cons (grow B mb s) a := by
  have hn9 := hb.nb_lo
  rcases grow_cases B mb s with ⟨e, _⟩ | ⟨h1, h2, h3, e⟩ | ⟨h1, h2, h3, e⟩
  · rw [e]; exact h
  · obtain ⟨hst, hE, hdv, h8, hpad⟩ := full_aligned B mb hB hmb dict s hb he h1 h3
    obtain ⟨w1, w2, w3⟩ := srel_left_of_full B mb hmb dict cons s a hb he h (Or.inl ⟨hst, h1⟩)
    rw [e, hpad]
    have hpos := h.pos_eq
    unfold Labs at hpos
    have hD : a.free_ent = MAXCODE a.n_bits := by
      rw [w1]
      rcases h.phase with ⟨p1, _⟩ | ⟨_, p2 | ⟨p2, _⟩⟩
      · exact absurd p1 w3
      · omega
      · rw [hst] at p2; cases p2
    have hal : (a.pos - a.base) % (8 * a.n_bits) = 0 := by
      rw [w1, hpos, show 8 * (s.written.length : Int) + s.outbits - a.base
        = (s.outbits - s.boff) - (a.base - 8 * s.written.length - s.boff) by ring]
      exact Int.emod_eq_zero_of_dvd
        (dvd_sub (Int.dvd_of_emod_eq_zero hdv) (Int.dvd_of_emod_eq_zero w2))
    exact ⟨h.pos_eq, h.base_nn, h.base8, h.base_le, h.nb_lo, h.bitmask_eq, h.mc,
      Or.inr ⟨by show a.n_bits + 1 = s.n_bits + 1; omega, hD, hal,
        by show (s.outbits - s.outbits) % (8 * (s.n_bits + 1)) = 0; simp⟩,
      h.phase, h.tabs, h.lits, h.pend, h.out_eq⟩
  · have hst := stcode_of_full B mb hB dict s hb h1
    obtain ⟨w1, w2, w3⟩ := srel_left_of_full B mb hmb dict cons s a hb he h (Or.inl ⟨hst, h1⟩)
    rw [e]
    refine ⟨h.pos_eq, h.base_nn, h.base8, h.base_le, h.nb_lo, h.bitmask_eq, h.mc, h.width,
      ?_, h.tabs, h.lits, h.pend, h.out_eq⟩
    rcases h.phase with ⟨p1, _⟩ | ⟨p1, p2 | ⟨p2, _⟩⟩
    · exact absurd p1 w3
    · exact Or.inr ⟨p1, Or.inl p2⟩
    · rw [hst] at p2; cases p2

theorem sim_grow (g : Globals) (B mb : Int) (hB : 1 ≤ B) (hmb : mb ≤ 16) (pt : Point)
    (dict : List (Nat × Nat)) (s : CState) (hb : CBase B mb dict s) (he : CEnc mb dict s)
    (hs : Sim g mb pt dict s) : Sim g mb pt dict (grow B mb s) := by
  intro c hc
  have hn9 := hb.nb_lo
  obtain ⟨a, hreach, h⟩ := hs c
    (compat_of_ext mb c _ _ hc (ext_grow B mb s hb.ob_nn hb.boff_le (by omega)))
  refine ⟨a, hreach, ?_⟩
  rw [cons_of_congr pt s _ (grow_fields B mb s).2.1]
  exact srel_grow B mb hB hmb dict _ s a hb he h

theorem sim_flush (g : Globals) (B mb : Int) (hB : 0 ≤ B) (pt : Point)
    (dict : List (Nat × Nat)) (s : CState) (hb : CBase B mb dict s)
    (hs : Sim g mb pt dict s) : Sim g mb pt dict (flush B s) := by
  intro c hc
  obtain ⟨hext, hL⟩ := ext_flush B hB s hb.ob_nn
  obtain ⟨a, hreach, h⟩ := hs c (compat_of_ext mb c _ _ hc hext)
  refine ⟨a, hreach, ?_⟩
  rw [cons_of_congr pt s _ (flush_fields B s).2.1]
  rcases flush_cases B s with ⟨e, _⟩ | ⟨hge, e⟩
  · rw [e]; exact h
  · refine ⟨by rw [hL]; exact h.pos_eq, h.base_nn, h.base8, h.base_le, h.nb_lo, h.bitmask_eq,
      h.mc, ?_, ?_, h.tabs, h.lits, ?_, ?_⟩
    · rw [e]
      obtain ⟨k, hk⟩ := flush_boff_congr B s.boff s.n_bits
      have hlen : ((s.written ++ bytes_of s.outbuf B).length : Int) = s.written.length + B := by
        rw [List.length_append, bytes_of_length]; push_cast; omega
      rcases h.width with ⟨w1, w2⟩ | ⟨w1, w2, w3, w4⟩
      · left
        refine ⟨w1, ?_⟩
        show (a.base - 8 * ((s.written ++ bytes_of s.outbuf B).length : Int)
          - -(crem (B * 8 - s.boff) (s.n_bits * 8))) % (8 * s.n_bits) = 0
        rw [hlen, hk, show a.base - 8 * ((s.written.length : Int) + B)
            - (s.boff - B * 8 + s.n_bits * 8 * k)
          = (a.base - 8 * s.written.length - s.boff) - (8 * s.n_bits) * k by ring]
        exact Int.emod_eq_zero_of_dvd (dvd_sub (Int.dvd_of_emod_eq_zero w2) (Dvd.intro k rfl))
      · right
        refine ⟨w1, w2, w3, ?_⟩
        show (s.outbits - B * 8 - -(crem (B * 8 - s.boff) (s.n_bits * 8))) % (8 * s.n_bits) = 0
        rw [hk, show s.outbits - B * 8 - (s.boff - B * 8 + s.n_bits * 8 * k)
          = (s.outbits - s.boff) - (8 * s.n_bits) * k by ring]
        exact Int.emod_eq_zero_of_dvd (dvd_sub (Int.dvd_of_emod_eq_zero w4) (Dvd.intro k rfl))
    · rw [e]; exact h.phase
    · rw [e]; exact h.pend
    · rw [e]; exact h.out_eq

theorem sim_congr (g : Globals) (mb : Int) (pt : Point) (dict : List (Nat × Nat))
    (s s' : CState) (hs : Sim g mb pt dict s) (e0 : s'.rpos = s.rpos)
    (e1 : s'.written = s.written) (e2 : s'.outbits = s.outbits) (e3 : s'.boff = s.boff)
    (e4 : s'.n_bits = s.n_bits) (e5 : s'.free_ent = s.free_ent) (e6 : s'.stcode = s.stcode)
    (e7 : s'.ent = s.ent) (e8 : s'.outbuf = s.outbuf) : Sim g mb pt dict s' := by
  intro c hc
  obtain ⟨a, hreach, h⟩ := hs c (compat_of_ext mb c _ _ hc (ext_of_eq s s' e1 e8 e2))
  refine ⟨a, hreach, ?_⟩
  rw [cons_of_congr pt s _ e0]
  exact srel_congr mb dict _ s s' a h e1 e2 e3 e4 e5 e6 e7

/-- The decoder step that reads CLEAR in block mode. -/
theorem astep_clear (c : ACfg) (a : AState) (hav : a.pos + a.n_bits ≤ 8 * c.N)
    (hnp : a.free_ent ≤ a.maxcode) (hin : input c.buf a.pos a.bitmask = 256)
    (hold : a.oldcode ≠ -1) (hblock : c.block_mode ≠ 0) :
    astep c a = AStep.cont
      { a with tab_prefixof := clear_tab_prefixof a.tab_prefixof,
               free_ent := FIRST - 1,
               pos := pad_to_group (a.pos + a.n_bits) a.base a.n_bits,
               base := pad_to_group (a.pos + a.n_bits) a.base a.n_bits,
               n_bits := INIT_BITS,
               maxcode := MAXCODE INIT_BITS - 1,
               bitmask := 2 ^ INIT_BITS.toNat - 1 } := by
  unfold astep
  rw [if_neg (by omega), if_neg (by omega)]
  simp only [hin]
  rw [if_neg hold, if_pos ⟨rfl, hblock⟩]

/-- The simulation is kept by the ratio block: when it sends CLEAR, the decoder reads
that code and resets as the encoder does. -/
theorem sim_check_ratio (g : Globals) (B mb : Int) (hmb10 : 10 ≤ mb) (hmb : mb ≤ 16) (pt : Point)
    (dict : List (Nat × Nat)) (s : CState) (hb : CBase B mb dict s) (he : CEnc mb dict s)
    (hs : Sim g mb pt dict s) :
    ∃ dict', CBase B mb dict' (check_ratio s) ∧ CEnc mb dict' (check_ratio s) ∧
      Sim g mb pt dict' (check_ratio s) := by
  have hn9 := hb.nb_lo
  have hn16 := hb.nb_hi
  rcases check_ratio_cases s with ⟨e, _⟩ | ⟨_, rat, e⟩ | ⟨h1, e⟩
  · rw [e]; exact ⟨dict, hb, he, hs⟩
  · rw [e]
    exact ⟨dict, cbase_congr B mb dict s _ hb rfl rfl rfl rfl rfl rfl rfl rfl rfl,
      cenc_congr mb dict s _ he rfl rfl rfl rfl rfl rfl rfl rfl,
      sim_congr g mb pt dict s _ hs rfl rfl rfl rfl rfl rfl rfl rfl rfl⟩
  · obtain ⟨⟨d0, hb0⟩, _⟩ := check_ratio_cinv B mb hmb dict s hb
    have hd0 : d0 = [] := by
      have := hb0.dlen
      rw [e] at this
      have h' : ((d0.length : Nat) : Int) = FIRST - 257 := this
      unfold FIRST at h'
      exact List.length_eq_zero.mp (by omega)
    subst hd0
    rcases cenc_check_ratio B mb hmb10 hmb dict s hb he with ⟨q, _, _⟩ | ⟨hst, hent, ce, _, bits⟩
    · rw [e] at q
      have q' : true = s.stcode := q
      rw [h1.1] at q'; cases q'
    refine ⟨[], hb0, ce, ?_⟩
    intro c hc
    have hext := ext_check_ratio s hb.ob_nn hb.boff_le (by omega)
    obtain ⟨a, hreach, h⟩ := hs c (compat_of_ext mb c _ _ hc hext)
    obtain ⟨w1, w2, w3⟩ := srel_left_of_full B mb hmb dict _ s a hb he h (Or.inr hst)
    obtain ⟨f1, f2⟩ := he.frozen hst
    have hbo : s.boff ≤ s.outbits + s.n_bits := by have := hb.boff_le; omega
    have hpg := pad_ge (s.outbits + s.n_bits) s.boff s.n_bits (by omega) hbo
    have hL2 : Labs (check_ratio s)
        = 8 * s.written.length + pad_to_group (s.outbits + s.n_bits) s.boff s.n_bits := by
      rw [e]; rfl
    have hpos := h.pos_eq
    have hlen := hc.len
    have hL0 : 0 ≤ Labs s := by unfold Labs; have := hb.ob_nn; omega
    have hLs : Labs s = 8 * s.written.length + s.outbits := rfl
    have hmc : a.maxcode = MAXCODE mb := by rw [h.mc, if_pos (by omega)]
    have hD : a.free_ent ≤ a.maxcode := by
      rcases h.phase with ⟨p1, _⟩ | ⟨_, p2 | ⟨_, p2⟩⟩
      · exact absurd p1 w3
      · omega
      · omega
    have hv : (256 : Nat) < 2 ^ s.n_bits.toNat := by
      have : (2 : Nat) ^ 9 ≤ 2 ^ s.n_bits.toNat := Nat.pow_le_pow_right (by decide) (by omega)
      omega
    have hin : input c.buf a.pos a.bitmask = 256 := by
      rw [h.bitmask_eq, w1, hpos]
      exact compat_input mb c _ (Labs s) s.n_bits 256 hc hL0 (by omega) hn9 (by omega) hv bits
    have hstep := astep_clear c a (by omega) hD hin w3 hc.block
    have hbl := h.base_le
    have hbn := h.base_nn
    have hbo' : a.base ≤ a.pos + a.n_bits := by omega
    have hpg' := pad_ge (a.pos + a.n_bits) a.base a.n_bits (by omega) hbo'
    have hp8 := pad_mod8' (a.pos + a.n_bits) a.base a.n_bits (by omega) hbo' h.base8
    have hpc : pad_to_group (a.pos + a.n_bits) a.base a.n_bits
        = 8 * s.written.length + pad_to_group (s.outbits + s.n_bits) s.boff s.n_bits := by
      have := pad_congr (a.pos + a.n_bits) a.base (s.outbits + s.n_bits) s.boff a.n_bits
        (by omega) hbo' hbo (by
          rw [w1, hpos, hLs, show 8 * (s.written.length : Int) + s.outbits + s.n_bits - a.base
            - (s.outbits + s.n_bits - s.boff) = -(a.base - 8 * s.written.length - s.boff) by ring]
          exact Int.emod_eq_zero_of_dvd ((Int.dvd_neg).mpr (Int.dvd_of_emod_eq_zero w2)))
      rw [w1] at this ⊢
      omega
    refine ⟨_, AReach.step hreach hstep, ?_⟩
    rw [cons_of_congr pt s _ (check_ratio_fields s).2.1]
    have hexp : expand [] s.ent = expand dict s.ent := by
      unfold FIRST at hent
      rw [expand_lit _ _ (by omega), expand_lit _ _ (by omega)]
    refine ⟨by rw [hL2]; exact hpc, by show 0 ≤ pad_to_group _ _ _; omega, hp8, le_refl _,
      by show 9 ≤ INIT_BITS; decide, rfl, ?_, Or.inl ⟨?_, ?_⟩, Or.inr ⟨w3, Or.inl ?_⟩, ?_, h.lits,
      fun _ _ hne => absurd rfl hne, ?_⟩
    · show MAXCODE INIT_BITS - 1 = if INIT_BITS = mb then MAXCODE mb else MAXCODE INIT_BITS - 1
      rw [if_neg (by unfold INIT_BITS; omega)]
    · rw [e]
    · rw [e]
      show (pad_to_group (a.pos + a.n_bits) a.base a.n_bits - 8 * (s.written.length : Int)
        - pad_to_group (s.outbits + s.n_bits) s.boff s.n_bits) % (8 * INIT_BITS) = 0
      rw [hpc]; simp
    · rw [e]
    · intro j hj
      have hj' : 257 + (j : Int) < FIRST - 1 := hj
      unfold FIRST at hj'; omega
    · rw [e]
      show _ ∨ a.out ++ expand [] s.ent = _
      rw [hexp]; exact h.out_eq

theorem sim_init (g : Globals) (mb : Int) (bm : Nat) (hmb10 : 10 ≤ mb) :
    Sim g mb (Point.between []) [] (compress_init mb bm) := by
  intro c hc
  refine ⟨astart g c, AReach.refl, ?_⟩
  refine ⟨by show (24 : Int) = Labs (compress_init mb bm); unfold Labs compress_init; simp,
    by show (0 : Int) ≤ 24; decide, by show (24 : Int) % 8 = 0; decide, le_refl _,
    by show 9 ≤ INIT_BITS; decide, rfl, ?_, Or.inl ⟨rfl, ?_⟩, Or.inl ⟨rfl, ?_, rfl, rfl, rfl, rfl⟩,
    ?_, ?_, fun h => absurd rfl h, Or.inl ⟨rfl, rfl⟩⟩
  · show MAXCODE INIT_BITS - 1 = if INIT_BITS = mb then MAXCODE mb else MAXCODE INIT_BITS - 1
    rw [if_neg (by unfold INIT_BITS; omega)]
  · show ((24 : Int) - 8 * (([] : List Nat).length : Int) - 3 * 8) % (8 * INIT_BITS) = 0
    decide
  · show (if c.block_mode ≠ 0 then FIRST else 256) = 257
    rw [if_pos hc.block]; rfl
  · intro j hj
    have hj' : 257 + (j : Int) < (if c.block_mode ≠ 0 then FIRST else 256) := hj
    rw [if_pos hc.block] at hj'
    unfold FIRST at hj'; omega
  · intro i hi
    show (if 0 ≤ (i : Int) ∧ (i : Int) ≤ 255 then (i : Int).toNat else _) = i
    rw [if_pos (by omega)]
    simp

theorem sim_start (g : Globals) (B mb : Int) (pre chunk : List Nat) (dict : List (Nat × Nat))
    (s : CState) (hbi : s.bytes_in = pre.length) (hne : chunk ≠ [])
    (hby : ∀ b ∈ chunk, b < 256) (hs : Sim g mb (Point.between pre) dict s) :
    Sim g mb (Point.round pre chunk) dict (chunk_start s chunk) ∧
      Started (Point.round pre chunk) (chunk_start s chunk) := by
  rcases chunk_start_cases s chunk with ⟨h0, e⟩ | ⟨h0, e⟩
  · have hpre : pre = [] := List.length_eq_zero.mp (by omega)
    subst hpre
    rw [e]
    refine ⟨?_, fun _ => le_refl _⟩
    intro c hc
    obtain ⟨a, hreach, h⟩ := hs c (compat_of_ext mb c _ _ hc (ext_of_eq s _ rfl rfl rfl))
    refine ⟨a, hreach, ?_⟩
    have h0c : chunk.getD 0 0 < 256 := by
      cases chunk with
      | nil => exact absurd rfl hne
      | cons x t => exact hby x (List.mem_cons_self _ _)
    have hold : a.oldcode = -1 := by
      rcases h.out_eq with ⟨_, h1⟩ | h1
      · exact h1
      · exfalso
        have h1' : a.out ++ expand dict s.ent = [] := h1
        exact expand_ne_nil dict s.ent (List.append_eq_nil.mp h1').2
    have hP0 : a.out = [] := by
      rcases h.phase with ⟨_, _, _, _, p5, _⟩ | ⟨p1, _⟩
      · exact p5
      · exact absurd hold p1
    refine ⟨h.pos_eq, h.base_nn, h.base8, h.base_le, h.nb_lo, h.bitmask_eq, h.mc, h.width,
      h.phase, h.tabs, h.lits, fun p => absurd hold p, Or.inr ?_⟩
    show a.out ++ expand dict (chunk.getD 0 0) = [] ++ chunk.take (1 : Int).toNat
    rw [hP0, expand_lit _ _ (by omega)]
    cases chunk with
    | nil => exact absurd rfl hne
    | cons x t => rfl
  · rw [e]
    refine ⟨?_, fun hp => ?_⟩
    · intro c hc
      obtain ⟨a, hreach, h⟩ := hs c (compat_of_ext mb c _ _ hc (ext_of_eq s _ rfl rfl rfl))
      refine ⟨a, hreach, ?_⟩
      have : cons_of (Point.round pre chunk)
          ({ s with rsize := chunk.length, rpos := 0, rlop := 0 } : CState)
          = cons_of (Point.between pre) s := by
        show pre ++ chunk.take (0 : Int).toNat = pre
        simp
      rw [this]
      exact srel_congr mb dict _ s _ a h rfl rfl rfl rfl rfl rfl rfl
    · rw [hp] at hbi
      exact absurd hbi h0

theorem sim_end (g : Globals) (B mb : Int) (pre chunk : List Nat) (r0 : Int)
    (dict : List (Nat × Nat)) (s : CState) (hn : NextInv B pre chunk r0 s) (hc : ¬ scan_cond s)
    (hs : Sim g mb (Point.next pre chunk r0) dict s) :
    if (round_end s).rlop < (round_end s).rsize then
      Sim g mb (Point.round pre chunk) dict (round_end s)
    else Sim g mb (Point.between (pre ++ chunk)) dict (round_end s) := by
  have hcong : ∀ pt, (∀ s', s'.rpos = s.rpos → cons_of pt s' = cons_of (Point.next pre chunk r0) s)
      → Sim g mb pt dict (round_end s) := by
    intro pt hpt c hcomp
    obtain ⟨a, hreach, h⟩ := hs c (compat_of_ext mb c _ _ hcomp (ext_round_end s))
    refine ⟨a, hreach, ?_⟩
    rcases round_end_cases s with ⟨e, _⟩ | ⟨_, e⟩
    · rw [e, hpt s rfl]; exact h
    · rw [hpt _ (by rw [e]), e]
      exact srel_congr mb dict _ s _ a h rfl rfl rfl rfl rfl rfl rfl
  split_ifs with hlt
  · exact hcong _ (fun s' h' => by show pre ++ chunk.take s'.rpos.toNat = _; rw [h']; rfl)
  · apply hcong
    intro s' h'
    show pre ++ chunk = pre ++ chunk.take s.rpos.toNat
    have hc1 : ¬ (s.rpos < s.rlop) := fun h => hc (Or.inl h)
    have hrp : s.rpos = chunk.length := by
      have h2 := hn.rpos_le
      have h3 := hn.rlop_le
      have h4 := hn.rsize_eq
      rcases round_end_cases s with ⟨e, h5⟩ | ⟨h5, e⟩
      · rw [e] at hlt; omega
      · rw [e] at hlt
        have : ¬ (s.rpos < s.rsize) := hlt
        omega
    rw [List.take_of_length_le (by omega)]

theorem cenc_init (mb : Int) (bm : Nat) (hmb10 : 10 ≤ mb) : CEnc mb [] (compress_init mb bm) := by
  refine ⟨⟨?_, fun b hb => (by cases hb), ?_, ?_⟩, fun j e c h => (by cases h),
    by show (3 * 8 : Int) % 8 = 0; decide, fun _ => ?_, fun h => (by cases h), fun _ => ?_⟩
  · intro j
    show upd (upd (upd (fun _ => 0) 0 MAGIC_1) 1 MAGIC_2) 2 ((mb.toNat ||| bm) % 256) j < 256
    unfold upd
    split_ifs
    · exact Nat.mod_lt _ (by decide)
    · decide
    · decide
    · show (0 : Nat) < 256
      decide
  · intro j hj
    have hj' : (3 * 8 : Int) ≤ 8 * j := hj
    show upd (upd (upd (fun _ => 0) 0 MAGIC_1) 1 MAGIC_2) 2 ((mb.toNat ||| bm) % 256) j = 0
    unfold upd
    rw [if_neg (by omega), if_neg (by omega), if_neg (by omega)]
  · show upd (upd (upd (fun _ => 0) 0 MAGIC_1) 1 MAGIC_2) 2 ((mb.toNat ||| bm) % 256)
      ((3 * 8 : Int) / 8) < 2 ^ ((3 * 8 : Int) % 8).toNat
    unfold upd
    rw [if_neg (by decide), if_neg (by decide), if_neg (by decide)]
    decide
  · show MAXCODE INIT_BITS + 1 = if INIT_BITS < mb then MAXCODE INIT_BITS + 1 else MAXCODE INIT_BITS
    rw [if_pos (by unfold INIT_BITS; omega)]
  · show ((3 * 8 : Int) - 3 * 8 - INIT_BITS * (FIRST - 1)) % (8 * INIT_BITS) = 0
    decide

theorem cenc_chunk_start (mb : Int) (dict : List (Nat × Nat)) (s : CState) (chunk : List Nat)
    (he : CEnc mb dict s) : CEnc mb dict (chunk_start s chunk) := by
  rcases chunk_start_cases s chunk with ⟨_, e⟩ | ⟨_, e⟩ <;> rw [e] <;>
    exact cenc_congr mb dict s _ he rfl rfl rfl rfl rfl rfl rfl rfl

theorem cenc_round_end (mb : Int) (dict : List (Nat × Nat)) (s : CState)
    (he : CEnc mb dict s) : CEnc mb dict (round_end s) := by
  rcases round_end_cases s with ⟨e, _⟩ | ⟨_, e⟩
  · rw [e]; exact he
  · rw [e]; exact cenc_congr mb dict s _ he rfl rfl rfl rfl rfl rfl rfl rfl

theorem cons_ne_nil (pre chunk : List Nat) (r : Int) (h : pre = [] → 1 ≤ r)
    (hl : r < chunk.length) : pre ++ chunk.take r.toNat ≠ [] := by
  intro hx
  obtain ⟨h1, h2⟩ := List.append_eq_nil.mp hx
  have := h h1
  have h3 : (chunk.take r.toNat).length = 0 := by rw [h2]; rfl
  rw [List.length_take] at h3
  omega

theorem free_of_scan (B mb : Int) (pre chunk : List Nat) (r0 : Int) (dict : List (Nat × Nat))
    (s : CState) (hb : CBase B mb dict s) (hn : NextInv B pre chunk r0 s) (hc : scan_cond s) :
    s.free_ent < s.extcode := by
  rcases hc with h | h
  · have := hn.fe_bud h; omega
  · exact hb.fe_ent h.1

/-- The head of the `do` loop keeps the table, the output facts and the simulation. -/
theorem sim_top (g : Globals) (B mb : Int) (hB : 256 ≤ B) (hmb10 : 10 ≤ mb) (hmb : mb ≤ 16)
    (pt : Point) (dict : List (Nat × Nat)) (s : CState) (hb : CBase B mb dict s)
    (he : CEnc mb dict s) (hs : Sim g mb pt dict s) :
    ∃ dict', CBase B mb dict' (round_top B mb s) ∧ CEnc mb dict' (round_top B mb s) ∧
      Sim g mb pt dict' (round_top B mb s) := by
  obtain ⟨g1, _⟩ := grow_cinv B mb (by omega) hmb dict s hb
  obtain ⟨g2, _⟩ := cenc_grow B mb (by omega) hmb dict s hb he
  have g3 := sim_grow g B mb (by omega) hmb pt dict s hb he hs
  obtain ⟨dict', r1, r2, r3⟩ := sim_check_ratio g B mb hmb10 hmb pt dict _ g1 g2 g3
  obtain ⟨f1, _⟩ := flush_cinv B mb hB dict' _ r1
  have f2 := cenc_flush B mb (by omega) dict' _ r1 r2
  have f3 := sim_flush g B mb (by omega) pt dict' _ r1 r3
  unfold round_top
  generalize flush B (check_ratio (grow B mb s)) = s3 at *
  exact ⟨dict', cbase_congr B mb dict' s3 _ f1 rfl rfl rfl rfl rfl rfl rfl rfl rfl,
    cenc_congr mb dict' s3 _ f2 rfl rfl rfl rfl rfl rfl rfl rfl,
    sim_congr g mb pt dict' s3 _ f3 rfl rfl rfl rfl rfl rfl rfl rfl rfl⟩

/-- On every input `compress` runs to its end, and there the decoder has followed it. -/
theorem reads_sim (g : Globals) (B mb : Int) (bm : Nat) (input : List Nat) (hB : 256 ≤ B)
    (hB2 : B < 2 ^ 31) (hmb10 : 10 ≤ mb) (hmb : mb ≤ 16) (hin : ∀ b ∈ input, b < 256) :
    ∃ s dict, reads B mb (input.length + 1) (compress_init mb bm) input = some s ∧
      CInv B mb (Point.between input) dict s ∧ CEnc mb dict s ∧ Hdr mb bm s ∧
      Sim g mb (Point.between input) dict s := by
  have key := compress_rule B mb (by omega)
    (fun pt s => ∃ dict, CInv B mb pt dict s ∧ CEnc mb dict s ∧ Hdr mb bm s ∧ Started pt s ∧
      Sim g mb pt dict s) ?_ ?_ ?_ ?_ ?_ ?_ input [] (compress_init mb bm) hin ?_
  · obtain ⟨s, h1, dict, h2, h3, h4, _, h6⟩ := key
    exact ⟨s, dict, by simpa using h1, by simpa using h2, h3, h4, by simpa using h6⟩
  · rintro pre chunk s ⟨dict, ⟨hb, ho, hbi⟩, he, hh, _, hs⟩ hne _ hby
    obtain ⟨c1, c2⟩ := cinv_start B mb pre chunk dict s hb ho hbi hne hby
    obtain ⟨s1, s2⟩ := sim_start g B mb pre chunk dict s hbi hne hby hs
    exact ⟨dict, ⟨c1, c2⟩, cenc_chunk_start mb dict s chunk he,
      hdr_of_ext mb bm _ _ hh (ext_chunk_start s chunk) c1.ob_nn, s2, s1⟩
  · rintro pre chunk s ⟨dict, ⟨hb, hr⟩, he, hh, hst, hs⟩
    obtain ⟨_, _, c2⟩ := cinv_top B mb hB hB2 hmb pre chunk dict s hb hr
    obtain ⟨dict', t1, t2, t3⟩ := sim_top g B mb hB hmb10 hmb _ dict s hb he hs
    refine ⟨dict', ⟨t1, c2⟩, t2,
      hdr_of_ext mb bm _ _ hh (ext_round_top B mb hB hmb dict s hb) t1.ob_nn, ?_, t3⟩
    intro hp
    show 1 ≤ (round_top B mb s).rpos
    rw [(round_top_fields B mb s).2]
    exact hst hp
  · rintro pre chunk r0 s ⟨dict, ⟨hb, hn⟩, he, hh, hst, hs⟩ hc
    have hlt := chunk_buf_lt chunk hn.bytes_ok s.rpos
    have hrl := scan_cond_lt B pre chunk r0 s hn hc
    rw [hn.rsize_eq] at hrl
    have hcons : cons_of (Point.next pre chunk r0) s ≠ [] := cons_ne_nil pre chunk s.rpos hst hrl
    have hr0 := hn.rpos_nn
    rcases byte_step_spec B mb (chunk_buf chunk) dict s hb hlt with ⟨j, hj, e⟩ | ⟨_, hp, _, e, hti⟩
    · have hjl : j < dict.length := by
        rcases Nat.lt_or_ge j dict.length with h | h
        · exact h
        · rw [List.getElem?_eq_none h] at hj; cases hj
      obtain ⟨c1, c2⟩ := cinv_hit B mb pre chunk r0 dict s (chunk_buf chunk s.rpos) j hb hn hc hjl
      exact ⟨_, e, dict, ⟨c1, c2⟩, cenc_congr mb dict s _ he rfl rfl rfl rfl rfl rfl rfl rfl,
        hdr_of_ext mb bm _ _ hh (ext_hit _ _ _) c1.ob_nn,
        fun _ => (by show 1 ≤ s.rpos + 1; omega),
        sim_hit g mb pre chunk r0 dict s j he.dok hj hcons hr0 hrl hs⟩
    · obtain ⟨c1, c2⟩ := cinv_miss B mb hmb pre chunk r0 dict s (chunk_buf chunk s.rpos) hp hlt
        hb hn hc hti
      have hfree := free_of_scan B mb pre chunk r0 dict s hb hn hc
      have hn9 := hb.nb_lo
      refine ⟨_, e, _, ⟨c1, c2⟩, (cenc_miss B mb hmb dict s _ hp hlt hb he hfree).1,
        hdr_of_ext mb bm _ _ hh (ext_miss _ _ _ hb.ob_nn (by omega)) c1.ob_nn, ?_,
        sim_miss g B mb hmb10 hmb pre chunk r0 dict s hp hb he hfree hcons hn.bytes_ok hr0 hrl hs⟩
      intro _
      show 1 ≤ (miss_state s (chunk_buf chunk s.rpos) hp).rpos
      rw [(miss_state_ctl s _ hp).2.2.2]; omega
  · rintro pre chunk r0 s ⟨dict, ⟨hb, hn⟩, he, hh, hst, hs⟩ hc
    obtain ⟨c1, c2, c3, c4⟩ := cinv_end B mb pre chunk r0 dict s hb hn hc
    refine ⟨c2, ?_⟩
    have hh' := hdr_of_ext mb bm _ _ hh (ext_round_end s) c1.ob_nn
    have he' := cenc_round_end mb dict s he
    have hs' := sim_end g B mb pre chunk r0 dict s hn hc hs
    have hrp : (round_end s).rpos = s.rpos := by
      rcases round_end_cases s with ⟨e, _⟩ | ⟨_, e⟩ <;> rw [e]
    split_ifs with hlt
    · rw [if_pos hlt] at c4 hs'
      exact ⟨dict, ⟨c1, c4⟩, he', hh', fun hp => (by show 1 ≤ (round_end s).rpos; rw [hrp]; exact hst hp), hs'⟩
    · rw [if_neg hlt] at c4 hs'
      exact ⟨dict, ⟨c1, by rw [c3]; exact hn.ob_hi, c4⟩, he', hh', trivial, hs'⟩
  · rintro pre chunk r0 s ⟨dict, ⟨hb, hn⟩, _⟩ hc
    exact scan_cond_lt B pre chunk r0 s hn hc
  · rintro pre chunk s ⟨dict, ⟨hb, hr⟩, _⟩
    exact ⟨hr.rsize_eq, hr.rlop_nn⟩
  · obtain ⟨c1, c2⟩ := cbase_init B mb bm (by omega) (by omega)
    exact ⟨[], ⟨c1, c2, rfl⟩, cenc_init mb bm hmb10, hdr_init mb bm, trivial,
      sim_init g mb bm hmb10⟩

theorem stream_lt_256 (s : CState) (hc : Clean s) (i : Int) : stream s i < 256 := by
  unfold stream
  split_ifs
  · rw [List.getD_eq_getElem?_getD]
    cases hg : s.written[i.toNat]? with
    | none => simp
    | some v => simpa using hc.wbytes v (List.getElem?_mem hg)
  · exact hc.bytes _

/-- The stream `is_compressed` works on when it is given the complete output of
`compress`, no longer than its buffer. -/
theorem acfg_final (B mb : Int) (g : Globals) (s : CState) (h9 : 9 ≤ mb)
    (h16 : mb ≤ 16) (hc : Clean s) (hh : Hdr mb BLOCK_MODE s)
    (hlen : ((last_write s).written.length : Int) ≤ B + 64) :
    (acfg B g (last_write s).written).N = s.written.length + (s.outbits + 7) / 8 ∧
    (∀ i, 0 ≤ i → i < (acfg B g (last_write s).written).N →
      (acfg B g (last_write s).written).buf i = stream s i) ∧
    Compat mb (acfg B g (last_write s).written) s ∧
    3 ≤ load_size B (last_write s).written ∧
    load_inbuf g (last_write s).written (load_size B (last_write s).written) 0 = MAGIC_1 ∧
    load_inbuf g (last_write s).written (load_size B (last_write s).written) 1 = MAGIC_2 := by
  have hfl := file_length s hh.ob_nn
  have hls := load_size_of_le B _ hlen
  have hL := hh.len
  unfold Labs at hL
  have hN : (acfg B g (last_write s).written).N = s.written.length + (s.outbits + 7) / 8 := by
    show load_size B _ = _
    rw [hls, hfl]
  have hbuf : ∀ i, 0 ≤ i → i < (acfg B g (last_write s).written).N →
      (acfg B g (last_write s).written).buf i = stream s i := by
    intro i hi hl
    rw [hN] at hl
    show load_inbuf g _ (load_size B _) i = _
    rw [load_inbuf_lt g _ _ i hi (by rw [hls, hfl]; exact hl)]
    have := file_getD s i.toNat (by rw [Int.toNat_of_nonneg hi]; exact hl)
    rw [this, Int.toNat_of_nonneg hi]
  have h2 : (acfg B g (last_write s).written).buf 2 = mb.toNat ||| BLOCK_MODE := by
    rw [hbuf 2 (by omega) (by rw [hN]; omega), hh.b2]
    exact (header_byte mb BLOCK_MODE h9 h16 (Or.inr rfl)).1
  obtain ⟨_, _, k3, k4⟩ := header_byte mb BLOCK_MODE h9 h16 (Or.inr rfl)
  have hmx : (acfg B g (last_write s).written).maxbits = mb := by
    show ((((acfg B g (last_write s).written).buf 2 &&& BIT_MASK : Nat)) : Int) = mb
    rw [h2, k3]; omega
  have hmm : (acfg B g (last_write s).written).maxmaxcode = MAXCODE mb := by
    show MAXCODE ((((acfg B g (last_write s).written).buf 2 &&& BIT_MASK : Nat)) : Int) = _
    rw [h2, k3]; congr 1; omega
  have hbl : (acfg B g (last_write s).written).block_mode ≠ 0 := by
    show (acfg B g (last_write s).written).buf 2 &&& BLOCK_MODE ≠ 0
    rw [h2, k4]; decide
  refine ⟨hN, hbuf, ⟨hmx, hbl, hmm, fun i hi hl => ?_, ?_, fun q hq hl => ?_⟩, by rw [hls, hfl]; omega,
    ?_, ?_⟩
  · rw [hbuf i hi hl]; exact stream_lt_256 s hc i
  · unfold Labs; rw [hN]; omega
  · unfold Labs at hl
    unfold bit_at
    rw [hbuf _ (by omega) (by rw [hN]; omega)]
  · have := hbuf 0 (le_refl _) (by rw [hN]; omega)
    rw [← hh.b0, ← this]; rfl
  · have := hbuf 1 (by omega) (by rw [hN]; omega)
    rw [← hh.b1, ← this]; rfl

theorem astep_done (c : ACfg) (a : AState) (h : a.pos + a.n_bits > 8 * c.N) :
    astep c a = AStep.ret 1 a := by
  unfold astep; rw [if_pos h]

theorem ARuns.of_reach_done {c : ACfg} {a0 a : AState} (h : AReach c a0 a)
    (hd : a.pos + a.n_bits > 8 * c.N) : ARuns c a0 1 a.out :=
  h.tail (ARuns.done (astep_done c a hd))

theorem clean_bit (s : CState) (hc : Clean s) (h0 : 0 ≤ s.outbits) (q : Int)
    (hq : s.outbits ≤ q) : bit_at s.outbuf q = false := by
  unfold bit_at
  by_cases h : s.outbits ≤ 8 * (q / 8)
  · rw [hc.zero _ h]; simp
  · have e : q / 8 = s.outbits / 8 := by omega
    rw [e]
    exact testBit_lt_false _ _ _ hc.part (by omega)

/-- The last steps of the decoder, on a stream that holds the complete output of
`compress` for a non-empty input. -/
theorem final_steps (g : Globals) (B mb : Int) (hB : 1 ≤ B) (hmb10 : 10 ≤ mb) (hmb : mb ≤ 16)
    (input : List Nat) (dict : List (Nat × Nat)) (s : CState) (c : ACfg)
    (hb : CBase B mb dict s) (he : CEnc mb dict s) (hne : input ≠ [])
    (hs : Sim g mb (Point.between input) dict s)
    (hs' : last_code s = { s with outbuf := (output s.outbuf s.outbits s.ent s.n_bits).1,
                                   outbits := s.outbits + s.n_bits })
    (cl : Clean (last_code s)) (hfit : s.ent < 2 ^ s.n_bits.toNat)
    (bits : ∀ t : Nat, (t : Int) < s.n_bits →
      bit_at (stream (last_code s)) (Labs s + t) = s.ent.testBit t)
    (hext : Ext s (last_code s))
    (hN : c.N = (last_code s).written.length + ((last_code s).outbits + 7) / 8)
    (hbuf : ∀ i, 0 ≤ i → i < c.N → c.buf i = stream (last_code s) i)
    (hcomp : Compat mb c (last_code s)) :
    ∃ a, AReach c (astart g c) a ∧ a.pos + a.n_bits > 8 * c.N ∧ a.out = input ∧
      a.free_ent = s.free_ent := by
  have hn9 := hb.nb_lo
  have hn16 := hb.nb_hi
  have hob := hb.ob_nn
  have hob' : 0 ≤ (last_code s).outbits := (ext_last_code s hob (by omega)).2
  have hW : (last_code s).written = s.written := by rw [hs']
  have hO : (last_code s).outbits = s.outbits + s.n_bits := by rw [hs']
  rw [hW, hO] at hN
  have hL' : Labs (last_code s) = Labs s + s.n_bits := by
    unfold Labs; rw [hW, hO]; ring
  obtain ⟨a, hreach, h⟩ := hs c (compat_of_ext mb c _ _ hcomp hext)
  have hpos := h.pos_eq
  have hLs : Labs s = 8 * s.written.length + s.outbits := rfl
  have hL0 : 0 ≤ Labs s := by omega
  have hcons : cons_of (Point.between input) s = input := rfl
  rw [hcons] at h
  by_cases hA : s.free_ent < s.extcode ∨ s.n_bits = mb
  · obtain ⟨a1, hopt, hrel1, hw, hwb⟩ := srel_sync B mb hmb dict _ s a c hb h hcomp.maxbits_eq
      hcomp.mm (by omega)
    have hpos1 := hrel1.pos_eq
    have hin : Compress42.input c.buf a1.pos a1.bitmask = (s.ent : Int) := by
      rw [hrel1.bitmask_eq, hw, hpos1]
      exact compat_input mb c _ (Labs s) s.n_bits s.ent hcomp hL0 (by omega) hn9 (by omega)
        hfit bits
    obtain ⟨a', hstep, b1, b2, b3, b4, b5, b6, b7, _, b9, _⟩ :=
      srel_decode B mb hmb10 hmb dict _ s a1 c hb he hrel1 hne hw hcomp.mm (by omega) hin hA
    exact ⟨a', AReach.step (hreach.opt hopt) hstep, by rw [hN]; omega, b7, b9⟩
  · have hfull : s.free_ent ≥ s.extcode := by omega
    have hlt : s.n_bits < mb := by omega
    obtain ⟨hst, hE, hdv, h8, _⟩ := full_aligned B mb hB hmb dict s hb he hfull hlt
    obtain ⟨w1, w2, w3⟩ := srel_left_of_full B mb hmb dict _ s a hb he h (Or.inl ⟨hst, hfull⟩)
    have he256 : s.ent < 256 := by
      have : ¬ ((s.ent : Int) ≥ FIRST) := fun hx => by have := hb.fe_ent hx; omega
      have := hb.ent_ok
      unfold FIRST at *
      omega
    obtain ⟨m1, m2, m3, m4⟩ := MAXCODE_vals s.n_bits hn9 (by omega)
    have hD : a.free_ent = MAXCODE s.n_bits := by
      rcases h.phase with ⟨p1, _⟩ | ⟨_, p2 | ⟨p2, _⟩⟩
      · exact absurd p1 w3
      · omega
      · rw [hst] at p2; cases p2
    have hmc : a.maxcode = MAXCODE s.n_bits - 1 := by
      rw [h.mc, if_neg (by omega), w1]
    have hal : (a.pos - a.base) % (8 * a.n_bits) = 0 := by
      rw [w1, hpos, hLs, show 8 * (s.written.length : Int) + s.outbits - a.base
        = (s.outbits - s.boff) - (a.base - 8 * s.written.length - s.boff) by ring]
      exact Int.emod_eq_zero_of_dvd
        (dvd_sub (Int.dvd_of_emod_eq_zero hdv) (Int.dvd_of_emod_eq_zero w2))
    have hpad : pad_to_group a.pos a.base a.n_bits = a.pos :=
      pad_of_aligned _ _ _ (by omega) h.base_le hal
    have hstep1 : astep c a = AStep.cont
        { a with pos := a.pos, base := a.pos, n_bits := a.n_bits + 1,
                 maxcode := if a.n_bits + 1 = mb then MAXCODE mb else MAXCODE (a.n_bits + 1) - 1,
                 bitmask := 2 ^ (a.n_bits + 1).toNat - 1 } := by
      unfold astep
      rw [if_neg (by rw [hN]; omega), if_pos (by omega)]
      simp only [hpad, hcomp.maxbits_eq, hcomp.mm]
    obtain ⟨a1, hstep1, q1, q2', q3', q4, q5, q6, q7, q8, q9⟩ : ∃ a1, astep c a = AStep.cont a1 ∧
        a1.pos = a.pos ∧ a1.n_bits = a.n_bits + 1 ∧
        a1.bitmask = 2 ^ (a.n_bits + 1).toNat - 1 ∧ a1.free_ent = a.free_ent ∧
        a1.maxcode = (if a.n_bits + 1 = mb then MAXCODE mb else MAXCODE (a.n_bits + 1) - 1) ∧
        a1.oldcode = a.oldcode ∧ a1.tab_prefixof = a.tab_prefixof ∧
        a1.tab_suffixof = a.tab_suffixof ∧ a1.out = a.out :=
      ⟨_, hstep1, rfl, rfl, rfl, rfl, rfl, rfl, rfl, rfl, rfl⟩
    have q2 : a1.n_bits = s.n_bits + 1 := by omega
    have q3 : a1.bitmask = 2 ^ (s.n_bits + 1).toNat - 1 := by rw [q3', w1]
    have hroom2 : a1.pos + a1.n_bits ≤ 8 * c.N := by rw [q1, q2, hN]; omega
    have hmono := MAXCODE_mono (s.n_bits + 1) mb (by omega)
    have hnp : a1.free_ent ≤ a1.maxcode := by
      rw [q4, q5, hD, w1]
      split_ifs <;> omega
    have hv' : s.ent < 2 ^ (s.n_bits + 1).toNat := by
      have : (2 : Nat) ^ 9 ≤ 2 ^ (s.n_bits + 1).toNat :=
        Nat.pow_le_pow_right (by decide) (by omega)
      omega
    have hlen' := hcomp.len
    have hin : Compress42.input c.buf a1.pos a1.bitmask = (s.ent : Int) := by
      rw [q1, q3, hpos]
      refine input_bits c.buf (Labs s) (s.n_bits + 1) s.ent hL0 (by omega) (by omega)
        (hcomp.bytes _ (by omega) (by omega)) (hcomp.bytes _ (by omega) (by omega)) hv' ?_
      intro t ht
      by_cases htn : (t : Int) < s.n_bits
      · exact (hcomp.bits _ (by omega) (by omega)).trans (bits t htn)
      · have ht' : (t : Int) = s.n_bits := by omega
        have hbit : s.ent.testBit t = false :=
          testBit_lt_false _ 8 t (by omega) (by omega)
        rw [hbit]
        unfold bit_at
        rw [hbuf _ (by omega) (by rw [hN]; omega)]
        have := clean_bit (last_code s) cl hob' (s.outbits + s.n_bits) (by rw [hO])
        have hsb := stream_bit_ge (last_code s) (s.outbits + s.n_bits) (by omega)
        rw [this] at hsb
        unfold bit_at at hsb
        rw [hW] at hsb
        rw [ht', hLs, show 8 * (s.written.length : Int) + s.outbits + s.n_bits
          = 8 * (s.written.length : Int) + (s.outbits + s.n_bits) by ring]
        exact hsb
    have hdl := hb.dlen
    have hfh := hb.fe_hi
    obtain ⟨a', hstep2, b1, b2, b3, b4, b5, b6, b7, _, b9, _⟩ :=
      astep_read c a1 dict s.ent he.dok hroom2 hnp hin (by rw [q6]; exact w3) (by omega)
        (by rw [q4]; omega) (by rw [q4]; omega) (by rw [q4, q7, q8]; exact h.tabs)
        (by rw [q8]; exact h.lits) (Or.inl he256)
    have hfe : a'.free_ent = s.free_ent := by
      rw [(b9 (by rw [q4, hD, hcomp.mm]; omega)).1, q4, hD, hE]
    have hout : a'.out = input := by
      rw [b7, q9]
      rcases h.out_eq with ⟨h1, _⟩ | h1
      · exact absurd h1 hne
      · exact h1
    exact ⟨a', AReach.step (AReach.step hreach hstep1) hstep2,
      by rw [b1, b3, q1, q2, hN]; omega, hout, hfe⟩


/-- The run of the decoder on the complete output of `compress`: it reads the
whole stream, has then put out the whole input, and has the `free_ent` of the
encoder. -/
theorem final_runs (g : Globals) (B mb : Int) (hB : 1 ≤ B) (hmb10 : 10 ≤ mb) (hmb : mb ≤ 16)
    (input : List Nat) (dict : List (Nat × Nat)) (s : CState)
    (hc : CInv B mb (Point.between input) dict s) (he : CEnc mb dict s)
    (hh : Hdr mb BLOCK_MODE s) (hs : Sim g mb (Point.between input) dict s)
    (hlen : ((last_write (last_code s)).written.length : Int) ≤ B + 64) :
    (∃ a, AReach (acfg B g (last_write (last_code s)).written)
        (astart g (acfg B g (last_write (last_code s)).written)) a ∧
      a.pos + a.n_bits > 8 * (acfg B g (last_write (last_code s)).written).N ∧
      a.out = input ∧ a.free_ent = s.free_ent) ∧
    Compat mb (acfg B g (last_write (last_code s)).written) s ∧
    (acfg B g (last_write (last_code s)).written).maxbits = mb ∧
    3 ≤ load_size B (last_write (last_code s)).written ∧
    load_inbuf g (last_write (last_code s)).written
      (load_size B (last_write (last_code s)).written) 0 = MAGIC_1 ∧
    load_inbuf g (last_write (last_code s)).written
      (load_size B (last_write (last_code s)).written) 1 = MAGIC_2 := by
  obtain ⟨hb, _, hbi⟩ := hc
  have hn9 := hb.nb_lo
  have hn16 := hb.nb_hi
  have hob := hb.ob_nn
  rcases last_code_cases s with ⟨e, h0⟩ | ⟨h0, e⟩
  · rw [e] at hlen ⊢
    have hin : input = [] := List.length_eq_zero.mp (by omega)
    obtain ⟨hN, hbuf, hcomp, hfin⟩ := acfg_final B mb g s (by omega) hmb he.clean hh hlen
    refine ⟨?_, hcomp, hcomp.maxbits_eq, hfin⟩
    obtain ⟨a, hreach, h⟩ := hs _ hcomp
    have hpos := h.pos_eq
    unfold Labs at hpos
    have han := h.nb_lo
    have hout : a.out = input := by
      rw [hin]
      rcases h.out_eq with ⟨_, h1⟩ | h1
      · rcases h.phase with ⟨_, _, _, _, p5, _⟩ | ⟨p1, _⟩
        · exact p5
        · exact absurd h1 p1
      · exfalso
        have h1' : a.out ++ expand dict s.ent = input := h1
        rw [hin] at h1'
        exact expand_ne_nil dict s.ent (List.append_eq_nil.mp h1').2
    have hfe : a.free_ent = s.free_ent := by
      rcases h.phase with ⟨_, p2, p3, _⟩ | ⟨p1, _⟩
      · rw [p2, p3]
      · exfalso
        rcases h.out_eq with ⟨_, h1⟩ | h1
        · exact p1 h1
        · have h1' : a.out ++ expand dict s.ent = input := h1
          rw [hin] at h1'
          exact expand_ne_nil dict s.ent (List.append_eq_nil.mp h1').2
    exact ⟨a, hreach, by rw [hN]; omega, hout, hfe⟩
  · have hne : input ≠ [] := by
      intro h; rw [h] at hbi; simp at hbi; omega
    have hfree' : s.free_ent < s.extcode ∨ (s.ent : Int) < FIRST := by
      by_cases h : (s.ent : Int) < FIRST
      · exact Or.inr h
      · exact Or.inl (hb.fe_ent (by omega))
    have hfit := ent_fits B mb dict s hmb hb he hfree'
    have hs' : last_code s = { s with outbuf := (output s.outbuf s.outbits s.ent s.n_bits).1,
                                       outbits := s.outbits + s.n_bits } := e
    obtain ⟨cl, bits⟩ := clean_emit s (last_code s) s.ent s.n_bits he.clean hob hn9 (by omega) hfit
      (by rw [hs']) (by rw [hs']) (by rw [hs'])
    have hext : Ext s (last_code s) := (ext_last_code s hob (by omega)).1
    have hob' : 0 ≤ (last_code s).outbits := (ext_last_code s hob (by omega)).2
    have hh' := hdr_of_ext mb BLOCK_MODE _ _ hh hext hob'
    obtain ⟨hN, hbuf, hcomp, hfin⟩ := acfg_final B mb g (last_code s) (by omega) hmb cl hh' hlen
    refine ⟨?_, compat_of_ext mb _ _ _ hcomp hext, hcomp.maxbits_eq, hfin⟩
    clear hfin
    exact final_steps g B mb hB hmb10 hmb input dict s _ hb he hne hs hs' cl hfit bits hext
      hN hbuf hcomp

/-- In block mode with `maxbits` from 10 to 16, `is_compressed` accepts the output of
`compress` and puts out the input, whenever that output fits its buffer. -/
theorem roundtrip_block (g : Globals) (B mb : Int) (inp : List Nat) (hB : 256 ≤ B)
    (hB2 : B < 2 ^ 31) (hmb10 : 10 ≤ mb) (hmb : mb ≤ 16) (hin : ∀ b ∈ inp, b < 256) :
    ∃ F, compress B mb BLOCK_MODE inp = some F ∧
      ((F.length : Int) ≤ B + 64 → is_compressed B g F = some ⟨1, g.exit_code, inp⟩) := by
  obtain ⟨s, dict, hr, hc, he, hh, hs⟩ := reads_sim g B mb BLOCK_MODE inp hB hB2 hmb10 hmb hin
  refine ⟨_, compress_eq B mb BLOCK_MODE inp s hr, fun hlen => ?_⟩
  obtain ⟨⟨a, hreach, hdone, hout, _⟩, _, hmx, h3, h0, h1⟩ :=
    final_runs g B mb (by omega) hmb10 hmb inp dict s hc he hh hs hlen
  rw [is_compressed_of_header B g _ h3 h0 h1 (by rw [hmx]; exact hmb)]
  refine (decode_loop_iff B g _ h3 (by rw [hmx]; exact hmb) 1 inp).mpr ?_
  rw [← hout]
  exact ARuns.of_reach_done hreach hdone

/-! ## The states of the encoder and of the decoder -/

theorem feok_congr (mb : Int) (s s' : CState) (h : FeOK mb s) (e1 : s'.stcode = s.stcode)
    (e2 : s'.extcode = s.extcode) (e3 : s'.free_ent = s.free_ent) : FeOK mb s' := by
  unfold FeOK at *
  rw [e1, e2, e3]
  exact h

theorem feok_init (mb : Int) (bm : Nat) (h10 : 10 ≤ mb) : FeOK mb (compress_init mb bm) := by
  constructor
  · intro _
    have h := MAXCODE_mono 10 mb h10
    have e : MAXCODE 10 = 1024 := rfl
    show MAXCODE INIT_BITS + 1 ≤ MAXCODE mb
    have e9 : MAXCODE INIT_BITS = 512 := rfl
    omega
  · intro h; cases h

theorem feok_grow (B mb : Int) (hB : 1 ≤ B) (h16 : mb ≤ 16) (dict : List (Nat × Nat))
    (s : CState) (hb : CBase B mb dict s) (h : FeOK mb s) : FeOK mb (grow B mb s) := by
  rcases grow_cases B mb s with ⟨e, _⟩ | ⟨_, _, hn, e⟩ | ⟨hf, _, hn, e⟩
  · rw [e]; exact h
  · rw [e]
    refine ⟨fun hs => ?_, fun hs => h.2 hs⟩
    show (if s.n_bits + 1 < mb then MAXCODE (s.n_bits + 1) + 1 else MAXCODE (s.n_bits + 1)) ≤
      MAXCODE mb
    have h9 := hb.nb_lo
    split_ifs with hlt
    · have h1 := (MAXCODE_vals (s.n_bits + 1) (by omega) (by omega)).1
      have h2 := (MAXCODE_vals (s.n_bits + 1) (by omega) (by omega)).2.1
      have h3 := MAXCODE_mono (s.n_bits + 1 + 1) mb (by omega)
      omega
    · exact MAXCODE_mono _ _ (by omega)
  · rw [e]
    have hst := stcode_of_full B mb hB dict s hb hf
    have h1 := h.1 hst
    have h2 := hb.fe_le
    unfold FeOK
    constructor
    · intro hs; exact absurd hs (by simp)
    · intro _
      show s.free_ent ≤ MAXCODE mb
      omega

theorem feok_check_ratio (mb : Int) (h10 : 10 ≤ mb) (s : CState) (h : FeOK mb s) :
    FeOK mb (check_ratio s) := by
  rcases check_ratio_cases s with ⟨e, _⟩ | ⟨_, rat, e⟩ | ⟨_, e⟩
  · rw [e]; exact h
  · rw [e]; exact feok_congr mb s _ h rfl rfl rfl
  · rw [e]; exact feok_congr mb (compress_init mb 0) _ (feok_init mb 0 h10) rfl rfl rfl

theorem feok_flush (B mb : Int) (s : CState) (h : FeOK mb s) : FeOK mb (flush B s) := by
  rcases flush_cases B s with ⟨e, _⟩ | ⟨_, e⟩
  · rw [e]; exact h
  · rw [e]; exact feok_congr mb s _ h rfl rfl rfl

theorem feok_top (B mb : Int) (hB : 1 ≤ B) (h10 : 10 ≤ mb) (h16 : mb ≤ 16)
    (dict : List (Nat × Nat)) (s : CState) (hb : CBase B mb dict s) (h : FeOK mb s) :
    FeOK mb (round_top B mb s) := by
  unfold round_top
  exact feok_congr mb _ _
    (feok_flush B mb _ (feok_check_ratio mb h10 _ (feok_grow B mb hB h16 dict s hb h)))
    rfl rfl rfl

theorem feok_miss (mb : Int) (s : CState) (c : Nat) (hp : Int) (h : FeOK mb s) :
    (miss_state s c hp).stcode = s.stcode ∧ (miss_state s c hp).extcode = s.extcode ∧
      (s.stcode = false → (miss_state s c hp).free_ent = s.free_ent) := by
  unfold miss_state
  simp only []
  by_cases hs : s.stcode = true
  · rw [if_pos hs]
    exact ⟨rfl, rfl, fun h => by rw [hs] at h; cases h⟩
  · rw [if_neg hs]
    exact ⟨rfl, rfl, fun _ => rfl⟩
theorem creach_inv (B mb : Int) (bm : Nat) (hB : 256 ≤ B) (hB2 : B < 2 ^ 31) (h9 : 9 ≤ mb)
    (h16 : mb ≤ 16) (pt : Point) (s : CState) (hr : CReach B mb bm pt s) :
    ∃ dict, CInv B mb pt dict s ∧ (10 ≤ mb → FeOK mb s) := by
  induction hr with
  | init =>
    obtain ⟨c1, c2⟩ := cbase_init B mb bm (by omega) h9
    exact ⟨[], ⟨c1, c2, rfl⟩, fun h10 => feok_init mb bm h10⟩
  | @start pre chunk s _ hne _ hby ih =>
    obtain ⟨dict, ⟨hb, ho, hbi⟩, hf⟩ := ih
    obtain ⟨c1, c2⟩ := cinv_start B mb pre chunk dict s hb ho hbi hne hby
    refine ⟨dict, ⟨c1, c2⟩, fun h10 => ?_⟩
    rcases chunk_start_cases s chunk with ⟨_, e⟩ | ⟨_, e⟩ <;> rw [e] <;>
      exact feok_congr mb s _ (hf h10) rfl rfl rfl
  | @top pre chunk s _ ih =>
    obtain ⟨dict, ⟨hb, hr⟩, hf⟩ := ih
    obtain ⟨dict', c1, c2⟩ := cinv_top B mb hB hB2 h16 pre chunk dict s hb hr
    exact ⟨dict', ⟨c1, c2⟩, fun h10 => feok_top B mb (by omega) h10 h16 dict s hb (hf h10)⟩
  | @byte pre chunk r0 s s' _ hc e ih =>
    obtain ⟨dict, ⟨hb, hn⟩, hf⟩ := ih
    have hlt := chunk_buf_lt chunk hn.bytes_ok s.rpos
    rcases byte_step_spec B mb (chunk_buf chunk) dict s hb hlt with
      ⟨j, hj, e'⟩ | ⟨_, hp, _, e', hti⟩
    · rw [e] at e'
      cases e'
      have hjl : j < dict.length := by
        rcases Nat.lt_or_ge j dict.length with h | h
        · exact h
        · rw [List.getElem?_eq_none h] at hj; cases hj
      obtain ⟨c1, c2⟩ := cinv_hit B mb pre chunk r0 dict s (chunk_buf chunk s.rpos) j hb hn hc hjl
      exact ⟨dict, ⟨c1, c2⟩, fun h10 => feok_congr mb s _ (hf h10) rfl rfl rfl⟩
    · rw [e] at e'
      cases e'
      obtain ⟨c1, c2⟩ := cinv_miss B mb h16 pre chunk r0 dict s (chunk_buf chunk s.rpos) hp hlt
        hb hn hc hti
      refine ⟨_, ⟨c1, c2⟩, fun h10 => ?_⟩
      obtain ⟨m1, m2, m3⟩ := feok_miss mb s (chunk_buf chunk s.rpos) hp (hf h10)
      unfold FeOK
      rw [m1, m2]
      exact ⟨(hf h10).1, fun hs => by rw [m3 hs]; exact (hf h10).2 hs⟩
  | @again pre chunk r0 s _ hc hlt ih =>
    obtain ⟨dict, ⟨hb, hn⟩, hf⟩ := ih
    obtain ⟨c1, c2, c3, c4⟩ := cinv_end B mb pre chunk r0 dict s hb hn hc
    rw [if_pos hlt] at c4
    refine ⟨dict, ⟨c1, c4⟩, fun h10 => ?_⟩
    rcases round_end_cases s with ⟨e, _⟩ | ⟨_, e⟩ <;> rw [e] <;>
      exact hf h10
  | @done pre chunk r0 s _ hc hlt ih =>
    obtain ⟨dict, ⟨hb, hn⟩, hf⟩ := ih
    obtain ⟨c1, c2, c3, c4⟩ := cinv_end B mb pre chunk r0 dict s hb hn hc
    rw [if_neg hlt] at c4
    refine ⟨dict, ⟨c1, by rw [c3]; exact hn.ob_hi, c4⟩, fun h10 => ?_⟩
    rcases round_end_cases s with ⟨e, _⟩ | ⟨_, e⟩ <;> rw [e] <;>
      exact hf h10

theorem reads_reach (B mb : Int) (bm : Nat) (input : List Nat) (hB : 256 ≤ B)
    (hB2 : B < 2 ^ 31) (h9 : 9 ≤ mb) (h16 : mb ≤ 16) (hin : ∀ b ∈ input, b < 256) :
    ∃ s, reads B mb (input.length + 1) (compress_init mb bm) input = some s ∧
      CReach B mb bm (Point.between input) s := by
  have key := compress_rule B mb (by omega) (fun pt s => CReach B mb bm pt s)
    ?_ ?_ ?_ ?_ ?_ ?_ input [] (compress_init mb bm) hin CReach.init
  · obtain ⟨s, h1, h2⟩ := key
    exact ⟨s, h1, by simpa using h2⟩
  · intro pre chunk s h hne hl hby
    exact CReach.start h hne hl hby
  · intro pre chunk s h
    exact CReach.top h
  · intro pre chunk r0 s h hc
    obtain ⟨dict, ⟨hb, hn⟩, _⟩ := creach_inv B mb bm hB hB2 h9 h16 _ s h
    have hlt := chunk_buf_lt chunk hn.bytes_ok s.rpos
    rcases byte_step_spec B mb (chunk_buf chunk) dict s hb hlt with
      ⟨j, hj, e⟩ | ⟨_, hp, _, e, hti⟩
    · exact ⟨_, e, CReach.byte h hc e⟩
    · exact ⟨_, e, CReach.byte h hc e⟩
  · intro pre chunk r0 s h hc
    obtain ⟨dict, ⟨hb, hn⟩, _⟩ := creach_inv B mb bm hB hB2 h9 h16 _ s h
    obtain ⟨c1, c2, c3, c4⟩ := cinv_end B mb pre chunk r0 dict s hb hn hc
    refine ⟨c2, ?_⟩
    split_ifs with hlt
    · exact CReach.again h hc hlt
    · exact CReach.done h hc hlt
  · intro pre chunk r0 s h hc
    obtain ⟨dict, ⟨hb, hn⟩, _⟩ := creach_inv B mb bm hB hB2 h9 h16 _ s h
    exact scan_cond_lt B pre chunk r0 s hn hc
  · intro pre chunk s h
    obtain ⟨dict, ⟨hb, hr⟩, _⟩ := creach_inv B mb bm hB hB2 h9 h16 _ s h
    exact ⟨hr.rsize_eq, hr.rlop_nn⟩
theorem cinv_base (B mb : Int) (pt : Point) (dict : List (Nat × Nat)) (s : CState)
    (h : CInv B mb pt dict s) : CBase B mb dict s := by
  cases pt <;> exact h.1

theorem creach_base (B mb : Int) (bm : Nat) (hB : 256 ≤ B) (hB2 : B < 2 ^ 31) (h9 : 9 ≤ mb)
    (h16 : mb ≤ 16) (pt : Point) (s : CState) (hr : CReach B mb bm pt s) :
    ∃ dict, CBase B mb dict s ∧ dict.length ≤ 65279 ∧ s.ent < 65536 ∧
      (10 ≤ mb → s.free_ent ≤ MAXCODE mb) := by
  obtain ⟨dict, hi, hf⟩ := creach_inv B mb bm hB hB2 h9 h16 pt s hr
  have hb := cinv_base B mb pt dict s hi
  have h1 := hb.dlen
  have h2 := hb.fe_hi
  have h3 := hb.ent_ok
  refine ⟨dict, hb, by omega, by omega, fun h10 => ?_⟩
  have h4 := hb.fe_le
  by_cases hs : s.stcode = true
  · have := (hf h10).1 hs
    omega
  · exact (hf h10).2 (by simpa using hs)

theorem tinv_code_range (htab : Int → Int) (codetab : Int → Nat) (dict : List (Nat × Nat))
    (h : TInv htab codetab dict) (hp : Int) (ho : htab hp ≠ -1) :
    257 ≤ codetab hp ∧ codetab hp < 257 + dict.length := by
  obtain ⟨_, _, j, p, hj, _, hc⟩ := h.sound hp ho
  have hjl : j < dict.length := by
    rcases Nat.lt_or_ge j dict.length with h | h
    · exact h
    · rw [List.getElem?_eq_none h] at hj; cases hj
  omega

theorem tinv_key_inj (htab : Int → Int) (codetab : Int → Nat) (dict : List (Nat × Nat))
    (h : TInv htab codetab dict) (hp hp' : Int) (ho : htab hp ≠ -1) (e : htab hp = htab hp') :
    hp = hp' := by
  have ho' : htab hp' ≠ -1 := by rw [← e]; exact ho
  obtain ⟨_, _, j, p, hj, hf, hc⟩ := h.sound hp ho
  obtain ⟨_, _, j', p', hj', hf', hc'⟩ := h.sound hp' ho'
  have hk := h.keys p (List.mem_iff_getElem?.2 ⟨j, hj⟩)
  have hk' := h.keys p' (List.mem_iff_getElem?.2 ⟨j', hj'⟩)
  rw [hf, hf'] at e
  obtain ⟨e1, e2⟩ := fcode_code_inj _ _ _ _ (by omega) (by omega) e
  have ep : p = p' := Prod.ext e2 e1
  subst ep
  have hjl : j < dict.length := by
    rcases Nat.lt_or_ge j dict.length with h | h
    · exact h
    · rw [List.getElem?_eq_none h] at hj; cases hj
  have hjl' : j' < dict.length := by
    rcases Nat.lt_or_ge j' dict.length with h | h
    · exact h
    · rw [List.getElem?_eq_none h] at hj'; cases hj'
  have ej : j = j' := List.getElem?_inj hjl h.nodup (by rw [hj, hj'])
  exact h.inj hp hp' ho ho' (by rw [hc, hc', ej])

theorem nine_bits_run :
    (reads 8192 9 ((List.range 256 ++ [0]).length + 1) (compress_init 9 BLOCK_MODE)
      (List.range 256 ++ [0])).map (fun s => (s.htab 255, s.codetab 255)) =
      some (fcode_code 0 255, 512) := by
  decide!
theorem resetbuf_keeps (s : DState) :
    (resetbuf s).block_mode = s.block_mode ∧ (resetbuf s).maxbits = s.maxbits ∧
    (resetbuf s).maxmaxcode = s.maxmaxcode ∧ (resetbuf s).free_ent = s.free_ent ∧
    (resetbuf s).tab_prefixof = s.tab_prefixof ∧ (resetbuf s).tab_suffixof = s.tab_suffixof ∧
    (resetbuf s).oldcode = s.oldcode ∧ (resetbuf s).n_bits = s.n_bits ∧
    (resetbuf s).maxcode = s.maxcode ∧ (resetbuf s).bitmask = s.bitmask :=
  ⟨rfl, rfl, rfl, rfl, rfl, rfl, rfl, rfl, rfl, rfl⟩

theorem load_size_take (B : Int) (buf : List Nat) (hB : 0 ≤ B) :
    load_size B (buf.take (B + 64).toNat) = load_size B buf := by
  unfold load_size
  rw [List.length_take]
  by_cases h : (buf.length : Int) < B + 64
  · rw [if_pos h]
    have e : min (B + 64).toNat buf.length = buf.length := by omega
    rw [e, if_pos h]
  · rw [if_neg h]
    have e : min (B + 64).toNat buf.length = (B + 64).toNat := by omega
    rw [e, if_neg (by omega)]

theorem load_inbuf_take (B : Int) (g : Globals) (buf : List Nat) (hB : 0 ≤ B) :
    load_inbuf g (buf.take (B + 64).toNat) (load_size B buf) =
      load_inbuf g buf (load_size B buf) := by
  funext i
  unfold load_inbuf
  by_cases h : 0 ≤ i ∧ i < load_size B buf
  · rw [if_pos h, if_pos h]
    have hl : load_size B buf ≤ B + 64 := by
      unfold load_size; split_ifs <;> omega
    rw [List.getD_eq_getElem?_getD, List.getD_eq_getElem?_getD, List.getElem?_take_of_lt (by omega)]
  · rw [if_neg h, if_neg h]

/-- The state in which the decoding loops are entered depends on the first
`IBUFSIZ + 64` bytes of the buffer only. -/
theorem decode_start_take (B : Int) (g : Globals) (buf : List Nat) (hB : 0 ≤ B) :
    decode_start B g (buf.take (B + 64).toNat) = decode_start B g buf := by
  unfold decode_start
  rw [load_size_take B buf hB, load_inbuf_take B g buf hB]

theorem is_compressed_take (B : Int) (g : Globals) (buf : List Nat) (hB : 0 ≤ B) :
    is_compressed B g (buf.take (B + 64).toNat) = is_compressed B g buf := by
  unfold is_compressed decode_loop
  rw [decode_start_take B g buf hB]
  simp only [load_size_take B buf hB, load_inbuf_take B g buf hB]

/-! ## The decoder follows the encoder code by code -/

/-- At every control point of `compress` in block mode the decoder has a run
that reads exactly the output produced so far. -/
theorem creach_sim (g : Globals) (B mb : Int) (hB : 256 ≤ B) (hB2 : B < 2 ^ 31)
    (hmb10 : 10 ≤ mb) (hmb : mb ≤ 16) (pt : Point) (s : CState)
    (hr : CReach B mb BLOCK_MODE pt s) :
    ∃ dict, CInv B mb pt dict s ∧ CEnc mb dict s ∧ Hdr mb BLOCK_MODE s ∧ Started pt s ∧
      Sim g mb pt dict s := by
  induction hr with
  | init =>
    obtain ⟨c1, c2⟩ := cbase_init B mb BLOCK_MODE (by omega) (by omega)
    exact ⟨[], ⟨c1, c2, rfl⟩, cenc_init mb BLOCK_MODE hmb10, hdr_init mb BLOCK_MODE, trivial,
      sim_init g mb BLOCK_MODE hmb10⟩
  | @start pre chunk s _ hne _ hby ih =>
    obtain ⟨dict, ⟨hb, ho, hbi⟩, he, hh, _, hs⟩ := ih
    obtain ⟨c1, c2⟩ := cinv_start B mb pre chunk dict s hb ho hbi hne hby
    obtain ⟨s1, s2⟩ := sim_start g B mb pre chunk dict s hbi hne hby hs
    exact ⟨dict, ⟨c1, c2⟩, cenc_chunk_start mb dict s chunk he,
      hdr_of_ext mb BLOCK_MODE _ _ hh (ext_chunk_start s chunk) c1.ob_nn, s2, s1⟩
  | @top pre chunk s _ ih =>
    obtain ⟨dict, ⟨hb, hr⟩, he, hh, hst, hs⟩ := ih
    obtain ⟨_, _, c2⟩ := cinv_top B mb hB hB2 hmb pre chunk dict s hb hr
    obtain ⟨dict', t1, t2, t3⟩ := sim_top g B mb hB hmb10 hmb _ dict s hb he hs
    refine ⟨dict', ⟨t1, c2⟩, t2,
      hdr_of_ext mb BLOCK_MODE _ _ hh (ext_round_top B mb hB hmb dict s hb) t1.ob_nn, ?_, t3⟩
    intro hp
    show 1 ≤ (round_top B mb s).rpos
    rw [(round_top_fields B mb s).2]
    exact hst hp
  | @byte pre chunk r0 s s' _ hc e ih =>
    obtain ⟨dict, ⟨hb, hn⟩, he, hh, hst, hs⟩ := ih
    have hlt := chunk_buf_lt chunk hn.bytes_ok s.rpos
    have hrl := scan_cond_lt B pre chunk r0 s hn hc
    rw [hn.rsize_eq] at hrl
    have hcons : cons_of (Point.next pre chunk r0) s ≠ [] := cons_ne_nil pre chunk s.rpos hst hrl
    have hr0 := hn.rpos_nn
    rcases byte_step_spec B mb (chunk_buf chunk) dict s hb hlt with
      ⟨j, hj, e'⟩ | ⟨_, hp, _, e', hti⟩
    · rw [e] at e'
      cases e'
      have hjl : j < dict.length := by
        rcases Nat.lt_or_ge j dict.length with h | h
        · exact h
        · rw [List.getElem?_eq_none h] at hj; cases hj
      obtain ⟨c1, c2⟩ := cinv_hit B mb pre chunk r0 dict s (chunk_buf chunk s.rpos) j hb hn hc hjl
      exact ⟨dict, ⟨c1, c2⟩, cenc_congr mb dict s _ he rfl rfl rfl rfl rfl rfl rfl rfl,
        hdr_of_ext mb BLOCK_MODE _ _ hh (ext_hit _ _ _) c1.ob_nn,
        fun _ => (by show 1 ≤ s.rpos + 1; omega),
        sim_hit g mb pre chunk r0 dict s j he.dok hj hcons hr0 hrl hs⟩
    · rw [e] at e'
      cases e'
      obtain ⟨c1, c2⟩ := cinv_miss B mb hmb pre chunk r0 dict s (chunk_buf chunk s.rpos) hp hlt
        hb hn hc hti
      have hfree := free_of_scan B mb pre chunk r0 dict s hb hn hc
      have hn9 := hb.nb_lo
      refine ⟨_, ⟨c1, c2⟩, (cenc_miss B mb hmb dict s _ hp hlt hb he hfree).1,
        hdr_of_ext mb BLOCK_MODE _ _ hh (ext_miss _ _ _ hb.ob_nn (by omega)) c1.ob_nn, ?_,
        sim_miss g B mb hmb10 hmb pre chunk r0 dict s hp hb he hfree hcons hn.bytes_ok hr0 hrl hs⟩
      intro _
      show 1 ≤ (miss_state s (chunk_buf chunk s.rpos) hp).rpos
      rw [(miss_state_ctl s _ hp).2.2.2]; omega
  | @again pre chunk r0 s _ hc hlt ih =>
    obtain ⟨dict, ⟨hb, hn⟩, he, hh, hst, hs⟩ := ih
    obtain ⟨c1, c2, c3, c4⟩ := cinv_end B mb pre chunk r0 dict s hb hn hc
    have hh' := hdr_of_ext mb BLOCK_MODE _ _ hh (ext_round_end s) c1.ob_nn
    have he' := cenc_round_end mb dict s he
    have hs' := sim_end g B mb pre chunk r0 dict s hn hc hs
    have hrp : (round_end s).rpos = s.rpos := by
      rcases round_end_cases s with ⟨e, _⟩ | ⟨_, e⟩ <;> rw [e]
    rw [if_pos hlt] at c4 hs'
    exact ⟨dict, ⟨c1, c4⟩, he', hh',
      fun hp => (by show 1 ≤ (round_end s).rpos; rw [hrp]; exact hst hp), hs'⟩
  | @done pre chunk r0 s _ hc hlt ih =>
    obtain ⟨dict, ⟨hb, hn⟩, he, hh, hst, hs⟩ := ih
    obtain ⟨c1, c2, c3, c4⟩ := cinv_end B mb pre chunk r0 dict s hb hn hc
    have hh' := hdr_of_ext mb BLOCK_MODE _ _ hh (ext_round_end s) c1.ob_nn
    have he' := cenc_round_end mb dict s he
    have hs' := sim_end g B mb pre chunk r0 dict s hn hc hs
    rw [if_neg hlt] at c4 hs'
    exact ⟨dict, ⟨c1, by rw [c3]; exact hn.ob_hi, c4⟩, he', hh', trivial, hs'⟩

theorem dreach_trans {B : Int} {s0 s1 s2 : DState} (h1 : DReach B s0 s1)
    (h2 : DReach B s1 s2) : DReach B s0 s2 := by
  induction h2 with
  | refl => exact h1
  | step _ hd ih => exact DReach.step ih hd

/-- A step on absolute positions is made by the decoding loops, after the turns
that only shift the buffer. -/
theorem astep_dreach (B : Int) (c : ACfg) (a a2 : AState) (h : astep c a = AStep.cont a2) :
    ∀ (n : Nat) (s : DState), dmeasure s < n → Rel c a s →
      ∃ s2, DReach B s s2 ∧ Rel c a2 s2 := by
  intro n
  induction n with
  | zero => intro s hm _; omega
  | succ n ih =>
    intro s hm hrel
    have hs := sim_step B c a s hrel
    cases hd : dnext B s with
    | cont s1 =>
      rw [hd] at hs
      rcases hs.2 with ⟨hr, _, _⟩ | ⟨a1, ha, hr⟩
      · obtain ⟨s2, r1, r2⟩ := ih s1 (by have := hs.1; omega) hr
        exact ⟨s2, dreach_trans (DReach.step DReach.refl hd) r1, r2⟩
      · rw [h] at ha
        cases ha
        exact ⟨s1, DReach.step DReach.refl hd, hr⟩
    | ret r1 s1 =>
      rw [hd] at hs
      obtain ⟨a1, ha, _⟩ := hs
      rw [h] at ha
      cases ha
    | stuck =>
      rw [hd] at hs
      rw [h] at hs
      cases hs

/-- Every state of a run on absolute positions is the reading of a state that
the decoding loops pass through. -/
theorem areach_dreach (B : Int) (c : ACfg) (a0 a : AState) (s0 : DState) (hrel : Rel c a0 s0)
    (h : AReach c a0 a) : ∃ s, DReach B s0 s ∧ Rel c a s := by
  induction h with
  | refl => exact ⟨s0, DReach.refl, hrel⟩
  | @step a1 a2 _ hs ih =>
    obtain ⟨s1, r1, r2⟩ := ih
    obtain ⟨s2, q1, q2⟩ := astep_dreach B c a1 a2 hs (dmeasure s1 + 1) s1 (by omega) r2
    exact ⟨s2, dreach_trans r1 q1, q2⟩

/-- A buffer of five bytes that starts with the header `compress` writes for
`maxbits = 12` in block mode. -/
theorem compat_header :
    Compat 12 (acfg 8192 fresh [0x1f, 0x9d, 0x8c, 0x61, 0x00]) (compress_init 12 BLOCK_MODE) := by
  refine ⟨by decide, by decide, by decide, ?_, by decide, ?_⟩
  · intro i h0 h1
    have h1' : i < 5 := h1
    interval_cases i <;> decide
  · intro q h0 h1
    have h1' : q < 24 := h1
    interval_cases q <;> decide

theorem turn_effect (B : Int) (s s' : DState) (h : dnext B s = DStep.cont s') :
    s'.block_mode = s.block_mode ∧ s'.maxmaxcode = s.maxmaxcode ∧
    (turn_event s = none → s'.free_ent = s.free_ent ∧ s'.tab_prefixof = s.tab_prefixof ∧
      s'.tab_suffixof = s.tab_suffixof) ∧
    (turn_event s = some TabEvent.clear → s.block_mode ≠ 0 ∧
      input s.inbuf s.posbits s.bitmask = CLEAR ∧ s'.free_ent = FIRST - 1 ∧
      s'.tab_prefixof = clear_tab_prefixof s.tab_prefixof ∧
      s'.tab_suffixof = s.tab_suffixof ∧ s'.oldcode = s.oldcode) ∧
    (∀ k, turn_event s = some (TabEvent.entry k) → k = s.free_ent ∧ k < s.maxmaxcode ∧
      s'.free_ent = k + 1 ∧
      s'.tab_prefixof = upd s.tab_prefixof k (s.oldcode.toNat % 65536) ∧
      s'.tab_suffixof = upd s.tab_suffixof k (s'.finchar.toNat % 256) ∧
      s'.oldcode = input s.inbuf s.posbits s.bitmask) := by
  unfold dnext at h
  unfold turn_event
  by_cases h1 : s.inbits > s.posbits
  · rw [if_pos h1] at h ⊢
    unfold dbody at h
    by_cases h2 : s.free_ent > s.maxcode
    · rw [if_pos h2] at h ⊢
      cases h
      exact ⟨rfl, rfl, fun _ => ⟨rfl, rfl, rfl⟩, fun e => (by cases e), fun k e => (by cases e)⟩
    · rw [if_neg h2] at h ⊢
      simp only [] at h
      by_cases h3 : s.oldcode = -1
      · rw [if_pos h3] at h ⊢
        by_cases h4 : input s.inbuf s.posbits s.bitmask ≥ 256
        · rw [if_pos h4] at h; cases h
        · rw [if_neg h4] at h
          cases h
          exact ⟨rfl, rfl, fun _ => ⟨rfl, rfl, rfl⟩, fun e => (by cases e), fun k e => (by cases e)⟩
      · rw [if_neg h3] at h ⊢
        by_cases h5 : input s.inbuf s.posbits s.bitmask = CLEAR ∧ s.block_mode ≠ 0
        · rw [if_pos h5] at h ⊢
          cases h
          exact ⟨rfl, rfl, fun e => (by cases e), fun _ => ⟨h5.2, h5.1, rfl, rfl, rfl, rfl⟩,
            fun k e => (by cases e)⟩
        · rw [if_neg h5] at h ⊢
          by_cases h6 : input s.inbuf s.posbits s.bitmask > s.free_ent
          · rw [if_pos h6] at h; cases h
          · rw [if_neg h6] at h ⊢
            generalize (if input s.inbuf s.posbits s.bitmask ≥ s.free_ent
              then (s.oldcode, [s.finchar.toNat % 256])
              else (input s.inbuf s.posbits s.bitmask, [])) = start at h
            cases hw : walk s.tab_prefixof s.tab_suffixof 65537 start.1 start.2 with
            | none => rw [hw] at h; cases h
            | some r =>
              obtain ⟨code1, stack1⟩ := r
              rw [hw] at h
              simp only [] at h
              by_cases h7 : s.free_ent < s.maxmaxcode
              · rw [if_pos h7] at h ⊢
                cases h
                refine ⟨rfl, rfl, fun e => (by cases e), fun e => (by cases e), fun k e => ?_⟩
                simp only [Option.some.injEq, TabEvent.entry.injEq] at e
                subst e
                refine ⟨rfl, h7, rfl, rfl, ?_, rfl⟩
                show upd s.tab_suffixof s.free_ent (s.tab_suffixof code1 % 256) =
                  upd s.tab_suffixof s.free_ent (((s.tab_suffixof code1 : Nat) : Int).toNat % 256)
                rw [Int.toNat_ofNat]
              · rw [if_neg h7] at h ⊢
                cases h
                exact ⟨rfl, rfl, fun _ => ⟨rfl, rfl, rfl⟩, fun e => (by cases e),
                  fun k e => (by cases e)⟩
  · rw [if_neg h1] at h ⊢
    simp only [] at h
    by_cases h8 : s.rsize > 0
    · rw [if_pos h8] at h
      cases h
      exact ⟨rfl, rfl, fun _ => ⟨rfl, rfl, rfl⟩, fun e => (by cases e), fun k e => (by cases e)⟩
    · rw [if_neg h8] at h; cases h

theorem dtrace_counts (B : Int) (s s' : DState) (evs : List TabEvent) (h : DTrace B s evs s') :
    counts_from s.free_ent evs ∧ (∀ k, TabEvent.entry k ∈ evs → k < s.maxmaxcode) ∧
    (s.block_mode = 0 → TabEvent.clear ∉ evs) := by
  induction h with
  | nil s => exact ⟨trivial, fun k hk => (by cases hk), fun _ hk => (by cases hk)⟩
  | @quiet s s1 s2 evs hd he _ ih =>
    obtain ⟨b1, b2, q, _, _⟩ := turn_effect B s s1 hd
    obtain ⟨q1, _, _⟩ := q he
    rw [q1, b2, b1] at ih
    exact ih
  | @event s s1 s2 e evs hd he _ ih =>
    obtain ⟨b1, b2, _, qc, qe⟩ := turn_effect B s s1 hd
    rw [b2, b1] at ih
    cases e with
    | clear =>
      obtain ⟨c1, _, c3, _⟩ := qc he
      rw [c3] at ih
      refine ⟨ih.1, fun k hk => ?_, fun h0 => absurd h0 c1⟩
      rcases List.mem_cons.1 hk with hk | hk
      · cases hk
      · exact ih.2.1 k hk
    | entry k =>
      obtain ⟨e1, e2, e3, _⟩ := qe k he
      rw [e3, e1] at ih
      refine ⟨⟨e1, ih.1⟩, fun j hj => ?_, fun h0 hm => ?_⟩
      · rcases List.mem_cons.1 hj with hj | hj
        · cases hj; exact e2
        · exact ih.2.1 j hj
      · rcases List.mem_cons.1 hm with hm | hm
        · cases hm
        · exact ih.2.2 h0 hm

theorem alloc_trace4 : DTrace 8192 (decode_start 8192 fresh alloc_stream)
    [TabEvent.entry 257, TabEvent.clear, TabEvent.entry 256] (alloc_run 4) :=
  DTrace.quiet (show dnext 8192 (alloc_run 0) = DStep.cont (alloc_run 1) from rfl) (by decide)
    (DTrace.event (show dnext 8192 (alloc_run 1) = DStep.cont (alloc_run 2) from rfl) (by decide)
      (DTrace.event (show dnext 8192 (alloc_run 2) = DStep.cont (alloc_run 3) from rfl)
        (by decide)
        (DTrace.event (show dnext 8192 (alloc_run 3) = DStep.cont (alloc_run 4) from rfl)
          (by decide) (DTrace.nil _))))

theorem dtrace_snoc (B : Int) (s0 s1 s2 : DState) (evs : List TabEvent)
    (h : DTrace B s0 evs s1) (hd : dnext B s1 = DStep.cont s2) :
    DTrace B s0 (evs ++ (turn_event s1).toList) s2 := by
  induction h with
  | nil s =>
    cases he : turn_event s with
    | none => exact DTrace.quiet hd he (DTrace.nil _)
    | some e => exact DTrace.event hd he (DTrace.nil _)
  | quiet hd1 he1 _ ih => exact DTrace.quiet hd1 he1 (ih hd)
  | event hd1 he1 _ ih => exact DTrace.event hd1 he1 (ih hd)

theorem dreach_trace (B : Int) (s0 s : DState) (h : DReach B s0 s) :
    ∃ evs, DTrace B s0 evs s := by
  induction h with
  | refl => exact ⟨[], DTrace.nil _⟩
  | step _ hd ih =>
    obtain ⟨evs, ht⟩ := ih
    exact ⟨_, dtrace_snoc B _ _ _ evs ht hd⟩

theorem dnext_ret_free_ent (B : Int) (s s1 : DState) (r : Int)
    (h : dnext B s = DStep.ret r s1) : s1.free_ent = s.free_ent := by
  unfold dnext at h
  by_cases h1 : s.inbits > s.posbits
  · rw [if_pos h1] at h
    unfold dbody at h
    by_cases h2 : s.free_ent > s.maxcode
    · rw [if_pos h2] at h; cases h
    · rw [if_neg h2] at h
      simp only [] at h
      by_cases h3 : s.oldcode = -1
      · rw [if_pos h3] at h
        by_cases h4 : input s.inbuf s.posbits s.bitmask ≥ 256
        · rw [if_pos h4] at h; cases h; rfl
        · rw [if_neg h4] at h; cases h
      · rw [if_neg h3] at h
        by_cases h5 : input s.inbuf s.posbits s.bitmask = CLEAR ∧ s.block_mode ≠ 0
        · rw [if_pos h5] at h; cases h
        · rw [if_neg h5] at h
          by_cases h6 : input s.inbuf s.posbits s.bitmask > s.free_ent
          · rw [if_pos h6] at h; cases h; rfl
          · rw [if_neg h6] at h
            generalize (if input s.inbuf s.posbits s.bitmask ≥ s.free_ent
              then (s.oldcode, [s.finchar.toNat % 256])
              else (input s.inbuf s.posbits s.bitmask, [])) = start at h
            cases hw : walk s.tab_prefixof s.tab_suffixof 65537 start.1 start.2 with
            | none => rw [hw] at h; cases h
            | some p => rw [hw] at h; cases h
  · rw [if_neg h1] at h
    simp only [] at h
    by_cases h8 : s.rsize > 0
    · rw [if_pos h8] at h; cases h
    · rw [if_neg h8] at h; cases h; rfl

/-- When the run on absolute positions returns from `a`, the decoding loops
return from every related state, in the state that has the `free_ent` of `a`. -/
theorem drun_final (B : Int) (c : ACfg) (a a1 : AState) (r : Int)
    (h1 : astep c a = AStep.ret r a1) :
    ∀ (f : Nat) (s : DState), Rel c a s → dmeasure s < f →
      ∃ s', drun B f s = some (r, s') ∧ s'.free_ent = a.free_ent ∧ s'.out = a1.out := by
  intro f
  induction f with
  | zero => intro s _ hm; omega
  | succ f ih =>
    intro s hrel hm
    rw [drun_succ]
    have hs := sim_step B c a s hrel
    cases hd : dnext B s with
    | cont s1 =>
      rw [hd] at hs
      rcases hs.2 with ⟨hr, _, _⟩ | ⟨a2, ha, _⟩
      · exact ih s1 hr (by have := hs.1; omega)
      · exact (astep_det_ret h1 ha).elim
    | ret r1 s1 =>
      rw [hd] at hs
      obtain ⟨a2, ha, ho⟩ := hs
      rw [h1] at ha
      cases ha
      exact ⟨s1, rfl, by rw [dnext_ret_free_ent B s s1 r hd, hrel.free_ent_eq], ho.symm⟩
    | stuck =>
      rw [hd] at hs
      rw [h1] at hs
      cases hs

theorem drun_mono (B : Int) (p : Int × DState) :
    ∀ (f k : Nat) (s : DState), drun B f s = some p → drun B (f + k) s = some p := by
  intro f
  induction f with
  | zero => intro k s h; simp [drun] at h
  | succ f ih =>
    intro k s h
    rw [show f + 1 + k = (f + k) + 1 by omega, drun_succ]
    rw [drun_succ] at h
    cases hd : dnext B s with
    | cont s1 => rw [hd] at h; exact ih k s1 h
    | ret r1 s1 => rw [hd] at h; exact h
    | stuck => rw [hd] at h; cases h

theorem drun_of_dreach (B : Int) (s0 s : DState) (p : Int × DState) (h : DReach B s0 s) :
    ∀ f, drun B f s = some p → ∃ n, drun B n s0 = some p := by
  induction h with
  | refl => exact fun f hf => ⟨f, hf⟩
  | @step s1 s2 _ hd ih =>
    intro f hf
    exact ih (f + 1) (by rw [drun_succ, hd]; exact hf)

/-- The state in which `compress` returns has the `free_ent` with which it left
its reading loop, and on its output the decoding loops return 1 in a state with
the same `free_ent`. -/
theorem final_free_ent (g : Globals) (B mb : Int) (inp : List Nat) (hB : 256 ≤ B)
    (hB2 : B < 2 ^ 31) (hmb10 : 10 ≤ mb) (hmb : mb ≤ 16) (hin : ∀ b ∈ inp, b < 256) :
    ∃ s sf, reads B mb (inp.length + 1) (compress_init mb BLOCK_MODE) inp = some s ∧
      compress_state B mb BLOCK_MODE inp = some sf ∧ sf.free_ent = s.free_ent ∧
      ((sf.written.length : Int) ≤ B + 64 →
        (drun B (32 * (load_size B sf.written).toNat + 64) (decode_start B g sf.written)).map
          (fun r => (r.1, r.2.free_ent, r.2.out)) = some (1, sf.free_ent, inp)) := by
  obtain ⟨s, dict, hr, hc, he, hh, hs⟩ := reads_sim g B mb BLOCK_MODE inp hB hB2 hmb10 hmb hin
  have hsf : compress_state B mb BLOCK_MODE inp = some (last_write (last_code s)) := by
    unfold compress_state; rw [hr]; rfl
  have hfe : (last_write (last_code s)).free_ent = s.free_ent := by
    rcases last_code_cases s with ⟨e, _⟩ | ⟨_, e⟩ <;> rw [e] <;> rfl
  refine ⟨s, _, hr, hsf, hfe, fun hlen => ?_⟩
  obtain ⟨⟨a, hreach, hdone, hout, hfa⟩, _, hmx, h3, _, _⟩ :=
    final_runs g B mb (by omega) hmb10 hmb inp dict s hc he hh hs hlen
  obtain ⟨hrel, hm⟩ := rel_start B g _ h3 (by rw [hmx]; exact hmb)
  obtain ⟨d0, hd0, hrd⟩ := areach_dreach B _ _ a _ hrel hreach
  obtain ⟨d, e1, e2, e3⟩ := drun_final B _ a a 1 (astep_done _ a hdone) (dmeasure d0 + 1) d0 hrd
    (by omega)
  obtain ⟨n, hn⟩ := drun_of_dreach B _ d0 (1, d) hd0 _ e1
  obtain ⟨p, hp⟩ : ∃ p, drun B (32 * (load_size B (last_write (last_code s)).written).toNat + 64)
      (decode_start B g (last_write (last_code s)).written) = some p := by
    have hruns := ARuns.of_reach_done hreach hdone
    have hl := (decode_loop_iff B g _ h3 (by rw [hmx]; exact hmb) 1 a.out).mpr hruns
    unfold decode_loop at hl
    cases hx : drun B (32 * (load_size B (last_write (last_code s)).written).toNat + 64)
        (decode_start B g (last_write (last_code s)).written) with
    | none => rw [hx] at hl; simp at hl
    | some p => exact ⟨p, rfl⟩
  have m1 := drun_mono B (1, d) n (32 * (load_size B (last_write (last_code s)).written).toNat + 64)
    _ hn
  have m2 := drun_mono B p _ n _ hp
  rw [Nat.add_comm] at m2
  rw [m1] at m2
  cases m2
  rw [hp]
  show some ((1 : Int), d.free_ent, d.out) = some (1, (last_write (last_code s)).free_ent, inp)
  rw [e2, e3, hfa, hfe, hout]

theorem probe_reach : CReach 8192 12 BLOCK_MODE (Point.between probe_input) probe_state := by
  obtain ⟨s, e, hr⟩ := reads_reach 8192 12 BLOCK_MODE probe_input (by decide)
    (by decide) (by decide) (by decide) (by decide)
  have e' : probe_state = s := by
    unfold probe_state
    rw [show probe_input.length + 1 = 8 from rfl] at e
    rw [e]
    rfl
  rw [e']
  exact hr

theorem probe_compat :
    Compat 12 (acfg 8192 fresh (last_write (last_code probe_state)).written) probe_state := by
  obtain ⟨s, dict, hr, hc, he, hh, hs⟩ := reads_sim fresh 8192 12 BLOCK_MODE probe_input
    (by decide) (by decide) (by decide) (by decide) (by decide)
  have e' : probe_state = s := by
    unfold probe_state
    rw [show probe_input.length + 1 = 8 from rfl] at hr
    rw [hr]
    rfl
  have hlen : (((last_write (last_code probe_state)).written.length : Nat) : Int) ≤ 8192 + 64 := by
    decide
  rw [e'] at hlen ⊢
  exact (final_runs fresh 8192 12 (by decide) (by decide) (by decide) probe_input dict s hc he hh
    hs hlen).2.1

/-! ## Claims -/

/-- C2: encoding the empty input gives exactly the three header bytes, for every
`maxbits` in 9..16 and both block flags (`1F 9D 90` for 16 bits in block mode), and
`is_compressed` accepts those three bytes without emitting a byte. -/
theorem C2_empty_input (B maxbits : Int) (bm : Nat) (g : Globals) (hB : 256 ≤ B)
    (h9 : 9 ≤ maxbits) (h16 : maxbits ≤ 16) (hbm : bm = 0 ∨ bm = 0x80) :
    compress B maxbits bm [] = some [0x1f, 0x9d, maxbits.toNat ||| bm] ∧
    is_compressed B g [0x1f, 0x9d, maxbits.toNat ||| bm] = some ⟨1, g.exit_code, []⟩ ∧
    compress B 16 0x80 [] = some [0x1f, 0x9d, 0x90] ∧
    is_compressed B g [0x1f, 0x9d, 0x90] = some ⟨1, g.exit_code, []⟩ := by
  have hm : (maxbits.toNat ||| bm) % 256 = maxbits.toNat ||| bm ∧
      (maxbits.toNat ||| bm) &&& 0x1f ≤ 16 := by
    obtain ⟨k, rfl⟩ : ∃ k : Nat, maxbits = k := ⟨maxbits.toNat, by omega⟩
    have hk9 : 9 ≤ k := by omega
    have hk16 : k ≤ 16 := by omega
    simp only [Int.toNat_ofNat]
    interval_cases k <;> rcases hbm with rfl | rfl <;> decide
  refine ⟨?_, header_only B g _ hB hm.2, compress_nil B 16 0x80, header_only B g _ hB (by decide)⟩
  rw [compress_nil, hm.1]

theorem C2_empty_input_witness :
    compress 8192 16 0x80 [] = some [0x1f, 0x9d, (16 : Int).toNat ||| 0x80] ∧
    is_compressed 8192 fresh [0x1f, 0x9d, (16 : Int).toNat ||| 0x80] = some ⟨1, fresh.exit_code, []⟩ ∧
    compress 8192 16 0x80 [] = some [0x1f, 0x9d, 0x90] ∧
    is_compressed 8192 fresh [0x1f, 0x9d, 0x90] = some ⟨1, fresh.exit_code, []⟩ :=
  C2_empty_input 8192 16 0x80 fresh (by decide) (by decide) (by decide) (Or.inr rfl)

/-- C5 as stated fails: the output for the 24-byte text with `maxbits = 12` in
block mode does not have 17 bytes. -/
theorem C5_not_17 : ¬ ((compress 8192 12 0x80 tobe).map List.length = some 17) := by
  decide

/-- C5, amended: for the 24-byte text with `maxbits = 12` in block mode the output
has exactly 21 bytes (header and sixteen 9-bit codes), and `is_compressed` accepts it
and emits the same 24 bytes. -/
theorem C5_tobe_21 :
    (compress 8192 12 0x80 tobe).map List.length = some 21 ∧
    tobe.length = 24 ∧
    roundtrip 8192 12 0x80 fresh tobe = some ⟨1, -1, tobe⟩ := by
  decide

/-- C6: a non-empty buffer shorter than three bytes or not starting with `1F 9D` is
rejected with `exit_code = 1`; so is an accepted stream of length at least 4 after
bit 0 of its first byte is flipped, and so is `DE AD 90`. -/
theorem C6_bad_magic (B : Int) (g : Globals) (buf a : List Nat) (hB : 256 ≤ B)
    (hne : buf ≠ [])
    (hbad : buf.length < 3 ∨ buf.getD 0 0 ≠ 0x1f ∨ buf.getD 1 0 ≠ 0x9d)
    (ha : 4 ≤ a.length) (hacc : (is_compressed B g a).map (fun r => r.ret) = some 1) :
    is_compressed B g buf = some ⟨0, 1, []⟩ ∧
    is_compressed B g (flip_bit0 a) = some ⟨0, 1, []⟩ ∧
    is_compressed B g [0xde, 0xad, 0x90] = some ⟨0, 1, []⟩ := by
  refine ⟨bad_header B g buf hB hne hbad, ?_, bad_header B g _ hB (by simp) (by simp)⟩
  match a, ha with
  | b :: t, _ =>
    have hb : b = 0x1f := by
      by_contra hb
      rw [bad_header B g (b :: t) hB (by simp) (Or.inr (Or.inl (by simpa using hb)))] at hacc
      simp at hacc
    subst hb
    exact bad_header B g _ hB (by simp [flip_bit0]) (Or.inr (Or.inl (by simp [flip_bit0])))

theorem C6_bad_magic_witness :
    is_compressed 8192 fresh [0xde, 0xad, 0x90] = some ⟨0, 1, []⟩ ∧
    is_compressed 8192 fresh (flip_bit0 [0x1f, 0x9d, 0x90, 0x41, 0x00]) = some ⟨0, 1, []⟩ ∧
    is_compressed 8192 fresh [0xde, 0xad, 0x90] = some ⟨0, 1, []⟩ :=
  C6_bad_magic 8192 fresh [0xde, 0xad, 0x90] [0x1f, 0x9d, 0x90, 0x41, 0x00] (by decide)
    (by decide) (by decide) (by decide) (by decide)

/-- C7: with a valid magic, a third byte whose low five bits exceed 16 is rejected
with `exit_code = 4` and nothing emitted; otherwise the header is accepted, that is
the call is the decoding loop (and returns 1 when no code follows). `1F 9D 11` is
rejected as unsupported width. -/
theorem C7_unsupported_width (B : Int) (g : Globals) (buf : List Nat) (hB : 256 ≤ B)
    (h3 : 3 ≤ buf.length) (h0 : buf.getD 0 0 = 0x1f) (h1 : buf.getD 1 0 = 0x9d) :
    (16 < buf.getD 2 0 &&& 0x1f → is_compressed B g buf = some ⟨0, 4, []⟩) ∧
    (buf.getD 2 0 &&& 0x1f ≤ 16 →
      is_compressed B g buf = decode_loop B g buf ∧
      is_compressed B g [0x1f, 0x9d, buf.getD 2 0] = some ⟨1, g.exit_code, []⟩) ∧
    is_compressed B g [0x1f, 0x9d, 0x11] = some ⟨0, 4, []⟩ := by
  have key : ∀ l : List Nat, 3 ≤ l.length → l.getD 0 0 = 0x1f → l.getD 1 0 = 0x9d →
      is_compressed B g l =
        if ((l.getD 2 0 &&& 0x1f : Nat) : Int) > 16 then some ⟨0, 4, []⟩ else decode_loop B g l := by
    intro l hl3 hl0 hl1
    have hsz : (3 : Int) ≤ load_size B l := by unfold load_size; split <;> omega
    have hcond : ¬ (load_size B l < 3 ∨ load_inbuf g l (load_size B l) 0 ≠ MAGIC_1 ∨
        load_inbuf g l (load_size B l) 1 ≠ MAGIC_2) := by
      rw [load_inbuf_lt g l _ 0 (by omega) (by omega), load_inbuf_lt g l _ 1 (by omega) (by omega)]
      have t0 : (0 : Int).toNat = 0 := rfl
      have t1 : (1 : Int).toNat = 1 := rfl
      rw [t0, t1, hl0, hl1]
      simp only [MAGIC_1, MAGIC_2, ne_eq, not_true_eq_false, or_false, not_lt]
      exact hsz
    simp only [is_compressed]
    rw [if_neg hcond, load_inbuf_lt g l _ 2 (by omega) (by omega)]
    rfl
  refine ⟨fun h => ?_, fun h => ⟨?_, header_only B g _ hB h⟩, ?_⟩
  · rw [key buf h3 h0 h1, if_pos (by omega)]
  · rw [key buf h3 h0 h1, if_neg (by omega)]
  · rw [key _ (by simp) (by simp) (by simp), if_pos (by decide)]

theorem C7_unsupported_width_witness :
    (16 < [0x1f, 0x9d, 0x11].getD 2 0 &&& 0x1f → is_compressed 8192 fresh [0x1f, 0x9d, 0x11] = some ⟨0, 4, []⟩) ∧
    ([0x1f, 0x9d, 0x11].getD 2 0 &&& 0x1f ≤ 16 →
      is_compressed 8192 fresh [0x1f, 0x9d, 0x11] = decode_loop 8192 fresh [0x1f, 0x9d, 0x11] ∧
      is_compressed 8192 fresh [0x1f, 0x9d, [0x1f, 0x9d, 0x11].getD 2 0] = some ⟨1, fresh.exit_code, []⟩) ∧
    is_compressed 8192 fresh [0x1f, 0x9d, 0x11] = some ⟨0, 4, []⟩ :=
  C7_unsupported_width 8192 fresh [0x1f, 0x9d, 0x11] (by decide) (by decide) (by decide) (by decide)

/-- C8: when the decoding loops reach a point where the next code is malformed
(a first code of 256 or more, or a later code above `free_ent` that is not a
CLEAR of block mode), `is_compressed` returns 0 and has emitted exactly the bytes
of the codes before it. -/
theorem C8_malformed_code (B : Int) (g : Globals) (buf : List Nat) (s : DState)
    (hB : 256 ≤ B) (h3 : 3 ≤ buf.length) (h0 : buf.getD 0 0 = 0x1f) (h1 : buf.getD 1 0 = 0x9d)
    (hw : buf.getD 2 0 &&& 0x1f ≤ 16)
    (hreach : DReach B (decode_start B g buf) s)
    (hav : s.inbits > s.posbits) (hnw : ¬ s.free_ent > s.maxcode)
    (hbad : (s.oldcode = -1 ∧ input s.inbuf s.posbits s.bitmask ≥ 256) ∨
      (s.oldcode ≠ -1 ∧ ¬ (input s.inbuf s.posbits s.bitmask = CLEAR ∧ s.block_mode ≠ 0) ∧
        input s.inbuf s.posbits s.bitmask > s.free_ent)) :
    is_compressed B g buf = some ⟨0, g.exit_code, s.out⟩ := by
  obtain ⟨hsz, hmb, hic⟩ := is_compressed_valid_magic B g buf hB h3 h0 h1
  have hmb16 : (acfg B g buf).maxbits ≤ 16 := by rw [hmb]; omega
  rw [hic, if_neg (by omega)]
  obtain ⟨hrel, _⟩ := rel_start B g buf hsz hmb16
  obtain ⟨a, hr, hlift⟩ := reach_rel B _ _ _ s hreach hrel
  have hd : ∃ s1, dnext B s = DStep.ret 0 s1 ∧ s1.out = s.out := by
    simp only [dnext, if_pos hav, dbody, if_neg hnw]
    rcases hbad with ⟨ho, hc⟩ | ⟨ho, hc, hgt⟩
    · rw [if_pos ho, if_pos hc]; exact ⟨_, rfl, rfl⟩
    · rw [if_neg ho, if_neg hc, if_pos hgt]; exact ⟨_, rfl, rfl⟩
  obtain ⟨s1, hd1, ho1⟩ := hd
  have hs := sim_step B _ a s hr
  rw [hd1] at hs
  obtain ⟨a1, ha, hao⟩ := hs
  have hrun := hlift 0 a1.out (ARuns.done ha)
  rw [hao, ho1] at hrun
  exact (decode_loop_iff B g buf hsz hmb16 0 s.out).mpr hrun

theorem C8_malformed_code_witness :
    is_compressed 8192 fresh [0x1f, 0x9d, 0x90, 0x00, 0x01] =
      some ⟨0, fresh.exit_code, (decode_start 8192 fresh [0x1f, 0x9d, 0x90, 0x00, 0x01]).out⟩ :=
  C8_malformed_code 8192 fresh [0x1f, 0x9d, 0x90, 0x00, 0x01] _ (by decide) (by decide)
    (by decide) (by decide) (by decide) DReach.refl (by decide) (by decide)
    (Or.inl (by decide))

/-- C9: an accepted stream of at least 4 bytes stays accepted when its last byte
is removed, and the bytes then emitted are a prefix of those of the full stream. -/
theorem C9_truncation (B : Int) (g : Globals) (F out : List Nat) (ec : Int)
    (h4 : 4 ≤ F.length)
    (hacc : is_compressed B g F = some ⟨1, ec, out⟩) :
    ∃ out', is_compressed B g F.dropLast = some ⟨1, ec, out'⟩ ∧ out' <+: out := by
  obtain ⟨h3, hm1, hm2, hmb, hloop⟩ := accepted_header B g F _ hacc rfl
  have hlen : (F.dropLast.length : Int) = F.length - 1 := by
    rw [List.length_dropLast]; omega
  by_cases hbig : B + 64 < F.length
  · -- the cut falls outside the part that is looked at
    have hs : load_size B F.dropLast = load_size B F := by
      unfold load_size; rw [hlen, if_neg (by omega), if_neg (by omega)]
    have hsz : load_size B F = B + 64 := by unfold load_size; rw [if_neg (by omega)]
    have hb : load_inbuf g F.dropLast (load_size B F) = load_inbuf g F (load_size B F) := by
      funext i
      by_cases hi : 0 ≤ i ∧ i < load_size B F
      · rw [load_inbuf_lt _ _ _ _ hi.1 hi.2, load_inbuf_lt _ _ _ _ hi.1 hi.2,
          getD_dropLast _ _ (by omega)]
      · unfold load_inbuf; rw [if_neg hi, if_neg hi]
    have he : is_compressed B g F.dropLast = is_compressed B g F := by
      simp only [is_compressed, decode_loop, decode_start, hs, hb]
    exact ⟨out, by rw [he, hacc], List.prefix_refl _⟩
  · have hsz : load_size B F = F.length := load_size_of_le B F (by omega)
    have hsz' : load_size B F.dropLast = F.length - 1 := by
      rw [load_size_of_le B _ (by omega), hlen]
    have hb : ∀ i, 0 ≤ i → i < (F.length : Int) - 1 →
        load_inbuf g F.dropLast (load_size B F.dropLast) i = load_inbuf g F (load_size B F) i := by
      intro i h0 hi
      rw [hsz', hsz, load_inbuf_dropLast g F _ i h0 hi (by omega)]
      congr 1; ring
    have hmb' : (acfg B g F.dropLast).maxbits = (acfg B g F).maxbits := by
      simp only [acfg]; rw [hb 2 (by omega) (by omega)]
    have hbl' : (acfg B g F.dropLast).block_mode = (acfg B g F).block_mode := by
      simp only [acfg]; rw [hb 2 (by omega) (by omega)]
    have hmm' : (acfg B g F.dropLast).maxmaxcode = (acfg B g F).maxmaxcode := by
      simp only [acfg]; rw [hb 2 (by omega) (by omega)]
    have hec : ec = g.exit_code := by
      unfold decode_loop at hloop
      cases hd : drun B (32 * (load_size B F).toNat + 64) (decode_start B g F) with
      | none => rw [hd] at hloop; simp at hloop
      | some p => rw [hd] at hloop; simp at hloop; exact hloop.2.1.symm
    subst hec
    have hrun := (decode_loop_iff B g F h3 hmb 1 out).mp hloop
    obtain ⟨out', hrun', hpre⟩ := @ARuns.truncate _ (acfg B g F.dropLast) _ _ _ hrun (astart_inv _ _) rfl
      (by intro i h0 hi; exact hb i h0 (by simpa [acfg, hsz'] using hi))
      hmb' hbl' hmm' (by simp only [acfg, hsz, hsz']; omega)
    have hst : astart g (acfg B g F.dropLast) = astart g (acfg B g F) := by
      simp only [astart, hbl']
    rw [← hst] at hrun'
    refine ⟨out', ?_, hpre⟩
    rw [is_compressed_of_header B g _ (by omega)
      (by rw [hb 0 (by omega) (by omega)]; exact hm1)
      (by rw [hb 1 (by omega) (by omega)]; exact hm2) (by rw [hmb']; exact hmb)]
    exact (decode_loop_iff B g _ (by omega) (by rw [hmb']; exact hmb) 1 out').mpr hrun'

theorem C9_truncation_witness :
    ∃ out', is_compressed 8192 fresh [0x1f, 0x9d, 0x90, 0x41, 0x00].dropLast = some ⟨1, -1, out'⟩ ∧
      out' <+: [0x41] :=
  C9_truncation 8192 fresh [0x1f, 0x9d, 0x90, 0x41, 0x00] [0x41] (-1) (by decide) (by decide)

/-- C3: for every byte `x`, every `maxbits` in 9..16 and either block flag, `compress`
of the one-byte input `[x]` returns the five bytes `1F 9D (maxbits|block) x 00`: the
header followed by the single code `x` at 9-bit width, which is what a 9-bit read at
bit offset 24 gives back, and no second 9-bit code fits in the output. -/
theorem C3_single_byte (B mb : Int) (bm x : Nat) (hB : 256 ≤ B) (hB2 : B < 2 ^ 31)
    (h9 : 9 ≤ mb) (h16 : mb ≤ 16) (hbm : bm = 0 ∨ bm = BLOCK_MODE) (hx : x < 256) :
    compress B mb bm [x] = some [0x1f, 0x9d, mb.toNat ||| bm, x, 0] ∧
    input (chunk_buf [0x1f, 0x9d, mb.toNat ||| bm, x, 0]) 24 (2 ^ 9 - 1) = x ∧
    [0x1f, 0x9d, mb.toNat ||| bm, x, 0].length * 8 < 24 + 9 + 9 := by
  refine ⟨?_, ?_, by simp⟩
  · rw [compress_eq B mb bm [x] _ (reads_single B mb bm x hB hB2 hx), single_file mb bm x hx,
      (header_byte mb bm h9 h16 hbm).1]
    rfl
  · have e : x &&& 511 = x := by
      rw [show (511 : Nat) = 2 ^ 9 - 1 by norm_num, Nat.and_pow_two_sub_one_eq_mod]
      exact Nat.mod_eq_of_lt (by omega)
    simp [input, chunk_buf, e]

theorem C3_single_byte_witness :
    compress 8192 16 0x80 [0x41] = some [0x1f, 0x9d, 0x90, 0x41, 0] :=
  (C3_single_byte 8192 16 0x80 0x41 (by decide) (by decide) (by decide) (by decide)
    (Or.inr rfl) (by decide)).1

/-- C4: for every input of bytes, every `maxbits` in 9..16 and either block flag,
`compress` returns an output whose first three bytes are `1F`, `9D` and
`maxbits | block flag`, and bits 5 and 6 of that third byte are zero; the input
"AAAAAAAA" with `maxbits = 16` in block mode gives an output that starts with
`1F 9D 90` and that `is_compressed` accepts, decoding the same eight bytes. -/
theorem C4_header (B mb : Int) (bm : Nat) (input : List Nat) (hB : 256 ≤ B) (hB2 : B < 2 ^ 31)
    (h9 : 9 ≤ mb) (h16 : mb ≤ 16) (hbm : bm = 0 ∨ bm = BLOCK_MODE)
    (hin : ∀ b ∈ input, b < 256) :
    (∃ F, compress B mb bm input = some F ∧ F.take 3 = [0x1f, 0x9d, mb.toNat ||| bm] ∧
      (mb.toNat ||| bm) &&& 0x60 = 0) ∧
    (compress 8192 16 0x80 (List.replicate 8 0x41)).map (List.take 3) = some [0x1f, 0x9d, 0x90] ∧
    roundtrip 8192 16 0x80 fresh (List.replicate 8 0x41) = some ⟨1, -1, List.replicate 8 0x41⟩ := by
  refine ⟨?_, by decide, by decide⟩
  obtain ⟨F, h1, h2⟩ := compress_header B mb bm input hB hB2 h9 h16 hin
  obtain ⟨e1, e2, _⟩ := header_byte mb bm h9 h16 hbm
  exact ⟨F, h1, by rw [h2, e1]; rfl, e2⟩

theorem C4_header_witness :
    ∃ F, compress 8192 12 0 tobe = some F ∧ F.take 3 = [0x1f, 0x9d, 12] ∧ (12 : Nat) &&& 0x60 = 0 :=
  (C4_header 8192 12 0 tobe (by decide) (by decide) (by decide) (by decide) (Or.inl rfl)
    (by decide)).1

/-- C10 (what the code does): the block of `compress` that tests the compression ratio
consults `stcode`, `checkpoint`, the pending prefix and `ratio`, never `block_mode`.
In a state whose output carries a non-block header, once the table is frozen, the
checkpoint is reached and the ratio has dropped, it writes the code 256 (CLEAR) at the
current width, empties the hash table and starts assigning entries again from 257. -/
theorem C10_clear_unguarded (mb : Int) (s : CState) (hh : Hdr mb 0 s) (hc : Clean s)
    (hn9 : 9 ≤ s.n_bits) (hn16 : s.n_bits ≤ 16) (hbo : s.boff ≤ s.outbits)
    (hst : s.stcode = false) (hcp : s.bytes_in ≥ s.checkpoint) (hent : (s.ent : Int) < FIRST)
    (hsm : s.bytes_in ≤ 0x007fffff)
    (hrat : cdiv (s.bytes_in * 256) (s.bytes_out + s.outbits / 8) < s.ratio) :
    Hdr mb 0 (check_ratio s) ∧ (check_ratio s).free_ent = FIRST ∧
    (check_ratio s).stcode = true ∧ (∀ hp, (check_ratio s).htab hp = -1) ∧
    ∀ t : Nat, (t : Int) < s.n_bits →
      bit_at (stream (check_ratio s)) (Labs s + t) = (256 : Nat).testBit t := by
  have e : check_ratio s =
      { s with checkpoint := s.bytes_in + CHECK_GAP, ratio := 0, htab := fun _ => -1,
               outbuf := (output s.outbuf s.outbits CLEAR.toNat s.n_bits).1,
               outbits := pad_to_group (s.outbits + s.n_bits) s.boff s.n_bits,
               boff := pad_to_group (s.outbits + s.n_bits) s.boff s.n_bits,
               n_bits := INIT_BITS, extcode := MAXCODE INIT_BITS + 1,
               free_ent := FIRST, stcode := true } := by
    unfold check_ratio
    rw [if_pos ⟨hst, hcp, hent⟩]
    simp only []
    have hr : ¬ ((if s.bytes_in > 0x007fffff then
        (if (s.bytes_out + s.outbits / 8) / 256 = 0 then 0x7fffffff
         else cdiv s.bytes_in ((s.bytes_out + s.outbits / 8) / 256))
        else cdiv (s.bytes_in * 256) (s.bytes_out + s.outbits / 8)) ≥ s.ratio) := by
      rw [if_neg (by omega)]; omega
    rw [if_neg hr]
    rfl
  have h0 := hh.ob_nn
  have hpg := pad_ge (s.outbits + s.n_bits) s.boff s.n_bits (by omega) (by omega)
  have hext := ext_check_ratio s h0 hbo (by omega)
  have hv : CLEAR.toNat < 2 ^ s.n_bits.toNat := by
    have : (2 : Nat) ^ 9 ≤ 2 ^ s.n_bits.toNat := Nat.pow_le_pow_right (by decide) (by omega)
    have : CLEAR.toNat = 256 := rfl
    omega
  obtain ⟨_, _, _, _, _, o6⟩ := output_spec s.outbuf s.outbits CLEAR.toNat s.n_bits h0
    hn9 hn16 hv hc.bytes hc.zero hc.part
  refine ⟨hdr_of_ext mb 0 _ _ hh hext (by rw [e]; show 0 ≤ pad_to_group _ _ _; omega),
    by rw [e], by rw [e], fun hp => by rw [e], ?_⟩
  intro t ht
  rw [e]
  unfold Labs
  rw [add_assoc]
  exact (stream_bit_ge _ _ (by omega)).trans (o6 t ht)

theorem C10_clear_unguarded_witness :
    (check_ratio frozen_state).free_ent = FIRST ∧ (check_ratio frozen_state).stcode = true :=
  have h := C10_clear_unguarded 10 frozen_state
    (hdr_of_ext 10 0 _ _ (hdr_init 10 0) (ext_of_eq _ _ rfl rfl rfl) (by decide))
    (clean_of_eq _ _ (cenc_init 10 0 (by decide)).clean rfl rfl rfl)
    (by decide) (by decide) (by decide) rfl (by decide) (by decide) (by decide) (by decide)
  ⟨h.2.1, h.2.2.1⟩

/-- C24: the bit packing round trip. Let `b` be a buffer of bytes without any
bit set at or above the offset `o`, `n` a width in 9..16 and `c` a code below
`2 ^ n`. Then `output(b,o,c,n)` leaves the offset `o + n`, changes no byte other
than the three from `o >> 3` on and no bit below `o`, and `input` with the mask
`2 ^ n - 1` reads `c` back at the offset `o`. (In the embedding `input` is the
code read; the statement `(o) += (n)` of that macro is made by its callers.) -/
theorem C24_bit_packing (b : Int → Nat) (o : Int) (c : Nat) (n : Int) (h0 : 0 ≤ o)
    (hn9 : 9 ≤ n) (hn16 : n ≤ 16) (hc : c < 2 ^ n.toNat) (hbytes : ∀ j, b j < 256)
    (hz : ∀ j, o ≤ 8 * j → b j = 0) (hp : b (o / 8) < 2 ^ (o % 8).toNat) :
    input (output b o c n).1 o (2 ^ n.toNat - 1) = c ∧
    (output b o c n).2 = o + n ∧
    (∀ j, j ≠ o / 8 → j ≠ o / 8 + 1 → j ≠ o / 8 + 2 → (output b o c n).1 j = b j) ∧
    (∀ q, 0 ≤ q → q < o → bit_at (output b o c n).1 q = bit_at b q) := by
  obtain ⟨o1, _, _, _, o5, o6⟩ := output_spec b o c n h0 hn9 hn16 hc hbytes hz hp
  refine ⟨input_bits _ o n c h0 hn9 hn16 (o1 _) (o1 _) hc o6, rfl, ?_, o5⟩
  intro j j0 j1 j2
  rw [output_bytes b o c n hz j, if_neg j2, if_neg j1, if_neg j0]

theorem C24_bit_packing_witness :
    input (output (fun _ => 0) 24 300 9).1 24 (2 ^ (9 : Int).toNat - 1) = (300 : Nat) ∧
    (output (fun _ => 0) 24 300 9).2 = 24 + 9 ∧
    (∀ j, j ≠ (24 : Int) / 8 → j ≠ 24 / 8 + 1 → j ≠ 24 / 8 + 2 →
      (output (fun _ => 0) 24 300 9).1 j = (fun _ => 0) j) ∧
    (∀ q, 0 ≤ q → q < 24 →
      bit_at (output (fun _ => 0) 24 300 9).1 q = bit_at (fun _ => 0) q) :=
  C24_bit_packing (fun _ => 0) 24 300 9 (by decide) (by decide) (by decide) (by decide)
    (fun _ => Nat.zero_lt_succ 255) (fun _ _ => rfl) (by decide)

/-- C25: the padding to a group boundary. For a width `n` in 9..16 and
`posbits ≥ 0`, the expression of the decoder,
`(posbits-1) + ((n<<3) - (posbits-1+(n<<3)) % (n<<3))`, is the least multiple of
`8 * n` that is at least `posbits`, and it is `posbits` when `posbits` is such
a multiple. For `outbits ≥ boff` the expression of the encoder is the least
`p ≥ outbits` for which `p - boff` is a multiple of `8 * n`. -/
theorem C25_group_padding (n : Int) (hn9 : 9 ≤ n) (hn16 : n ≤ 16) :
    (∀ posbits : Int, 0 ≤ posbits →
      pad_to_group posbits 0 n =
        (posbits - 1) + (n * 8 - crem (posbits - 1 + n * 8) (n * 8)) ∧
      pad_to_group posbits 0 n % (n * 8) = 0 ∧ posbits ≤ pad_to_group posbits 0 n ∧
      (∀ p, posbits ≤ p → p % (n * 8) = 0 → pad_to_group posbits 0 n ≤ p) ∧
      (posbits % (n * 8) = 0 → pad_to_group posbits 0 n = posbits)) ∧
    (∀ outbits boff : Int, boff ≤ outbits →
      (pad_to_group outbits boff n - boff) % (n * 8) = 0 ∧
      outbits ≤ pad_to_group outbits boff n ∧
      ∀ p, outbits ≤ p → (p - boff) % (n * 8) = 0 → pad_to_group outbits boff n ≤ p) := by
  have least : ∀ o b p : Int, b ≤ o → o ≤ p → (p - b) % (n * 8) = 0 →
      pad_to_group o b n ≤ p := by
    intro o b p hb hp hm
    have h1 := pad_lt o b n (by omega) hb
    have h2 := pad_aligned o b n (by omega) hb
    obtain ⟨k1, e1⟩ := Int.dvd_of_emod_eq_zero hm
    obtain ⟨k2, e2⟩ := Int.dvd_of_emod_eq_zero h2
    by_contra hlt
    have hk : k1 < k2 := by
      by_contra hk
      have : n * 8 * k2 ≤ n * 8 * k1 := Int.mul_le_mul_of_nonneg_left (by omega) (by omega)
      omega
    have : n * 8 * (k1 + 1) ≤ n * 8 * k2 := Int.mul_le_mul_of_nonneg_left (by omega) (by omega)
    rw [mul_add, mul_one] at this
    omega
  constructor
  · intro posbits h0
    have ha := pad_aligned posbits 0 n (by omega) h0
    rw [sub_zero] at ha
    refine ⟨?_, ha, pad_ge posbits 0 n (by omega) h0,
      fun p hp hm => least posbits 0 p h0 hp (by rw [sub_zero]; exact hm), ?_⟩
    · unfold pad_to_group
      rw [sub_zero]
    · intro hm
      have h1 := pad_ge posbits 0 n (by omega) h0
      have h2 := least posbits 0 posbits h0 (le_refl _) (by rw [sub_zero]; exact hm)
      omega
  · intro outbits boff hb
    exact ⟨pad_aligned outbits boff n (by omega) hb, pad_ge outbits boff n (by omega) hb,
      fun p hp hm => least outbits boff p hb hp hm⟩

theorem C25_group_padding_witness :
    pad_to_group 18 0 9 = 72 ∧ pad_to_group 72 0 9 = 72 ∧ pad_to_group 100 24 9 = 168 :=
  have h := C25_group_padding 9 (by decide) (by decide)
  ⟨by decide, (h.1 72 (by decide)).2.2.2.2 (by decide), by decide⟩

/-- C26: the dictionary lookup of the encoder ends, with indices in range. In
every state `compress` passes through, for any `maxbits` in 9..16, the hash
table has an empty slot; for every byte `c` the primary index
`(c << 8) ^ ent` and every index the secondary probe visits lie in
`[0, HSIZE)`; and the lookup of the pair `(ent, c)` ends after fewer than
`HSIZE` probes, either at the slot that holds the pair or at an empty slot. -/
theorem C26_lookup (B mb : Int) (bm : Nat) (hB : 256 ≤ B) (hB2 : B < 2 ^ 31) (h9 : 9 ≤ mb)
    (h16 : mb ≤ 16) (pt : Point) (s : CState) (hr : CReach B mb bm pt s) (c : Nat)
    (hc : c < 256) :
    (∃ hp, 0 ≤ hp ∧ hp < HSIZE ∧ s.htab hp = -1) ∧
    (0 ≤ key_hp c s.ent ∧ key_hp c s.ent < HSIZE) ∧
    (∀ k, 0 ≤ ppos (key_disp c s.ent) (key_hp c s.ent) k ∧
      ppos (key_disp c s.ent) (key_hp c s.ent) k < HSIZE) ∧
    ∃ b k, k < 69001 ∧
      lookup s.htab c s.ent = some (b, ppos (key_disp c s.ent) (key_hp c s.ent) k) ∧
      (b = true → s.htab (ppos (key_disp c s.ent) (key_hp c s.ent) k) = fcode_code c s.ent) ∧
      (b = false → s.htab (ppos (key_disp c s.ent) (key_hp c s.ent) k) = -1) := by
  obtain ⟨dict, hb, hl, he, _⟩ := creach_base B mb bm hB hB2 h9 h16 pt s hr
  have hfree := tinv_free s.htab s.codetab dict hb.tinv hl c s.ent hc he
  have hrange := key_ppos_range c s.ent hc he
  obtain ⟨k0, _, hk0⟩ := hfree
  have hkey := key_hp_range c s.ent hc he
  have hH : HSIZE = 69001 := rfl
  refine ⟨⟨_, (hrange k0).1, (hrange k0).2, hk0⟩, ⟨hkey.1, by omega⟩, hrange, ?_⟩
  obtain ⟨b, k, hk, e, _, h1, h2⟩ := lookup_spec s.htab c s.ent hc he ⟨k0, by assumption, hk0⟩
  exact ⟨b, k, hk, e, h1, h2⟩

set_option maxRecDepth 100000 in
theorem C26_lookup_witness :
    (probe_state.ent = 257 ∧ probe_state.free_ent = 261 ∧
      probe_state.htab (key_hp 67 probe_state.ent) = fcode_code 66 1 ∧
      lookup probe_state.htab 67 probe_state.ent =
        some (true, ppos (key_disp 67 probe_state.ent) (key_hp 67 probe_state.ent) 1)) ∧
    (∃ hp, 0 ≤ hp ∧ hp < HSIZE ∧ probe_state.htab hp = -1) ∧
    (0 ≤ key_hp 67 probe_state.ent ∧ key_hp 67 probe_state.ent < HSIZE) ∧
    (∀ k, 0 ≤ ppos (key_disp 67 probe_state.ent) (key_hp 67 probe_state.ent) k ∧
      ppos (key_disp 67 probe_state.ent) (key_hp 67 probe_state.ent) k < HSIZE) ∧
    ∃ b k, k < 69001 ∧
      lookup probe_state.htab 67 probe_state.ent =
        some (b, ppos (key_disp 67 probe_state.ent) (key_hp 67 probe_state.ent) k) ∧
      (b = true → probe_state.htab (ppos (key_disp 67 probe_state.ent)
          (key_hp 67 probe_state.ent) k) = fcode_code 67 probe_state.ent) ∧
      (b = false → probe_state.htab (ppos (key_disp 67 probe_state.ent)
          (key_hp 67 probe_state.ent) k) = -1) :=
  ⟨by decide,
    C26_lookup 8192 12 BLOCK_MODE (by decide) (by decide) (by decide) (by decide) _ _ probe_reach 67
      (by decide)⟩

/-- C27: with `maxbits = 9` the first bound `extcode = MAXCODE(9) + 1` lets the
encoder enter the code 512, which is not below `2 ^ 9`: after the 257 bytes
`0, 1, ..., 255, 0` in block mode the slot 255 is occupied and holds the code
512. In every state `compress` passes through, for `maxbits` in 9..16, the code
in an occupied slot is at least 257 and below `free_ent`, and below `2 ^ maxbits`
when `maxbits` is at least 10; no two occupied slots hold the same code, and
no two hold the same pair. -/
theorem C27_dictionary :
    (∃ s, CReach 8192 9 BLOCK_MODE (Point.between (List.range 256 ++ [0])) s ∧
      s.htab 255 ≠ -1 ∧ s.codetab 255 = 512) ∧
    ∀ (B mb : Int) (bm : Nat) (pt : Point) (s : CState), 256 ≤ B → B < 2 ^ 31 → 9 ≤ mb →
      mb ≤ 16 → CReach B mb bm pt s →
      (∀ hp, s.htab hp ≠ -1 → 257 ≤ s.codetab hp ∧ (s.codetab hp : Int) < s.free_ent ∧
        (10 ≤ mb → (s.codetab hp : Int) < MAXCODE mb)) ∧
      (∀ hp hp', s.htab hp ≠ -1 → s.htab hp' ≠ -1 → s.codetab hp = s.codetab hp' → hp = hp') ∧
      (∀ hp hp', s.htab hp ≠ -1 → s.htab hp = s.htab hp' → hp = hp') := by
  constructor
  · have hin : ∀ b ∈ List.range 256 ++ [0], b < 256 := by
      intro b hb
      rcases List.mem_append.1 hb with h | h
      · exact List.mem_range.1 h
      · rw [List.mem_singleton.1 h]; norm_num
    obtain ⟨s, e, hr⟩ := reads_reach 8192 9 BLOCK_MODE (List.range 256 ++ [0]) (by decide)
      (by decide) (by decide) (by decide) hin
    have h := nine_bits_run
    rw [e] at h
    simp only [Option.map_some', Option.some.injEq, Prod.mk.injEq] at h
    refine ⟨s, hr, ?_, h.2⟩
    rw [h.1]
    exact fcode_code_ne 0 255
  · intro B mb bm pt s hB hB2 h9 h16 hr
    obtain ⟨dict, hb, _, _, hf⟩ := creach_base B mb bm hB hB2 h9 h16 pt s hr
    refine ⟨fun hp ho => ?_, hb.tinv.inj, fun hp hp' ho e => tinv_key_inj _ _ _ hb.tinv hp hp' ho e⟩
    have h1 := tinv_code_range _ _ _ hb.tinv hp ho
    have h2 := hb.dlen
    refine ⟨h1.1, by omega, fun h10 => ?_⟩
    have := hf h10
    omega

theorem C27_dictionary_witness :
    (∀ hp, (compress_init 12 BLOCK_MODE).htab hp ≠ -1 →
      257 ≤ (compress_init 12 BLOCK_MODE).codetab hp ∧
      ((compress_init 12 BLOCK_MODE).codetab hp : Int) < (compress_init 12 BLOCK_MODE).free_ent ∧
      (10 ≤ (12 : Int) → ((compress_init 12 BLOCK_MODE).codetab hp : Int) < MAXCODE 12)) ∧
    (∀ hp hp', (compress_init 12 BLOCK_MODE).htab hp ≠ -1 →
      (compress_init 12 BLOCK_MODE).htab hp' ≠ -1 →
      (compress_init 12 BLOCK_MODE).codetab hp = (compress_init 12 BLOCK_MODE).codetab hp' →
      hp = hp') ∧
    (∀ hp hp', (compress_init 12 BLOCK_MODE).htab hp ≠ -1 →
      (compress_init 12 BLOCK_MODE).htab hp = (compress_init 12 BLOCK_MODE).htab hp' →
      hp = hp') :=
  C27_dictionary.2 8192 12 BLOCK_MODE _ _ (by decide) (by decide) (by decide) (by decide)
    CReach.init

/-- C29, as stated, fails: on the stream `clear_stream` the decoder reads `0x61`,
then CLEAR, then `0x62`, and returns 1 with the output `0x61 0x62`. The entry
written after the CLEAR is the one at index 256 (prefix `0x61`, suffix `0x62`);
`free_ent` is 257 afterwards and nothing has been written at index 257. -/
theorem C29_after_clear_256 :
    (drun 8192 64 (decode_start 8192 fresh clear_stream)).map
        (fun r => (r.1, r.2.out, r.2.free_ent)) = some (1, [0x61, 0x62], 257) ∧
      (drun 8192 64 (decode_start 8192 fresh clear_stream)).map
        (fun r => (r.2.tab_prefixof 256, r.2.tab_suffixof 256)) = some (0x61, 0x62) ∧
      (drun 8192 64 (decode_start 8192 fresh clear_stream)).map
        (fun r => (r.2.tab_prefixof 257, r.2.tab_suffixof 257)) = some (0, 0) := by
  decide

/-- C29, amended: the decoder starts with `free_ent = FIRST = 257` in block mode
(256 otherwise), and `maxmaxcode` is `2 ^ maxbits`. A turn of its loops writes
an entry exactly when `turn_event` is an entry: it has read a code that is not
the first code, not CLEAR in block mode and not above `free_ent`, at a width
that is not due to change, and `free_ent < maxmaxcode`. The entry is written at
index `free_ent`, its prefix is `oldcode` and its suffix the first byte of the
string of the code read (the new `finchar`), and `free_ent` grows by one. A turn
that reads CLEAR in block mode zeroes the first 128 cells of `tab_prefixof` and
sets `free_ent` to `FIRST - 1 = 256`, keeping `oldcode`; every other turn leaves
both tables and `free_ent` as they are. So along every run from the start of
the decoding loops the indices of the entries written count up from 257 until
the first CLEAR, and from 256 after each CLEAR (the entry after a CLEAR is
written at 256, the one after it at 257), all of them below `2 ^ maxbits`;
without block mode no turn clears; and every state the loops pass through is
the end of such a run. -/
theorem C29_allocation (B : Int) (g : Globals) (buf : List Nat) (evs : List TabEvent)
    (s : DState) (h : DTrace B (decode_start B g buf) evs s) :
    (decode_start B g buf).free_ent =
      (if (decode_start B g buf).block_mode ≠ 0 then FIRST else 256) ∧
    (decode_start B g buf).maxmaxcode = 2 ^ (decode_start B g buf).maxbits.toNat ∧
    counts_from (decode_start B g buf).free_ent evs ∧
    (∀ k, TabEvent.entry k ∈ evs → k < 2 ^ (decode_start B g buf).maxbits.toNat) ∧
    ((decode_start B g buf).block_mode = 0 → TabEvent.clear ∉ evs) ∧
    (∀ t t', dnext B t = DStep.cont t' →
      (turn_event t = none → t'.free_ent = t.free_ent ∧ t'.tab_prefixof = t.tab_prefixof ∧
        t'.tab_suffixof = t.tab_suffixof) ∧
      (turn_event t = some TabEvent.clear → t.block_mode ≠ 0 ∧
        input t.inbuf t.posbits t.bitmask = CLEAR ∧ t'.free_ent = FIRST - 1 ∧
        t'.tab_prefixof = clear_tab_prefixof t.tab_prefixof ∧
        t'.tab_suffixof = t.tab_suffixof ∧ t'.oldcode = t.oldcode) ∧
      (∀ k, turn_event t = some (TabEvent.entry k) → k = t.free_ent ∧ k < t.maxmaxcode ∧
        t'.free_ent = k + 1 ∧
        t'.tab_prefixof = upd t.tab_prefixof k (t.oldcode.toNat % 65536) ∧
        t'.tab_suffixof = upd t.tab_suffixof k (t'.finchar.toNat % 256) ∧
        t'.oldcode = input t.inbuf t.posbits t.bitmask)) ∧
    ∀ t, DReach B (decode_start B g buf) t → ∃ evs', DTrace B (decode_start B g buf) evs' t := by
  obtain ⟨c1, c2, c3⟩ := dtrace_counts B _ _ _ h
  have hm : (decode_start B g buf).maxmaxcode = 2 ^ (decode_start B g buf).maxbits.toNat := rfl
  refine ⟨rfl, hm, c1, fun k hk => ?_, c3, fun t t' hd => (turn_effect B t t' hd).2.2,
    fun t ht => dreach_trace B _ t ht⟩
  rw [← hm]
  exact c2 k hk

theorem C29_allocation_witness :
    (turn_event (alloc_run 4) = some (TabEvent.entry 257) ∧
      (alloc_run 2).tab_prefixof 257 = 0x61 ∧ (alloc_run 2).tab_suffixof 257 = 0x62 ∧
      (alloc_run 3).free_ent = 256 ∧
      (alloc_run 4).oldcode = 0x63 ∧ (alloc_run 5).finchar = 0x64 ∧
      (alloc_run 5).tab_prefixof 256 = 0x62 ∧ (alloc_run 5).tab_suffixof 256 = 0x63 ∧
      (alloc_run 5).tab_prefixof 257 = 0x63 ∧ (alloc_run 5).tab_suffixof 257 = 0x64 ∧
      (alloc_run 5).free_ent = 258) ∧
    counts_from (decode_start 8192 fresh alloc_stream).free_ent
      [TabEvent.entry 257, TabEvent.clear, TabEvent.entry 256] ∧
    (∀ k, TabEvent.entry k ∈ [TabEvent.entry 257, TabEvent.clear, TabEvent.entry 256] →
      k < 2 ^ (decode_start 8192 fresh alloc_stream).maxbits.toNat) ∧
    ∀ k, turn_event (alloc_run 4) = some (TabEvent.entry k) →
      k = (alloc_run 4).free_ent ∧ k < (alloc_run 4).maxmaxcode ∧
      (alloc_run 5).free_ent = k + 1 ∧
      (alloc_run 5).tab_prefixof =
        upd (alloc_run 4).tab_prefixof k ((alloc_run 4).oldcode.toNat % 65536) ∧
      (alloc_run 5).tab_suffixof =
        upd (alloc_run 4).tab_suffixof k ((alloc_run 5).finchar.toNat % 256) ∧
      (alloc_run 5).oldcode =
        input (alloc_run 4).inbuf (alloc_run 4).posbits (alloc_run 4).bitmask :=
  ⟨by decide,
    (C29_allocation 8192 fresh alloc_stream _ _ alloc_trace4).2.2.1,
    (C29_allocation 8192 fresh alloc_stream _ _ alloc_trace4).2.2.2.1,
    ((C29_allocation 8192 fresh alloc_stream _ _ alloc_trace4).2.2.2.2.2.1 (alloc_run 4)
      (alloc_run 5) rfl).2.2⟩

/-- C39: `is_compressed` looks at the first `sizeof(inbuf) = IBUFSIZ + 64` bytes
of its buffer only. For two buffers of at least that many bytes that agree on
their first `IBUFSIZ + 64` bytes, and for the same content of the global
tables, the call returns the same value and leaves the same `exit_code` and the
same decoded bytes; the decoding loops start in the same state, so every state
they pass through and the state in which they return are the same too. -/
theorem C39_prefix_only (B : Int) (g : Globals) (buf1 buf2 : List Nat) (hB : 0 ≤ B)
    (h1 : B + 64 ≤ buf1.length) (h2 : B + 64 ≤ buf2.length)
    (h : buf1.take (B + 64).toNat = buf2.take (B + 64).toNat) :
    is_compressed B g buf1 = is_compressed B g buf2 ∧
    load_size B buf1 = B + 64 ∧ load_size B buf2 = B + 64 ∧
    load_inbuf g buf1 (load_size B buf1) = load_inbuf g buf2 (load_size B buf2) ∧
    decode_start B g buf1 = decode_start B g buf2 ∧
    ∀ fuel, drun B fuel (decode_start B g buf1) = drun B fuel (decode_start B g buf2) := by
  have e1 : load_size B buf1 = B + 64 := by unfold load_size; rw [if_neg (by omega)]
  have e2 : load_size B buf2 = B + 64 := by unfold load_size; rw [if_neg (by omega)]
  have hs : decode_start B g buf1 = decode_start B g buf2 := by
    rw [← decode_start_take B g buf1 hB, ← decode_start_take B g buf2 hB, h]
  refine ⟨?_, e1, e2, ?_, hs, fun fuel => by rw [hs]⟩
  · rw [← is_compressed_take B g buf1 hB, ← is_compressed_take B g buf2 hB, h]
  · rw [← load_inbuf_take B g buf1 hB, ← load_inbuf_take B g buf2 hB, h, e1, e2]

theorem C39_prefix_only_witness :
    is_compressed 8192 fresh (List.replicate 8256 0 ++ [1]) =
        is_compressed 8192 fresh (List.replicate 8256 0 ++ [2, 3]) ∧
    load_size 8192 (List.replicate 8256 0 ++ [1]) = 8192 + 64 ∧
    load_size 8192 (List.replicate 8256 0 ++ [2, 3]) = 8192 + 64 ∧
    load_inbuf fresh (List.replicate 8256 0 ++ [1])
        (load_size 8192 (List.replicate 8256 0 ++ [1])) =
      load_inbuf fresh (List.replicate 8256 0 ++ [2, 3])
        (load_size 8192 (List.replicate 8256 0 ++ [2, 3])) ∧
    decode_start 8192 fresh (List.replicate 8256 0 ++ [1]) =
      decode_start 8192 fresh (List.replicate 8256 0 ++ [2, 3]) ∧
    ∀ fuel, drun 8192 fuel (decode_start 8192 fresh (List.replicate 8256 0 ++ [1])) =
      drun 8192 fuel (decode_start 8192 fresh (List.replicate 8256 0 ++ [2, 3])) :=
  C39_prefix_only 8192 fresh (List.replicate 8256 0 ++ [1]) (List.replicate 8256 0 ++ [2, 3])
    (by decide)
    (by rw [List.length_append, List.length_replicate]; decide)
    (by rw [List.length_append, List.length_replicate]; decide)
    (by show List.take 8256 _ = List.take 8256 _
        rw [List.take_left' (List.length_replicate 8256 0),
          List.take_left' (List.length_replicate 8256 0)])

/-- C40, as stated, fails in its last part: the encoder is not one entry ahead
of the decoder after each code. For the input `a`, with `maxbits = 12` in block
mode, `compress` writes the header and the single code `0x61`, and its
`free_ent` is 257 at the end; `is_compressed` returns 1 on that output, has
decoded `a`, and its `free_ent` is 257 as well. -/
theorem C40_last_code :
    compress 8192 12 BLOCK_MODE [0x61] = some [0x1f, 0x9d, 0x8c, 0x61, 0x00] ∧
    (compress_state 8192 12 BLOCK_MODE [0x61]).map (fun s => s.free_ent) = some 257 ∧
    is_compressed 8192 fresh [0x1f, 0x9d, 0x8c, 0x61, 0x00] = some ⟨1, -1, [0x61]⟩ ∧
    (drun 8192 224 (decode_start 8192 fresh [0x1f, 0x9d, 0x8c, 0x61, 0x00])).map
        (fun r => (r.1, r.2.free_ent, r.2.out)) = some (1, 257, [0x61]) := by
  refine ⟨by decide, by decide, by decide, by decide⟩

/-- C40, amended: in block mode with `maxbits` from 10 to 16 `compress` returns
an output for every input of bytes, and when that output has at most
`IBUFSIZ + 64` bytes `is_compressed` returns 1 on it and has decoded the input.
The decoder follows the encoder code by code: at every control point of the
loops of `compress`, for every buffer that starts with the output produced so
far, the decoding loops pass through a state `d` that has read exactly that
output (its reading `a` on absolute positions stands at the bit offset
`Labs s`). In that state the width of the decoder is the width of the encoder,
or it is one less and the table of the decoder is full for its width, so that
the next turn of the decoder is the change of width. Before the first code both
have `free_ent = 257`; after it the encoder is one entry ahead
(`free_ent = d.free_ent + 1`), or the table of the encoder is frozen and the
decoder has caught up. The code that `compress` writes behind its reading loop
comes with no entry: `compress` returns with the `free_ent` it had when it left
the loop, and on its output (of at most `IBUFSIZ + 64` bytes) the decoding loops
return 1 in a state with that same `free_ent`, all the input put out. -/
theorem C40_lockstep (g : Globals) (B mb : Int) (hB : 256 ≤ B) (hB2 : B < 2 ^ 31)
    (hmb10 : 10 ≤ mb) (hmb : mb ≤ 16) :
    (∀ inp : List Nat, (∀ b ∈ inp, b < 256) →
      ∃ F, compress B mb BLOCK_MODE inp = some F ∧
        ((F.length : Int) ≤ B + 64 → is_compressed B g F = some ⟨1, g.exit_code, inp⟩)) ∧
    (∀ (pt : Point) (s : CState) (buf : List Nat), CReach B mb BLOCK_MODE pt s →
      Compat mb (acfg B g buf) s →
      ∃ d a, DReach B (decode_start B g buf) d ∧ Rel (acfg B g buf) a d ∧ a.pos = Labs s ∧
        (d.n_bits = s.n_bits ∨
          (d.n_bits + 1 = s.n_bits ∧ d.free_ent = MAXCODE d.n_bits ∧ d.free_ent > d.maxcode)) ∧
        ((d.oldcode = -1 ∧ d.free_ent = 257 ∧ s.free_ent = 257) ∨
          (d.oldcode ≠ -1 ∧
            (s.free_ent = d.free_ent + 1 ∨ (s.stcode = false ∧ s.free_ent = d.free_ent))))) ∧
    (∀ inp : List Nat, (∀ b ∈ inp, b < 256) →
      ∃ s sf, reads B mb (inp.length + 1) (compress_init mb BLOCK_MODE) inp = some s ∧
        compress_state B mb BLOCK_MODE inp = some sf ∧ sf.free_ent = s.free_ent ∧
        ((sf.written.length : Int) ≤ B + 64 →
          (drun B (32 * (load_size B sf.written).toNat + 64)
            (decode_start B g sf.written)).map
              (fun r => (r.1, r.2.free_ent, r.2.out)) = some (1, sf.free_ent, inp))) := by
  refine ⟨fun inp hin => roundtrip_block g B mb inp hB hB2 hmb10 hmb hin, ?_,
    fun inp hin => final_free_ent g B mb inp hB hB2 hmb10 hmb hin⟩
  intro pt s buf hr hc
  obtain ⟨dict, hi, he, hh, _, hsim⟩ := creach_sim g B mb hB hB2 hmb10 hmb pt s hr
  have hb := cinv_base B mb pt dict s hi
  obtain ⟨a, ha, hs⟩ := hsim _ hc
  have h3 : 3 ≤ load_size B buf := by
    have h1 := hh.len
    have h2 := hc.len
    have hN : (acfg B g buf).N = load_size B buf := rfl
    rw [hN] at h2
    omega
  obtain ⟨hrel, _⟩ := rel_start B g buf h3 (by rw [hc.maxbits_eq]; exact hmb)
  obtain ⟨d, hd, hrd⟩ := areach_dreach B _ _ a _ hrel ha
  refine ⟨d, a, hd, hrd, hs.pos_eq, ?_, ?_⟩
  · rw [hrd.n_bits_eq, hrd.free_ent_eq, hrd.maxcode_eq]
    rcases hs.width with ⟨w1, _⟩ | ⟨w1, w2, _⟩
    · exact Or.inl w1
    · right
      refine ⟨w1, w2, ?_⟩
      rw [hs.mc, if_neg (by have := hb.nb_hi; omega), w2]
      omega
  · rw [hrd.oldcode_eq, hrd.free_ent_eq]
    rcases hs.phase with ⟨p1, p2, p3, _⟩ | ⟨p1, p2 | ⟨p2, p3⟩⟩
    · exact Or.inl ⟨p1, p2, p3⟩
    · exact Or.inr ⟨p1, Or.inl (by omega)⟩
    · exact Or.inr ⟨p1, Or.inr ⟨p2, p3.symm⟩⟩

set_option maxRecDepth 100000 in
theorem C40_lockstep_witness :
    (probe_state.free_ent = 261 ∧ probe_state.n_bits = 9 ∧ Labs probe_state = 60 ∧
      (last_write (last_code probe_state)).written = [0x1f, 0x9d, 0x8c, 1, 132, 4, 28, 18, 16] ∧
      (compress_state 8192 12 BLOCK_MODE probe_input).map (fun s => s.free_ent) = some 261 ∧
      (drun 8192 352 (decode_start 8192 fresh [0x1f, 0x9d, 0x8c, 1, 132, 4, 28, 18, 16])).map
        (fun r => (r.1, r.2.free_ent, r.2.out)) = some (1, 261, probe_input)) ∧
    (∃ F, compress 8192 12 BLOCK_MODE probe_input = some F ∧
      ((F.length : Int) ≤ 8192 + 64 →
        is_compressed 8192 fresh F = some ⟨1, fresh.exit_code, probe_input⟩)) ∧
    (∃ d a, DReach 8192
        (decode_start 8192 fresh (last_write (last_code probe_state)).written) d ∧
      Rel (acfg 8192 fresh (last_write (last_code probe_state)).written) a d ∧
      a.pos = Labs probe_state ∧
      (d.n_bits = probe_state.n_bits ∨
        (d.n_bits + 1 = probe_state.n_bits ∧ d.free_ent = MAXCODE d.n_bits ∧
          d.free_ent > d.maxcode)) ∧
      ((d.oldcode = -1 ∧ d.free_ent = 257 ∧ probe_state.free_ent = 257) ∨
        (d.oldcode ≠ -1 ∧
          (probe_state.free_ent = d.free_ent + 1 ∨
            (probe_state.stcode = false ∧ probe_state.free_ent = d.free_ent))))) ∧
    (∃ s sf, reads 8192 12 (probe_input.length + 1) (compress_init 12 BLOCK_MODE) probe_input =
        some s ∧
      compress_state 8192 12 BLOCK_MODE probe_input = some sf ∧ sf.free_ent = s.free_ent ∧
      ((sf.written.length : Int) ≤ 8192 + 64 →
        (drun 8192 (32 * (load_size 8192 sf.written).toNat + 64)
          (decode_start 8192 fresh sf.written)).map
            (fun r => (r.1, r.2.free_ent, r.2.out)) = some (1, sf.free_ent, probe_input))) :=
  ⟨by decide,
    (C40_lockstep fresh 8192 12 (by decide) (by decide) (by decide) (by decide)).1
      probe_input (by decide),
    (C40_lockstep fresh 8192 12 (by decide) (by decide) (by decide) (by decide)).2.1
      (Point.between probe_input) probe_state _ probe_reach probe_compat,
    (C40_lockstep fresh 8192 12 (by decide) (by decide) (by decide) (by decide)).2.2
      probe_input (by decide)⟩

end Compress42

namespace Ssdeep

/-! ## The comparison: shape and range -/

theorem fuzzy_compare_eq (str1 str2 : List Nat) :
    fuzzy_compare str1 str2 =
      match scan_u str1, scan_u str2 with
      | some block_size1, some block_size2 =>
        if block_size1 ≠ block_size2 ∧ block_size1 ≠ (block_size2 * 2) % 2 ^ 32 ∧
            block_size2 ≠ (block_size1 * 2) % 2 ^ 32 then 0
        else
          match pieces str1, pieces str2 with
          | some p1, some p2 => combine block_size1 block_size2 p1 p2
          | _, _ => -1
      | _, _ => -1 := by
  unfold fuzzy_compare pieces combine
  cases scan_u str1 <;> cases scan_u str2 <;> try rfl
  rename_i b1 b2
  simp only []
  by_cases h : b1 ≠ b2 ∧ b1 ≠ (b2 * 2) % 2 ^ 32 ∧ b2 ≠ (b1 * 2) % 2 ^ 32
  · rw [if_pos h, if_pos h]
  · rw [if_neg h, if_neg h]
    cases strchr str1 58 with
    | none =>
      cases strchr str2 58 with
      | none => rfl
      | some r2 => rfl
    | some r1 =>
      cases strchr str2 58 with
      | none => simp only []; cases strchr (eliminate_sequences r1.tail) 58 <;> rfl
      | some r2 =>
        simp only []
        cases strchr (eliminate_sequences r1.tail) 58 <;>
          cases strchr (eliminate_sequences r2.tail) 58 <;> rfl

theorem score_strings_le (s1 s2 : List Nat) (block_size : Nat) :
    score_strings s1 s2 block_size ≤ 100 := by
  unfold score_strings
  simp only []
  split_ifs with h1 h2 h3 h4
  · omega
  · omega
  · omega
  · exact le_trans (Nat.mod_le _ _) (by omega)
  · omega

theorem to_int_small (n : Nat) (h : n ≤ 100) : to_int n = (n : Int) := by
  unfold to_int; rw [if_pos (by omega)]

theorem combine_range (b1 b2 : Nat) (p1 p2 : List Nat × List Nat) :
    0 ≤ combine b1 b2 p1 p2 ∧ combine b1 b2 p1 p2 ≤ 100 := by
  have hs := score_strings_le
  unfold combine
  split_ifs <;>
  · rw [to_int_small _ (hs _ _ _)]
    exact ⟨Int.ofNat_nonneg _, by exact_mod_cast hs _ _ _⟩

/-! ## Strings with something appended -/

theorem dropWhile_stop (p : Nat → Bool) (c : Nat) (hc : p c = false) (X R : List Nat) :
    (X ++ c :: R).dropWhile p = X.dropWhile p ++ c :: R ∨
      ((X ++ c :: R).dropWhile p = c :: R ∧ X.dropWhile p = []) := by
  induction X with
  | nil => right; simp [List.dropWhile, hc]
  | cons x t ih =>
    by_cases hx : p x = true
    · simpa [List.dropWhile, hx] using ih
    · left; simp [List.dropWhile, hx]

theorem dropWhile_stop' (p : Nat → Bool) (c : Nat) (hc : p c = false) (X R : List Nat) :
    (X ++ c :: R).dropWhile p = X.dropWhile p ++ c :: R := by
  rcases dropWhile_stop p c hc X R with h | ⟨h1, h2⟩
  · exact h
  · rw [h1, h2]; rfl

theorem takeWhile_stop (p : Nat → Bool) (c : Nat) (hc : p c = false) (X R : List Nat) :
    (X ++ c :: R).takeWhile p = X.takeWhile p := by
  induction X with
  | nil => simp [List.takeWhile, hc]
  | cons x t ih =>
    by_cases hx : p x = true
    · simp [List.takeWhile, hx, ih]
    · simp [List.takeWhile, hx]

/-- What `%u` reads ends at the first colon at the latest. -/
theorem scan_u_colon (X R : List Nat) : scan_u (X ++ 58 :: R) = scan_u (X ++ [58]) := by
  have key : ∀ R, scan_u (X ++ 58 :: R) = scan_u (X ++ 58 :: []) := by
    intro R
    unfold scan_u
    simp only [dropWhile_stop' isspace 58 (by decide) X]
    rcases X.dropWhile isspace with _ | ⟨y, Y⟩
    · simp [isdigit]
    · simp only [List.cons_append, List.head?_cons, List.tail_cons]
      by_cases hs : some y = some 45 ∨ some y = some 43
      · simp only [if_pos hs, takeWhile_stop isdigit 58 (by decide)]
      · have e : ∀ R, y :: (Y ++ 58 :: R) = (y :: Y) ++ 58 :: R := fun _ => rfl
        simp only [if_neg hs, e, takeWhile_stop isdigit 58 (by decide)]
  rw [key R]

theorem strchr_mem (c : Nat) (X R : List Nat) (hX : c ∉ X) :
    strchr (X ++ c :: R) c = some (c :: R) := by
  unfold strchr
  have : (X ++ c :: R).dropWhile (fun x => x != c) = c :: R := by
    induction X with
    | nil => simp [List.dropWhile]
    | cons x t ih =>
      have hx : x ≠ c := fun h => hX (by simp [h])
      have ht : c ∉ t := fun h => hX (by simp [h])
      have hb : (x != c) = true := by simp [hx]
      rw [List.cons_append, List.dropWhile_cons, if_pos hb]; exact ih ht
  rw [this]

theorem chop_mem (c : Nat) (X R : List Nat) (hX : c ∉ X) : chop (X ++ c :: R) c = X := by
  unfold chop
  induction X with
  | nil => simp [List.takeWhile]
  | cons x t ih =>
    have hx : x ≠ c := fun h => hX (by simp [h])
    have ht : c ∉ t := fun h => hX (by simp [h])
    have hb : (x != c) = true := by simp [hx]
    rw [List.cons_append, List.takeWhile_cons, if_pos hb, ih ht]

theorem chop_none (c : Nat) (X : List Nat) (hX : c ∉ X) : chop X c = X := by
  unfold chop
  induction X with
  | nil => rfl
  | cons x t ih =>
    have hx : x ≠ c := fun h => hX (by simp [h])
    have ht : c ∉ t := fun h => hX (by simp [h])
    have hb : (x != c) = true := by simp [hx]
    rw [List.takeWhile_cons, if_pos hb, ih ht]

theorem elim_rest_fresh (c : Nat) (R : List Nat) :
    ∀ (A : List Nat) (p3 p2 p1 : Nat), c ∉ A → p1 ≠ c →
      ∃ W, elim_rest p3 p2 p1 (A ++ c :: R) = elim_rest p3 p2 p1 A ++ c :: W := by
  intro A
  induction A with
  | nil =>
    intro p3 p2 p1 _ h1
    refine ⟨elim_rest p2 p1 c R, ?_⟩
    simp only [List.nil_append, elim_rest]
    rw [if_pos (Or.inl (Ne.symm h1))]
  | cons x t ih =>
    intro p3 p2 p1 hA _
    have hx : x ≠ c := fun h => hA (by simp [h])
    have ht : c ∉ t := fun h => hA (by simp [h])
    obtain ⟨W, hW⟩ := ih p2 p1 x ht hx
    refine ⟨W, ?_⟩
    rw [List.cons_append, elim_rest, elim_rest, hW]
    split_ifs <;> rfl

/-- A character that does not occur before it survives `eliminate_sequences`,
and what stands before it is cut as it is on its own. -/
theorem elim_fresh (c : Nat) (A R : List Nat) (hA : c ∉ A) :
    ∃ W, eliminate_sequences (A ++ c :: R) = eliminate_sequences A ++ c :: W := by
  match A, hA with
  | [], _ =>
    match R with
    | [] => exact ⟨[], rfl⟩
    | [a] => exact ⟨[a], rfl⟩
    | a :: b :: t => exact ⟨_, rfl⟩
  | [a], _ =>
    match R with
    | [] => exact ⟨[], rfl⟩
    | b :: t => exact ⟨_, rfl⟩
  | [a, b], _ => exact ⟨_, rfl⟩
  | a :: b :: d :: t, hA =>
    have hd : d ≠ c := fun h => hA (by simp [h])
    have ht : c ∉ t := fun h => hA (by simp [h])
    obtain ⟨W, hW⟩ := elim_rest_fresh c R t a b d ht hd
    exact ⟨W, by simp only [List.cons_append, eliminate_sequences, hW]⟩

theorem elim_rest_sub (c : Nat) : ∀ (A : List Nat) (p3 p2 p1 : Nat), c ∉ A →
    c ∉ elim_rest p3 p2 p1 A := by
  intro A
  induction A with
  | nil => intro _ _ _ _; simp [elim_rest]
  | cons x t ih =>
    intro p3 p2 p1 hA
    have hx : c ≠ x := fun h => hA (by simp [h])
    have ht : c ∉ t := fun h => hA (by simp [h])
    simp only [elim_rest]
    split_ifs
    · simp [hx, ih p2 p1 x ht]
    · exact ih p2 p1 x ht

theorem elim_sub (c : Nat) (A : List Nat) (hA : c ∉ A) : c ∉ eliminate_sequences A := by
  match A, hA with
  | [], _ => simp [eliminate_sequences]
  | [a], h => simpa [eliminate_sequences] using h
  | [a, b], h => simpa [eliminate_sequences] using h
  | a :: b :: d :: t, hA =>
    simp only [eliminate_sequences, List.mem_cons, not_or] at hA ⊢
    exact ⟨hA.1, hA.2.1, hA.2.2.1, elim_rest_sub c t a b d hA.2.2.2⟩

/-- The parts of a signature `X:S1:S2`. -/
theorem pieces_form (X S1 S2 : List Nat) (hX : 58 ∉ X) (hS : 58 ∉ S1) :
    ∃ W, eliminate_sequences (S1 ++ 58 :: S2) = eliminate_sequences S1 ++ 58 :: W ∧
      pieces (X ++ 58 :: S1 ++ 58 :: S2) = some (eliminate_sequences S1, chop W 44) := by
  obtain ⟨W, hW⟩ := elim_fresh 58 S1 S2 hS
  refine ⟨W, hW, ?_⟩
  unfold pieces
  rw [List.append_assoc, List.cons_append, strchr_mem 58 X _ hX]
  simp only [List.tail_cons]
  rw [hW, strchr_mem 58 _ _ (elim_sub 58 S1 hS), chop_mem 58 _ _ (elim_sub 58 S1 hS)]
  simp only [List.tail_cons]

/-- A filename behind a comma changes neither the blocksize read nor the parts. -/
theorem annot_pieces (X S1 S2 t : List Nat) (hX : 58 ∉ X) (hS : 58 ∉ S1)
    (hc : 44 ∉ S1 ++ 58 :: S2) :
    pieces ((X ++ 58 :: S1 ++ 58 :: S2) ++ 44 :: t) = pieces (X ++ 58 :: S1 ++ 58 :: S2) := by
  obtain ⟨W, hW, hp⟩ := pieces_form X S1 S2 hX hS
  have e : (X ++ 58 :: S1 ++ 58 :: S2) ++ 44 :: t = X ++ 58 :: S1 ++ 58 :: (S2 ++ 44 :: t) := by
    simp
  obtain ⟨W', hW', hp'⟩ := pieces_form X S1 (S2 ++ 44 :: t) hX hS
  rw [e, hp, hp']
  obtain ⟨V, hV⟩ := elim_fresh 44 (S1 ++ 58 :: S2) t hc
  have e2 : S1 ++ 58 :: (S2 ++ 44 :: t) = (S1 ++ 58 :: S2) ++ 44 :: t := by simp
  rw [e2, hV, hW] at hW'
  have hWc : 44 ∉ W := by
    have := elim_sub 44 _ hc
    rw [hW] at this
    intro h; exact this (by simp [h])
  have : W' = W ++ 44 :: V := by
    have h := hW'
    rw [List.append_assoc, List.cons_append] at h
    have h2 := List.append_cancel_left h
    simpa using h2.symm
  rw [this, chop_mem 44 W V hWc, chop_none 44 W hWc]

theorem annot_scan (X R t : List Nat) :
    scan_u ((X ++ 58 :: R) ++ 44 :: t) = scan_u (X ++ 58 :: R) := by
  rw [List.append_assoc, List.cons_append, scan_u_colon, scan_u_colon X R]
/-! ## Blocksizes and slots -/

theorem SSDEEP_BS_eq (i : Nat) (h : i ≤ 30) : SSDEEP_BS i = 3 * 2 ^ i := by
  unfold SSDEEP_BS MIN_BLOCKSIZE
  rw [Nat.shiftLeft_eq]
  apply Nat.mod_eq_of_lt
  have : 2 ^ i ≤ 2 ^ 30 := Nat.pow_le_pow_right (by norm_num) h
  omega

theorem SSDEEP_BS_succ (i : Nat) (h : i + 1 ≤ 30) : SSDEEP_BS (i + 1) = 2 * SSDEEP_BS i := by
  rw [SSDEEP_BS_eq _ h, SSDEEP_BS_eq _ (by omega), pow_succ]; ring

theorem SSDEEP_BS_pos (i : Nat) (h : i ≤ 30) : 0 < SSDEEP_BS i := by
  rw [SSDEEP_BS_eq _ h]; positivity

theorem SSDEEP_BS_mono (i j : Nat) (hij : i ≤ j) (h : j ≤ 30) : SSDEEP_BS i ≤ SSDEEP_BS j := by
  rw [SSDEEP_BS_eq _ h, SSDEEP_BS_eq _ (by omega)]
  have : 2 ^ i ≤ 2 ^ j := Nat.pow_le_pow_right (by norm_num) hij
  omega

/-- A reset point of a slot is a reset point of the slot below it. -/
theorem trigger_down (h i : Nat) (hi : i + 1 ≤ 30)
    (ht : h % SSDEEP_BS (i + 1) = SSDEEP_BS (i + 1) - 1) :
    h % SSDEEP_BS i = SSDEEP_BS i - 1 := by
  have hp := SSDEEP_BS_pos i (by omega)
  rw [SSDEEP_BS_succ i hi] at ht
  have h1 : h % (2 * SSDEEP_BS i) % SSDEEP_BS i = h % SSDEEP_BS i :=
    Nat.mod_mul_left_mod _ _ _
  rw [ht] at h1
  rw [← h1]
  have : 2 * SSDEEP_BS i - 1 = SSDEEP_BS i + (SSDEEP_BS i - 1) := by omega
  rw [this, Nat.add_mod_left, Nat.mod_eq_of_lt (by omega)]

theorem getD_set (l : List blockhash_context) (i j : Nat) (v : blockhash_context) :
    (l.set i v).getD j blank = if i = j ∧ i < l.length then v else l.getD j blank := by
  simp only [List.getD_eq_getElem?_getD, List.getElem?_set]
  by_cases h1 : i = j
  · by_cases h2 : i < l.length
    · rw [if_pos h1, if_pos h2, if_pos ⟨h1, h2⟩]; rfl
    · rw [if_pos h1, if_neg h2, if_neg (fun h => h2 h.2), List.getElem?_eq_none (by omega)]
  · rw [if_neg h1, if_neg (fun h => h1 h.1)]

theorem hash_slots_length (c lo hi : Nat) : ∀ (l : List blockhash_context) (k : Nat),
    (hash_slots c lo hi k l).length = l.length := by
  intro l
  induction l with
  | nil => intro k; rfl
  | cons b t ih =>
    intro k
    simp only [hash_slots]
    split_ifs
    · rfl
    · simp [ih]
    · simp [ih]

theorem hash_slots_getD (c lo hi : Nat) : ∀ (l : List blockhash_context) (k j : Nat),
    (hash_slots c lo hi k l).getD j blank =
      if j < l.length ∧ lo ≤ k + j ∧ k + j < hi then
        { l.getD j blank with h := sum_hash c (l.getD j blank).h,
                              halfh := sum_hash c (l.getD j blank).halfh }
      else l.getD j blank := by
  intro l
  induction l with
  | nil => intro k j; simp [hash_slots]
  | cons b t ih =>
    intro k j
    simp only [hash_slots]
    by_cases hk : hi ≤ k
    · rw [if_pos hk, if_neg (fun h => by omega)]
    · rw [if_neg hk]
      cases j with
      | zero =>
        simp only [List.getD_cons_zero, List.length_cons, Nat.add_zero]
        by_cases hl : lo ≤ k
        · rw [if_pos hl, if_pos ⟨by omega, hl, by omega⟩]
        · rw [if_neg hl, if_neg (fun h => hl h.2.1)]
      | succ j =>
        simp only [List.getD_cons_succ, List.length_cons, ih]
        have e : k + 1 + j = k + (j + 1) := by omega
        rw [e]
        simp only [Nat.add_lt_add_iff_right]

/-! ## The invariant of the engine -/

theorem b64_getD_mem (k : Nat) : b64.getD (k % 64) 0 ∈ b64 := by
  have h : ∀ j, j < 64 → b64.getD j 0 ∈ b64 := by decide
  exact h _ (Nat.mod_lt _ (by norm_num))

theorem slot_set (s : fuzzy_state) (i j : Nat) (b : blockhash_context) :
    fuzzy_state.slot { s with bh := s.bh.set i b } j =
      if i = j ∧ i < s.bh.length then b else s.slot j := by
  simp only [fuzzy_state.slot, getD_set]

theorem inv_put (s : fuzzy_state) (i : Nat) (b : blockhash_context)
    (hlen : s.bh.length = 31) (h1 : s.bhstart < s.bhend) (h2 : s.bhend ≤ 31) (hi : i < s.bhend)
    (hb1 : b.dlen ≤ 63) (hb2 : ∀ c ∈ b.digest, c ∈ b64) (hb3 : 0 < b.dlen)
    (hb4 : (s.slot i).dlen ≤ b.dlen)
    (hd : ∀ j, j < s.bhend → j ≠ i → (s.slot j).dlen ≤ 63)
    (ha : ∀ j, j < s.bhend → j ≠ i → ∀ c ∈ (s.slot j).digest, c ∈ b64)
    (hu : ∀ j, j + 1 < s.bhend → j ≠ i → 0 < (s.slot j).dlen)
    (hl : s.bhend < 31 → i ≠ s.bhend - 1 ∧ (s.slot (s.bhend - 1)).dlen = 0)
    (hh : 0 < s.bhstart → 32 ≤ (s.slot s.bhstart).dlen)
    (hs : 0 < s.bhstart → SSDEEP_BS (s.bhstart - 1) * SPAMSUM_LENGTH < s.total_size) :
    Inv { s with bh := s.bh.set i b } := by
  have hil : i < s.bh.length := by omega
  have hsl : ∀ j, fuzzy_state.slot { s with bh := s.bh.set i b } j =
      if i = j then b else s.slot j := by
    intro j; rw [slot_set]; simp only [hil, and_true]
  refine ⟨?_, h1, h2, ?_, ?_, ?_, ?_, ?_, hs⟩
  · simpa [NUM_BLOCKHASHES] using hlen
  · intro j hj
    rw [hsl]; simp only [SPAMSUM_LENGTH]
    split_ifs with e
    · exact hb1
    · exact hd j hj (Ne.symm e)
  · intro j hj
    rw [hsl]
    split_ifs with e
    · exact hb2
    · exact ha j hj (Ne.symm e)
  · intro j hj
    rw [hsl]
    split_ifs with e
    · exact hb3
    · exact hu j hj (Ne.symm e)
  · intro h
    rw [hsl, if_neg (hl h).1]
    exact (hl h).2
  · intro h
    rw [hsl]; simp only [SPAMSUM_LENGTH]
    split_ifs with e
    · have := hh h; rw [← e] at this; omega
    · exact hh h

theorem fork_spec (s : fuzzy_state) (hlen : s.bh.length = 31) (h0 : 0 < s.bhend)
    (h31 : s.bhend < 31) :
    ∃ s1, fuzzy_try_fork_blockhash s = some s1 ∧ s1.bhend = s.bhend + 1 ∧
      s1.bhstart = s.bhstart ∧ s1.bh.length = 31 ∧ s1.roll = s.roll ∧
      s1.total_size = s.total_size ∧
      ∀ j, s1.slot j = if s.bhend = j then
          { h := (s.slot (s.bhend - 1)).h, halfh := (s.slot (s.bhend - 1)).halfh, digest := [] }
        else s.slot j := by
  unfold fuzzy_try_fork_blockhash
  rw [if_neg (by simp only [NUM_BLOCKHASHES]; omega), if_neg (by omega)]
  refine ⟨_, rfl, rfl, rfl, by simpa using hlen, rfl, rfl, ?_⟩
  intro j
  simp only [fuzzy_state.slot, getD_set]
  have : s.bhend < s.bh.length := by omega
  simp only [this, and_true]

/-- The body of the loop keeps the invariant and leaves the rolling hash, the
size and the slots it does not name as they are. -/
theorem slot_step_inv (i : Nat) (s : fuzzy_state) (hI : Inv s) (hi : i < s.bhend) :
    ∃ s', slot_step i s = some s' ∧ Inv s' ∧ s'.roll = s.roll ∧
      s'.total_size = s.total_size ∧ s.bhend ≤ s'.bhend ∧ s'.bhend ≤ s.bhend + 1 := by
  obtain ⟨hlen, h1, h2, hd, ha, hu, hl, hh, hs⟩ := hI
  simp only [NUM_BLOCKHASHES, SPAMSUM_LENGTH] at hlen h2 hd hl hh
  have hb : ∀ (b : blockhash_context),
      ∀ c ∈ b.digest ++ [b64.getD (b.h % 64) 0], (∀ c ∈ b.digest, c ∈ b64) → c ∈ b64 := by
    intro b c hc hall
    rcases List.mem_append.1 hc with h | h
    · exact hall c h
    · rw [List.mem_singleton.1 h]; exact b64_getD_mem _
  unfold slot_step
  by_cases h0 : (s.slot i).dlen = 0
  · rw [if_pos h0]
    have hie : i = s.bhend - 1 ∨ 31 ≤ s.bhend := by
      by_contra hc
      push_neg at hc
      have := hu i (by omega)
      omega
    unfold fuzzy_try_fork_blockhash
    by_cases h31 : s.bhend ≥ NUM_BLOCKHASHES
    · rw [if_pos h31]
      simp only [NUM_BLOCKHASHES] at h31
      simp only [Option.some_bind, SPAMSUM_LENGTH]
      rw [if_pos (by omega)]
      refine ⟨_, rfl, ?_, rfl, rfl, le_refl _, by simp⟩
      refine inv_put s i _ hlen h1 h2 hi ?_ ?_ ?_ ?_ (fun j hj _ => hd j hj)
        (fun j hj _ => ha j hj) (fun j hj _ => hu j hj) (fun h => by omega) hh hs
      · simp only [blockhash_context.dlen, List.length_append, List.length_singleton] at h0 ⊢
        omega
      · intro c hc; exact hb _ c hc (ha i hi)
      · simp [blockhash_context.dlen]
      · simp [blockhash_context.dlen]
    · simp only [NUM_BLOCKHASHES] at h31
      have hie' : i = s.bhend - 1 := by omega
      obtain ⟨s1, hf, e1, e2, e3, e4, e5, hs1⟩ := fork_spec s hlen (by omega) (by omega)
      unfold fuzzy_try_fork_blockhash at hf
      rw [hf]
      have hne : ¬ s.bhend = i := by omega
      simp only [Option.some_bind, hs1, if_neg hne, SPAMSUM_LENGTH]
      rw [if_pos (by omega)]
      refine ⟨_, rfl, ?_, e4, e5, by simp [e1], by simp [e1]⟩
      refine inv_put s1 i _ e3 (by omega) (by omega) (by omega) ?_ ?_ ?_ ?_ ?_ ?_ ?_ ?_ ?_ ?_
      · simp only [blockhash_context.dlen, List.length_append, List.length_singleton] at h0 ⊢
        omega
      · intro c hc; exact hb _ c hc (ha i hi)
      · simp [blockhash_context.dlen]
      · rw [hs1 i, if_neg (by omega)]; simp [blockhash_context.dlen]
      · intro j hj hji
        rw [hs1 j]
        split_ifs with e
        · simp [blockhash_context.dlen]
        · exact hd j (by omega)
      · intro j hj hji
        rw [hs1 j]
        split_ifs with e
        · simp
        · exact ha j (by omega)
      · intro j hj hji
        rw [hs1 j, if_neg (by omega)]
        exact hu j (by omega)
      · intro _
        rw [e1, Nat.add_sub_cancel, hs1, if_pos rfl]
        exact ⟨by omega, rfl⟩
      · intro h
        rw [e2, hs1, if_neg (by omega)]
        exact hh (by omega)
      · rw [e2, e5]; exact hs
  · rw [if_neg h0]
    simp only [Option.some_bind, SPAMSUM_LENGTH]
    by_cases h63 : (s.slot i).dlen < 64 - 1
    · rw [if_pos h63]
      refine ⟨_, rfl, ?_, rfl, rfl, le_refl _, by simp⟩
      refine inv_put s i _ hlen h1 h2 hi ?_ ?_ ?_ ?_ (fun j hj _ => hd j hj)
        (fun j hj _ => ha j hj) (fun j hj _ => hu j hj) ?_ hh hs
      · simp only [blockhash_context.dlen, List.length_append, List.length_singleton] at h63 ⊢
        omega
      · intro c hc; exact hb _ c hc (ha i hi)
      · simp [blockhash_context.dlen]
      · simp [blockhash_context.dlen]
      · intro h
        have := hl h
        refine ⟨?_, this⟩
        intro e; rw [← e] at this; exact h0 this
    · rw [if_neg h63]
      unfold fuzzy_try_reduce_blockhash
      rw [if_neg (by omega)]
      simp only [SPAMSUM_LENGTH]
      split_ifs with c1 c2 c3
      · exact ⟨_, rfl, ⟨by simpa [NUM_BLOCKHASHES] using hlen, h1, h2, hd, ha, hu, hl, hh, hs⟩,
          rfl, rfl, le_refl _, by simp⟩
      · exact ⟨_, rfl, ⟨by simpa [NUM_BLOCKHASHES] using hlen, h1, h2, hd, ha, hu, hl, hh, hs⟩,
          rfl, rfl, le_refl _, by simp⟩
      · exact ⟨_, rfl, ⟨by simpa [NUM_BLOCKHASHES] using hlen, h1, h2, hd, ha, hu, hl, hh, hs⟩,
          rfl, rfl, le_refl _, by simp⟩
      · refine ⟨_, rfl, ⟨by simpa [NUM_BLOCKHASHES] using hlen, by simp; omega, h2, hd, ha, hu,
          hl, ?_, ?_⟩, rfl, rfl, le_refl _, by simp⟩
        · intro _; simp only [SPAMSUM_LENGTH]
          have : (fuzzy_state.slot { s with bhstart := s.bhstart + 1 } (s.bhstart + 1)) =
            s.slot (s.bhstart + 1) := rfl
          rw [this]; omega
        · intro _
          simp only [Nat.add_sub_cancel, SPAMSUM_LENGTH]
          omega
theorem emit_loop_inv (h : Nat) : ∀ (fuel i : Nat) (s : fuzzy_state), Inv s → 31 - i < fuel →
    ∃ s', emit_loop h fuel i s = some s' ∧ Inv s' ∧ s'.roll = s.roll ∧
      s'.total_size = s.total_size := by
  intro fuel
  induction fuel with
  | zero => intro i s _ hf; omega
  | succ fuel ih =>
    intro i s hI hf
    unfold emit_loop
    by_cases hi : i < s.bhend
    · rw [if_pos hi]
      by_cases ht : h % SSDEEP_BS i ≠ SSDEEP_BS i - 1
      · rw [if_pos ht]; exact ⟨s, rfl, hI, rfl, rfl⟩
      · rw [if_neg ht]
        obtain ⟨s1, e1, hI1, r1, t1, _, _⟩ := slot_step_inv i s hI hi
        have := hI.end_le
        simp only [NUM_BLOCKHASHES] at this
        obtain ⟨s2, e2, hI2, r2, t2⟩ := ih (i + 1) s1 hI1 (by omega)
        exact ⟨s2, by rw [e1]; exact e2, hI2, by rw [r2, r1], by rw [t2, t1]⟩
    · rw [if_neg hi]; exact ⟨s, rfl, hI, rfl, rfl⟩

theorem inv_congr (s s' : fuzzy_state) (hI : Inv s) (e1 : s'.bhstart = s.bhstart)
    (e2 : s'.bhend = s.bhend) (e3 : s'.bh.length = s.bh.length)
    (e4 : s.total_size ≤ s'.total_size)
    (e5 : ∀ j, (s'.slot j).digest = (s.slot j).digest) : Inv s' := by
  obtain ⟨hlen, h1, h2, hd, ha, hu, hl, hh, hs⟩ := hI
  have e6 : ∀ j, (s'.slot j).dlen = (s.slot j).dlen := by
    intro j; simp only [blockhash_context.dlen, e5]
  refine ⟨by rw [e3]; exact hlen, by rw [e1, e2]; exact h1, by rw [e2]; exact h2, ?_, ?_, ?_, ?_,
    ?_, ?_⟩
  · intro j hj; rw [e6]; exact hd j (by rw [← e2]; exact hj)
  · intro j hj; rw [e5]; exact ha j (by rw [← e2]; exact hj)
  · intro j hj; rw [e6]; exact hu j (by rw [← e2]; exact hj)
  · intro h; rw [e6, e2]; exact hl (by rw [← e2]; exact h)
  · intro h; rw [e6, e1]; exact hh (by rw [← e1]; exact h)
  · intro h; rw [e1]; exact lt_of_lt_of_le (hs (by rw [← e1]; exact h)) e4

theorem engine_step_inv (s : fuzzy_state) (c : Nat) (hI : Inv s) :
    ∃ s', fuzzy_engine_step s c = some s' ∧ Inv s' ∧ s'.roll = roll_hash s.roll c ∧
      s'.total_size = s.total_size := by
  unfold fuzzy_engine_step
  have hI0 : Inv { s with roll := roll_hash s.roll c,
                          bh := hash_slots c s.bhstart s.bhend 0 s.bh } := by
    refine inv_congr s _ hI rfl rfl (hash_slots_length _ _ _ _ _) (le_refl _) ?_
    intro j
    simp only [fuzzy_state.slot, hash_slots_getD]
    split_ifs <;> rfl
  obtain ⟨s', e, hI', r, t⟩ := emit_loop_inv (roll_sum (roll_hash s.roll c))
    (NUM_BLOCKHASHES + 1) s.bhstart _ hI0 (by simp only [NUM_BLOCKHASHES]; omega)
  exact ⟨s', e, hI', r, t⟩

theorem feed_inv : ∀ (buf : List Nat) (s : fuzzy_state), Inv s →
    ∃ s', feed s buf = some s' ∧ Inv s' ∧ s'.total_size = s.total_size := by
  intro buf
  induction buf with
  | nil => intro s hI; exact ⟨s, rfl, hI, rfl⟩
  | cons c t ih =>
    intro s hI
    obtain ⟨s1, e1, hI1, _, t1⟩ := engine_step_inv s c hI
    obtain ⟨s2, e2, hI2, t2⟩ := ih s1 hI1
    refine ⟨s2, ?_, hI2, by rw [t2, t1]⟩
    unfold feed; rw [e1]; exact e2

theorem update_inv (s : fuzzy_state) (buf : List Nat) (hI : Inv s)
    (hsz : s.total_size + buf.length < 2 ^ 64) :
    ∃ s', fuzzy_update s buf = some s' ∧ Inv s' ∧
      s'.total_size = s.total_size + buf.length := by
  unfold fuzzy_update
  have hI0 : Inv { s with total_size := (s.total_size + buf.length) % 2 ^ 64 } := by
    refine inv_congr s _ hI rfl rfl rfl ?_ (fun j => rfl)
    show s.total_size ≤ (s.total_size + buf.length) % 2 ^ 64
    rw [Nat.mod_eq_of_lt hsz]; omega
  obtain ⟨s', e, hI', t⟩ := feed_inv buf _ hI0
  refine ⟨s', e, hI', ?_⟩
  rw [t]; exact Nat.mod_eq_of_lt hsz

theorem inv_new : Inv fuzzy_new := by
  refine ⟨rfl, by decide, by decide, ?_, ?_, ?_, ?_, ?_, ?_⟩
  · intro i hi
    have : i = 0 := by simp only [fuzzy_new] at hi; omega
    subst this; decide
  · intro i hi
    have : i = 0 := by simp only [fuzzy_new] at hi; omega
    subst this; intro c hc; simp [fuzzy_new, fuzzy_state.slot] at hc
  · intro i hi; simp only [fuzzy_new] at hi; omega
  · intro _; rfl
  · intro h; simp [fuzzy_new] at h
  · intro h; simp [fuzzy_new] at h
/-! ## Decimal numbers -/

theorem dec_digits_spec : ∀ (fuel n : Nat) (acc : List Nat), n < fuel →
    ∃ D, dec_digits fuel n acc = D ++ acc ∧ (∀ c ∈ D, 48 ≤ c ∧ c ≤ 57) ∧ D ≠ [] ∧
      (0 < n → D.head? ≠ some 48) ∧ (∀ k, n < 10 ^ (k + 1) → D.length ≤ k + 1) ∧
      (∀ v, D.foldl (fun v d => v * 10 + (d - 48)) v = v * 10 ^ D.length + n) := by
  intro fuel
  induction fuel with
  | zero => intro n acc h; omega
  | succ fuel ih =>
    intro n acc hn
    unfold dec_digits
    by_cases h0 : n / 10 = 0
    · rw [if_pos h0]
      have hlt : n < 10 := by omega
      refine ⟨[48 + n % 10], rfl, ?_, by simp, ?_, ?_, ?_⟩
      · intro c hc; rw [List.mem_singleton.1 hc]; omega
      · intro hp; simp only [List.head?_cons, ne_eq, Option.some.injEq]; omega
      · intro k _; simp
      · intro v; simp only [List.foldl_cons, List.foldl_nil, List.length_singleton, pow_one]; omega
    · rw [if_neg h0]
      obtain ⟨D, e, hd, hne, hh, hl, hv⟩ := ih (n / 10) ((48 + n % 10) :: acc) (by omega)
      refine ⟨D ++ [48 + n % 10], by rw [e]; simp, ?_, by simp, ?_, ?_, ?_⟩
      · intro c hc
        rcases List.mem_append.1 hc with h | h
        · exact hd c h
        · rw [List.mem_singleton.1 h]; omega
      · intro _
        cases D with
        | nil => exact absurd rfl hne
        | cons x t => exact hh (by omega)
      · intro k hk
        cases k with
        | zero => omega
        | succ k =>
          have := hl k (by rw [pow_succ] at hk; omega)
          simp only [List.length_append, List.length_singleton]; omega
      · intro v
        rw [List.foldl_append, hv]
        simp only [List.foldl_cons, List.foldl_nil, List.length_append, List.length_singleton,
          pow_succ]
        have e3 : 48 + n % 10 - 48 = n % 10 := by omega
        have e4 : v * (10 ^ D.length * 10) = (v * 10 ^ D.length) * 10 := by ring
        rw [e3, e4]
        omega

theorem dec_spec (n : Nat) :
    (∀ c ∈ dec n, 48 ≤ c ∧ c ≤ 57) ∧ dec n ≠ [] ∧ (0 < n → (dec n).head? ≠ some 48) ∧
      (∀ k, n < 10 ^ (k + 1) → (dec n).length ≤ k + 1) ∧ digits_value (dec n) = n := by
  obtain ⟨D, e, hd, hne, hh, hl, hv⟩ := dec_digits_spec (n + 1) n [] (by omega)
  unfold dec
  rw [e, List.append_nil]
  refine ⟨hd, hne, hh, hl, ?_⟩
  unfold digits_value
  rw [hv]; simp

theorem takeWhile_all (p : Nat → Bool) (D : List Nat) (h : ∀ c ∈ D, p c = true) :
    D.takeWhile p = D := by
  induction D with
  | nil => rfl
  | cons x t ih =>
    rw [List.takeWhile_cons, if_pos (h x (by simp)), ih (fun c hc => h c (by simp [hc]))]

/-- What `%u` reads back from a number printed by `%u`. -/
theorem scan_dec (n : Nat) (hn : n < 2 ^ 32) (R : List Nat) :
    scan_u (dec n ++ 58 :: R) = some n := by
  obtain ⟨hd, hne, _, _, hv⟩ := dec_spec n
  rw [scan_u_colon]
  unfold scan_u
  cases hD : dec n with
  | nil => exact absurd hD hne
  | cons x t =>
    have hx := hd x (by rw [hD]; simp)
    have hsp : isspace x = false := by
      unfold isspace
      have h1 : ¬ x = 32 := by omega
      have h2 : ¬ x ≤ 13 := by omega
      simp [h1, h2]
    have hdig : ∀ c ∈ x :: t, isdigit c = true := by
      intro c hc
      have := hd c (by rw [hD]; exact hc)
      unfold isdigit; simp [this.1, this.2]
    have e1 : ((x :: t) ++ [58]).dropWhile isspace = (x :: t) ++ [58] := by
      rw [List.cons_append, List.dropWhile_cons, if_neg (by simp [hsp])]
    simp only [e1]
    have h45 : ¬ (x = 45) := by omega
    have h43 : ¬ (x = 43) := by omega
    simp only [List.cons_append, List.head?_cons, Option.some.injEq, h45, h43, or_self,
      if_false]
    have e2 : (x :: (t ++ [58])).takeWhile isdigit = x :: t := by
      have := takeWhile_stop isdigit 58 (by decide) (x :: t) []
      rw [List.cons_append] at this
      rw [this, takeWhile_all _ _ hdig]
    rw [e2]
    simp only [reduceCtorEq, if_false]
    rw [← hD, hv]
    have h64 : ¬ n ≥ 2 ^ 64 := by omega
    simp only [h64, if_false, decide_False, Bool.false_eq_true]
    rw [Nat.mod_eq_of_lt hn]
/-! ## The choice of the blocksize -/

theorem guess_loop_spec (total : Nat) : ∀ (fuel bi g : Nat),
    guess_loop total fuel bi = some g →
      bi ≤ g ∧ (bi < 31 → g < 31) ∧ ¬ (SSDEEP_BS g * SPAMSUM_LENGTH < total) ∧
        ∀ j, bi ≤ j → j < g → SSDEEP_BS j * SPAMSUM_LENGTH < total := by
  intro fuel
  induction fuel with
  | zero => intro bi g h; simp [guess_loop] at h
  | succ fuel ih =>
    intro bi g h
    unfold guess_loop at h
    by_cases hc : SSDEEP_BS bi * SPAMSUM_LENGTH < total
    · rw [if_pos hc] at h
      by_cases h31 : bi + 1 ≥ NUM_BLOCKHASHES
      · rw [if_pos h31] at h; exact absurd h (by simp)
      · rw [if_neg h31] at h
        simp only [NUM_BLOCKHASHES] at h31
        obtain ⟨h1, h2, h3, h4⟩ := ih (bi + 1) g h
        refine ⟨by omega, fun _ => h2 (by omega), h3, ?_⟩
        intro j hj hjg
        by_cases e : j = bi
        · rw [e]; exact hc
        · exact h4 j (by omega) hjg
    · rw [if_neg hc] at h
      have : bi = g := by simpa using h
      subst this
      exact ⟨le_refl _, fun h => h, hc, fun j h1 h2 => by omega⟩

/-- The guess exists when some slot up to 30 is large enough for the input. -/
theorem guess_loop_some (total : Nat) (k : Nat) (hk : k ≤ 30)
    (hbig : ¬ (SSDEEP_BS k * SPAMSUM_LENGTH < total)) : ∀ (fuel bi : Nat), bi ≤ k →
    k - bi < fuel → ∃ g, guess_loop total fuel bi = some g ∧ g ≤ k := by
  intro fuel
  induction fuel with
  | zero => intro bi _ h; omega
  | succ fuel ih =>
    intro bi hb hf
    unfold guess_loop
    by_cases hc : SSDEEP_BS bi * SPAMSUM_LENGTH < total
    · rw [if_pos hc]
      have hne : bi ≠ k := fun e => hbig (e ▸ hc)
      rw [if_neg (by simp only [NUM_BLOCKHASHES]; omega)]
      exact ih (bi + 1) (by omega) (by omega)
    · rw [if_neg hc]; exact ⟨bi, rfl, hb⟩

/-- With enough fuel the guess does not depend on the fuel. -/
theorem guess_loop_fuel (total : Nat) : ∀ (f1 f2 bi : Nat), 31 - bi < f1 → 31 - bi < f2 →
    guess_loop total f1 bi = guess_loop total f2 bi := by
  intro f1
  induction f1 with
  | zero => intro f2 bi h; omega
  | succ f1 ih =>
    intro f2 bi h1 h2
    cases f2 with
    | zero => omega
    | succ f2 =>
      unfold guess_loop
      by_cases hc : SSDEEP_BS bi * SPAMSUM_LENGTH < total
      · rw [if_pos hc, if_pos hc]
        by_cases h31 : bi + 1 ≥ NUM_BLOCKHASHES
        · rw [if_pos h31, if_pos h31]
        · rw [if_neg h31, if_neg h31]
          simp only [NUM_BLOCKHASHES] at h31
          exact ih f2 (bi + 1) (by omega) (by omega)
      · rw [if_neg hc, if_neg hc]

/-- The guess from a lower start is the same when the slots skipped are too small. -/
theorem guess_loop_from (total : Nat) : ∀ (d lo hi : Nat), lo + d = hi → hi < 31 →
    (∀ j, lo ≤ j → j < hi → SSDEEP_BS j * SPAMSUM_LENGTH < total) →
    guess_loop total 32 lo = guess_loop total 32 hi := by
  intro d
  induction d with
  | zero => intro lo hi e _ _; have : lo = hi := by omega
            rw [this]
  | succ d ih =>
    intro lo hi e h31 hs
    rw [← ih (lo + 1) hi (by omega) h31 (fun j h1 h2 => hs j (by omega) h2)]
    conv_lhs => unfold guess_loop
    rw [if_pos (hs lo (le_refl _) (by omega)), if_neg (by simp only [NUM_BLOCKHASHES]; omega)]
    exact guess_loop_fuel total 31 32 (lo + 1) (by omega) (by omega)

theorem below_end_eq (bhend : Nat) (h : 0 < bhend) : ∀ bi, below_end bhend bi = min bi (bhend - 1) := by
  intro bi
  induction bi with
  | zero => simp [below_end]
  | succ bi ih =>
    unfold below_end
    by_cases hc : bi + 1 ≥ bhend
    · rw [if_pos hc, ih]; omega
    · rw [if_neg hc]; omega

theorem long_enough_spec (s : fuzzy_state) : ∀ bi, s.bhstart ≤ bi →
    s.bhstart ≤ long_enough s bi ∧ long_enough s bi ≤ bi ∧
      (long_enough s bi = s.bhstart ∨
        ¬ ((s.slot (long_enough s bi)).dlen < SPAMSUM_LENGTH / 2)) := by
  intro bi
  induction bi with
  | zero => intro h; simp only [long_enough]; exact ⟨h, le_refl _, Or.inl (by omega)⟩
  | succ bi ih =>
    intro h
    unfold long_enough
    by_cases hc : bi + 1 > s.bhstart ∧ (s.slot (bi + 1)).dlen < SPAMSUM_LENGTH / 2
    · rw [if_pos hc]
      obtain ⟨h1, h2, h3⟩ := ih (by omega)
      exact ⟨h1, by omega, h3⟩
    · rw [if_neg hc]
      refine ⟨h, le_refl _, ?_⟩
      by_cases e : bi + 1 > s.bhstart
      · right; exact fun h' => hc ⟨e, h'⟩
      · left; omega

/-- What `choose_bi` returns in a state that satisfies the invariant. -/
theorem choose_bi_spec (s : fuzzy_state) (hI : Inv s) (bi : Nat) (h : choose_bi s = some bi) :
    s.bhstart ≤ bi ∧ bi < s.bhend ∧
      (bi = 0 ∨ ¬ ((s.slot bi).dlen < SPAMSUM_LENGTH / 2)) ∧
      (s.bhstart < bi → SSDEEP_BS (bi - 1) * SPAMSUM_LENGTH < s.total_size) := by
  unfold choose_bi at h
  cases hg : guess_loop s.total_size (NUM_BLOCKHASHES + 1) s.bhstart with
  | none => rw [hg] at h; simp at h
  | some g =>
    rw [hg] at h
    simp only [Option.map_some', Option.some.injEq] at h
    have h1 := hI.start_lt
    have h2 := hI.end_le
    simp only [NUM_BLOCKHASHES] at h2
    obtain ⟨g1, g2, g3, g4⟩ := guess_loop_spec _ _ _ _ hg
    rw [below_end_eq _ (by omega)] at h
    obtain ⟨l1, l2, l3⟩ := long_enough_spec s (min g (s.bhend - 1)) (by omega)
    rw [h] at l1 l2 l3
    refine ⟨l1, by omega, ?_, ?_⟩
    · rcases l3 with e | e
      · by_cases h0 : bi = 0
        · left; exact h0
        · right
          have := hI.half (by omega)
          rw [e]; omega
      · right; exact e
    · intro hlt
      have hb30 : bi - 1 ≤ 30 := by omega
      have hg30 : g - 1 ≤ 30 := by have := g2 (by omega); omega
      have := g4 (g - 1) (by omega) (by omega)
      have hm := SSDEEP_BS_mono (bi - 1) (g - 1) (by omega) hg30
      simp only [SPAMSUM_LENGTH] at this ⊢
      omega
/-! ## The text of the digest -/

theorem elim_copy_spec : ∀ (src dst : List Nat),
    (elim_copy dst src).length ≤ dst.length + src.length ∧
      ∀ c ∈ elim_copy dst src, c ∈ dst ∨ c ∈ src := by
  intro src
  induction src with
  | nil => intro dst; simp [elim_copy]
  | cons x t ih =>
    intro dst
    unfold elim_copy
    split_ifs
    · obtain ⟨h1, h2⟩ := ih dst
      refine ⟨by simp only [List.length_cons]; omega, ?_⟩
      intro c hc
      rcases h2 c hc with h | h
      · exact Or.inl h
      · exact Or.inr (by simp [h])
    · obtain ⟨h1, h2⟩ := ih (x :: dst)
      refine ⟨by simp only [List.length_cons] at h1 ⊢; omega, ?_⟩
      intro c hc
      rcases h2 c hc with h | h
      · rcases List.mem_cons.1 h with e | e
        · exact Or.inr (by simp [e])
        · exact Or.inl e
      · exact Or.inr (by simp [h])

theorem copy_part_spec (flags : Nat) (digest : List Nat) (i : Nat) :
    (copy_part flags digest i).length ≤ i ∧ (copy_part flags digest i).length ≤ digest.length ∧
      ∀ c ∈ copy_part flags digest i, c ∈ digest := by
  unfold copy_part
  split_ifs
  · unfold memcpy_eliminate_sequences
    obtain ⟨h1, h2⟩ := elim_copy_spec ((digest.take i).drop 3) ((digest.take i).take 3).reverse
    have h3 : ((digest.take i).take 3).length + ((digest.take i).drop 3).length =
        (digest.take i).length := by
      rw [← List.length_append, List.take_append_drop]
    have h4 : (digest.take i).length ≤ i := by simp
    have h5 : (digest.take i).length ≤ digest.length := by simp
    rw [List.length_reverse] at h1
    refine ⟨by omega, by omega, ?_⟩
    intro c hc
    rcases h2 c hc with h | h
    · exact List.mem_of_mem_take (List.mem_of_mem_take (List.mem_reverse.1 h))
    · exact List.mem_of_mem_take (List.mem_of_mem_drop h)
  · exact ⟨by simp, by simp, fun c hc => List.mem_of_mem_take hc⟩

theorem with_tail_spec (flags : Nat) (part : List Nat) (c : Nat) :
    part.length ≤ (with_tail flags part c).length ∧
      (with_tail flags part c).length ≤ part.length + 1 ∧
      ∀ x ∈ with_tail flags part c, x ∈ part ∨ x = c := by
  unfold with_tail
  split_ifs
  · refine ⟨by simp, by simp, ?_⟩
    intro x hx
    rcases List.mem_append.1 hx with h | h
    · exact Or.inl h
    · exact Or.inr (List.mem_singleton.1 h)
  · exact ⟨le_refl _, by omega, fun x hx => Or.inl hx⟩

/-- A digest that is returned starts with the blocksize of the chosen slot. -/
theorem digest_head (s : fuzzy_state) (flags : Nat) (r : List Nat)
    (h : fuzzy_digest s flags = Outcome.ok r) :
    ∃ bi rest, choose_bi s = some bi ∧ r = dec (SSDEEP_BS bi) ++ 58 :: rest := by
  unfold fuzzy_digest at h
  cases hc : choose_bi s with
  | none => rw [hc] at h; simp only [] at h; split_ifs at h
  | some bi =>
    rw [hc] at h
    simp only [] at h
    split_ifs at h
    split at h
    · split at h
      · simp only [Outcome.ok.injEq] at h
        rename_i s1 _ _ _ s2 _
        exact ⟨bi, s1 ++ s2, rfl, by rw [← h]; simp⟩
      · exact absurd h (by simp)
      · exact absurd h (by simp)
    · exact absurd h (by simp)
    · exact absurd h (by simp)
theorem first_part_ok (s : fuzzy_state) (flags h bi : Nat) (remain : Int)
    (hd : (s.slot bi).dlen ≤ 63) (ha : ∀ c ∈ (s.slot bi).digest, c ∈ b64)
    (hr : 65 ≤ remain) :
    ∃ S1, first_part s flags h bi remain = Outcome.ok (S1 ++ [58], remain - S1.length - 1) ∧
      S1.length ≤ 64 ∧ ∀ c ∈ S1, c ∈ b64 := by
  unfold first_part
  obtain ⟨p1, p2, p3⟩ := copy_part_spec flags (s.slot bi).digest (s.slot bi).dlen
  obtain ⟨t1, t2, t3⟩ := with_tail_spec flags
    (copy_part flags (s.slot bi).digest (s.slot bi).dlen) (b64.getD ((s.slot bi).h % 64) 0)
  simp only []
  rw [if_neg (by omega), if_neg (by omega)]
  by_cases h0 : h ≠ 0
  · simp only [if_pos h0]
    refine ⟨with_tail flags (copy_part flags (s.slot bi).digest (s.slot bi).dlen)
      (b64.getD ((s.slot bi).h % 64) 0), ?_, by omega, ?_⟩
    · rw [if_neg (by omega)]
      congr 2; omega
    · intro c hc
      rcases t3 c hc with e | e
      · exact ha c (p3 c e)
      · rw [e]; exact b64_getD_mem _
  · simp only [if_neg h0]
    refine ⟨copy_part flags (s.slot bi).digest (s.slot bi).dlen, ?_, by omega,
      fun c hc => ha c (p3 c hc)⟩
    rw [if_neg (by omega)]
    congr 2; omega

theorem second_part_ok (s : fuzzy_state) (flags h bi : Nat) (remain : Int)
    (hd : bi < s.bhend - 1 → (s.slot (bi + 1)).dlen ≤ 63)
    (ha : bi < s.bhend - 1 → ∀ c ∈ (s.slot (bi + 1)).digest, c ∈ b64)
    (hr : 64 ≤ remain)
    (hlast : ¬ (bi < s.bhend - 1) → h ≠ 0 → (s.slot bi).dlen = 0) :
    ∃ S2, second_part s flags h bi remain = Outcome.ok S2 ∧ S2.length ≤ 64 ∧
      ∀ c ∈ S2, c ∈ b64 := by
  unfold second_part
  by_cases hb : bi < s.bhend - 1
  · rw [if_pos hb]
    simp only []
    generalize hi : (if flags &&& FUZZY_FLAG_NOTRUNC = 0 ∧
      (s.slot (bi + 1)).dlen > SPAMSUM_LENGTH / 2 - 1 then SPAMSUM_LENGTH / 2 - 1
      else (s.slot (bi + 1)).dlen) = i
    have hi63 : i ≤ 63 := by
      have := hd hb
      rw [← hi]; simp only [SPAMSUM_LENGTH]; split_ifs <;> omega
    obtain ⟨p1, p2, p3⟩ := copy_part_spec flags (s.slot (bi + 1)).digest i
    rw [if_neg (by omega), if_neg (by omega)]
    generalize (if flags &&& FUZZY_FLAG_NOTRUNC ≠ 0 then (s.slot (bi + 1)).h
      else (s.slot (bi + 1)).halfh) = h2
    obtain ⟨t1, t2, t3⟩ := with_tail_spec flags (copy_part flags (s.slot (bi + 1)).digest i)
      (b64.getD (h2 % 64) 0)
    refine ⟨_, rfl, ?_, ?_⟩
    · split_ifs <;> omega
    · intro c hc
      split_ifs at hc
      · rcases t3 c hc with e | e
        · exact ha hb c (p3 c e)
        · rw [e]; exact b64_getD_mem _
      · exact ha hb c (p3 c hc)
  · rw [if_neg hb]
    by_cases h0 : h ≠ 0
    · rw [if_pos h0, if_neg (by simp [hlast hb h0]), if_neg (by omega)]
      refine ⟨_, rfl, by simp, ?_⟩
      intro c hc
      rw [List.mem_singleton.1 hc]; exact b64_getD_mem _
    · rw [if_neg h0]
      exact ⟨[], rfl, by simp, by simp⟩

theorem inv_first_check (s : fuzzy_state) (hI : Inv s) :
    s.bhstart = 0 ∨ SSDEEP_BS s.bhstart / 2 * SPAMSUM_LENGTH < s.total_size := by
  by_cases h0 : s.bhstart = 0
  · exact Or.inl h0
  · right
    have h1 := hI.start_lt
    have h2 := hI.end_le
    simp only [NUM_BLOCKHASHES] at h2
    have := hI.size (by omega)
    have e : SSDEEP_BS s.bhstart = 2 * SSDEEP_BS (s.bhstart - 1) := by
      have := SSDEEP_BS_succ (s.bhstart - 1) (by omega)
      rwa [Nat.sub_add_cancel (by omega)] at this
    rw [e, Nat.mul_div_cancel_left _ (by norm_num)]
    exact this

/-- The text of a digest in a state that satisfies the invariant. -/
theorem digest_form (s : fuzzy_state) (flags bi : Nat) (hI : Inv s)
    (hc : choose_bi s = some bi)
    (hlast : ¬ (bi < s.bhend - 1) → roll_sum s.roll ≠ 0 → (s.slot bi).dlen = 0) :
    ∃ S1 S2, fuzzy_digest s flags = Outcome.ok (dec (SSDEEP_BS bi) ++ 58 :: S1 ++ 58 :: S2) ∧
      S1.length ≤ 64 ∧ S2.length ≤ 64 ∧ (∀ c ∈ S1, c ∈ b64) ∧ (∀ c ∈ S2, c ∈ b64) := by
  obtain ⟨c1, c2, c3, c4⟩ := choose_bi_spec s hI bi hc
  have hend := hI.end_le
  simp only [NUM_BLOCKHASHES] at hend
  have hlen : (dec (SSDEEP_BS bi)).length ≤ 10 := by
    refine (dec_spec _).2.2.2.1 9 ?_
    have : SSDEEP_BS bi < 2 ^ 32 := Nat.mod_lt _ (by norm_num)
    omega
  have hd1 := hI.dlen_le bi c2
  simp only [SPAMSUM_LENGTH] at hd1
  have hr1 : (136 : Int) ≤ (FUZZY_MAX_RESULT : Int) - 1 - (dec (SSDEEP_BS bi) ++ [58]).length := by
    simp only [FUZZY_MAX_RESULT, SPAMSUM_LENGTH, List.length_append, List.length_singleton]
    push_cast; omega
  obtain ⟨S1, e1, l1, a1⟩ := first_part_ok s flags (roll_sum s.roll) bi
    ((FUZZY_MAX_RESULT : Int) - 1 - (dec (SSDEEP_BS bi) ++ [58]).length) (by omega)
    (hI.alpha bi c2) (by omega)
  obtain ⟨S2, e2, l2, a2⟩ := second_part_ok s flags (roll_sum s.roll) bi
    ((FUZZY_MAX_RESULT : Int) - 1 - (dec (SSDEEP_BS bi) ++ [58]).length - S1.length - 1)
    (fun hb => by have := hI.dlen_le (bi + 1) (by omega); simpa [SPAMSUM_LENGTH] using this)
    (fun hb => hI.alpha (bi + 1) (by omega))
    (by have : (S1.length : Int) ≤ 64 := by exact_mod_cast l1
        omega) hlast
  refine ⟨S1, S2, ?_, l1, l2, a1, a2⟩
  unfold fuzzy_digest
  simp only []
  rw [if_neg (not_not.2 (inv_first_check s hI)), hc]
  simp only []
  rw [if_neg (by rcases c3 with e | e
                 · omega
                 · exact fun h => e h.2),
    if_neg (by simp only [FUZZY_MAX_RESULT, SPAMSUM_LENGTH, List.length_append,
                 List.length_singleton] at hr1 ⊢
               push_cast at hr1 ⊢; omega), e1]
  simp only []
  rw [e2]
  simp
theorem updates_inv : ∀ (chunks : List (List Nat)) (s : fuzzy_state), Inv s →
    s.total_size + (chunks.map List.length).sum < 2 ^ 64 →
    ∃ s', updates s chunks = some s' ∧ Inv s' ∧
      s'.total_size = s.total_size + (chunks.map List.length).sum := by
  intro chunks
  induction chunks with
  | nil => intro s hI _; exact ⟨s, rfl, hI, by simp⟩
  | cons b t ih =>
    intro s hI hsz
    simp only [List.map_cons, List.sum_cons] at hsz
    obtain ⟨s1, e1, hI1, t1⟩ := update_inv s b hI (by omega)
    obtain ⟨s2, e2, hI2, t2⟩ := ih s1 hI1 (by omega)
    refine ⟨s2, ?_, hI2, ?_⟩
    · unfold updates; rw [e1]; exact e2
    · rw [t2, t1]; simp only [List.map_cons, List.sum_cons]; omega
/-! ## Two runs over the same bytes -/

theorem trigger_le (h : Nat) : ∀ (d i : Nat), i + d ≤ 30 →
    h % SSDEEP_BS (i + d) = SSDEEP_BS (i + d) - 1 → h % SSDEEP_BS i = SSDEEP_BS i - 1 := by
  intro d
  induction d with
  | zero => intro i _ h; exact h
  | succ d ih =>
    intro i hi ht
    exact ih i (by omega) (trigger_down h (i + d) (by omega) ht)

/-- With enough fuel the loop does not depend on the fuel. -/
theorem emit_loop_fuel (h : Nat) : ∀ (f1 f2 i : Nat) (s : fuzzy_state), Inv s →
    31 - i < f1 → 31 - i < f2 → emit_loop h f1 i s = emit_loop h f2 i s := by
  intro f1
  induction f1 with
  | zero => intro f2 i s _ h1; omega
  | succ f1 ih =>
    intro f2 i s hI h1 h2
    cases f2 with
    | zero => omega
    | succ f2 =>
      unfold emit_loop
      by_cases hi : i < s.bhend
      · rw [if_pos hi, if_pos hi]
        by_cases ht : h % SSDEEP_BS i ≠ SSDEEP_BS i - 1
        · rw [if_pos ht, if_pos ht]
        · rw [if_neg ht, if_neg ht]
          obtain ⟨s1, e1, hI1, _⟩ := slot_step_inv i s hI hi
          have := hI.end_le
          simp only [NUM_BLOCKHASHES] at this
          rw [e1]
          exact ih f2 (i + 1) s1 hI1 (by omega) (by omega)
      · rw [if_neg hi, if_neg hi]

theorem reduce_spec (s : fuzzy_state) (h : s.bhstart < s.bhend) :
    fuzzy_try_reduce_blockhash s =
      some (if 2 ≤ s.bhend - s.bhstart ∧ SSDEEP_BS s.bhstart * SPAMSUM_LENGTH < s.total_size ∧
          32 ≤ (s.slot (s.bhstart + 1)).dlen
        then { s with bhstart := s.bhstart + 1 } else s) := by
  unfold fuzzy_try_reduce_blockhash
  rw [if_neg (by omega)]
  simp only [SPAMSUM_LENGTH]
  split_ifs with c1 c2 c3 c4 c5 c6 c7 <;> first | rfl | omega

/-- The body of the loop at a slot both runs still use. -/
theorem slot_step_sync (i : Nat) (A B : fuzzy_state) (hA : Inv A) (hB : Inv B) (hL : Lag A B)
    (hi : i < A.bhend) (hs : A.bhstart ≤ i) (A' B' : fuzzy_state)
    (eA : slot_step i A = some A') (eB : slot_step i B = some B') : Lag A' B' := by
  obtain ⟨r, be, sl, sz, ss⟩ := hL
  have hAl := hA.len
  have hBl := hB.len
  have hA1 := hA.start_lt
  have hB1 := hB.start_lt
  have hA2 := hA.end_le
  simp only [NUM_BLOCKHASHES] at hAl hBl hA2
  unfold slot_step at eA eB
  rw [ss i hs] at eB
  by_cases h0 : (A.slot i).dlen = 0
  · rw [if_pos h0] at eA eB
    by_cases h31 : A.bhend < 31
    · obtain ⟨A1, fA, a1, a2, a3, a4, a5, a6⟩ := fork_spec A hAl (by omega) h31
      obtain ⟨B1, fB, b1, b2, b3, b4, b5, b6⟩ := fork_spec B hBl (by omega) (by omega)
      rw [fA] at eA
      rw [fB] at eB
      simp only [Option.some_bind] at eA eB
      have hsl : ∀ j, A.bhstart ≤ j → B1.slot j = A1.slot j := by
        intro j hj
        rw [a6, b6, be, ss j hj, ss (A.bhend - 1) (by omega)]
      have hi1 : B1.slot i = A1.slot i := hsl i hs
      rw [hi1] at eB
      have hd : (A1.slot i).dlen < SPAMSUM_LENGTH - 1 := by
        rw [a6, if_neg (by omega)]; simp only [SPAMSUM_LENGTH]; omega
      rw [if_pos hd] at eA eB
      simp only [Option.some.injEq] at eA eB
      subst eA; subst eB
      refine ⟨by rw [a4, b4, r], by show B1.bhend = A1.bhend; rw [a1, b1, be],
        by show B1.bhstart ≤ A1.bhstart; omega,
        by show B1.total_size ≤ A1.total_size; omega, ?_⟩
      intro j hj
      have hj' : A.bhstart ≤ j := by
        have : A1.bhstart ≤ j := hj
        omega
      rw [slot_set, slot_set, a3, b3, hsl j hj']
    · have fA : fuzzy_try_fork_blockhash A = some A := by
        unfold fuzzy_try_fork_blockhash
        rw [if_pos (by simp only [NUM_BLOCKHASHES]; omega)]
      have fB : fuzzy_try_fork_blockhash B = some B := by
        unfold fuzzy_try_fork_blockhash
        rw [if_pos (by simp only [NUM_BLOCKHASHES]; omega)]
      rw [fA] at eA
      rw [fB] at eB
      simp only [Option.some_bind] at eA eB
      rw [ss i hs] at eB
      have hd : (A.slot i).dlen < SPAMSUM_LENGTH - 1 := by
        simp only [SPAMSUM_LENGTH]; omega
      rw [if_pos hd] at eA eB
      simp only [Option.some.injEq] at eA eB
      subst eA; subst eB
      refine ⟨r, be, sl, sz, ?_⟩
      intro j hj
      have hj' : A.bhstart ≤ j := hj
      rw [slot_set, slot_set, hAl, hBl, ss j hj']
  · rw [if_neg h0] at eA eB
    simp only [Option.some_bind] at eA eB
    rw [ss i hs] at eB
    by_cases hd : (A.slot i).dlen < SPAMSUM_LENGTH - 1
    · rw [if_pos hd] at eA eB
      simp only [Option.some.injEq] at eA eB
      subst eA; subst eB
      refine ⟨r, be, sl, sz, ?_⟩
      intro j hj
      have hj' : A.bhstart ≤ j := hj
      rw [slot_set, slot_set, hAl, hBl, ss j hj']
    · rw [if_neg hd, reduce_spec A hA1] at eA
      rw [if_neg hd, reduce_spec B hB1] at eB
      simp only [Option.some.injEq] at eA eB
      subst eA; subst eB
      by_cases cA : 2 ≤ A.bhend - A.bhstart ∧
          SSDEEP_BS A.bhstart * SPAMSUM_LENGTH < A.total_size ∧
          32 ≤ (A.slot (A.bhstart + 1)).dlen
      · rw [if_pos cA]
        by_cases cB : 2 ≤ B.bhend - B.bhstart ∧
            SSDEEP_BS B.bhstart * SPAMSUM_LENGTH < B.total_size ∧
            32 ≤ (B.slot (B.bhstart + 1)).dlen
        · rw [if_pos cB]
          exact ⟨r, be, by show B.bhstart + 1 ≤ A.bhstart + 1; omega, sz,
            fun j hj => ss j (by have : A.bhstart + 1 ≤ j := hj
                                 omega)⟩
        · rw [if_neg cB]
          exact ⟨r, be, by show B.bhstart ≤ A.bhstart + 1; omega, sz,
            fun j hj => ss j (by have : A.bhstart + 1 ≤ j := hj
                                 omega)⟩
      · rw [if_neg cA]
        by_cases cB : 2 ≤ B.bhend - B.bhstart ∧
            SSDEEP_BS B.bhstart * SPAMSUM_LENGTH < B.total_size ∧
            32 ≤ (B.slot (B.bhstart + 1)).dlen
        · rw [if_pos cB]
          refine ⟨r, be, ?_, sz, ss⟩
          show B.bhstart + 1 ≤ A.bhstart
          by_contra hc
          have e : B.bhstart = A.bhstart := by omega
          apply cA
          rw [e, be] at cB
          rw [ss (A.bhstart + 1) (by omega)] at cB
          exact ⟨cB.1, by omega, cB.2.2⟩
        · rw [if_neg cB]
          exact ⟨r, be, sl, sz, ss⟩

/-- The body of the loop at a slot only the lagging run still uses. -/
theorem slot_step_lag (i : Nat) (A B : fuzzy_state) (hA : Inv A) (hB : Inv B) (hL : Lag A B)
    (hs : i < A.bhstart) (hbi : B.bhstart ≤ i) (B' : fuzzy_state)
    (eB : slot_step i B = some B') : Lag A B' := by
  obtain ⟨r, be, sl, sz, ss⟩ := hL
  have hAl := hA.len
  have hBl := hB.len
  have hA1 := hA.start_lt
  have hB1 := hB.start_lt
  simp only [NUM_BLOCKHASHES] at hAl hBl
  have h0 : ¬ (B.slot i).dlen = 0 := by
    have := hB.used i (by omega)
    omega
  unfold slot_step at eB
  rw [if_neg h0] at eB
  simp only [Option.some_bind] at eB
  by_cases hd : (B.slot i).dlen < SPAMSUM_LENGTH - 1
  · rw [if_pos hd] at eB
    simp only [Option.some.injEq] at eB
    subst eB
    refine ⟨r, be, sl, sz, ?_⟩
    intro j hj
    rw [slot_set, if_neg (by omega), ss j hj]
  · rw [if_neg hd, reduce_spec B hB1] at eB
    simp only [Option.some.injEq] at eB
    subst eB
    split_ifs
    · exact ⟨r, be, by show B.bhstart + 1 ≤ A.bhstart; omega, sz, ss⟩
    · exact ⟨r, be, sl, sz, ss⟩
theorem slot_step_start (i : Nat) (s s' : fuzzy_state) (hI : Inv s)
    (e : slot_step i s = some s') :
    s.bhstart ≤ s'.bhstart ∧ s'.bhstart ≤ s.bhstart + 1 := by
  have hl := hI.len
  have h1 := hI.start_lt
  simp only [NUM_BLOCKHASHES] at hl
  unfold slot_step at e
  have key : ∀ s1 : fuzzy_state, s1.bhstart = s.bhstart → s1.bhstart < s1.bhend →
      (if (s1.slot i).dlen < SPAMSUM_LENGTH - 1 then
        some { s1 with
          bh := s1.bh.set i
            { h := HASH_INIT,
              halfh := if ((s1.slot i).digest ++ [b64.getD ((s1.slot i).h % 64) 0]).length <
                SPAMSUM_LENGTH / 2 then HASH_INIT else (s1.slot i).halfh,
              digest := (s1.slot i).digest ++ [b64.getD ((s1.slot i).h % 64) 0] } }
      else fuzzy_try_reduce_blockhash s1) = some s' →
      s.bhstart ≤ s'.bhstart ∧ s'.bhstart ≤ s.bhstart + 1 := by
    intro s1 e1 h2 e2
    by_cases hd : (s1.slot i).dlen < SPAMSUM_LENGTH - 1
    · rw [if_pos hd] at e2
      simp only [Option.some.injEq] at e2
      subst e2
      exact ⟨by show s.bhstart ≤ s1.bhstart; omega, by show s1.bhstart ≤ s.bhstart + 1; omega⟩
    · rw [if_neg hd, reduce_spec s1 h2] at e2
      simp only [Option.some.injEq] at e2
      subst e2
      split_ifs
      · exact ⟨by show s.bhstart ≤ s1.bhstart + 1; omega,
          by show s1.bhstart + 1 ≤ s.bhstart + 1; omega⟩
      · omega
  by_cases h0 : (s.slot i).dlen = 0
  · rw [if_pos h0] at e
    by_cases h31 : s.bhend < 31
    · obtain ⟨s1, f, a1, a2, a3, a4, a5, a6⟩ := fork_spec s hl (by omega) h31
      rw [f] at e
      exact key s1 a2 (by omega) e
    · have f : fuzzy_try_fork_blockhash s = some s := by
        unfold fuzzy_try_fork_blockhash
        rw [if_pos (by simp only [NUM_BLOCKHASHES]; omega)]
      rw [f] at e
      exact key s rfl h1 e
  · rw [if_neg h0] at e
    exact key s rfl h1 e

theorem emit_sync (h : Nat) : ∀ (fuel i : Nat) (A B : fuzzy_state), Inv A → Inv B → Lag A B →
    A.bhstart ≤ i → ∀ A' B', emit_loop h fuel i A = some A' → emit_loop h fuel i B = some B' →
    Lag A' B' := by
  intro fuel
  induction fuel with
  | zero => intro i A B _ _ _ _ A' B' e; simp [emit_loop] at e
  | succ fuel ih =>
    intro i A B hA hB hL hs A' B' eA eB
    unfold emit_loop at eA eB
    rw [hL.bhend] at eB
    by_cases hi : i < A.bhend
    · rw [if_pos hi] at eA eB
      by_cases ht : h % SSDEEP_BS i ≠ SSDEEP_BS i - 1
      · rw [if_pos ht] at eA eB
        simp only [Option.some.injEq] at eA eB
        subst eA; subst eB; exact hL
      · rw [if_neg ht] at eA eB
        obtain ⟨A1, a1, hA1, _⟩ := slot_step_inv i A hA hi
        obtain ⟨B1, b1, hB1, _⟩ := slot_step_inv i B hB (by rw [hL.bhend]; exact hi)
        rw [a1] at eA
        rw [b1] at eB
        have hL1 := slot_step_sync i A B hA hB hL hi hs A1 B1 a1 b1
        have := (slot_step_start i A A1 hA a1).2
        exact ih (i + 1) A1 B1 hA1 hB1 hL1 (by omega) A' B' eA eB
    · rw [if_neg hi] at eA eB
      simp only [Option.some.injEq] at eA eB
      subst eA; subst eB; exact hL

theorem emit_lag (h : Nat) : ∀ (d fuelB i : Nat) (A B : fuzzy_state), Inv A → Inv B →
    Lag A B → i + d = A.bhstart → B.bhstart ≤ i → 31 - i < fuelB → ∀ A' B',
    emit_loop h 32 A.bhstart A = some A' → emit_loop h fuelB i B = some B' → Lag A' B' := by
  intro d
  induction d with
  | zero =>
    intro fuelB i A B hA hB hL hd hbi hf A' B' eA eB
    have e : i = A.bhstart := by omega
    subst e
    rw [emit_loop_fuel h fuelB 32 _ B hB hf (by omega)] at eB
    exact emit_sync h 32 _ A B hA hB hL (le_refl _) A' B' eA eB
  | succ d ih =>
    intro fuelB i A B hA hB hL hd hbi hf A' B' eA eB
    have hA1 := hA.start_lt
    have hA2 := hA.end_le
    simp only [NUM_BLOCKHASHES] at hA2
    cases fuelB with
    | zero => omega
    | succ fuelB =>
      unfold emit_loop at eB
      rw [if_pos (by rw [hL.bhend]; omega)] at eB
      by_cases ht : h % SSDEEP_BS i ≠ SSDEEP_BS i - 1
      · rw [if_pos ht] at eB
        simp only [Option.some.injEq] at eB
        subst eB
        have htA : h % SSDEEP_BS A.bhstart ≠ SSDEEP_BS A.bhstart - 1 := by
          intro hc
          apply ht
          have := trigger_le h (d + 1) i (by omega)
          rw [hd] at this
          exact this hc
        unfold emit_loop at eA
        rw [if_pos hA1, if_pos htA] at eA
        simp only [Option.some.injEq] at eA
        subst eA
        exact hL
      · rw [if_neg ht] at eB
        obtain ⟨B1, b1, hB1, _⟩ := slot_step_inv i B hB (by rw [hL.bhend]; omega)
        rw [b1] at eB
        have hL1 := slot_step_lag i A B hA hB hL (by omega) hbi B1 b1
        have := (slot_step_start i B B1 hB b1).2
        exact ih fuelB (i + 1) A B1 hA hB1 hL1 (by omega) (by omega) (by omega) A' B' eA eB

theorem engine_step_lag (A B : fuzzy_state) (c : Nat) (hA : Inv A) (hB : Inv B)
    (hL : Lag A B) :
    ∃ A' B', fuzzy_engine_step A c = some A' ∧ fuzzy_engine_step B c = some B' ∧
      Inv A' ∧ Inv B' ∧ Lag A' B' ∧ A'.total_size = A.total_size ∧
      B'.total_size = B.total_size := by
  obtain ⟨A', eA, hA', _, tA⟩ := engine_step_inv A c hA
  obtain ⟨B', eB, hB', _, tB⟩ := engine_step_inv B c hB
  refine ⟨A', B', eA, eB, hA', hB', ?_, tA, tB⟩
  unfold fuzzy_engine_step at eA eB
  simp only [NUM_BLOCKHASHES] at eA eB
  have hA0 : Inv { A with roll := roll_hash A.roll c,
                          bh := hash_slots c A.bhstart A.bhend 0 A.bh } := by
    refine inv_congr A _ hA rfl rfl (hash_slots_length _ _ _ _ _) (le_refl _) ?_
    intro j
    simp only [fuzzy_state.slot, hash_slots_getD]
    split_ifs <;> rfl
  have hB0 : Inv { B with roll := roll_hash B.roll c,
                          bh := hash_slots c B.bhstart B.bhend 0 B.bh } := by
    refine inv_congr B _ hB rfl rfl (hash_slots_length _ _ _ _ _) (le_refl _) ?_
    intro j
    simp only [fuzzy_state.slot, hash_slots_getD]
    split_ifs <;> rfl
  have hL0 : Lag { A with roll := roll_hash A.roll c,
                          bh := hash_slots c A.bhstart A.bhend 0 A.bh }
      { B with roll := roll_hash B.roll c,
               bh := hash_slots c B.bhstart B.bhend 0 B.bh } := by
    refine ⟨by show roll_hash B.roll c = roll_hash A.roll c; rw [hL.roll], hL.bhend,
      hL.start_le, hL.size_le, ?_⟩
    intro j hj
    have hj' : A.bhstart ≤ j := hj
    have := hL.slots j hj'
    have hle := hL.start_le
    simp only [fuzzy_state.slot] at this ⊢
    rw [hash_slots_getD, hash_slots_getD, this, hL.bhend, hA.len, hB.len]
    simp only [Nat.zero_add]
    by_cases hc : j < NUM_BLOCKHASHES ∧ A.bhstart ≤ j ∧ j < A.bhend
    · rw [if_pos hc, if_pos ⟨hc.1, by omega, hc.2.2⟩]
    · rw [if_neg hc, if_neg (fun h => hc ⟨h.1, hj', h.2.2⟩)]
  have hr : roll_sum (roll_hash B.roll c) = roll_sum (roll_hash A.roll c) := by rw [hL.roll]
  rw [hr] at eB
  exact emit_lag (roll_sum (roll_hash A.roll c)) (A.bhstart - B.bhstart) 32 B.bhstart _ _
    hA0 hB0 hL0 (by have := hL.start_le
                    show B.bhstart + (A.bhstart - B.bhstart) = A.bhstart
                    omega) (le_refl _)
    (by omega) A' B' eA eB

theorem feed_lag : ∀ (buf : List Nat) (A B : fuzzy_state), Inv A → Inv B → Lag A B →
    ∃ A' B', feed A buf = some A' ∧ feed B buf = some B' ∧ Inv A' ∧ Inv B' ∧ Lag A' B' ∧
      A'.total_size = A.total_size ∧ B'.total_size = B.total_size := by
  intro buf
  induction buf with
  | nil => intro A B hA hB hL; exact ⟨A, B, rfl, rfl, hA, hB, hL, rfl, rfl⟩
  | cons c t ih =>
    intro A B hA hB hL
    obtain ⟨A1, B1, eA, eB, hA1, hB1, hL1, tA, tB⟩ := engine_step_lag A B c hA hB hL
    obtain ⟨A2, B2, eA2, eB2, hA2, hB2, hL2, tA2, tB2⟩ := ih A1 B1 hA1 hB1 hL1
    refine ⟨A2, B2, ?_, ?_, hA2, hB2, hL2, by rw [tA2, tA], by rw [tB2, tB]⟩
    · unfold feed; rw [eA]; exact eA2
    · unfold feed; rw [eB]; exact eB2

theorem feed_append : ∀ (a b : List Nat) (s : fuzzy_state),
    feed s (a ++ b) = (feed s a).bind fun s1 => feed s1 b := by
  intro a
  induction a with
  | nil => intro b s; rfl
  | cons c t ih =>
    intro b s
    simp only [List.cons_append, feed]
    cases fuzzy_engine_step s c with
    | none => rfl
    | some s1 => simp only [Option.some_bind]; exact ih b s1
theorem long_enough_lag (A B : fuzzy_state) (hA : Inv A) (hL : Lag A B) : ∀ x, A.bhstart ≤ x →
    long_enough B x = long_enough A x := by
  intro x
  induction x with
  | zero => intro _; rfl
  | succ x ih =>
    intro hx
    unfold long_enough
    rw [hL.slots (x + 1) hx]
    have hle := hL.start_le
    by_cases hc : x + 1 > A.bhstart
    · by_cases hd : (A.slot (x + 1)).dlen < SPAMSUM_LENGTH / 2
      · rw [if_pos ⟨by omega, hd⟩, if_pos ⟨hc, hd⟩]
        exact ih (by omega)
      · rw [if_neg (fun h => hd h.2), if_neg (fun h => hd h.2)]
    · have e : x + 1 = A.bhstart := by omega
      have := hA.half (by omega)
      rw [← e] at this
      rw [if_neg (fun h => by have := h.2; omega), if_neg (fun h => hc h.1)]

theorem choose_bi_lag (A B : fuzzy_state) (hA : Inv A) (hL : Lag A B)
    (ht : B.total_size = A.total_size) : choose_bi B = choose_bi A := by
  have h1 := hA.start_lt
  have h2 := hA.end_le
  simp only [NUM_BLOCKHASHES] at h2
  have hle := hL.start_le
  have hg : guess_loop B.total_size (NUM_BLOCKHASHES + 1) B.bhstart =
      guess_loop A.total_size (NUM_BLOCKHASHES + 1) A.bhstart := by
    rw [ht]
    refine guess_loop_from A.total_size (A.bhstart - B.bhstart) B.bhstart A.bhstart (by omega)
      (by omega) ?_
    intro j hj1 hj2
    have := hA.size (by omega)
    have hm := SSDEEP_BS_mono j (A.bhstart - 1) (by omega) (by omega)
    simp only [SPAMSUM_LENGTH] at this ⊢
    omega
  unfold choose_bi
  rw [hg, hL.bhend]
  cases hgl : guess_loop A.total_size (NUM_BLOCKHASHES + 1) A.bhstart with
  | none => rfl
  | some g =>
    simp only [Option.map_some', Option.some.injEq]
    have := (guess_loop_spec _ _ _ _ hgl).1
    refine long_enough_lag A B hA hL _ ?_
    rw [below_end_eq _ (by omega)]
    omega

/-- Two runs over the same bytes that agree on the size give the same digest. -/
theorem digest_lag (A B : fuzzy_state) (flags : Nat) (hA : Inv A) (hB : Inv B) (hL : Lag A B)
    (ht : B.total_size = A.total_size) : fuzzy_digest B flags = fuzzy_digest A flags := by
  have hc := choose_bi_lag A B hA hL ht
  unfold fuzzy_digest
  simp only []
  rw [if_neg (not_not.2 (inv_first_check A hA)), if_neg (not_not.2 (inv_first_check B hB)), hc,
    hL.roll]
  cases hbi : choose_bi A with
  | none => rfl
  | some bi =>
    simp only []
    obtain ⟨c1, c2, _, _⟩ := choose_bi_spec A hA bi hbi
    have s1 : B.slot bi = A.slot bi := hL.slots bi c1
    have s2 : B.slot (bi + 1) = A.slot (bi + 1) := hL.slots (bi + 1) (by omega)
    have f1 : ∀ rem, first_part B flags (roll_sum A.roll) bi rem =
        first_part A flags (roll_sum A.roll) bi rem := by
      intro rem; unfold first_part; rw [s1]
    have f2 : ∀ rem, second_part B flags (roll_sum A.roll) bi rem =
        second_part A flags (roll_sum A.roll) bi rem := by
      intro rem; unfold second_part; rw [s1, s2, hL.bhend]
    rw [s1]
    simp only [f1, f2]

/-! ## The matrix of the edit distance -/

theorem min3_eq (x y z : Int) : min3 x y z = min x (min y z) := by
  unfold min3
  split_ifs <;> simp only [min_def] <;> split_ifs <;> omega

theorem min2_eq (x y : Int) : min2 x y = min x y := by
  unfold min2
  split_ifs <;> simp only [min_def] <;> split_ifs <;> omega

theorem matrix_zero (F T : List Nat) (y : Nat) : matrix F T 0 y = y := by
  rw [matrix]

theorem matrix_col_zero (F T : List Nat) (x : Nat) : matrix F T x 0 = x := by
  cases x with
  | zero => rw [matrix]
  | succ x => rw [matrix]; push_cast; rfl

theorem matrix_succ (F T : List Nat) (x y : Nat) :
    matrix F T (x + 1) (y + 1) =
      if F.getD y 0 = T.getD (x - 1) 0 ∧ y > 0 ∧ F.getD (y - 1) 0 = T.getD x 0 ∧ x > 0 then
        min2 (min3 (matrix F T x y + (if F.getD y 0 = T.getD x 0 then 0 else 3))
          (matrix F T x (y + 1) + 1) (matrix F T (x + 1) y + 1))
          (matrix F T (x - 1) (y - 1) + 5)
      else min3 (matrix F T x y + (if F.getD y 0 = T.getD x 0 then 0 else 3))
          (matrix F T x (y + 1) + 1) (matrix F T (x + 1) y + 1) := by
  rw [matrix]

/-- The matrix for the two strings exchanged is the transposed matrix. -/
theorem matrix_symm (F T : List Nat) : ∀ (n x y : Nat), x + y ≤ n →
    matrix F T x y = matrix T F y x := by
  intro n
  induction n with
  | zero =>
    intro x y h
    have hx : x = 0 := by omega
    have hy : y = 0 := by omega
    subst hx; subst hy; rw [matrix_zero, matrix_zero]
  | succ n ih =>
    intro x y h
    cases x with
    | zero => rw [matrix_zero, matrix_col_zero]
    | succ x =>
      cases y with
      | zero => rw [matrix_zero, matrix_col_zero]
      | succ y =>
        rw [matrix_succ, matrix_succ, ih x y (by omega), ih x (y + 1) (by omega),
          ih (x + 1) y (by omega), ih (x - 1) (y - 1) (by omega)]
        have e1 : (T.getD x 0 = F.getD y 0) = (F.getD y 0 = T.getD x 0) :=
          propext eq_comm
        have e2 : (T.getD x 0 = F.getD (y - 1) 0 ∧ x > 0 ∧ T.getD (x - 1) 0 = F.getD y 0 ∧
            y > 0) = (F.getD y 0 = T.getD (x - 1) 0 ∧ y > 0 ∧ F.getD (y - 1) 0 = T.getD x 0 ∧
            x > 0) := by
          apply propext
          constructor
          · rintro ⟨a, b, c, d⟩; exact ⟨c.symm, d, a.symm, b⟩
          · rintro ⟨a, b, c, d⟩; exact ⟨c.symm, d, a.symm, b⟩
        simp only [e1, e2, min3_eq, min2_eq]
        have e3 : ∀ a b c : Int, min a (min b c) = min a (min c b) := by
          intro a b c; rw [min_comm b c]
        rw [e3]

theorem matrix_nonneg (F T : List Nat) : ∀ (n x y : Nat), x + y ≤ n → 0 ≤ matrix F T x y := by
  intro n
  induction n with
  | zero =>
    intro x y h
    have hx : x = 0 := by omega
    subst hx; rw [matrix_zero]; exact Int.ofNat_nonneg _
  | succ n ih =>
    intro x y h
    cases x with
    | zero => rw [matrix_zero]; exact Int.ofNat_nonneg _
    | succ x =>
      cases y with
      | zero => rw [matrix_col_zero]; exact Int.ofNat_nonneg _
      | succ y =>
        rw [matrix_succ]
        have h1 := ih x y (by omega)
        have h2 := ih x (y + 1) (by omega)
        have h3 := ih (x + 1) y (by omega)
        have h4 := ih (x - 1) (y - 1) (by omega)
        simp only [min3_eq, min2_eq]
        split_ifs <;> simp only [le_min_iff] <;> omega

/-- An entry is at most the one above it plus one. -/
theorem matrix_le_up (F T : List Nat) (x y : Nat) :
    matrix F T (x + 1) (y + 1) ≤ matrix F T x (y + 1) + 1 := by
  rw [matrix_succ]
  simp only [min3_eq, min2_eq]
  have key : ∀ a b c : Int, min a (min b c) ≤ b :=
    fun a b c => le_trans (min_le_right _ _) (min_le_left _ _)
  by_cases hc : F.getD y 0 = T.getD (x - 1) 0 ∧ y > 0 ∧ F.getD (y - 1) 0 = T.getD x 0 ∧ x > 0
  · rw [if_pos hc]; exact le_trans (min_le_left _ _) (key _ _ _)
  · rw [if_neg hc]; exact key _ _ _

theorem matrix_first_col (F T : List Nat) : ∀ x, matrix F T x 1 ≤ x + 1 := by
  intro x
  induction x with
  | zero => rw [matrix_zero]; simp
  | succ x ih =>
    have := matrix_le_up F T x 0
    simp only [Nat.zero_add] at this
    push_cast
    omega

/-- On the diagonal the matrix of a string with itself is zero. -/
theorem matrix_diag (F : List Nat) : ∀ x, matrix F F x x = 0 := by
  intro x
  induction x with
  | zero => rw [matrix_zero]; rfl
  | succ x ih =>
    have h0 := matrix_nonneg F F (x + 1 + (x + 1)) (x + 1) (x + 1) (le_refl _)
    have h1 : matrix F F (x + 1) (x + 1) ≤ matrix F F x x + 0 := by
      rw [matrix_succ]
      simp only [min3_eq, min2_eq, if_true]
      split_ifs
      · exact le_trans (min_le_left _ _) (min_le_left _ _)
      · exact min_le_left _ _
    omega
/-! ## The buffer of `edit_distn` holds the matrix -/

theorem getD_set_int (l : List Int) (i j : Nat) (v : Int) :
    (l.set i v).getD j 0 = if i = j ∧ i < l.length then v else l.getD j 0 := by
  simp only [List.getD_eq_getElem?_getD, List.getElem?_set]
  by_cases h1 : i = j
  · by_cases h2 : i < l.length
    · rw [if_pos h1, if_pos h2, if_pos ⟨h1, h2⟩]; rfl
    · rw [if_pos h1, if_neg h2, if_neg (fun h => h2 h.2), List.getElem?_eq_none (by omega)]
  · rw [if_neg h1, if_neg (fun h => h1 h.1)]

theorem mod_ne (R k p : Nat) (h1 : p < k) (h2 : k - p < R) : p % R ≠ k % R := by
  intro h
  have hd : R ∣ k - p := (Nat.modEq_iff_dvd' (le_of_lt h1)).1 h
  have := Nat.le_of_dvd (by omega) hd
  omega

theorem idx_back (R k p j : Nat) (h1 : p + j = k) (h2 : j ≤ R) :
    (k % R + (R - j)) % R = p % R := by
  rw [Nat.mod_add_mod]
  have : k + (R - j) = p + R := by omega
  rw [this, Nat.add_mod_right]

theorem pair_unique (m r c r' c' : Nat) (hc : c < m) (hc' : c' < m)
    (h : r' * m + c' = r * m + c) : r' = r ∧ c' = c := by
  have hm : 0 < m := by omega
  have h1 : (r' * m + c') / m = r' := by
    rw [Nat.add_comm, Nat.add_mul_div_right _ _ hm, Nat.div_eq_of_lt hc', Nat.zero_add]
  have h2 : (r * m + c) / m = r := by
    rw [Nat.add_comm, Nat.add_mul_div_right _ _ hm, Nat.div_eq_of_lt hc, Nat.zero_add]
  have e : r' = r := by rw [← h1, ← h2, h]
  subst e
  exact ⟨rfl, by omega⟩

theorem bufok_write (F T : List Nat) (m R k : Nat) (s : ed_state) (hB : BufOK F T m R k s)
    (hR : R = 2 * m + 3) (r c : Nat) (hk : k = r * m + c) (hc : c < m) (s' : ed_state)
    (hb : s'.buffer = s.buffer.set s.index (matrix F T (r + 1) (c + 1)))
    (hi : s'.index = (k + 1) % R) : BufOK F T m R (k + 1) s' := by
  obtain ⟨hl, hx, hcells⟩ := hB
  have hRpos : 0 < R := by omega
  refine ⟨by rw [hb, List.length_set]; exact hl, hi, ?_⟩
  intro r' c' hc' h1 h2
  rw [hb, getD_set_int, hx, hl]
  by_cases e : r' * m + c' = k
  · obtain ⟨e1, e2⟩ := pair_unique m r c r' c' hc hc' (by omega)
    rw [e, if_pos ⟨rfl, Nat.mod_lt _ hRpos⟩, e1, e2]
  · rw [if_neg (fun h => mod_ne R k (r' * m + c') (by omega) (by omega) h.1.symm)]
    exact hcells r' c' hc' (by omega) (by omega)

theorem read_NW (F T : List Nat) (m R k : Nat) (s : ed_state) (hB : BufOK F T m R k s)
    (hR : R = 2 * m + 3) (r c : Nat) (hk : k = r * m + c) (hc : c < m) (hr : 1 ≤ r) :
    ar s.buffer R r c (s.index + m + 2) = matrix F T r c := by
  unfold ar
  rw [if_neg (by omega)]
  by_cases h0 : c = 0
  · subst h0
    rw [if_pos (by simp), matrix_col_zero]; simp
  · rw [if_neg (by omega)]
    have e : r * m = (r - 1) * m + m := by
      rw [Nat.sub_mul, Nat.one_mul, Nat.sub_add_cancel (Nat.le_mul_of_pos_left m (by omega))]
    have hi : (s.index + m + 2) % R = ((r - 1) * m + (c - 1)) % R := by
      rw [hB.idx]
      have := idx_back R k ((r - 1) * m + (c - 1)) (m + 1) (by omega) (by omega)
      rw [← this]
      congr 1; omega
    rw [hi, hB.cells (r - 1) (c - 1) (by omega) (by omega) (by omega)]
    congr 1 <;> omega

theorem read_N (F T : List Nat) (m R k : Nat) (s : ed_state) (hB : BufOK F T m R k s)
    (hR : R = 2 * m + 3) (r c : Nat) (hk : k = r * m + c) (hc : c < m) (hr : 1 ≤ r) :
    ar s.buffer R r ((c : Int) + 1) (s.index + m + 3) = matrix F T r (c + 1) := by
  unfold ar
  rw [if_neg (by omega), if_neg (by omega)]
  have e : r * m = (r - 1) * m + m := by
    rw [Nat.sub_mul, Nat.one_mul, Nat.sub_add_cancel (Nat.le_mul_of_pos_left m (by omega))]
  have hi : (s.index + m + 3) % R = ((r - 1) * m + c) % R := by
    rw [hB.idx]
    have := idx_back R k ((r - 1) * m + c) m (by omega) (by omega)
    rw [← this]
    congr 1; omega
  rw [hi, hB.cells (r - 1) c hc (by omega) (by omega)]
  congr 1; omega

theorem read_W (F T : List Nat) (m R k : Nat) (s : ed_state) (hB : BufOK F T m R k s)
    (hR : R = 2 * m + 3) (r c : Nat) (hk : k = r * m + c) (hc : c < m) :
    ar s.buffer R ((r : Int) + 1) c (s.index + R - 1) = matrix F T (r + 1) c := by
  unfold ar
  rw [if_neg (by omega)]
  by_cases h0 : c = 0
  · subst h0
    rw [if_pos (by simp), matrix_col_zero]; simp
  · rw [if_neg (by omega)]
    have hi : (s.index + R - 1) % R = (r * m + (c - 1)) % R := by
      rw [hB.idx]
      have := idx_back R k (r * m + (c - 1)) 1 (by omega) (by omega)
      rw [← this]
      congr 1
      have := Nat.mod_lt k (show 0 < R by omega)
      omega
    rw [hi, hB.cells r (c - 1) (by omega) (by omega) (by omega)]
    congr 1; omega

theorem read_NNWW (F T : List Nat) (m R k : Nat) (s : ed_state) (hB : BufOK F T m R k s)
    (hR : R = 2 * m + 3) (r c : Nat) (hk : k = r * m + c) (hc : c < m) (hr : 1 ≤ r)
    (hc0 : 0 < c) (v : Int) :
    ar (s.buffer.set s.index v) R ((r : Int) - 1) ((c : Int) - 1) (s.index + 1) =
      matrix F T (r - 1) (c - 1) := by
  unfold ar
  by_cases h1 : r = 1
  · subst h1
    rw [if_pos (by simp), matrix_zero]
    push_cast [Nat.cast_sub hc0]; ring
  · rw [if_neg (by omega)]
    by_cases h0 : c = 1
    · subst h0
      rw [if_pos (by simp), matrix_col_zero]
      push_cast [Nat.cast_sub hr]; ring
    · rw [if_neg (by omega)]
      have e : r * m = (r - 2) * m + m + m := by
        have : r = (r - 2) + 2 := by omega
        conv_lhs => rw [this]
        ring
      have hi : (s.index + 1) % R = ((r - 2) * m + (c - 2)) % R := by
        rw [hB.idx]
        have := idx_back R k ((r - 2) * m + (c - 2)) (2 * m + 2) (by omega) (by omega)
        rw [← this]
        congr 1; omega
      rw [hi, getD_set_int, hB.idx,
        if_neg (fun h => mod_ne R k ((r - 2) * m + (c - 2)) (by omega) (by omega) h.1.symm),
        hB.cells (r - 2) (c - 2) (by omega) (by omega) (by omega)]
      congr 1 <;> omega
theorem next_row_spec (F T : List Nat) (m R r : Nat) (hR : R = 2 * m + 3) (hr : 1 ≤ r) :
    ∀ (fuel c : Nat) (s : ed_state), BufOK F T m R (r * m + c) s → c ≤ m → m - c ≤ fuel →
      (1 ≤ c → s.low ≤ matrix F T (r + 1) 1) →
      BufOK F T m R (r * m + m) (next_row F T m R r fuel c s) ∧
        (1 ≤ m → (next_row F T m R r fuel c s).low ≤ matrix F T (r + 1) 1) := by
  intro fuel
  induction fuel with
  | zero =>
    intro c s hB hc hf hl
    have : c = m := by omega
    subst this
    exact ⟨hB, hl⟩
  | succ fuel ih =>
    intro c s hB hc hf hl
    unfold next_row
    by_cases hcm : c < m
    · rw [if_pos hcm]
      simp only []
      rw [read_NW F T m R _ s hB hR r c rfl hcm hr, read_N F T m R _ s hB hR r c rfl hcm hr,
        read_W F T m R _ s hB hR r c rfl hcm]
      have hv : (if F.getD c 0 = T.getD (r - 1) 0 ∧ c > 0 ∧ F.getD (c - 1) 0 = T.getD r 0 then
          min2 (min3 (matrix F T r c + (if F.getD c 0 = T.getD r 0 then 0 else 3))
            (matrix F T r (c + 1) + 1) (matrix F T (r + 1) c + 1))
            (ar (s.buffer.set s.index
              (min3 (matrix F T r c + (if F.getD c 0 = T.getD r 0 then 0 else 3))
                (matrix F T r (c + 1) + 1) (matrix F T (r + 1) c + 1))) R ((r : Int) - 1)
              ((c : Int) - 1) (s.index + 1) + 5)
          else min3 (matrix F T r c + (if F.getD c 0 = T.getD r 0 then 0 else 3))
            (matrix F T r (c + 1) + 1) (matrix F T (r + 1) c + 1)) =
          matrix F T (r + 1) (c + 1) := by
        rw [matrix_succ]
        generalize (if F.getD c 0 = T.getD r 0 then (0 : Int) else 3) = cost
        by_cases hsw : F.getD c 0 = T.getD (r - 1) 0 ∧ c > 0 ∧ F.getD (c - 1) 0 = T.getD r 0
        · rw [if_pos hsw, if_pos ⟨hsw.1, hsw.2.1, hsw.2.2, by omega⟩,
            read_NNWW F T m R _ s hB hR r c rfl hcm hr hsw.2.1]
        · rw [if_neg hsw, if_neg (fun h => hsw ⟨h.1, h.2.1, h.2.2.1⟩)]
      rw [hv]
      have hB' := bufok_write F T m R _ s hB hR r c rfl hcm
        { buffer := s.buffer.set s.index (matrix F T (r + 1) (c + 1)),
          index := (s.index + 1) % R,
          low := if matrix F T (r + 1) (c + 1) < s.low ∨ c = 0
            then matrix F T (r + 1) (c + 1) else s.low }
        rfl
        (by show (s.index + 1) % R = _; rw [hB.idx, Nat.mod_add_mod])
      have := ih (c + 1) _ hB' (by omega) (by omega) (by
        intro _
        show (if matrix F T (r + 1) (c + 1) < s.low ∨ c = 0
            then matrix F T (r + 1) (c + 1) else s.low) ≤ _
        by_cases h0 : c = 0
        · subst h0; rw [if_pos (Or.inr rfl)]
        · have := hl (by omega)
          split_ifs with h
          · rcases h with h | h
            · omega
            · exact absurd h h0
          · exact this)
      exact this
    · have : c = m := by omega
      subst this
      rw [if_neg hcm]
      exact ⟨hB, hl⟩

theorem first_row_spec (F T : List Nat) (m R : Nat) (hR : R = 2 * m + 3) :
    ∀ (fuel c : Nat) (s : ed_state), BufOK F T m R c s → 1 ≤ c → c ≤ m → m - c ≤ fuel →
      BufOK F T m R m (first_row F T m fuel c s) := by
  intro fuel
  induction fuel with
  | zero =>
    intro c s hB _ hc hf
    have : c = m := by omega
    subst this
    exact hB
  | succ fuel ih =>
    intro c s hB h1 hc hf
    unfold first_row
    by_cases hcm : c < m
    · rw [if_pos hcm]
      simp only []
      have hidx : s.index = c := by rw [hB.idx, Nat.mod_eq_of_lt (by omega)]
      have hprev : s.buffer.getD (s.index - 1) 0 = matrix F T 1 c := by
        have := hB.cells 0 (c - 1) (by omega) (by omega) (by omega)
        simp only [Nat.zero_mul, Nat.zero_add] at this
        rw [Nat.mod_eq_of_lt (by omega)] at this
        rw [hidx, this]
        congr 1; omega
      have hv : min3 ((c : Int) * 1 + (if F.getD c 0 = T.getD 0 0 then 0 else 3))
          (((c : Int) + 1) * 1 + 1) (s.buffer.getD (s.index - 1) 0 + 1) =
          matrix F T 1 (c + 1) := by
        rw [matrix_succ, matrix_zero, matrix_zero, hprev]
        generalize (if F.getD c 0 = T.getD 0 0 then (0 : Int) else 3) = cost
        rw [if_neg (fun h => by omega)]
        push_cast
        simp only [mul_one]
      rw [hv]
      have hB' := bufok_write F T m R c s hB hR 0 c (by omega) hcm
        { buffer := s.buffer.set s.index (matrix F T 1 (c + 1)),
          index := s.index + 1,
          low := if matrix F T 1 (c + 1) < s.low then matrix F T 1 (c + 1) else s.low }
        rfl
        (by show s.index + 1 = _; rw [hidx, Nat.mod_eq_of_lt (by omega)])
      exact ih (c + 1) _ hB' (by omega) (by omega) (by omega)
    · have : c = m := by omega
      subst this
      rw [if_neg hcm]
      exact hB

theorem all_rows_spec (F T : List Nat) (m n R : Nat) (hR : R = 2 * m + 3) (hm : 1 ≤ m)
    (hn : n ≤ 99) :
    ∀ (fuel r : Nat) (s : ed_state), BufOK F T m R (r * m) s → 1 ≤ r → r ≤ n → n - r ≤ fuel →
      BufOK F T m R (n * m) (all_rows F T m n R fuel r s) := by
  intro fuel
  induction fuel with
  | zero =>
    intro r s hB _ hr hf
    have : r = n := by omega
    subst this
    exact hB
  | succ fuel ih =>
    intro r s hB h1 hr hf
    unfold all_rows
    by_cases hrn : r < n
    · rw [if_pos hrn]
      simp only []
      obtain ⟨hB1, hl1⟩ := next_row_spec F T m R r hR h1 m 0 s (by simpa using hB)
        (by omega) (by omega) (fun h => by omega)
      have hlow := hl1 hm
      have hcol := matrix_first_col F T (r + 1)
      rw [if_neg (by simp only [MIN_DIST]; push_cast at hcol; omega)]
      refine ih (r + 1) _ ?_ (by omega) (by omega) (by omega)
      have e : (r + 1) * m = r * m + m := by ring
      rw [e]; exact hB1
    · have : r = n := by omega
      subst this
      rw [if_neg hrn]
      exact hB

/-- The value `edit_distn` returns is the corner of the matrix, for strings
short enough for the fixed storage and the early exit. -/
theorem edit_distn_eq (F T : List Nat) (m n : Nat) (hm : 1 ≤ m) (hn : 1 ≤ n)
    (hm' : m ≤ STRLENTHRESHOLD) (hn' : n ≤ 99) :
    edit_distn F m T n = matrix F T n m := by
  unfold edit_distn
  rw [if_neg (by omega), if_neg (by omega)]
  have hsw : decide (m > n ∧ m > STRLENTHRESHOLD) = false := by
    simp only [decide_eq_false_iff_not]; omega
  simp only [hsw, Bool.false_eq_true, if_false]
  have hv0 : min2 (1 + 1) (if F.getD 0 0 = T.getD 0 0 then 0 else 3) = matrix F T 1 1 := by
    rw [matrix_succ, matrix_zero, matrix_zero, matrix_col_zero]
    generalize (if F.getD 0 0 = T.getD 0 0 then (0 : Int) else 3) = cost
    rw [if_neg (fun h => by omega)]
    simp only [min3_eq, min2_eq]
    push_cast
    rw [min_self, min_comm]
    norm_num
  rw [hv0]
  have hB0 : BufOK F T m (2 * m + 3) 1
      { buffer := (List.replicate (2 * m + 3) (0 : Int)).set 0 (matrix F T 1 1), index := 1,
        low := matrix F T 1 1 } := by
    refine ⟨by simp, by show 1 = 1 % (2 * m + 3); rw [Nat.mod_eq_of_lt (by omega)], ?_⟩
    intro r c hc h1 _
    have hr0 : r = 0 := by
      by_contra h
      have : m ≤ r * m := Nat.le_mul_of_pos_left m (by omega)
      omega
    subst hr0
    have hc0 : c = 0 := by omega
    subst hc0
    show ((List.replicate (2 * m + 3) (0 : Int)).set 0 (matrix F T 1 1)).getD _ 0 = _
    rw [getD_set_int]
    simp
  have hB1 := first_row_spec F T m (2 * m + 3) rfl m 1 _ hB0 (le_refl _) hm (by omega)
  have hB2 := all_rows_spec F T m n (2 * m + 3) rfl hm hn' n 1 _ (by simpa using hB1)
    (le_refl _) hn (by omega)
  have hk : n * m = (n - 1) * m + (m - 1) + 1 := by
    have : n = (n - 1) + 1 := by omega
    conv_lhs => rw [this]
    rw [Nat.add_mul, Nat.one_mul]; omega
  have hidx := hB2.idx
  have hcell := hB2.cells (n - 1) (m - 1) (by omega) (by omega) (by omega)
  rw [hidx]
  have hpos : ((n * m) % (2 * m + 3) + (2 * m + 3) - 1) % (2 * m + 3) =
      ((n - 1) * m + (m - 1)) % (2 * m + 3) := by
    have := idx_back (2 * m + 3) (n * m) ((n - 1) * m + (m - 1)) 1 (by omega) (by omega)
    rw [← this]
    congr 1
  rw [hpos, hcell]
  congr 1 <;> omega
/-! ## Common substrings and scores -/

theorem hcs_iff (s1 s2 : List Nat) :
    has_common_substring s1 s2 = 1 ↔
      ∃ i j, 6 ≤ i ∧ i < s2.length ∧ 6 ≤ j ∧ j < s1.length ∧
        (roll_sums roll_init s1).getD j 0 ≠ 0 ∧
        (roll_sums roll_init s1).getD j 0 = (roll_sums roll_init s2).getD i 0 ∧
        (s2.drop (i - 6)).take 7 = (s1.drop (j - 6)).take 7 := by
  unfold has_common_substring
  simp only [ROLLING_WINDOW]
  constructor
  · intro h
    split_ifs at h with hc
    · simp only [List.any_eq_true, List.mem_range, Bool.and_eq_true, decide_eq_true_eq] at hc
      obtain ⟨i, hi, hi6, j, hj, hj6, ⟨hne, heq⟩, _, hw⟩ := hc
      exact ⟨i, j, by omega, hi, hj6, hj, hne, heq, hw⟩
  · rintro ⟨i, j, hi6, hi, hj6, hj, hne, heq, hw⟩
    rw [if_pos]
    simp only [List.any_eq_true, List.mem_range, Bool.and_eq_true, decide_eq_true_eq]
    refine ⟨i, hi, by omega, j, hj, hj6, ⟨hne, heq⟩, ?_, hw⟩
    simp only [List.length_drop]; omega

theorem hcs_cases (s1 s2 : List Nat) :
    has_common_substring s1 s2 = 0 ∨ has_common_substring s1 s2 = 1 := by
  unfold has_common_substring
  simp only []
  split_ifs
  · right; rfl
  · left; rfl

theorem hcs_symm (s1 s2 : List Nat) :
    has_common_substring s1 s2 = has_common_substring s2 s1 := by
  have key : ∀ a b, has_common_substring a b = 1 → has_common_substring b a = 1 := by
    intro a b h
    obtain ⟨i, j, hi6, hi, hj6, hj, hne, heq, hw⟩ := (hcs_iff a b).1 h
    exact (hcs_iff b a).2 ⟨j, i, hj6, hj, hi6, hi, by rw [← heq]; exact hne, heq.symm, hw.symm⟩
  rcases hcs_cases s1 s2 with h1 | h1 <;> rcases hcs_cases s2 s1 with h2 | h2
  · rw [h1, h2]
  · have := key s2 s1 h2; omega
  · have := key s1 s2 h1; omega
  · rw [h1, h2]

theorem hcs_len (s1 s2 : List Nat) (h : has_common_substring s1 s2 ≠ 0) :
    7 ≤ s1.length ∧ 7 ≤ s2.length := by
  rcases hcs_cases s1 s2 with h0 | h1
  · exact absurd h0 h
  · obtain ⟨i, j, hi6, hi, hj6, hj, _⟩ := (hcs_iff s1 s2).1 h1
    exact ⟨by omega, by omega⟩

/-- `score_strings` does not depend on the order of its two strings. -/
theorem score_strings_symm (s1 s2 : List Nat) (bs : Nat) :
    score_strings s1 s2 bs = score_strings s2 s1 bs := by
  unfold score_strings
  simp only []
  by_cases hl : s1.length > SPAMSUM_LENGTH ∨ s2.length > SPAMSUM_LENGTH
  · rw [if_pos hl, if_pos (Or.symm hl)]
  · rw [if_neg hl, if_neg (fun h => hl (Or.symm h)), hcs_symm s2 s1]
    by_cases hc : has_common_substring s1 s2 = 0
    · rw [if_pos hc, if_pos hc]
    · rw [if_neg hc, if_neg hc]
      obtain ⟨l1, l2⟩ := hcs_len s1 s2 hc
      simp only [SPAMSUM_LENGTH] at hl
      have e : edit_distn s1 s1.length s2 s2.length = edit_distn s2 s2.length s1 s1.length := by
        rw [edit_distn_eq s1 s2 _ _ (by omega) (by omega) (by simp only [STRLENTHRESHOLD]; omega)
            (by omega),
          edit_distn_eq s2 s1 _ _ (by omega) (by omega) (by simp only [STRLENTHRESHOLD]; omega)
            (by omega)]
        exact matrix_symm s1 s2 _ _ _ (le_refl _)
      rw [e, Nat.add_comm s1.length s2.length, Nat.min_comm s1.length s2.length]

/-- The score of a string against itself. -/
theorem score_strings_self (s : List Nat) (bs : Nat) (hl : s.length ≤ 64)
    (hc : has_common_substring s s = 1) :
    score_strings s s bs = min 100 (bs / 3 * s.length) := by
  obtain ⟨l1, _⟩ := hcs_len s s (by omega)
  unfold score_strings
  simp only [SPAMSUM_LENGTH, MIN_BLOCKSIZE]
  rw [if_neg (by omega), if_neg (by omega),
    edit_distn_eq s s _ _ (by omega) (by omega) (by simp only [STRLENTHRESHOLD]; omega)
      (by omega), matrix_diag]
  simp only [Int.zero_emod, Int.toNat_zero, Nat.zero_mul, Nat.zero_mod, Nat.zero_div,
    Nat.mul_zero, Nat.min_self]
  rw [if_neg (by omega)]
  split_ifs with h
  · rw [Nat.mod_eq_of_lt (by omega)]; omega
  · omega
theorem double_twice (a b : Nat) (h1 : a = (b * 2) % 2 ^ 32) (h2 : b = (a * 2) % 2 ^ 32) :
    a = b := by
  have e : (2 : Nat) ^ 32 = 4294967296 := by norm_num
  rw [e] at h1 h2
  have ha : a < 4294967296 := by rw [h1]; exact Nat.mod_lt _ (by norm_num)
  have hb : b < 4294967296 := by rw [h2]; exact Nat.mod_lt _ (by norm_num)
  have d1 := Nat.div_add_mod (b * 2) 4294967296
  have d2 := Nat.div_add_mod (a * 2) 4294967296
  rw [← h1] at d1
  rw [← h2] at d2
  have q1 : b * 2 / 4294967296 ≤ 1 := by
    have : b * 2 / 4294967296 < 2 := Nat.div_lt_of_lt_mul (by linarith)
    exact Nat.lt_succ_iff.1 this
  have q2 : a * 2 / 4294967296 ≤ 1 := by
    have : a * 2 / 4294967296 < 2 := Nat.div_lt_of_lt_mul (by linarith)
    exact Nat.lt_succ_iff.1 this
  generalize b * 2 / 4294967296 = x at d1 q1
  generalize a * 2 / 4294967296 = y at d2 q2
  clear h1 h2 e
  interval_cases x <;> interval_cases y <;> omega

theorem combine_symm (b1 b2 : Nat) (p1 p2 : List Nat × List Nat)
    (h : ¬ (b1 ≠ b2 ∧ b1 ≠ (b2 * 2) % 2 ^ 32 ∧ b2 ≠ (b1 * 2) % 2 ^ 32)) :
    combine b1 b2 p1 p2 = combine b2 b1 p2 p1 := by
  unfold combine
  by_cases e : b1 = b2
  · subst e
    rw [if_pos rfl, if_pos rfl, score_strings_symm p2.1 p1.1, score_strings_symm p2.2 p1.2]
  · have e' : ¬ b2 = b1 := fun h => e h.symm
    simp only [if_neg e, if_neg e']
    by_cases e2 : b1 = (b2 * 2) % 2 ^ 32
    · have e3 : ¬ b2 = (b1 * 2) % 2 ^ 32 := fun h3 => e (double_twice b1 b2 e2 h3)
      simp only [if_pos e2, if_neg e3]
      rw [score_strings_symm]
    · have e3 : b2 = (b1 * 2) % 2 ^ 32 := by
        by_contra hc; exact h ⟨e, e2, hc⟩
      simp only [if_neg e2, if_pos e3]
      rw [score_strings_symm]

/-- The signature of a buffer whose length fits `uint32_t`. -/
theorem hash_buf_form (B : List Nat) (hlen : B.length < 2 ^ 32) :
    ∃ bi S1 S2, bi ≤ 25 ∧
      fuzzy_hash_buf B = Outcome.ok (dec (SSDEEP_BS bi) ++ 58 :: S1 ++ 58 :: S2) ∧
      S1.length ≤ 64 ∧ S2.length ≤ 64 ∧ (∀ c ∈ S1, c ∈ b64) ∧ (∀ c ∈ S2, c ∈ b64) := by
  obtain ⟨s, e, hI, ht⟩ := update_inv fuzzy_new B inv_new
    (by show 0 + B.length < 2 ^ 64; omega)
  have ht' : s.total_size = B.length := by rw [ht]; show 0 + B.length = B.length; omega
  have h1 := hI.start_lt
  have h2 := hI.end_le
  simp only [NUM_BLOCKHASHES] at h2
  have hbig : ¬ (SSDEEP_BS 25 * SPAMSUM_LENGTH < s.total_size) := by
    rw [ht', SSDEEP_BS_eq 25 (by norm_num)]; simp only [SPAMSUM_LENGTH]; omega
  have hst : s.bhstart ≤ 25 := by
    by_contra hc
    have := hI.size (by omega)
    have hm := SSDEEP_BS_mono 25 (s.bhstart - 1) (by omega) (by omega)
    simp only [SPAMSUM_LENGTH] at this hbig
    omega
  obtain ⟨g, hg, hg25⟩ := guess_loop_some s.total_size 25 (by norm_num) hbig
    (NUM_BLOCKHASHES + 1) s.bhstart hst (by simp only [NUM_BLOCKHASHES]; omega)
  have hc : choose_bi s = some (long_enough s (below_end s.bhend g)) := by
    unfold choose_bi; rw [hg]; rfl
  obtain ⟨c1, c2, c3, c4⟩ := choose_bi_spec s hI _ hc
  have hle : long_enough s (below_end s.bhend g) ≤ 25 := by
    have g1 := (guess_loop_spec _ _ _ _ hg).1
    rw [below_end_eq _ (by omega)] at *
    have := (long_enough_spec s (min g (s.bhend - 1)) (by omega)).2.1
    omega
  generalize long_enough s (below_end s.bhend g) = bi at hc c1 c2 c3 c4 hle
  obtain ⟨S1, S2, ed, l1, l2, a1, a2⟩ := digest_form s 0 bi hI hc (by
    intro hb _
    have : bi = s.bhend - 1 := by omega
    rw [this]
    exact hI.last (by simp only [NUM_BLOCKHASHES]; omega))
  refine ⟨bi, S1, S2, hle, ?_, l1, l2, a1, a2⟩
  unfold fuzzy_hash_buf
  rw [e]
  exact ed

/-! ## A signature compared with itself, and signatures of different blocksizes -/

theorem elim_rest_length : ∀ (A : List Nat) (p3 p2 p1 : Nat),
    (elim_rest p3 p2 p1 A).length ≤ A.length := by
  intro A
  induction A with
  | nil => intro _ _ _; simp [elim_rest]
  | cons x t ih =>
    intro p3 p2 p1
    simp only [elim_rest]
    split_ifs
    · simp only [List.length_cons]; have := ih p2 p1 x; omega
    · simp only [List.length_cons]; have := ih p2 p1 x; omega

theorem elim_length (A : List Nat) : (eliminate_sequences A).length ≤ A.length := by
  match A with
  | [] => simp [eliminate_sequences]
  | [a] => simp [eliminate_sequences]
  | [a, b] => simp [eliminate_sequences]
  | a :: b :: d :: t =>
    simp only [eliminate_sequences, List.length_cons]
    have := elim_rest_length t a b d
    omega

theorem self_compare (d : List Nat) (bs : Nat) (p : List Nat × List Nat)
    (hs : scan_u d = some bs) (hp : pieces d = some p) (hl : p.1.length ≤ 64)
    (hc : has_common_substring p.1 p.1 = 1) (hcap : 100 ≤ bs / 3 * p.1.length) :
    fuzzy_compare d d = 100 := by
  rw [fuzzy_compare_eq, hs, hp]
  simp only []
  rw [if_neg (fun h => h.1 rfl)]
  unfold combine
  rw [if_pos rfl, score_strings_self p.1 bs hl hc, Nat.min_eq_left hcap]
  have := score_strings_le p.2 p.2 ((bs * 2) % 2 ^ 32)
  split_ifs
  · rfl
  · have e : score_strings p.2 p.2 ((bs * 2) % 2 ^ 32) = 100 := by omega
    rw [e]; rfl

theorem b64_no_colon : (58 : Nat) ∉ b64 := by decide

theorem dec_no_colon (n : Nat) : (58 : Nat) ∉ dec n := by
  intro h
  have := (dec_spec n).1 58 h
  omega

/-- The parts `fuzzy_compare` cuts out of a signature made by `fuzzy_hash_buf`. -/
theorem hash_buf_pieces (B : List Nat) (hlen : B.length < 2 ^ 32) :
    ∃ bi d p, bi ≤ 25 ∧ fuzzy_hash_buf B = Outcome.ok d ∧ scan_u d = some (SSDEEP_BS bi) ∧
      pieces d = some p ∧ p.1.length ≤ 64 := by
  obtain ⟨bi, S1, S2, hbi, e, l1, l2, a1, a2⟩ := hash_buf_form B hlen
  have hS : (58 : Nat) ∉ S1 := fun h => b64_no_colon (a1 58 h)
  obtain ⟨W, hW, hp⟩ := pieces_form (dec (SSDEEP_BS bi)) S1 S2 (dec_no_colon _) hS
  refine ⟨bi, _, (eliminate_sequences S1, chop W 44), hbi, e, ?_, ?_, ?_⟩
  · have hlt : SSDEEP_BS bi < 2 ^ 32 := by
      unfold SSDEEP_BS; exact Nat.mod_lt _ (by norm_num)
    have := scan_dec (SSDEEP_BS bi) hlt (S1 ++ 58 :: S2)
    simpa using this
  · rw [← hp]
  · exact le_trans (elim_length S1) l1

theorem pow_blocksize (k : Nat) (hk : k ≤ 30) :
    3 * 2 ^ k < 2 ^ 32 ∧ (3 * 2 ^ k * 2) % 2 ^ 32 = if k = 30 then 2 ^ 31 else 3 * 2 ^ (k + 1) := by
  have h1 : 2 ^ k ≤ 2 ^ 30 := Nat.pow_le_pow_right (by norm_num) hk
  refine ⟨by omega, ?_⟩
  split_ifs with h
  · subst h; norm_num
  · have h2 : 2 ^ (k + 1) ≤ 2 ^ 30 := Nat.pow_le_pow_right (by norm_num) (by omega)
    rw [pow_succ] at h2 ⊢
    rw [Nat.mod_eq_of_lt (by omega)]
    ring

theorem blocksize_ne (k1 k2 : Nat) (h1 : k1 ≤ 30) (h2 : k2 ≤ 30) (hne : k1 ≠ k2 + 1) :
    3 * 2 ^ k1 ≠ (3 * 2 ^ k2 * 2) % 2 ^ 32 := by
  rw [(pow_blocksize k2 h2).2]
  split_ifs with h
  · intro e
    have : (3 * 2 ^ k1) % 3 = 0 := Nat.mul_mod_right _ _
    rw [e] at this
    norm_num at this
  · intro e
    have e2 : 2 ^ k1 = 2 ^ (k2 + 1) := by omega
    exact hne (Nat.pow_right_injective (le_refl 2) e2)

/-! ## The run over the long text -/

theorem same_slot_eq (a b : blockhash_context) (h : same_slot a b = true) : a = b := by
  unfold same_slot at h
  simp only [Bool.and_eq_true, beq_iff_eq] at h
  cases a; cases b
  simp only [blockhash_context.mk.injEq]
  exact ⟨h.1, h.2.1, h.2.2⟩

theorem same_slots_eq : ∀ (s t : List blockhash_context), same_slots s t = true → s = t := by
  intro s
  induction s with
  | nil => intro t h; cases t with
    | nil => rfl
    | cons b t => simp [same_slots] at h
  | cons a s ih =>
    intro t h
    cases t with
    | nil => simp [same_slots] at h
    | cons b t =>
      simp only [same_slots, Bool.and_eq_true] at h
      rw [same_slot_eq a b h.1, ih t h.2]

theorem same_state_eq (a b : fuzzy_state) (h : same_state a b = true) : a = b := by
  unfold same_state at h
  simp only [Bool.and_eq_true, beq_iff_eq] at h
  obtain ⟨h1, h2, h3, h4, h5, h6, h7, h8, h9⟩ := h
  have h3' := same_slots_eq _ _ h3
  cases a with
  | mk a1 a2 a3 a4 a5 =>
    cases b with
    | mk b1 b2 b3 b4 b5 =>
      cases a5; cases b5
      simp only at h1 h2 h3' h4 h5 h6 h7 h8 h9
      simp only [fuzzy_state.mk.injEq, roll_state.mk.injEq]
      exact ⟨h1, h2, h3', h4, h5, h6, h7, h8, h9⟩

theorem ends_in_eq (r : Option fuzzy_state) (b : fuzzy_state) (h : ends_in r b = true) :
    r = some b := by
  cases r with
  | none => simp [ends_in] at h
  | some a => rw [same_state_eq a b h]

theorem fox_step_1 : feed fox_state_0 fox10 = some fox_state_1 :=
  ends_in_eq _ _ (by decide!)

theorem fox_step_2 : feed fox_state_1 fox10 = some fox_state_2 :=
  ends_in_eq _ _ (by decide!)

theorem fox_step_3 : feed fox_state_2 fox10 = some fox_state_3 :=
  ends_in_eq _ _ (by decide!)

theorem fox_step_4 : feed fox_state_3 fox10 = some fox_state_4 :=
  ends_in_eq _ _ (by decide!)

theorem fox_step_5 : feed fox_state_4 fox10 = some fox_state_5 :=
  ends_in_eq _ _ (by decide!)

theorem fox_step_6 : feed fox_state_5 fox10 = some fox_state_6 :=
  ends_in_eq _ _ (by decide!)

theorem fox_step_7 : feed fox_state_6 fox10 = some fox_state_7 :=
  ends_in_eq _ _ (by decide!)

theorem fox_step_8 : feed fox_state_7 fox10 = some fox_state_8 :=
  ends_in_eq _ _ (by decide!)

theorem fox_step_9 : feed fox_state_8 fox10 = some fox_state_9 :=
  ends_in_eq _ _ (by decide!)

theorem fox_step_10 : feed fox_state_9 fox10 = some fox_state_10 :=
  ends_in_eq _ _ (by decide!)

theorem fox_text_split (x : List Nat) (m n : Nat) :
    (List.replicate (m + n) x).flatten =
      (List.replicate m x).flatten ++ (List.replicate n x).flatten := by
  rw [List.replicate_add, List.flatten_append]

theorem feed_chain (s s1 s2 : fuzzy_state) (a b : List Nat) (h1 : feed s a = some s1)
    (h2 : feed s1 b = some s2) : feed s (a ++ b) = some s2 := by
  rw [feed_append, h1]; exact h2

theorem fox_feed :
    feed fox_state_0
        (List.replicate 100 (chars "The quick brown fox jumps over the lazy dog")).flatten =
      some fox_state_10 := by
  have e : ∀ n, (List.replicate (10 + n)
      (chars "The quick brown fox jumps over the lazy dog")).flatten =
      fox10 ++ (List.replicate n (chars "The quick brown fox jumps over the lazy dog")).flatten :=
    fun n => fox_text_split _ 10 n
  have h9 := (e 10).symm ▸ feed_chain _ _ _ _ _ fox_step_9 fox_step_10
  have h8 := (e 20).symm ▸ feed_chain _ _ _ _ _ fox_step_8 h9
  have h7 := (e 30).symm ▸ feed_chain _ _ _ _ _ fox_step_7 h8
  have h6 := (e 40).symm ▸ feed_chain _ _ _ _ _ fox_step_6 h7
  have h5 := (e 50).symm ▸ feed_chain _ _ _ _ _ fox_step_5 h6
  have h4 := (e 60).symm ▸ feed_chain _ _ _ _ _ fox_step_4 h5
  have h3 := (e 70).symm ▸ feed_chain _ _ _ _ _ fox_step_3 h4
  have h2 := (e 80).symm ▸ feed_chain _ _ _ _ _ fox_step_2 h3
  exact (e 90).symm ▸ feed_chain _ _ _ _ _ fox_step_1 h2

theorem update_of (s s0 s1 : fuzzy_state) (X : List Nat)
    (e : ({ s with total_size := (s.total_size + X.length) % 2 ^ 64 } : fuzzy_state) = s0)
    (h : feed s0 X = some s1) : fuzzy_update s X = some s1 := by
  unfold fuzzy_update
  rw [e]
  exact h

theorem hash_buf_of (X : List Nat) (s : fuzzy_state) (d : Outcome (List Nat))
    (h : fuzzy_update fuzzy_new X = some s) (hd : fuzzy_digest s 0 = d) :
    fuzzy_hash_buf X = d := by
  unfold fuzzy_hash_buf
  rw [h]
  exact hd

theorem fox_start :
    ({ fuzzy_new with
        total_size := (fuzzy_new.total_size +
          (List.replicate 100
            (chars "The quick brown fox jumps over the lazy dog")).flatten.length) % 2 ^ 64 }
      : fuzzy_state) = fox_state_0 := by
  apply same_state_eq
  decide!

theorem fox_digest :
    fuzzy_digest fox_state_10 0 =
      Outcome.ok
        (chars "6:FHIGYIGYIGYIGYIGYIGYIGYIGYIGYIGYIGYIGYIGYIGYIGYIGYIGYIGYIGYIGYIw:Fp") := by
  decide!

theorem fox_hash :
    fuzzy_hash_buf
        (List.replicate 100 (chars "The quick brown fox jumps over the lazy dog")).flatten =
      Outcome.ok
        (chars "6:FHIGYIGYIGYIGYIGYIGYIGYIGYIGYIGYIGYIGYIGYIGYIGYIGYIGYIGYIGYIGYIw:Fp") :=
  hash_buf_of _ _ _ (update_of _ _ _ _ fox_start fox_feed) fox_digest

/-! ## The window of the rolling hash, runs of characters, the room of the digest -/

theorem h3_of_cons (a c : Nat) (w : List Nat) :
    h3_of a (c :: w) = h3_of (Nat.xor ((a <<< 5) % 2 ^ 32) c) w := rfl

theorem h3_of_append (a : Nat) (u w : List Nat) : h3_of a (u ++ w) = h3_of (h3_of a u) w := by
  unfold h3_of
  rw [List.foldl_append]

theorem h3_of_zeros (k : Nat) : h3_of 0 (List.replicate k 0) = 0 := by
  induction k with
  | zero => rfl
  | succ k ih =>
    rw [List.replicate_succ, h3_of_cons]
    exact ih

theorem h3_of_bits : ∀ (w : List Nat) (a b : Nat),
    (∀ j, j + 5 * w.length < 32 → a.testBit j = b.testBit j) →
    ∀ j, j < 32 → (h3_of a w).testBit j = (h3_of b w).testBit j := by
  intro w
  induction w with
  | nil =>
    intro a b h j hj
    exact h j (by simpa using hj)
  | cons c t ih =>
    intro a b h j hj
    rw [h3_of_cons, h3_of_cons]
    apply ih _ _ _ j hj
    intro i hi
    show (((a <<< 5) % 2 ^ 32) ^^^ c).testBit i = (((b <<< 5) % 2 ^ 32) ^^^ c).testBit i
    rw [Nat.testBit_xor, Nat.testBit_xor, Nat.testBit_mod_two_pow, Nat.testBit_mod_two_pow,
      Nat.testBit_shiftLeft, Nat.testBit_shiftLeft]
    by_cases h5 : 5 ≤ i
    · have := h (i - 5) (by simp only [List.length_cons] at hi ⊢; omega)
      rw [this]
    · simp [h5]

theorem h3_of_lt (a : Nat) (w : List Nat) (hw : ∀ c ∈ w, c < 256) (hne : w ≠ []) :
    h3_of a w < 2 ^ 32 := by
  induction w generalizing a with
  | nil => exact absurd rfl hne
  | cons c t ih =>
    rw [h3_of_cons]
    by_cases ht : t = []
    · subst ht
      show (((a <<< 5) % 2 ^ 32) ^^^ c) < 2 ^ 32
      apply Nat.xor_lt_two_pow
      · exact Nat.mod_lt _ (by norm_num)
      · have := hw c (List.mem_cons_self _ _)
        omega
    · exact ih _ (fun x hx => hw x (List.mem_cons_of_mem _ hx)) ht

theorem h3_of_window (a b : Nat) (w : List Nat) (hw : ∀ c ∈ w, c < 256) (hl : w.length = 7) :
    h3_of a w = h3_of b w := by
  have hne : w ≠ [] := by intro h; rw [h] at hl; simp at hl
  apply Nat.eq_of_testBit_eq
  intro j
  by_cases hj : j < 32
  · exact h3_of_bits w a b (fun i hi => by omega) j hj
  · have h1 := h3_of_lt a w hw hne
    have h2 := h3_of_lt b w hw hne
    have hp : (2 : Nat) ^ 32 ≤ 2 ^ j := Nat.pow_le_pow_right (by norm_num) (by omega)
    rw [Nat.testBit_lt_two_pow (by omega), Nat.testBit_lt_two_pow (by omega)]
theorem last7_length (xs : List Nat) : (last7 xs).length = 7 := by
  unfold last7
  simp only [List.length_drop, List.length_append, List.length_replicate]
  omega

theorem last7_snoc (xs : List Nat) (c : Nat) : last7 (xs ++ [c]) = (last7 xs).drop 1 ++ [c] := by
  unfold last7
  rw [List.drop_drop, List.length_append, List.length_singleton, ← List.append_assoc,
    List.drop_append_of_le_length (by simp)]

theorem last7_lt (xs : List Nat) (h : ∀ c ∈ xs, c < 256) : ∀ c ∈ last7 xs, c < 256 := by
  intro c hc
  unfold last7 at hc
  have := List.mem_of_mem_drop hc
  rcases List.mem_append.1 this with h1 | h1
  · rw [List.eq_of_mem_replicate h1]; norm_num
  · exact h c h1

theorem last7_self (w : List Nat) (hl : w.length = 7) : last7 w = w := by
  unfold last7
  rw [hl, List.drop_append_of_le_length (by simp)]
  simp

theorem seven_cells (w : List Nat) (hl : w.length = 7) :
    ∃ a b c d e f g, w = [a, b, c, d, e, f, g] := by
  match w, hl with
  | [a, b, c, d, e, f, g], _ => exact ⟨a, b, c, d, e, f, g, rfl⟩

theorem roll_feed_snoc (xs : List Nat) (c : Nat) :
    roll_feed (xs ++ [c]) = roll_hash (roll_feed xs) c := by
  unfold roll_feed
  rw [List.foldl_append]
  rfl

theorem roll_feed_append (xs ys : List Nat) :
    roll_feed (xs ++ ys) = ys.foldl roll_hash (roll_feed xs) := by
  unfold roll_feed
  rw [List.foldl_append]

theorem roll_feed_h3 (xs : List Nat) : (roll_feed xs).h3 = h3_of 0 xs := by
  induction xs using List.reverseRecOn with
  | nil => rfl
  | append_singleton xs c ih =>
    rw [roll_feed_snoc, h3_of_append]
    show Nat.xor (((roll_feed xs).h3 <<< 5) % 2 ^ 32) c = _
    rw [ih]
    rfl

theorem h3_last7 (xs : List Nat) (h : ∀ c ∈ xs, c < 256) : h3_of 0 xs = h3_of 0 (last7 xs) := by
  have e : List.replicate 7 0 ++ xs =
      (List.replicate 7 0 ++ xs).take xs.length ++ last7 xs := by
    unfold last7
    rw [List.take_append_drop]
  have e1 : h3_of 0 (List.replicate 7 0 ++ xs) = h3_of 0 xs := by
    rw [h3_of_append, h3_of_zeros]
  rw [← e1, e, h3_of_append]
  exact h3_of_window _ _ _ (last7_lt xs h) (last7_length xs)
theorem getD_set_nat (l : List Nat) (i j : Nat) (v : Nat) :
    (l.set i v).getD j 0 = if i = j ∧ i < l.length then v else l.getD j 0 := by
  simp only [List.getD_eq_getElem?_getD, List.getElem?_set]
  by_cases h1 : i = j
  · by_cases h2 : i < l.length
    · rw [if_pos h1, if_pos h2, if_pos ⟨h1, h2⟩]; rfl
    · rw [if_pos h1, if_neg h2, if_neg (fun h => h2 h.2), List.getElem?_eq_none (by omega)]
  · rw [if_neg h1, if_neg (fun h => h1 h.1)]

theorem roll_window (xs : List Nat) (h : ∀ c ∈ xs, c < 256) (hl : xs.length < 2 ^ 32) :
    (roll_feed xs).n = xs.length ∧ (roll_feed xs).window.length = 7 ∧
      (∀ j, j < 7 → (roll_feed xs).window.getD ((xs.length + j) % 7) 0 = (last7 xs).getD j 0) ∧
      (roll_feed xs).h1 = (last7 xs).sum ∧ (roll_feed xs).h2 = weigh 1 (last7 xs) := by
  induction xs using List.reverseRecOn with
  | nil =>
    refine ⟨rfl, rfl, ?_, rfl, rfl⟩
    intro j hj
    interval_cases j <;> rfl
  | append_singleton xs c ih =>
    have hxs : ∀ c ∈ xs, c < 256 := fun x hx => h x (List.mem_append_left _ hx)
    have hc : c < 256 := h c (List.mem_append_right _ (List.mem_singleton_self c))
    rw [List.length_append, List.length_singleton] at hl
    obtain ⟨i1, i2, i3, i4, i5⟩ := ih hxs (by omega)
    obtain ⟨w0, w1, w2, w3, w4, w5, w6, hw⟩ := seven_cells _ (last7_length xs)
    have hb := last7_lt xs hxs
    rw [hw] at hb i3 i4 i5
    have b0 := hb w0 (by simp)
    have b1 := hb w1 (by simp)
    have b2 := hb w2 (by simp)
    have b3 := hb w3 (by simp)
    have b4 := hb w4 (by simp)
    have b5 := hb w5 (by simp)
    have b6 := hb w6 (by simp)
    have e0 := i3 0 (by norm_num)
    simp only [Nat.add_zero, List.getD_cons_zero] at e0
    simp only [List.sum_cons, List.sum_nil] at i4
    simp only [weigh] at i5
    rw [roll_feed_snoc, last7_snoc, hw, List.length_append, List.length_singleton]
    simp only [List.drop_succ_cons, List.drop_zero, List.cons_append, List.nil_append,
      List.sum_cons, List.sum_nil, weigh]
    unfold roll_hash sub32
    simp only [ROLLING_WINDOW, i1, i2, i4, i5, e0, List.length_set]
    refine ⟨by omega, trivial, ?_, by omega, by omega⟩
    intro j hj
    rw [getD_set_nat]
    by_cases hj6 : j = 6
    · subst hj6
      rw [if_pos ⟨by omega, by omega⟩]
      rfl
    · rw [if_neg (fun hh => by omega)]
      have := i3 (j + 1) (by omega)
      have e : (xs.length + 1 + j) % 7 = (xs.length + (j + 1)) % 7 := by
        congr 1; omega
      rw [e, this]
      interval_cases j <;> first | rfl | omega
theorem last7_append (pre w : List Nat) (hl : w.length = 7) : last7 (pre ++ w) = w := by
  unfold last7
  rw [← List.append_assoc, List.length_append, hl,
    List.drop_append_of_le_length (by simp), List.drop_eq_nil_of_le (by simp)]
  rfl

theorem roll_sum_window (xs : List Nat) (h : ∀ c ∈ xs, c < 256) (hl : xs.length < 2 ^ 32) :
    roll_sum (roll_feed xs) = roll_sum (roll_feed (last7 xs)) := by
  have hb := last7_lt xs h
  have h7 := last7_length xs
  obtain ⟨_, _, _, a1, a2⟩ := roll_window xs h hl
  obtain ⟨_, _, _, b1, b2⟩ := roll_window (last7 xs) hb (by rw [h7]; norm_num)
  rw [last7_self _ h7] at b1 b2
  unfold roll_sum
  rw [a1, a2, b1, b2, roll_feed_h3, roll_feed_h3, h3_last7 xs h]

theorem roll_feed_ones (k : Nat) (h7 : 7 ≤ k) (hk : k < 2 ^ 32) :
    roll_feed (List.replicate k 1) =
      { window := [1, 1, 1, 1, 1, 1, 1], h1 := 7, h2 := 28, h3 := 0x42108421, n := k } := by
  induction k with
  | zero => omega
  | succ k ih =>
    by_cases h : k = 6
    · subst h
      rfl
    · rw [List.replicate_succ', roll_feed_snoc, ih (by omega) (by omega)]
      unfold roll_hash sub32
      simp only [ROLLING_WINDOW]
      have hm : k % 7 < 7 := Nat.mod_lt _ (by norm_num)
      have hn : (k + 1) % 2 ^ 32 = k + 1 := Nat.mod_eq_of_lt hk
      rw [hn]
      generalize k % 7 = m at hm
      interval_cases m <;> rfl
theorem elim_rest_cap (t : List Nat) : ∀ (p3 p2 p1 r : Nat), 1 ≤ r → (2 ≤ r ↔ p1 = p2) →
    (3 ≤ r ↔ p1 = p2 ∧ p2 = p3) → elim_rest p3 p2 p1 t = cap_run p1 r t := by
  induction t with
  | nil => intro p3 p2 p1 r _ _ _; rfl
  | cons c t ih =>
    intro p3 p2 p1 r h1 h2 h3
    unfold elim_rest cap_run
    by_cases hc : c = p1
    · subst hc
      rw [if_pos rfl]
      by_cases hr : 3 ≤ r
      · have := h3.1 hr
        rw [if_neg (by rw [← this.2, ← this.1]; simp), if_pos hr]
        exact ih _ _ _ _ (by omega) (by constructor <;> intro _ <;> first | rfl | omega)
          (by constructor <;> intro _ <;> first | exact ⟨rfl, this.1⟩ | omega)
      · have hn : ¬ (c = p2 ∧ p2 = p3) := fun h => hr (h3.2 h)
        rw [if_pos (by by_contra hh; push_neg at hh; exact hn ⟨hh.2.1, hh.2.1.symm.trans hh.2.2⟩),
          if_neg hr]
        congr 1
        refine ih _ _ _ _ (by omega) (by constructor <;> intro _ <;> first | rfl | omega) ?_
        constructor
        · intro h; exact ⟨rfl, h2.1 (by omega)⟩
        · intro h; have := h2.2 h.2; omega
    · rw [if_pos (Or.inl hc), if_neg hc]
      congr 1
      refine ih _ _ _ _ (le_refl 1) ?_ ?_
      · constructor
        · intro h; omega
        · intro h; exact absurd h hc
      · constructor
        · intro h; omega
        · intro h; exact absurd h.1 hc

theorem cap_run_cons (last run c : Nat) (t : List Nat) :
    cap_run last run (c :: t) =
      if c = last then
        if 3 ≤ run then cap_run c (run + 1) t else c :: cap_run c (run + 1) t
      else c :: cap_run c 1 t := rfl

theorem cap_run_two (a b : Nat) (t : List Nat) :
    ∃ r, 1 ≤ r ∧ (2 ≤ r ↔ b = a) ∧ r ≤ 2 ∧ cap_run a 1 (b :: t) = b :: cap_run b r t := by
  rw [cap_run_cons]
  by_cases h : b = a
  · rw [if_pos h, if_neg (by norm_num)]
    exact ⟨2, by norm_num, by simp [h], le_refl 2, rfl⟩
  · rw [if_neg h]
    exact ⟨1, le_refl 1, by simp [h], by norm_num, rfl⟩

theorem cap_runs_three (a b c : Nat) (t : List Nat) :
    ∃ r, 1 ≤ r ∧ (2 ≤ r ↔ c = b) ∧ (3 ≤ r ↔ c = b ∧ b = a) ∧
      cap_runs (a :: b :: c :: t) = a :: b :: c :: cap_run c r t := by
  obtain ⟨r, r1, r2, r3, e⟩ := cap_run_two a b (c :: t)
  show ∃ r, _ ∧ _ ∧ _ ∧ a :: cap_run a 1 (b :: c :: t) = _
  rw [e, cap_run_cons]
  by_cases h : c = b
  · rw [if_pos h, if_neg (by omega)]
    refine ⟨r + 1, by omega, ⟨fun _ => h, fun _ => by omega⟩, ?_, rfl⟩
    constructor
    · intro h3; exact ⟨h, r2.1 (by omega)⟩
    · intro h3; have := r2.2 h3.2; omega
  · rw [if_neg h]
    exact ⟨1, le_refl 1, by simp [h], by simp [h], rfl⟩

theorem cap_runs_short (s : List Nat) (h : s.length < 3) : cap_runs s = s := by
  match s, h with
  | [], _ => rfl
  | [a], _ => rfl
  | [a, b], _ =>
    obtain ⟨r, _, _, _, e⟩ := cap_run_two a b []
    show a :: cap_run a 1 [b] = _
    rw [e]
    rfl

theorem eliminate_cap (s : List Nat) : eliminate_sequences s = cap_runs s := by
  match s with
  | [] => rfl
  | [a] => rfl
  | [a, b] => exact (cap_runs_short [a, b] (by simp)).symm
  | a :: b :: c :: t =>
    obtain ⟨r, r1, r2, r3, e⟩ := cap_runs_three a b c t
    rw [e]
    show a :: b :: c :: elim_rest a b c t = _
    congr 3
    exact elim_rest_cap t _ _ _ _ r1 r2 r3

theorem elim_copy_cap (src : List Nat) : ∀ (d0 d1 d2 : Nat) (rest : List Nat) (r : Nat),
    1 ≤ r → (2 ≤ r ↔ d0 = d1) → (3 ≤ r ↔ d0 = d1 ∧ d1 = d2) →
    elim_copy (d0 :: d1 :: d2 :: rest) src =
      (d0 :: d1 :: d2 :: rest).reverse ++ cap_run d0 r src := by
  induction src with
  | nil => intro d0 d1 d2 rest r _ _ _; simp [elim_copy, cap_run]
  | cons c t ih =>
    intro d0 d1 d2 rest r h1 h2 h3
    unfold elim_copy
    simp only [List.getD_cons_zero, List.getD_cons_succ]
    rw [cap_run_cons]
    by_cases hc : c = d0
    · subst hc
      rw [if_pos rfl]
      by_cases hr : 3 ≤ r
      · have := h3.1 hr
        rw [if_pos ⟨rfl, this.1, this.1.trans this.2⟩, if_pos hr]
        exact ih _ _ _ _ _ (by omega) ⟨fun _ => this.1, fun _ => by omega⟩
          ⟨fun _ => this, fun _ => by omega⟩
      · have hn : ¬ (c = c ∧ c = d1 ∧ c = d2) := fun h => hr (h3.2 ⟨h.2.1, h.2.1.symm.trans h.2.2⟩)
        rw [if_neg hn, if_neg hr, ih c c d1 (d2 :: rest) (r + 1) (by omega)
          ⟨fun _ => rfl, fun _ => by omega⟩
          ⟨fun h => ⟨rfl, h2.1 (by omega)⟩, fun h => by have := h2.2 h.2; omega⟩]
        simp
    · rw [if_neg (fun h => hc h.1), if_neg hc, ih c d0 d1 (d2 :: rest) 1 (le_refl 1)
        ⟨fun h => by omega, fun h => absurd h hc⟩ ⟨fun h => by omega, fun h => absurd h.1 hc⟩]
      simp

theorem memcpy_cap (s : List Nat) : memcpy_eliminate_sequences s = cap_runs s := by
  unfold memcpy_eliminate_sequences
  match s with
  | [] => rfl
  | [a] => rfl
  | [a, b] => exact (cap_runs_short [a, b] (by simp)).symm
  | a :: b :: c :: t =>
    obtain ⟨r, r1, r2, r3, e⟩ := cap_runs_three a b c t
    rw [e]
    show elim_copy [c, b, a] t = _
    rw [elim_copy_cap t c b a [] r r1 r2 r3]
    rfl

theorem cap_run_run (c : Nat) (rest : List Nat) (hr : rest.head? ≠ some c) :
    ∀ (k r : Nat), 1 ≤ r → cap_run c r (List.replicate k c ++ rest) =
      List.replicate (min k (3 - r)) c ++ cap_runs rest := by
  intro k
  induction k with
  | zero =>
    intro r _
    rw [List.replicate_zero, List.nil_append, Nat.zero_min, List.replicate_zero, List.nil_append]
    match rest, hr with
    | [], _ => rfl
    | x :: t, hx =>
      rw [cap_run_cons, if_neg (fun h => hx (by rw [h]; rfl))]
      rfl
  | succ k ih =>
    intro r h1
    rw [List.replicate_succ, List.cons_append, cap_run_cons, if_pos rfl, ih (r + 1) (by omega)]
    by_cases h3 : 3 ≤ r
    · rw [if_pos h3]
      congr 2
      omega
    · rw [if_neg h3, ← List.cons_append, ← List.replicate_succ]
      congr 2
      omega

theorem cap_runs_run (c k : Nat) (rest : List Nat) (hk : 1 ≤ k) (hr : rest.head? ≠ some c) :
    cap_runs (List.replicate k c ++ rest) = List.replicate (min k 3) c ++ cap_runs rest := by
  obtain ⟨j, rfl⟩ : ∃ j, k = j + 1 := ⟨k - 1, by omega⟩
  rw [List.replicate_succ, List.cons_append]
  show c :: cap_run c 1 (List.replicate j c ++ rest) = _
  rw [cap_run_run c rest hr j 1 (le_refl 1), ← List.cons_append, ← List.replicate_succ]
  congr 2
  omega
theorem strchr_none (c : Nat) (X : List Nat) (hX : c ∉ X) : strchr X c = none := by
  unfold strchr
  have : X.dropWhile (fun x => x != c) = [] := by
    rw [List.dropWhile_eq_nil_iff]
    intro x hx
    simp only [bne_iff_ne, ne_eq]
    intro h; exact hX (h ▸ hx)
  rw [this]

theorem pieces_none (x : List Nat) (h : x.count 58 < 2) : pieces x = none := by
  unfold pieces
  by_cases hm : 58 ∈ x
  · obtain ⟨X, R, e, hX⟩ := List.eq_append_cons_of_mem hm
    subst e
    rw [strchr_mem 58 X R hX]
    simp only [List.tail_cons]
    have hR : 58 ∉ R := by
      rw [List.count_append, List.count_cons_self] at h
      exact List.count_eq_zero.1 (by omega)
    rw [strchr_none 58 _ (elim_sub 58 R hR)]
  · rw [strchr_none 58 x hm]

theorem scan_u_none (x : List Nat)
    (h : ∀ c, x.head? = some c → isdigit c = false ∧ isspace c = false ∧ c ≠ 43 ∧ c ≠ 45) :
    scan_u x = none := by
  unfold scan_u
  match x, h with
  | [], _ => rfl
  | c :: t, h =>
    obtain ⟨h1, h2, h3, h4⟩ := h c rfl
    have e1 : (c :: t).dropWhile isspace = c :: t := by
      rw [List.dropWhile_cons, h2]; rfl
    simp only [e1, List.head?_cons, Option.some.injEq, h3, h4, or_self, if_false, decide_False]
    rw [List.takeWhile_cons, h1]
    rfl
theorem short_new : Short fuzzy_new := by
  intro i
  unfold fuzzy_state.slot fuzzy_new
  simp only [NUM_BLOCKHASHES, SPAMSUM_LENGTH]
  cases i with
  | zero => simp [blockhash_context.dlen]
  | succ i =>
    rw [List.getD_cons_succ, List.getD_eq_getElem?_getD]
    by_cases h : i < 30
    · rw [List.getElem?_replicate_of_lt h]
      simp [blank, blockhash_context.dlen]
    · rw [List.getElem?_eq_none (by simp; omega)]
      simp [blank, blockhash_context.dlen]

theorem short_congr (s s' : fuzzy_state) (h : Short s) (e : s'.bh = s.bh) : Short s' := by
  intro i
  have := h i
  unfold fuzzy_state.slot at this ⊢
  rw [e]
  exact this

theorem short_hash (s : fuzzy_state) (c lo hi : Nat) (r : roll_state) (h : Short s) :
    Short { s with roll := r, bh := hash_slots c lo hi 0 s.bh } := by
  intro i
  have := h i
  unfold fuzzy_state.slot at this ⊢
  simp only []
  rw [hash_slots_getD]
  split_ifs
  · exact this
  · exact this

theorem short_set (s s' : fuzzy_state) (i : Nat) (b : blockhash_context) (h : Short s)
    (hb : b.dlen ≤ SPAMSUM_LENGTH - 1) (e : s'.bh = s.bh.set i b) : Short s' := by
  intro j
  have := h j
  unfold fuzzy_state.slot at this ⊢
  rw [e, getD_set]
  split_ifs
  · exact hb
  · exact this

theorem short_fork (s s1 : fuzzy_state) (h : Short s) (e : fuzzy_try_fork_blockhash s = some s1) :
    Short s1 := by
  unfold fuzzy_try_fork_blockhash at e
  split_ifs at e with h1 h2
  · cases e; exact h
  · cases e
    exact short_set s _ s.bhend _ h (Nat.zero_le _) rfl

theorem short_reduce (s s1 : fuzzy_state) (h : Short s)
    (e : fuzzy_try_reduce_blockhash s = some s1) : Short s1 := by
  unfold fuzzy_try_reduce_blockhash at e
  split_ifs at e <;> cases e <;> exact h

theorem short_step (i : Nat) (s s2 : fuzzy_state) (h : Short s) (e : slot_step i s = some s2) :
    Short s2 := by
  unfold slot_step at e
  have key : ∀ s1, Short s1 →
      (if (s1.slot i).dlen < SPAMSUM_LENGTH - 1 then
        some { s1 with
          bh := s1.bh.set i
            { h := HASH_INIT,
              halfh := if ((s1.slot i).digest ++ [b64.getD ((s1.slot i).h % 64) 0]).length <
                SPAMSUM_LENGTH / 2 then HASH_INIT else (s1.slot i).halfh,
              digest := (s1.slot i).digest ++ [b64.getD ((s1.slot i).h % 64) 0] } }
      else fuzzy_try_reduce_blockhash s1) = some s2 → Short s2 := by
    intro s1 h1 e1
    by_cases hd : (s1.slot i).dlen < SPAMSUM_LENGTH - 1
    · rw [if_pos hd] at e1
      cases e1
      refine short_set s1 _ i _ h1 ?_ rfl
      show ((s1.slot i).digest ++ [_]).length ≤ _
      rw [List.length_append, List.length_singleton]
      unfold blockhash_context.dlen at hd
      omega
    · rw [if_neg hd] at e1
      exact short_reduce s1 s2 h1 e1
  by_cases h0 : (s.slot i).dlen = 0
  · rw [if_pos h0] at e
    cases hf : fuzzy_try_fork_blockhash s with
    | none => rw [hf] at e; simp at e
    | some s1 =>
      rw [hf] at e
      exact key s1 (short_fork s s1 h hf) e
  · rw [if_neg h0] at e
    exact key s h e

theorem short_emit (hh : Nat) : ∀ (fuel i : Nat) (s s2 : fuzzy_state), Short s →
    emit_loop hh fuel i s = some s2 → Short s2 := by
  intro fuel
  induction fuel with
  | zero => intro i s s2 _ e; simp [emit_loop] at e
  | succ f ih =>
    intro i s s2 h e
    unfold emit_loop at e
    split_ifs at e with h1 h2
    · cases e; exact h
    · cases hs : slot_step i s with
      | none => rw [hs] at e; simp at e
      | some s1 =>
        rw [hs] at e
        exact ih _ s1 s2 (short_step i s s1 h hs) e
    · cases e; exact h

theorem short_feed : ∀ (l : List Nat) (s s2 : fuzzy_state), Short s → feed s l = some s2 →
    Short s2 := by
  intro l
  induction l with
  | nil => intro s s2 h e; simp [feed] at e; subst e; exact h
  | cons c t ih =>
    intro s s2 h e
    unfold feed at e
    cases hs : fuzzy_engine_step s c with
    | none => rw [hs] at e; simp at e
    | some s1 =>
      rw [hs] at e
      refine ih s1 s2 ?_ e
      unfold fuzzy_engine_step at hs
      exact short_emit _ _ _ _ _ (short_hash s c _ _ _ h) hs

theorem short_updates : ∀ (chunks : List (List Nat)) (s s2 : fuzzy_state), Short s →
    updates s chunks = some s2 → Short s2 := by
  intro chunks
  induction chunks with
  | nil => intro s s2 h e; simp [updates] at e; subst e; exact h
  | cons b t ih =>
    intro s s2 h e
    unfold updates at e
    cases hs : fuzzy_update s b with
    | none => rw [hs] at e; simp at e
    | some s1 =>
      rw [hs] at e
      refine ih s1 s2 ?_ e
      unfold fuzzy_update at hs
      exact short_feed b { s with total_size := (s.total_size + b.length) % 2 ^ 64 } s1
        (short_congr s _ h rfl) hs
theorem first_part_forget (s : fuzzy_state) (flags h bi : Nat) (remain : Int) :
    (first_part_at s flags h bi remain).forget = first_part s flags h bi remain := by
  unfold first_part_at first_part
  simp only []
  split_ifs <;> rfl

theorem second_part_forget (s : fuzzy_state) (flags h bi : Nat) (remain : Int) :
    (second_part_at s flags h bi remain).forget = second_part s flags h bi remain := by
  unfold second_part_at second_part
  simp only []
  split_ifs <;> rfl

theorem digest_forget (s : fuzzy_state) (flags : Nat) :
    (fuzzy_digest_at s flags).forget = fuzzy_digest s flags := by
  unfold fuzzy_digest_at fuzzy_digest
  simp only []
  by_cases h1 : ¬ (s.bhstart = 0 ∨ SSDEEP_BS s.bhstart / 2 * SPAMSUM_LENGTH < s.total_size)
  · rw [if_pos h1, if_pos h1]; rfl
  rw [if_neg h1, if_neg h1]
  cases choose_bi s with
  | none => rfl
  | some bi =>
    simp only []
    by_cases h2 : bi > 0 ∧ (s.slot bi).dlen < SPAMSUM_LENGTH / 2
    · rw [if_pos h2, if_pos h2]; rfl
    rw [if_neg h2, if_neg h2]
    by_cases h3 : ¬ (((dec (SSDEEP_BS bi) ++ [58]).length : Int) < (FUZZY_MAX_RESULT : Int) - 1)
    · rw [if_pos h3, if_pos h3]; rfl
    rw [if_neg h3, if_neg h3, ← first_part_forget]
    cases first_part_at s flags (roll_sum s.roll) bi
        ((FUZZY_MAX_RESULT : Int) - 1 - (dec (SSDEEP_BS bi) ++ [58]).length) with
    | ok a =>
      obtain ⟨s1, r⟩ := a
      simp only [Ended.forget]
      rw [← second_part_forget]
      cases second_part_at s flags (roll_sum s.roll) bi r <;> rfl
    | fail => rfl
    | abort_at l => rfl

theorem first_part_at_ok (s : fuzzy_state) (flags h bi : Nat) (remain : Int)
    (hd : (s.slot bi).dlen ≤ 63) (hr : 65 ≤ remain) :
    ∃ S1, first_part_at s flags h bi remain = Ended.ok (S1 ++ [58], remain - S1.length - 1) ∧
      S1.length ≤ 64 := by
  unfold first_part_at
  simp only []
  have hp := (copy_part_spec flags (s.slot bi).digest (s.slot bi).dlen).1
  rw [if_neg (by omega), if_neg (by omega)]
  by_cases hh : h ≠ 0
  · simp only [if_pos hh]
    obtain ⟨t1, t2, _⟩ := with_tail_spec flags (copy_part flags (s.slot bi).digest (s.slot bi).dlen)
      (b64.getD ((s.slot bi).h % 64) 0)
    rw [if_neg (by omega)]
    exact ⟨_, by congr 2; omega, by omega⟩
  · simp only [if_neg hh]
    rw [if_neg (by omega)]
    exact ⟨_, by congr 2; omega, by omega⟩

theorem second_part_at_cases (s : fuzzy_state) (flags h bi : Nat) (remain : Int)
    (hd : (s.slot (bi + 1)).dlen ≤ 63) (hr : 64 ≤ remain) :
    second_part_at s flags h bi remain = Ended.abort_at 354 ∨
      ∃ S2, second_part_at s flags h bi remain = Ended.ok S2 ∧ S2.length ≤ 64 := by
  unfold second_part_at
  by_cases hb : bi < s.bhend - 1
  · right
    rw [if_pos hb]
    simp only []
    generalize hi : (if flags &&& FUZZY_FLAG_NOTRUNC = 0 ∧
      (s.slot (bi + 1)).dlen > SPAMSUM_LENGTH / 2 - 1 then SPAMSUM_LENGTH / 2 - 1
      else (s.slot (bi + 1)).dlen) = i
    have hi63 : i ≤ 63 := by
      rw [← hi]
      split_ifs
      · simp [SPAMSUM_LENGTH]
      · exact hd
    have hp := (copy_part_spec flags (s.slot (bi + 1)).digest i).1
    rw [if_neg (by omega), if_neg (by omega)]
    by_cases hh : h ≠ 0
    · simp only [if_pos hh]
      generalize (if flags &&& FUZZY_FLAG_NOTRUNC ≠ 0 then (s.slot (bi + 1)).h
        else (s.slot (bi + 1)).halfh) = h2
      obtain ⟨t1, t2, _⟩ := with_tail_spec flags (copy_part flags (s.slot (bi + 1)).digest i)
        (b64.getD (h2 % 64) 0)
      exact ⟨_, rfl, by omega⟩
    · simp only [if_neg hh]
      exact ⟨_, rfl, by omega⟩
  · rw [if_neg hb]
    by_cases hh : h ≠ 0
    · rw [if_pos hh]
      by_cases h0 : (s.slot bi).dlen = 0
      · right
        rw [if_neg (by simpa using h0), if_neg (by omega)]
        exact ⟨_, rfl, by simp⟩
      · left
        rw [if_pos h0]
    · right
      rw [if_neg hh]
      exact ⟨_, rfl, by simp⟩

theorem digest_at_cases (s : fuzzy_state) (flags : Nat) (hs : Short s) :
    fuzzy_digest_at s flags = Ended.abort_at 274 ∨ fuzzy_digest_at s flags = Ended.fail ∨
      fuzzy_digest_at s flags = Ended.abort_at 291 ∨
      fuzzy_digest_at s flags = Ended.abort_at 354 ∨
      ∃ r, fuzzy_digest_at s flags = Ended.ok r ∧ r.length ≤ 140 := by
  unfold fuzzy_digest_at
  simp only []
  by_cases h1 : ¬ (s.bhstart = 0 ∨ SSDEEP_BS s.bhstart / 2 * SPAMSUM_LENGTH < s.total_size)
  · left; rw [if_pos h1]
  rw [if_neg h1]
  cases choose_bi s with
  | none => right; left; rfl
  | some bi =>
    simp only []
    by_cases h2 : bi > 0 ∧ (s.slot bi).dlen < SPAMSUM_LENGTH / 2
    · right; right; left; rw [if_pos h2]
    rw [if_neg h2]
    have hlen : (dec (SSDEEP_BS bi)).length ≤ 10 := by
      refine (dec_spec _).2.2.2.1 9 ?_
      have : SSDEEP_BS bi < 2 ^ 32 := Nat.mod_lt _ (by norm_num)
      omega
    have hh : ((dec (SSDEEP_BS bi) ++ [58]).length : Int) ≤ 11 := by
      rw [List.length_append, List.length_singleton]
      omega
    have hF : (FUZZY_MAX_RESULT : Int) = 148 := rfl
    rw [if_neg (by omega)]
    have hd1 := hs bi
    have hd2 := hs (bi + 1)
    simp only [SPAMSUM_LENGTH] at hd1 hd2
    obtain ⟨S1, e1, l1⟩ := first_part_at_ok s flags (roll_sum s.roll) bi
      ((FUZZY_MAX_RESULT : Int) - 1 - (dec (SSDEEP_BS bi) ++ [58]).length) hd1 (by omega)
    rw [e1]
    simp only []
    rcases second_part_at_cases s flags (roll_sum s.roll) bi
      ((FUZZY_MAX_RESULT : Int) - 1 - (dec (SSDEEP_BS bi) ++ [58]).length - S1.length - 1)
      hd2 (by omega) with e2 | ⟨S2, e2, l2⟩
    · right; right; right; left
      rw [e2]
    · right; right; right; right
      rw [e2]
      refine ⟨_, rfl, ?_⟩
      simp only [List.length_append, List.length_singleton]
      omega

/-! ## The range of slots in use never shrinks -/

theorem emit_loop_mono (h : Nat) : ∀ (fuel i : Nat) (s s' : fuzzy_state), Inv s →
    emit_loop h fuel i s = some s' → s.bhstart ≤ s'.bhstart ∧ s.bhend ≤ s'.bhend := by
  intro fuel
  induction fuel with
  | zero => intro i s s' _ e; simp [emit_loop] at e
  | succ fuel ih =>
    intro i s s' hI e
    unfold emit_loop at e
    by_cases hi : i < s.bhend
    · rw [if_pos hi] at e
      by_cases ht : h % SSDEEP_BS i ≠ SSDEEP_BS i - 1
      · rw [if_pos ht] at e
        cases e
        exact ⟨le_refl _, le_refl _⟩
      · rw [if_neg ht] at e
        obtain ⟨s1, e1, hI1, _, _, b1, _⟩ := slot_step_inv i s hI hi
        rw [e1] at e
        obtain ⟨m1, m2⟩ := ih (i + 1) s1 s' hI1 e
        have := (slot_step_start i s s1 hI e1).1
        exact ⟨by omega, by omega⟩
    · rw [if_neg hi] at e
      cases e
      exact ⟨le_refl _, le_refl _⟩

theorem engine_step_mono (s s' : fuzzy_state) (c : Nat) (hI : Inv s)
    (e : fuzzy_engine_step s c = some s') : s.bhstart ≤ s'.bhstart ∧ s.bhend ≤ s'.bhend := by
  unfold fuzzy_engine_step at e
  have hI0 : Inv { s with roll := roll_hash s.roll c,
                          bh := hash_slots c s.bhstart s.bhend 0 s.bh } := by
    refine inv_congr s _ hI rfl rfl (hash_slots_length _ _ _ _ _) (le_refl _) ?_
    intro j
    simp only [fuzzy_state.slot, hash_slots_getD]
    split_ifs <;> rfl
  have key := emit_loop_mono _ _ _ _ _ hI0 e
  exact key

theorem feed_mono : ∀ (buf : List Nat) (s s' : fuzzy_state), Inv s → feed s buf = some s' →
    s.bhstart ≤ s'.bhstart ∧ s.bhend ≤ s'.bhend := by
  intro buf
  induction buf with
  | nil => intro s s' _ e; cases e; exact ⟨le_refl _, le_refl _⟩
  | cons c t ih =>
    intro s s' hI e
    obtain ⟨s1, e1, hI1, _, _⟩ := engine_step_inv s c hI
    unfold feed at e
    rw [e1] at e
    obtain ⟨m1, m2⟩ := engine_step_mono s s1 c hI e1
    obtain ⟨n1, n2⟩ := ih s1 s' hI1 e
    exact ⟨by omega, by omega⟩

theorem update_mono (s s' : fuzzy_state) (buf : List Nat) (hI : Inv s)
    (hsz : s.total_size + buf.length < 2 ^ 64) (e : fuzzy_update s buf = some s') :
    s.bhstart ≤ s'.bhstart ∧ s.bhend ≤ s'.bhend := by
  unfold fuzzy_update at e
  have hI0 : Inv { s with total_size := (s.total_size + buf.length) % 2 ^ 64 } := by
    refine inv_congr s _ hI rfl rfl rfl ?_ (fun j => rfl)
    show s.total_size ≤ (s.total_size + buf.length) % 2 ^ 64
    rw [Nat.mod_eq_of_lt hsz]; omega
  have key := feed_mono buf _ _ hI0 e
  exact key

/-- The slot `fuzzy_digest` settles on after an input of less than `2 ^ 32`
bytes: it exists, it is at most 25, and it passes the tests of the `assert`s
in lines 291 and 354. -/
theorem choose_bi_small (s : fuzzy_state) (hI : Inv s) (ht : s.total_size < 2 ^ 32) :
    ∃ bi, choose_bi s = some bi ∧ bi ≤ 25 ∧ bi < s.bhend ∧
      ¬ (bi > 0 ∧ (s.slot bi).dlen < SPAMSUM_LENGTH / 2) ∧
      (¬ (bi < s.bhend - 1) → (s.slot bi).dlen = 0) := by
  have h1 := hI.start_lt
  have h2 := hI.end_le
  simp only [NUM_BLOCKHASHES] at h2
  have hbig : ¬ (SSDEEP_BS 25 * SPAMSUM_LENGTH < s.total_size) := by
    rw [SSDEEP_BS_eq 25 (by norm_num)]; simp only [SPAMSUM_LENGTH]; omega
  have hst : s.bhstart ≤ 25 := by
    by_contra hc
    have := hI.size (by omega)
    have hm := SSDEEP_BS_mono 25 (s.bhstart - 1) (by omega) (by omega)
    simp only [SPAMSUM_LENGTH] at this hbig
    omega
  obtain ⟨g, hg, hg25⟩ := guess_loop_some s.total_size 25 (by norm_num) hbig
    (NUM_BLOCKHASHES + 1) s.bhstart hst (by simp only [NUM_BLOCKHASHES]; omega)
  have hc : choose_bi s = some (long_enough s (below_end s.bhend g)) := by
    unfold choose_bi; rw [hg]; rfl
  obtain ⟨c1, c2, c3, c4⟩ := choose_bi_spec s hI _ hc
  have hle : long_enough s (below_end s.bhend g) ≤ 25 := by
    have g1 := (guess_loop_spec _ _ _ _ hg).1
    rw [below_end_eq _ (by omega)] at *
    have := (long_enough_spec s (min g (s.bhend - 1)) (by omega)).2.1
    omega
  generalize long_enough s (below_end s.bhend g) = bi at hc c1 c2 c3 c4 hle
  refine ⟨bi, hc, hle, c2, ?_, ?_⟩
  · rcases c3 with e | e
    · omega
    · exact fun h => e h.2
  · intro hb
    have : bi = s.bhend - 1 := by omega
    rw [this]
    exact hI.last (by simp only [NUM_BLOCKHASHES]; omega)

/-! ## The second hash of a slot -/

theorem halfkept_fork (j v : Nat) (s s1 : fuzzy_state) (h : HalfKept j v s)
    (e : fuzzy_try_fork_blockhash s = some s1) : HalfKept j v s1 := by
  obtain ⟨h1, h2, h3⟩ := h
  unfold fuzzy_try_fork_blockhash at e
  split_ifs at e with c1 c2
  · cases e; exact ⟨h1, h2, h3⟩
  · cases e
    have hs : fuzzy_state.slot { s with
        bh := s.bh.set s.bhend
          { h := (s.slot (s.bhend - 1)).h, halfh := (s.slot (s.bhend - 1)).halfh, digest := [] },
        bhend := s.bhend + 1 } j = s.slot j := by
      simp only [fuzzy_state.slot, getD_set]
      rw [if_neg (by omega)]
    refine ⟨?_, ?_, ?_⟩
    · show j < s.bhend + 1
      omega
    · rw [hs]; exact h2
    · rw [hs]; exact h3

theorem halfkept_reduce (j v : Nat) (s s1 : fuzzy_state) (h : HalfKept j v s)
    (e : fuzzy_try_reduce_blockhash s = some s1) : HalfKept j v s1 := by
  unfold fuzzy_try_reduce_blockhash at e
  split_ifs at e <;> cases e <;> exact h

theorem halfkept_step (i j v : Nat) (s s2 : fuzzy_state) (h : HalfKept j v s)
    (e : slot_step i s = some s2) : HalfKept j v s2 := by
  unfold slot_step at e
  have key : ∀ s1, HalfKept j v s1 →
      (if (s1.slot i).dlen < SPAMSUM_LENGTH - 1 then
        some { s1 with
          bh := s1.bh.set i
            { h := HASH_INIT,
              halfh := if ((s1.slot i).digest ++ [b64.getD ((s1.slot i).h % 64) 0]).length <
                SPAMSUM_LENGTH / 2 then HASH_INIT else (s1.slot i).halfh,
              digest := (s1.slot i).digest ++ [b64.getD ((s1.slot i).h % 64) 0] } }
      else fuzzy_try_reduce_blockhash s1) = some s2 → HalfKept j v s2 := by
    intro s1 h1 e1
    by_cases hd : (s1.slot i).dlen < SPAMSUM_LENGTH - 1
    · rw [if_pos hd] at e1
      cases e1
      obtain ⟨k1, k2, k3⟩ := h1
      unfold HalfKept
      rw [slot_set]
      refine ⟨k1, ?_⟩
      by_cases hij : i = j ∧ i < s1.bh.length
      · rw [if_pos hij]
        obtain ⟨hij, _⟩ := hij
        subst hij
        unfold blockhash_context.dlen at k2 ⊢
        simp only [List.length_append, List.length_singleton, SPAMSUM_LENGTH]
        rw [if_neg (by omega)]
        exact ⟨by omega, k3⟩
      · rw [if_neg hij]
        exact ⟨k2, k3⟩
    · rw [if_neg hd] at e1
      exact halfkept_reduce j v s1 s2 h1 e1
  by_cases h0 : (s.slot i).dlen = 0
  · rw [if_pos h0] at e
    cases hf : fuzzy_try_fork_blockhash s with
    | none => rw [hf] at e; simp at e
    | some s1 =>
      rw [hf] at e
      exact key s1 (halfkept_fork j v s s1 h hf) e
  · rw [if_neg h0] at e
    exact key s h e

theorem halfkept_emit (hh j v : Nat) : ∀ (fuel i : Nat) (s s2 : fuzzy_state), HalfKept j v s →
    emit_loop hh fuel i s = some s2 → HalfKept j v s2 := by
  intro fuel
  induction fuel with
  | zero => intro i s s2 _ e; simp [emit_loop] at e
  | succ f ih =>
    intro i s s2 h e
    unfold emit_loop at e
    split_ifs at e with h1 h2
    · cases e; exact h
    · cases hs : slot_step i s with
      | none => rw [hs] at e; simp at e
      | some s1 =>
        rw [hs] at e
        exact ih _ s1 s2 (halfkept_step i j v s s1 h hs) e
    · cases e; exact h

/-- A byte moves the `halfh` of a slot in use that holds 31 characters or more
by one FNV step, whether or not the byte ends a block. -/
theorem engine_step_halfh (s s' : fuzzy_state) (c i : Nat) (h1 : s.bhstart ≤ i)
    (h2 : i < s.bhend) (h3 : 31 ≤ (s.slot i).dlen) (hl : s.bhend ≤ s.bh.length)
    (e : fuzzy_engine_step s c = some s') :
    (s'.slot i).halfh = sum_hash c (s.slot i).halfh := by
  unfold fuzzy_engine_step at e
  have h0 : HalfKept i (sum_hash c (s.slot i).halfh)
      { s with roll := roll_hash s.roll c,
               bh := hash_slots c s.bhstart s.bhend 0 s.bh } := by
    unfold HalfKept
    simp only [fuzzy_state.slot, hash_slots_getD, blockhash_context.dlen] at h3 ⊢
    refine ⟨h2, ?_, ?_⟩
    · split_ifs <;> exact h3
    · rw [if_pos ⟨by omega, by omega, by omega⟩]
  have key := halfkept_emit _ _ _ _ _ _ _ h0 e
  exact key.2.2

/-! ## The only failure of the digest -/

/-- From a start of at most 30 the guess fails exactly when the largest blocksize
is too small for the input. -/
theorem guess_loop_none (total : Nat) : ∀ (fuel bi : Nat), bi ≤ 30 → 31 - bi < fuel →
    (guess_loop total fuel bi = none ↔ SSDEEP_BS 30 * SPAMSUM_LENGTH < total) := by
  intro fuel
  induction fuel with
  | zero => intro bi _ h; omega
  | succ fuel ih =>
    intro bi hb hf
    unfold guess_loop
    by_cases hc : SSDEEP_BS bi * SPAMSUM_LENGTH < total
    · rw [if_pos hc]
      by_cases h31 : bi + 1 ≥ NUM_BLOCKHASHES
      · rw [if_pos h31]
        simp only [NUM_BLOCKHASHES] at h31
        have e : bi = 30 := by omega
        subst e
        exact ⟨fun _ => hc, fun _ => rfl⟩
      · rw [if_neg h31]
        simp only [NUM_BLOCKHASHES] at h31
        exact ih (bi + 1) (by omega) (by omega)
    · rw [if_neg hc]
      constructor
      · intro h; cases h
      · intro h
        exfalso
        have := SSDEEP_BS_mono bi 30 hb (le_refl _)
        simp only [SPAMSUM_LENGTH] at hc h
        omega

theorem first_part_not_fail (s : fuzzy_state) (flags h bi : Nat) (remain : Int) :
    first_part s flags h bi remain ≠ Outcome.fail := by
  unfold first_part
  simp only []
  split_ifs <;> simp

theorem second_part_not_fail (s : fuzzy_state) (flags h bi : Nat) (remain : Int) :
    second_part s flags h bi remain ≠ Outcome.fail := by
  unfold second_part
  simp only []
  split_ifs <;> simp

/-- The digest fails, that is returns -1, exactly when the input is too large
for the largest blocksize. -/
theorem digest_fail_iff (s : fuzzy_state) (flags : Nat) (hb : s.bhstart ≤ 30) :
    fuzzy_digest s flags = Outcome.fail ↔ 64 * SSDEEP_BS 30 < s.total_size := by
  have hg := guess_loop_none s.total_size (NUM_BLOCKHASHES + 1) s.bhstart hb
    (by simp only [NUM_BLOCKHASHES]; omega)
  have hm := SSDEEP_BS_mono s.bhstart 30 hb (le_refl _)
  unfold fuzzy_digest
  simp only []
  constructor
  · intro h
    by_cases h1 : ¬ (s.bhstart = 0 ∨ SSDEEP_BS s.bhstart / 2 * SPAMSUM_LENGTH < s.total_size)
    · rw [if_pos h1] at h; cases h
    rw [if_neg h1] at h
    cases hc : choose_bi s with
    | none =>
      unfold choose_bi at hc
      cases hg' : guess_loop s.total_size (NUM_BLOCKHASHES + 1) s.bhstart with
      | none =>
        have := hg.1 hg'
        simp only [SPAMSUM_LENGTH] at this
        omega
      | some g => rw [hg'] at hc; cases hc
    | some bi =>
      exfalso
      rw [hc] at h
      simp only [] at h
      by_cases h2 : bi > 0 ∧ (s.slot bi).dlen < SPAMSUM_LENGTH / 2
      · rw [if_pos h2] at h; cases h
      rw [if_neg h2] at h
      by_cases h3 : ¬ (((dec (SSDEEP_BS bi) ++ [58]).length : Int) < (FUZZY_MAX_RESULT : Int) - 1)
      · rw [if_pos h3] at h; cases h
      rw [if_neg h3] at h
      have hf := first_part_not_fail s flags (roll_sum s.roll) bi
        ((FUZZY_MAX_RESULT : Int) - 1 - (dec (SSDEEP_BS bi) ++ [58]).length)
      cases h4 : first_part s flags (roll_sum s.roll) bi
          ((FUZZY_MAX_RESULT : Int) - 1 - (dec (SSDEEP_BS bi) ++ [58]).length) with
      | ok a =>
        obtain ⟨s1, r⟩ := a
        rw [h4] at h
        simp only [] at h
        have hf2 := second_part_not_fail s flags (roll_sum s.roll) bi r
        cases h5 : second_part s flags (roll_sum s.roll) bi r with
        | ok s2 => rw [h5] at h; cases h
        | fail => exact hf2 h5
        | abort => rw [h5] at h; cases h
      | fail => exact hf h4
      | abort => rw [h4] at h; cases h
  · intro h
    have h1 : s.bhstart = 0 ∨ SSDEEP_BS s.bhstart / 2 * SPAMSUM_LENGTH < s.total_size := by
      right
      have : SSDEEP_BS s.bhstart / 2 * SPAMSUM_LENGTH ≤ SSDEEP_BS s.bhstart * SPAMSUM_LENGTH :=
        Nat.mul_le_mul_right _ (Nat.div_le_self _ _)
      simp only [SPAMSUM_LENGTH] at this ⊢
      omega
    rw [if_neg (not_not.2 h1)]
    have hn : choose_bi s = none := by
      unfold choose_bi
      rw [hg.2 (by simp only [SPAMSUM_LENGTH]; omega)]
      rfl
    rw [hn]

/-! ## Common substrings of seven characters -/

theorem roll_sums_getD : ∀ (s : List Nat) (st : roll_state) (j : Nat), j < s.length →
    (roll_sums st s).getD j 0 = roll_sum ((s.take (j + 1)).foldl roll_hash st) := by
  intro s
  induction s with
  | nil => intro st j h; simp at h
  | cons c t ih =>
    intro st j h
    cases j with
    | zero => simp [roll_sums]
    | succ j =>
      simp only [roll_sums, List.getD_cons_succ, List.take_succ_cons, List.foldl_cons]
      exact ih _ j (by simpa using h)

/-- The entry of `hashes` for the window that ends at position `|a| + 6`. -/
theorem roll_sums_window (a w b : List Nat) (hw : w.length = 7)
    (hb : ∀ c ∈ a ++ w ++ b, c < 256) (hl : (a ++ w ++ b).length < 2 ^ 32) :
    (roll_sums roll_init (a ++ w ++ b)).getD (a.length + 6) 0 = roll_sum (roll_feed w) := by
  rw [roll_sums_getD _ _ _ (by simp only [List.length_append]; omega)]
  have e : (a ++ w ++ b).take (a.length + 6 + 1) = a ++ w := by
    rw [List.take_append_of_le_length (by simp only [List.length_append]; omega)]
    exact List.take_of_length_le (by simp only [List.length_append]; omega)
  rw [e]
  have hb' : ∀ c ∈ a ++ w, c < 256 := fun c hc => hb c (List.mem_append_left _ hc)
  have := roll_sum_window (a ++ w) hb' (by
    simp only [List.length_append] at hl ⊢; omega)
  rw [last7_append a w hw] at this
  exact this

theorem window_at (a w b : List Nat) (hw : w.length = 7) :
    ((a ++ w ++ b).drop (a.length + 6 - 6)).take 7 = w := by
  rw [Nat.add_sub_cancel, List.append_assoc, List.drop_left, ← hw, List.take_left]

theorem split_at_window (s : List Nat) (j : Nat) (h6 : 6 ≤ j) (hj : j < s.length) :
    s = s.take (j - 6) ++ (s.drop (j - 6)).take 7 ++ s.drop (j + 1) ∧
      ((s.drop (j - 6)).take 7).length = 7 ∧ (s.take (j - 6)).length + 6 = j := by
  refine ⟨?_, ?_, ?_⟩
  · have e : s.drop (j + 1) = (s.drop (j - 6)).drop 7 := by
      rw [List.drop_drop]; congr 1; omega
    rw [e, List.append_assoc, List.take_append_drop, List.take_append_drop]
  · rw [List.length_take, List.length_drop]; omega
  · rw [List.length_take]; omega

/-- `has_common_substring` returns 1 exactly when the two strings share seven
characters in a row whose rolling sum is not zero. -/
theorem hcs_exact (s1 s2 : List Nat) (h1 : ∀ c ∈ s1, c < 256) (h2 : ∀ c ∈ s2, c < 256)
    (l1 : s1.length < 2 ^ 32) (l2 : s2.length < 2 ^ 32) :
    has_common_substring s1 s2 = 1 ↔
      ∃ w a1 b1 a2 b2, w.length = 7 ∧ s1 = a1 ++ w ++ b1 ∧ s2 = a2 ++ w ++ b2 ∧
        roll_sum (roll_feed w) ≠ 0 := by
  rw [hcs_iff]
  constructor
  · rintro ⟨i, j, hi6, hi, hj6, hj, hne, heq, hw⟩
    obtain ⟨e1, w1, p1⟩ := split_at_window s1 j hj6 hj
    obtain ⟨e2, w2, p2⟩ := split_at_window s2 i hi6 hi
    refine ⟨(s1.drop (j - 6)).take 7, s1.take (j - 6), s1.drop (j + 1), s2.take (i - 6),
      s2.drop (i + 1), w1, e1, ?_, ?_⟩
    · rw [← hw]; exact e2
    · have := roll_sums_window (s1.take (j - 6)) ((s1.drop (j - 6)).take 7) (s1.drop (j + 1)) w1
        (by rw [← e1]; exact h1) (by rw [← e1]; exact l1)
      rw [← e1, p1] at this
      rw [← this]
      exact hne
  · rintro ⟨w, a1, b1, a2, b2, hw, e1, e2, hne⟩
    subst e1 e2
    have r1 := roll_sums_window a1 w b1 hw h1 l1
    have r2 := roll_sums_window a2 w b2 hw h2 l2
    refine ⟨a2.length + 6, a1.length + 6, by omega, ?_, by omega, ?_, ?_, ?_, ?_⟩
    · simp only [List.length_append]; omega
    · simp only [List.length_append]; omega
    · rw [r1]; exact hne
    · rw [r1, r2]
    · rw [window_at a2 w b2 hw, window_at a1 w b1 hw]

/-! ## Longest common subsequences and edit scripts -/

theorem lcs_nil_right (s : List Nat) : lcs s [] = 0 := by
  cases s <;> rfl

theorem lcs_cons_cons (a b : Nat) (s t : List Nat) :
    lcs (a :: s) (b :: t) =
      if a = b then lcs s t + 1 else max (lcs s (b :: t)) (lcs (a :: s) t) := rfl

/-- No common subsequence is longer than `lcs`. -/
theorem lcs_upper : ∀ (s t w : List Nat), w.Sublist s → w.Sublist t → w.length ≤ lcs s t := by
  intro s
  induction s with
  | nil =>
    intro t w h1 _
    have := h1.length_le
    simp at this
    simp [this]
  | cons a s ihs =>
    intro t
    induction t with
    | nil =>
      intro w _ h2
      have := h2.length_le
      simp at this
      simp [this]
    | cons b t iht =>
      intro w h1 h2
      rw [lcs_cons_cons]
      cases w with
      | nil => simp
      | cons x w =>
        rcases List.cons_sublist_cons'.1 h1 with p1 | ⟨q1, p1⟩
        · -- the head of `s` is not used
          have := ihs (b :: t) (x :: w) p1 h2
          split_ifs with hab
          · have h3 := ihs t w (List.sublist_of_cons_sublist p1) (by
              rcases List.cons_sublist_cons'.1 h2 with p2 | ⟨_, p2⟩
              · exact List.sublist_of_cons_sublist p2
              · exact p2)
            simp only [List.length_cons]; omega
          · exact le_trans this (le_max_left _ _)
        · rcases List.cons_sublist_cons'.1 h2 with p2 | ⟨q2, p2⟩
          · have := iht (x :: w) h1 p2
            split_ifs with hab
            · have h3 := ihs t w p1 (List.sublist_of_cons_sublist p2)
              simp only [List.length_cons]; omega
            · exact le_trans this (le_max_right _ _)
          · have hab : a = b := by rw [← q1, ← q2]
            rw [if_pos hab]
            have h3 := ihs t w p1 p2
            simp only [List.length_cons]; omega

/-- Some common subsequence has the length `lcs`. -/
theorem lcs_attained : ∀ (s t : List Nat), ∃ w : List Nat, w.Sublist s ∧ w.Sublist t ∧
    w.length = lcs s t := by
  intro s
  induction s with
  | nil => intro t; exact ⟨[], List.Sublist.refl _, List.nil_sublist _, rfl⟩
  | cons a s ihs =>
    intro t
    induction t with
    | nil => exact ⟨[], List.nil_sublist _, List.Sublist.refl _, by rw [lcs_nil_right]; rfl⟩
    | cons b t iht =>
      rw [lcs_cons_cons]
      by_cases hab : a = b
      · rw [if_pos hab]
        obtain ⟨w, w1, w2, w3⟩ := ihs t
        refine ⟨a :: w, List.Sublist.cons₂ a w1, ?_, by simp [w3]⟩
        rw [hab]; exact List.Sublist.cons₂ b w2
      · rw [if_neg hab]
        by_cases hm : lcs (a :: s) t ≤ lcs s (b :: t)
        · obtain ⟨w, w1, w2, w3⟩ := ihs (b :: t)
          exact ⟨w, List.Sublist.cons a w1, w2, by rw [w3, max_eq_left hm]⟩
        · obtain ⟨w, w1, w2, w3⟩ := iht
          exact ⟨w, w1, List.Sublist.cons b w2, by rw [w3, max_eq_right (by omega)]⟩

/-- The number `lcs s t` is the only one that is the length of a common
subsequence and bounds the length of every common subsequence. -/
theorem lcs_unique (s t : List Nat) (n : Nat)
    (h1 : ∃ w : List Nat, w.Sublist s ∧ w.Sublist t ∧ w.length = n)
    (h2 : ∀ w : List Nat, w.Sublist s → w.Sublist t → w.length ≤ n) : lcs s t = n := by
  obtain ⟨w, w1, w2, w3⟩ := h1
  obtain ⟨v, v1, v2, v3⟩ := lcs_attained s t
  have a1 := lcs_upper s t w w1 w2
  have a2 := h2 v v1 v2
  omega

theorem lcs_comm (s t : List Nat) : lcs s t = lcs t s := by
  obtain ⟨v, v1, v2, v3⟩ := lcs_attained t s
  exact lcs_unique s t _ ⟨v, v2, v1, v3⟩ (fun w w1 w2 => lcs_upper t s w w2 w1)

theorem lcs_reverse (s t : List Nat) : lcs s.reverse t.reverse = lcs s t := by
  obtain ⟨v, v1, v2, v3⟩ := lcs_attained s t
  refine lcs_unique _ _ _ ⟨v.reverse, v1.reverse, v2.reverse, by simp [v3]⟩ ?_
  intro w w1 w2
  have := lcs_upper s t w.reverse (by simpa using w1.reverse) (by simpa using w2.reverse)
  simpa using this

theorem lcs_le_left (s t : List Nat) : lcs s t ≤ s.length := by
  obtain ⟨v, v1, _, v3⟩ := lcs_attained s t
  rw [← v3]; exact v1.length_le

theorem lcs_le_right (s t : List Nat) : lcs s t ≤ t.length := by
  rw [lcs_comm]; exact lcs_le_left t s

theorem lcs_self (s : List Nat) : lcs s s = s.length :=
  lcs_unique s s _ ⟨s, List.Sublist.refl _, List.Sublist.refl _, rfl⟩
    (fun _ w1 _ => w1.length_le)

/-- A character put into the first string, at any place, does not lower `lcs`
and raises it by at most one. -/
theorem lcs_insert (u v t : List Nat) (c : Nat) :
    lcs (u ++ v) t ≤ lcs (u ++ c :: v) t ∧ lcs (u ++ c :: v) t ≤ lcs (u ++ v) t + 1 := by
  constructor
  · obtain ⟨w, w1, w2, w3⟩ := lcs_attained (u ++ v) t
    rw [← w3]
    refine lcs_upper _ _ w (w1.trans ?_) w2
    exact (List.append_sublist_append_left u).2 (List.sublist_cons_self c v)
  · obtain ⟨w, w1, w2, w3⟩ := lcs_attained (u ++ c :: v) t
    rw [← w3]
    obtain ⟨l1, l2, e, p1, p2⟩ := List.sublist_append_iff.1 w1
    subst e
    cases l2 with
    | nil =>
      have := lcs_upper (u ++ v) t (l1 ++ []) (p1.append (List.nil_sublist _)) w2
      omega
    | cons x l2 =>
      have hl2 : l2.Sublist v := by
        rcases List.cons_sublist_cons'.1 p2 with q | ⟨_, q⟩
        · exact List.sublist_of_cons_sublist q
        · exact q
      have hsub : (l1 ++ l2).Sublist (l1 ++ x :: l2) :=
        (List.append_sublist_append_left l1).2 (List.sublist_cons_self x l2)
      have := lcs_upper (u ++ v) t (l1 ++ l2) (p1.append hl2) (hsub.trans w2)
      simp only [List.length_append, List.length_cons] at this ⊢
      omega

/-- The table of `lcs` along the ends of the strings. -/
theorem lcs_snoc (s t : List Nat) (a b : Nat) :
    lcs (s ++ [a]) (t ++ [b]) =
      if a = b then lcs s t + 1 else max (lcs s (t ++ [b])) (lcs (s ++ [a]) t) := by
  have e1 : lcs s.reverse t.reverse = lcs s t := lcs_reverse s t
  have e2 : lcs s.reverse (b :: t.reverse) = lcs s (t ++ [b]) := by
    rw [← lcs_reverse s (t ++ [b])]; simp
  have e3 : lcs (a :: s.reverse) t.reverse = lcs (s ++ [a]) t := by
    rw [← lcs_reverse (s ++ [a]) t]; simp
  rw [← lcs_reverse (s ++ [a]) (t ++ [b])]
  simp only [List.reverse_append, List.reverse_singleton, List.singleton_append]
  rw [lcs_cons_cons, e1, e2, e3]

theorem lcs_snoc_left (s t : List Nat) (a : Nat) :
    lcs s t ≤ lcs (s ++ [a]) t ∧ lcs (s ++ [a]) t ≤ lcs s t + 1 := by
  have := lcs_insert s [] t a
  simpa using this

theorem lcs_snoc_right (s t : List Nat) (b : Nat) :
    lcs s t ≤ lcs s (t ++ [b]) ∧ lcs s (t ++ [b]) ≤ lcs s t + 1 := by
  have := lcs_snoc_left t s b
  rw [lcs_comm (t ++ [b]) s, lcs_comm t s] at this
  exact this

/-- One edit operation changes `length + length - 2 * lcs` against any string
by at most its cost. -/
theorem edit_bound (a b t : List Nat) (k : Nat) (h : Edit a b k) :
    a.length + 2 * lcs b t ≤ b.length + 2 * lcs a t + k ∧
      b.length + 2 * lcs a t ≤ a.length + 2 * lcs b t + k := by
  cases h with
  | ins u v c =>
    obtain ⟨h1, h2⟩ := lcs_insert u v t c
    simp only [List.length_append, List.length_cons]
    omega
  | del u v c =>
    obtain ⟨h1, h2⟩ := lcs_insert u v t c
    simp only [List.length_append, List.length_cons]
    omega
  | sub u v c d =>
    obtain ⟨h1, h2⟩ := lcs_insert u v t c
    obtain ⟨h3, h4⟩ := lcs_insert u v t d
    simp only [List.length_append, List.length_cons]
    omega
  | swap u v c d =>
    obtain ⟨h1, h2⟩ := lcs_insert u (d :: v) t c
    obtain ⟨h3, h4⟩ := lcs_insert u (d :: v) t d
    obtain ⟨h5, h6⟩ := lcs_insert (u ++ [d]) v t c
    simp only [List.append_assoc, List.singleton_append] at h5 h6
    simp only [List.length_append, List.length_cons]
    omega

/-- No script is cheaper than `length + length - 2 * lcs`. -/
theorem script_lower (a b : List Nat) (n : Nat) (h : Script a b n) :
    a.length + b.length ≤ n + 2 * lcs a b := by
  induction h with
  | done a => rw [lcs_self]; omega
  | @step a b c k n he _ ih =>
    have := (edit_bound a b c k he).1
    omega

theorem edit_cons (x : Nat) (a b : List Nat) (k : Nat) (h : Edit a b k) :
    Edit (x :: a) (x :: b) k := by
  cases h with
  | ins u v c => exact Edit.ins (x :: u) v c
  | del u v c => exact Edit.del (x :: u) v c
  | sub u v c d => exact Edit.sub (x :: u) v c d
  | swap u v c d => exact Edit.swap (x :: u) v c d

theorem script_cons (x : Nat) (a b : List Nat) (n : Nat) (h : Script a b n) :
    Script (x :: a) (x :: b) n := by
  induction h with
  | done a => exact Script.done _
  | step he _ ih => exact Script.step (edit_cons x _ _ _ he) ih

/-- A script of insertions and deletions costs `length + length - 2 * lcs`. -/
theorem script_exists : ∀ (a b : List Nat), ∃ n, Script a b n ∧
    n + 2 * lcs a b = a.length + b.length := by
  intro a
  induction a with
  | nil =>
    intro b
    induction b with
    | nil => exact ⟨0, Script.done _, rfl⟩
    | cons y t ih =>
      obtain ⟨n, hs, hn⟩ := ih
      refine ⟨1 + n, Script.step (Edit.ins [] [] y) (script_cons y _ _ _ hs), ?_⟩
      simp only [lcs, List.length_cons, List.length_nil] at hn ⊢
      omega
  | cons x s ihs =>
    intro b
    induction b with
    | nil =>
      obtain ⟨n, hs, hn⟩ := ihs []
      refine ⟨1 + n, Script.step (Edit.del [] s x) hs, ?_⟩
      rw [lcs_nil_right] at hn ⊢
      simp only [List.length_cons, List.length_nil] at hn ⊢
      omega
    | cons y t iht =>
      rw [lcs_cons_cons]
      by_cases hxy : x = y
      · rw [if_pos hxy]
        obtain ⟨n, hs, hn⟩ := ihs t
        refine ⟨n, ?_, by simp only [List.length_cons]; omega⟩
        rw [← hxy]; exact script_cons x _ _ _ hs
      · rw [if_neg hxy]
        by_cases hm : lcs (x :: s) t ≤ lcs s (y :: t)
        · obtain ⟨n, hs, hn⟩ := ihs (y :: t)
          refine ⟨1 + n, Script.step (Edit.del [] s x) hs, ?_⟩
          rw [max_eq_left hm]
          simp only [List.length_cons] at hn ⊢
          omega
        · obtain ⟨n, hs, hn⟩ := iht
          refine ⟨1 + n, Script.step (Edit.ins [] (x :: s) y) (script_cons y _ _ _ hs), ?_⟩
          rw [max_eq_right (by omega)]
          simp only [List.length_cons] at hn ⊢
          omega

theorem take_succ_getD (l : List Nat) (x : Nat) (h : x < l.length) :
    l.take (x + 1) = l.take x ++ [l.getD x 0] := by
  rw [List.take_succ, List.getD_eq_getElem?_getD, List.getElem?_eq_getElem h]
  rfl

/-- The matrix of `edit_distn` is `x + y - 2 * lcs` of the two prefixes: a
change (3) and an exchange (5) are never cheaper than a deletion and an
insertion (2). -/
theorem matrix_lcs (F T : List Nat) : ∀ (n x y : Nat), x + y ≤ n → x ≤ T.length →
    y ≤ F.length → matrix F T x y = (x : Int) + y - 2 * lcs (T.take x) (F.take y) := by
  intro n
  induction n with
  | zero =>
    intro x y h _ _
    have hx : x = 0 := by omega
    have hy : y = 0 := by omega
    subst hx; subst hy
    rw [matrix_zero]; simp [lcs]
  | succ n ih =>
    intro x y h hx hy
    cases x with
    | zero => rw [matrix_zero]; simp [lcs]
    | succ x =>
      cases y with
      | zero => rw [matrix_col_zero, List.take_zero, lcs_nil_right]; push_cast; omega
      | succ y =>
        have i00 := ih x y (by omega) (by omega) (by omega)
        have i01 := ih x (y + 1) (by omega) (by omega) (by omega)
        have i10 := ih (x + 1) y (by omega) (by omega) (by omega)
        have imm := ih (x - 1) (y - 1) (by omega) (by omega) (by omega)
        have eT := take_succ_getD T x (by omega)
        have eF := take_succ_getD F y (by omega)
        have s11 := lcs_snoc (T.take x) (F.take y) (T.getD x 0) (F.getD y 0)
        have l01 := lcs_snoc_right (T.take x) (F.take y) (F.getD y 0)
        have l10 := lcs_snoc_left (T.take x) (F.take y) (T.getD x 0)
        rw [← eT, ← eF] at s11
        rw [← eF] at l01
        rw [← eT] at l10
        have lmm : x > 0 → y > 0 →
            lcs (T.take (x - 1)) (F.take (y - 1)) ≤ lcs (T.take x) (F.take y) := by
          intro h1 h2
          have a1 := take_succ_getD T (x - 1) (by omega)
          have a2 := take_succ_getD F (y - 1) (by omega)
          rw [Nat.sub_add_cancel (by omega)] at a1 a2
          have b1 := (lcs_snoc_left (T.take (x - 1)) (F.take (y - 1)) (T.getD (x - 1) 0)).1
          have b2 := (lcs_snoc_right (T.take x) (F.take (y - 1)) (F.getD (y - 1) 0)).1
          rw [← a1] at b1
          rw [← a2] at b2
          omega
        rw [matrix_succ, i00, i01, i10, imm]
        simp only [min3_eq, min2_eq]
        generalize lcs (T.take x) (F.take y) = L00 at *
        generalize lcs (T.take x) (F.take (y + 1)) = L01 at *
        generalize lcs (T.take (x + 1)) (F.take y) = L10 at *
        generalize lcs (T.take (x + 1)) (F.take (y + 1)) = L11 at *
        generalize lcs (T.take (x - 1)) (F.take (y - 1)) = Lmm at *
        by_cases hxy : F.getD y 0 = T.getD x 0
        · rw [if_pos hxy.symm] at s11
          simp only [if_pos hxy]
          by_cases hsw : F.getD y 0 = T.getD (x - 1) 0 ∧ y > 0 ∧ F.getD (y - 1) 0 = T.getD x 0 ∧
              x > 0
          · rw [if_pos hsw]
            have := lmm hsw.2.2.2 hsw.2.1
            push_cast
            simp only [min_def]
            split_ifs <;> omega
          · rw [if_neg hsw]
            push_cast
            simp only [min_def]
            split_ifs <;> omega
        · rw [if_neg (fun e => hxy e.symm)] at s11
          simp only [if_neg hxy]
          have hmax : L11 = L01 ∨ L11 = L10 := by
            rw [s11]; rcases le_total L01 L10 with h | h
            · right; exact max_eq_right h
            · left; exact max_eq_left h
          have hge : L01 ≤ L11 ∧ L10 ≤ L11 := by
            rw [s11]; exact ⟨le_max_left _ _, le_max_right _ _⟩
          by_cases hsw : F.getD y 0 = T.getD (x - 1) 0 ∧ y > 0 ∧ F.getD (y - 1) 0 = T.getD x 0 ∧
              x > 0
          · rw [if_pos hsw]
            have := lmm hsw.2.2.2 hsw.2.1
            push_cast
            simp only [min_def]
            split_ifs <;> omega
          · rw [if_neg hsw]
            push_cast
            simp only [min_def]
            split_ifs <;> omega

/-- The value of `edit_distn` for strings short enough for the fixed storage
and for the early exit never to be taken. -/
theorem edit_distn_lcs (a b : List Nat) (ha : a.length ≤ STRLENTHRESHOLD) (hb : b.length ≤ 99) :
    edit_distn a a.length b b.length = (a.length : Int) + b.length - 2 * lcs a b := by
  by_cases h1 : a.length = 0
  · have ea : a = [] := List.length_eq_zero.1 h1
    subst ea
    unfold edit_distn
    simp only [List.length_nil, if_true, lcs]
    split_ifs with h2
    · rw [h2]; rfl
    · push_cast; omega
  by_cases h2 : b.length = 0
  · have eb : b = [] := List.length_eq_zero.1 h2
    subst eb
    unfold edit_distn
    rw [if_neg h1]
    simp only [List.length_nil, if_true, lcs_nil_right]
    push_cast; omega
  rw [edit_distn_eq a b a.length b.length (by omega) (by omega) ha hb,
    matrix_lcs a b (b.length + a.length) b.length a.length (le_refl _) (le_refl _) (le_refl _),
    List.take_length, List.take_length, lcs_comm]
  omega

/-! ## The early exit of `edit_distn` -/

/-- One column of a row: the entry of the matrix is written, and `low` is the
least entry of the row so far. -/
theorem next_row_step (F T : List Nat) (m R r : Nat) (hR : R = 2 * m + 3) (hr : 1 ≤ r)
    (fuel c : Nat) (s : ed_state) (hB : BufOK F T m R (r * m + c) s) (hcm : c < m) :
    next_row F T m R r (fuel + 1) c s =
      next_row F T m R r fuel (c + 1)
        { buffer := s.buffer.set s.index (matrix F T (r + 1) (c + 1)),
          index := (s.index + 1) % R,
          low := if matrix F T (r + 1) (c + 1) < s.low ∨ c = 0
            then matrix F T (r + 1) (c + 1) else s.low } := by
  conv_lhs => unfold next_row
  rw [if_pos hcm]
  simp only []
  rw [read_NW F T m R _ s hB hR r c rfl hcm hr, read_N F T m R _ s hB hR r c rfl hcm hr,
    read_W F T m R _ s hB hR r c rfl hcm]
  have hv : (if F.getD c 0 = T.getD (r - 1) 0 ∧ c > 0 ∧ F.getD (c - 1) 0 = T.getD r 0 then
      min2 (min3 (matrix F T r c + (if F.getD c 0 = T.getD r 0 then 0 else 3))
        (matrix F T r (c + 1) + 1) (matrix F T (r + 1) c + 1))
        (ar (s.buffer.set s.index
          (min3 (matrix F T r c + (if F.getD c 0 = T.getD r 0 then 0 else 3))
            (matrix F T r (c + 1) + 1) (matrix F T (r + 1) c + 1))) R ((r : Int) - 1)
          ((c : Int) - 1) (s.index + 1) + 5)
      else min3 (matrix F T r c + (if F.getD c 0 = T.getD r 0 then 0 else 3))
        (matrix F T r (c + 1) + 1) (matrix F T (r + 1) c + 1)) =
      matrix F T (r + 1) (c + 1) := by
    rw [matrix_succ]
    generalize (if F.getD c 0 = T.getD r 0 then (0 : Int) else 3) = cost
    by_cases hsw : F.getD c 0 = T.getD (r - 1) 0 ∧ c > 0 ∧ F.getD (c - 1) 0 = T.getD r 0
    · rw [if_pos hsw, if_pos ⟨hsw.1, hsw.2.1, hsw.2.2, by omega⟩,
        read_NNWW F T m R _ s hB hR r c rfl hcm hr hsw.2.1]
    · rw [if_neg hsw, if_neg (fun h => hsw ⟨h.1, h.2.1, h.2.2.1⟩)]
  rw [hv]

/-- After a row, `low` is at most every entry of the row. -/
theorem next_row_min (F T : List Nat) (m R r : Nat) (hR : R = 2 * m + 3) (hr : 1 ≤ r) :
    ∀ (fuel c : Nat) (s : ed_state), BufOK F T m R (r * m + c) s → c ≤ m → m - c ≤ fuel →
      (∀ j, j < c → s.low ≤ matrix F T (r + 1) (j + 1)) →
      ∀ j, j < m → (next_row F T m R r fuel c s).low ≤ matrix F T (r + 1) (j + 1) := by
  intro fuel
  induction fuel with
  | zero =>
    intro c s hB hc hf hl
    have : c = m := by omega
    subst this
    exact hl
  | succ fuel ih =>
    intro c s hB hc hf hl
    by_cases hcm : c < m
    · rw [next_row_step F T m R r hR hr fuel c s hB hcm]
      have hB' := bufok_write F T m R _ s hB hR r c rfl hcm
        { buffer := s.buffer.set s.index (matrix F T (r + 1) (c + 1)),
          index := (s.index + 1) % R,
          low := if matrix F T (r + 1) (c + 1) < s.low ∨ c = 0
            then matrix F T (r + 1) (c + 1) else s.low }
        rfl
        (by show (s.index + 1) % R = _; rw [hB.idx, Nat.mod_add_mod])
      refine ih (c + 1) _ hB' (by omega) (by omega) ?_
      intro j hj
      show (if matrix F T (r + 1) (c + 1) < s.low ∨ c = 0
          then matrix F T (r + 1) (c + 1) else s.low) ≤ _
      by_cases h0 : c = 0
      · subst h0
        rw [if_pos (Or.inr rfl)]
        have : j = 0 := by omega
        subst this
        exact le_refl _
      · by_cases hjc : j = c
        · subst hjc
          split_ifs with h
          · exact le_refl _
          · have : ¬ matrix F T (r + 1) (j + 1) < s.low := fun h' => h (Or.inl h')
            omega
        · have := hl j (by omega)
          split_ifs with h
          · rcases h with h | h
            · omega
            · exact absurd h h0
          · exact this
    · have : c = m := by omega
      subst this
      unfold next_row
      rw [if_neg hcm]
      exact hl

/-- The loop over the rows either runs to its end and leaves the whole matrix
behind, or it is left at a row whose entries are all above `MIN_DIST`. -/
theorem all_rows_cases (F T : List Nat) (m n R : Nat) (hR : R = 2 * m + 3) (hm : 1 ≤ m) :
    ∀ (fuel r : Nat) (s : ed_state), BufOK F T m R (r * m) s → 1 ≤ r → r ≤ n → n - r ≤ fuel →
      (break_row F T m n R fuel r s = none ∧
        BufOK F T m R (n * m) (all_rows F T m n R fuel r s)) ∨
      ∃ r', break_row F T m n R fuel r s = some r' ∧ r ≤ r' ∧ r' < n ∧
        BufOK F T m R ((r' + 1) * m) (all_rows F T m n R fuel r s) ∧
        ∀ j, j < m → 100 < matrix F T (r' + 1) (j + 1) := by
  intro fuel
  induction fuel with
  | zero =>
    intro r s hB _ hr hf
    have : r = n := by omega
    subst this
    exact Or.inl ⟨rfl, hB⟩
  | succ fuel ih =>
    intro r s hB h1 hr hf
    unfold all_rows break_row
    by_cases hrn : r < n
    · rw [if_pos hrn, if_pos hrn]
      simp only []
      obtain ⟨hB1, _⟩ := next_row_spec F T m R r hR h1 m 0 s (by simpa using hB)
        (by omega) (by omega) (fun h => by omega)
      have hmin := next_row_min F T m R r hR h1 m 0 s (by simpa using hB)
        (by omega) (by omega) (fun j hj => by omega)
      have e : (r + 1) * m = r * m + m := by ring
      by_cases hlow : (next_row F T m R r m 0 s).low > MIN_DIST
      · rw [if_pos hlow, if_pos hlow]
        right
        refine ⟨r, rfl, le_refl _, hrn, by rw [e]; exact hB1, ?_⟩
        intro j hj
        have := hmin j hj
        simp only [MIN_DIST] at hlow
        omega
      · rw [if_neg hlow, if_neg hlow]
        rcases ih (r + 1) _ (by rw [e]; exact hB1) (by omega) (by omega) (by omega) with
          ⟨b1, b2⟩ | ⟨r', b1, b2, b3, b4, b5⟩
        · exact Or.inl ⟨b1, b2⟩
        · exact Or.inr ⟨r', b1, by omega, b3, b4, b5⟩
    · have : r = n := by omega
      subst this
      rw [if_neg hrn, if_neg hrn]
      exact Or.inl ⟨rfl, hB⟩

/-- The last entry written is what `edit_distn` returns. -/
theorem bufok_last (F T : List Nat) (m R k : Nat) (hR : R = 2 * m + 3) (hm : 1 ≤ m) (hk : 1 ≤ k)
    (s : ed_state) (hB : BufOK F T m R (k * m) s) :
    s.buffer.getD ((s.index + R - 1) % R) 0 = matrix F T k m := by
  subst hR
  have hkm : k * m = (k - 1) * m + (m - 1) + 1 := by
    have : k = (k - 1) + 1 := by omega
    conv_lhs => rw [this]
    rw [Nat.add_mul, Nat.one_mul]; omega
  have hidx := hB.idx
  have hcell := hB.cells (k - 1) (m - 1) (by omega) (by omega) (by omega)
  rw [hidx]
  have hpos : ((k * m) % (2 * m + 3) + (2 * m + 3) - 1) % (2 * m + 3) =
      ((k - 1) * m + (m - 1)) % (2 * m + 3) := by
    have := idx_back (2 * m + 3) (k * m) ((k - 1) * m + (m - 1)) 1 (by omega) (by omega)
    rw [← this]
    congr 1
  rw [hpos, hcell]
  congr 1 <;> omega

/-- What `edit_distn` returns for two strings that are not empty, the first one
short enough for the fixed storage: the corner of the matrix when the `break`
is not taken, and the last entry of the row at which it is taken otherwise. -/
theorem edit_distn_cases (F T : List Nat) (m n : Nat) (hm : 1 ≤ m) (hn : 1 ≤ n)
    (hm' : m ≤ STRLENTHRESHOLD) :
    (edit_distn_break F m T n = none ∧ edit_distn F m T n = matrix F T n m) ∨
    ∃ r, edit_distn_break F m T n = some r ∧ 1 ≤ r ∧ r < n ∧
      edit_distn F m T n = matrix F T (r + 1) m ∧
      ∀ j, j < m → 100 < matrix F T (r + 1) (j + 1) := by
  unfold edit_distn edit_distn_break
  rw [if_neg (by omega), if_neg (by omega), if_neg (by omega), if_neg (by omega)]
  have hsw : decide (m > n ∧ m > STRLENTHRESHOLD) = false := by
    simp only [decide_eq_false_iff_not]; omega
  simp only [hsw, Bool.false_eq_true, if_false]
  have hv0 : min2 (1 + 1) (if F.getD 0 0 = T.getD 0 0 then 0 else 3) = matrix F T 1 1 := by
    rw [matrix_succ, matrix_zero, matrix_zero, matrix_col_zero]
    generalize (if F.getD 0 0 = T.getD 0 0 then (0 : Int) else 3) = cost
    rw [if_neg (fun h => by omega)]
    simp only [min3_eq, min2_eq]
    push_cast
    rw [min_self, min_comm]
    norm_num
  rw [hv0]
  have hB0 : BufOK F T m (2 * m + 3) 1
      { buffer := (List.replicate (2 * m + 3) (0 : Int)).set 0 (matrix F T 1 1), index := 1,
        low := matrix F T 1 1 } := by
    refine ⟨by simp, by show 1 = 1 % (2 * m + 3); rw [Nat.mod_eq_of_lt (by omega)], ?_⟩
    intro r c hc h1 _
    have hr0 : r = 0 := by
      by_contra h
      have : m ≤ r * m := Nat.le_mul_of_pos_left m (by omega)
      omega
    subst hr0
    have hc0 : c = 0 := by omega
    subst hc0
    show ((List.replicate (2 * m + 3) (0 : Int)).set 0 (matrix F T 1 1)).getD _ 0 = _
    rw [getD_set_int]
    simp
  have hB1 := first_row_spec F T m (2 * m + 3) rfl m 1 _ hB0 (le_refl _) hm (by omega)
  rcases all_rows_cases F T m n (2 * m + 3) rfl hm n 1 _ (by simpa using hB1)
    (le_refl _) hn (by omega) with ⟨b1, b2⟩ | ⟨r', b1, b2, b3, b4, b5⟩
  · exact Or.inl ⟨b1, bufok_last F T m _ n rfl hm hn _ b2⟩
  · exact Or.inr ⟨r', b1, b2, b3, bufok_last F T m _ (r' + 1) rfl hm (by omega) _ b4, b5⟩

/-- When every entry of a row of the matrix is at least `K`, so is every entry
of the next row. -/
theorem row_step (F T : List Nat) (K : Int) (m x : Nat) (hm : m ≤ F.length)
    (hx : x < T.length) (h : ∀ c, c ≤ m → K ≤ matrix F T x c) :
    ∀ c, c ≤ m → K ≤ matrix F T (x + 1) c := by
  intro c
  induction c with
  | zero =>
    intro _
    have := h 0 (by omega)
    rw [matrix_col_zero] at this ⊢
    push_cast; omega
  | succ c ih =>
    intro hc
    have i11 := matrix_lcs F T (x + 1 + (c + 1)) (x + 1) (c + 1) (le_refl _) (by omega)
      (by omega)
    have i00 := matrix_lcs F T (x + c) x c (le_refl _) (by omega) (by omega)
    have i01 := matrix_lcs F T (x + (c + 1)) x (c + 1) (le_refl _) (by omega) (by omega)
    have i10 := matrix_lcs F T (x + 1 + c) (x + 1) c (le_refl _) (by omega) (by omega)
    have eT := take_succ_getD T x (by omega)
    have eF := take_succ_getD F c (by omega)
    have s11 := lcs_snoc (T.take x) (F.take c) (T.getD x 0) (F.getD c 0)
    rw [← eT, ← eF] at s11
    have h00 := h c (by omega)
    have h01 := h (c + 1) hc
    have h10 := ih (by omega)
    rw [i11]
    rw [i00] at h00
    rw [i01] at h01
    rw [i10] at h10
    generalize lcs (T.take x) (F.take c) = L00 at *
    generalize lcs (T.take x) (F.take (c + 1)) = L01 at *
    generalize lcs (T.take (x + 1)) (F.take c) = L10 at *
    generalize lcs (T.take (x + 1)) (F.take (c + 1)) = L11 at *
    by_cases hxy : T.getD x 0 = F.getD c 0
    · rw [if_pos hxy] at s11
      push_cast at *
      omega
    · rw [if_neg hxy] at s11
      have hmax : L11 = L01 ∨ L11 = L10 := by
        rw [s11]; rcases le_total L01 L10 with h | h
        · right; exact max_eq_right h
        · left; exact max_eq_left h
      push_cast at *
      omega

theorem rows_ge (F T : List Nat) (K : Int) (m : Nat) (hm : m ≤ F.length) :
    ∀ (d x : Nat), x + d ≤ T.length → (∀ c, c ≤ m → K ≤ matrix F T x c) →
      ∀ c, c ≤ m → K ≤ matrix F T (x + d) c := by
  intro d
  induction d with
  | zero => intro x _ h; exact h
  | succ d ih =>
    intro x hx h
    have := ih (x + 1) (by omega) (row_step F T K m x hm (by omega) h)
    rw [Nat.add_assoc, Nat.add_comm 1 d] at this
    exact this

theorem distance_lcs (a b : List Nat) (n : Nat) :
    Distance a b n ↔ n + 2 * lcs a b = a.length + b.length := by
  obtain ⟨k, hs, hk⟩ := script_exists a b
  constructor
  · rintro ⟨h1, h2⟩
    have := h2 k hs
    have := script_lower a b n h1
    omega
  · intro h
    have e : n = k := by omega
    subst e
    exact ⟨hs, fun j hj => by have := script_lower a b j hj; omega⟩

/-- The corner of the matrix is the least cost of a script. -/
theorem matrix_distance (a b : List Nat) (n : Nat) (h : Distance a b n) :
    matrix a b b.length a.length = (n : Int) := by
  have e := (distance_lcs a b n).1 h
  rw [matrix_lcs a b (b.length + a.length) b.length a.length (le_refl _) (le_refl _) (le_refl _),
    List.take_length, List.take_length, lcs_comm]
  omega

/-! ## Claims -/

/-- C11: for every buffer whose length fits the `uint32_t` parameter,
`fuzzy_hash_buf` returns 0 and leaves `D:S1:S2`, where `D` is a non-empty run of
decimal digits that does not start with `0`, and `S1` and `S2` are made of
characters of the alphabet `b64` and are at most 64 characters long. -/
theorem C11_hash_format (B : List Nat) (hlen : B.length < 2 ^ 32) :
    ∃ D S1 S2, fuzzy_hash_buf B = Outcome.ok (D ++ 58 :: S1 ++ 58 :: S2) ∧
      D ≠ [] ∧ (∀ c ∈ D, 48 ≤ c ∧ c ≤ 57) ∧ D.head? ≠ some 48 ∧
      S1.length ≤ 64 ∧ S2.length ≤ 64 ∧ (∀ c ∈ S1, c ∈ b64) ∧ (∀ c ∈ S2, c ∈ b64) := by
  obtain ⟨bi, S1, S2, hbi, e, l1, l2, a1, a2⟩ := hash_buf_form B hlen
  obtain ⟨d1, d2, d3, _, _⟩ := dec_spec (SSDEEP_BS bi)
  exact ⟨dec (SSDEEP_BS bi), S1, S2, e, d2, d1, d3 (SSDEEP_BS_pos bi (by omega)), l1, l2,
    a1, a2⟩

theorem C11_hash_format_witness :
    ∃ D S1 S2, fuzzy_hash_buf (chars "The quick brown fox") =
        Outcome.ok (D ++ 58 :: S1 ++ 58 :: S2) ∧
      D ≠ [] ∧ (∀ c ∈ D, 48 ≤ c ∧ c ≤ 57) ∧ D.head? ≠ some 48 ∧
      S1.length ≤ 64 ∧ S2.length ≤ 64 ∧ (∀ c ∈ S1, c ∈ b64) ∧ (∀ c ∈ S2, c ∈ b64) :=
  C11_hash_format (chars "The quick brown fox") (by decide)

/-- C12: after any sequence of updates of a new state, a digest that is
returned starts with the decimal text of `3 * 2 ^ k` for a `k ≤ 30`, and when
`k > 0` the size of the input is above `64 * 3 * 2 ^ (k - 1)` or `k` is
`bhstart`, the lowest slot still in use. -/
theorem C12_blocksize (chunks : List (List Nat)) (flags : Nat) (s : fuzzy_state)
    (r : List Nat) (hsz : (chunks.map List.length).sum < 2 ^ 64)
    (hs : updates fuzzy_new chunks = some s) (hr : fuzzy_digest s flags = Outcome.ok r) :
    ∃ k rest, k ≤ 30 ∧ r = dec (3 * 2 ^ k) ++ 58 :: rest ∧
      (0 < k → 64 * 3 * 2 ^ (k - 1) < (chunks.map List.length).sum ∨ k = s.bhstart) := by
  obtain ⟨s', e, hI, ht⟩ := updates_inv chunks fuzzy_new inv_new
    (by show 0 + _ < 2 ^ 64; omega)
  rw [hs] at e
  have e' : s = s' := by simpa using e
  subst e'
  have ht' : s.total_size = (chunks.map List.length).sum := by
    rw [ht]; show 0 + _ = _; omega
  obtain ⟨bi, rest, hc, hform⟩ := digest_head s flags r hr
  obtain ⟨c1, c2, c3, c4⟩ := choose_bi_spec s hI bi hc
  have h2 := hI.end_le
  simp only [NUM_BLOCKHASHES] at h2
  refine ⟨bi, rest, by omega, ?_, ?_⟩
  · rw [hform, SSDEEP_BS_eq bi (by omega)]
  · intro hk
    by_cases hb : s.bhstart < bi
    · left
      have := c4 hb
      rw [SSDEEP_BS_eq (bi - 1) (by omega), ht'] at this
      simp only [SPAMSUM_LENGTH] at this
      omega
    · right; omega

set_option maxRecDepth 100000 in
theorem C12_blocksize_witness :
    ∃ k rest, k ≤ 30 ∧
      chars "6:XzGylgyC84lhM00zWsosWzK1918Bbc2ElwB0SsowzGylgyC84lhM00zWsosj:1E847M0XsoUXQb7M0XsowE847M0Xsow"
        = dec (3 * 2 ^ k) ++ 58 :: rest ∧
      (0 < k → 64 * 3 * 2 ^ (k - 1) <
          ([(List.range 120).map (fun i => i * i % 256),
            (List.range 80).map (fun i => (i + 120) * (i + 120) % 256)].map List.length).sum ∨
        k = ((updates fuzzy_new [(List.range 120).map (fun i => i * i % 256),
            (List.range 80).map (fun i => (i + 120) * (i + 120) % 256)]).getD fuzzy_new).bhstart) :=
  C12_blocksize [(List.range 120).map (fun i => i * i % 256),
      (List.range 80).map (fun i => (i + 120) * (i + 120) % 256)] 0 _
    (chars "6:XzGylgyC84lhM00zWsosWzK1918Bbc2ElwB0SsowzGylgyC84lhM00zWsosj:1E847M0XsoUXQb7M0XsowE847M0Xsow")
    (by decide) (by decide) (by decide)

/-- C13: the hash of the empty buffer is the string `3::`, and comparing that
string with itself gives 0. -/
theorem C13_empty_buffer :
    fuzzy_hash_buf [] = Outcome.ok (chars "3::") ∧
      fuzzy_compare (chars "3::") (chars "3::") = 0 := by
  constructor <;> decide

/-- C14, as stated, fails: the one-byte buffer `a` has the signature `3:E:E`,
whose first part is not empty, and comparing that signature with itself gives
0, not 100. -/
theorem C14_one_byte :
    fuzzy_hash_buf (chars "a") = Outcome.ok (chars "3:E:E") ∧
      fuzzy_compare (chars "3:E:E") (chars "3:E:E") = 0 := by
  constructor <;> decide

/-- C14, amended: let `d` be the signature of a buffer whose length fits
`uint32_t`, `bs` its blocksize and `p.1` its first part as `fuzzy_compare` cuts
it out (runs of more than three equal characters shortened). If `p.1` has a
common substring with itself in the sense of `has_common_substring` (seven
characters in a row whose rolling hash is not zero) and `bs / 3` times its
length is at least 100, then comparing `d` with itself gives 100. -/
theorem C14_self_compare (B : List Nat) (hlen : B.length < 2 ^ 32) (d : List Nat) (bs : Nat)
    (p : List Nat × List Nat) (hd : fuzzy_hash_buf B = Outcome.ok d)
    (hs : scan_u d = some bs) (hp : pieces d = some p)
    (hc : has_common_substring p.1 p.1 = 1) (hcap : 100 ≤ bs / 3 * p.1.length) :
    fuzzy_compare d d = 100 := by
  obtain ⟨bi, d', p', _, e, _, hp', hl⟩ := hash_buf_pieces B hlen
  rw [hd] at e
  have ed : d = d' := by simpa using e
  subst ed
  rw [hp] at hp'
  have ep : p = p' := by simpa using hp'
  subst ep
  exact self_compare d bs p hs hp hl hc hcap

set_option maxRecDepth 100000 in
theorem C14_self_compare_witness :
    fuzzy_compare
        (chars "6:XzGylgyC84lhM00zWsosWzK1918Bbc2ElwB0SsowzGylgyC84lhM00zWsosj:1E847M0XsoUXQb7M0XsowE847M0Xsow")
        (chars "6:XzGylgyC84lhM00zWsosWzK1918Bbc2ElwB0SsowzGylgyC84lhM00zWsosj:1E847M0XsoUXQb7M0XsowE847M0Xsow")
      = 100 :=
  C14_self_compare ((List.range 200).map (fun i => i * i % 256)) (by simp)
    (chars "6:XzGylgyC84lhM00zWsosWzK1918Bbc2ElwB0SsowzGylgyC84lhM00zWsosj:1E847M0XsoUXQb7M0XsowE847M0Xsow")
    6
    (chars "XzGylgyC84lhM00zWsosWzK1918Bbc2ElwB0SsowzGylgyC84lhM00zWsosj",
      chars "1E847M0XsoUXQb7M0XsowE847M0Xsow")
    (by decide) (by decide) (by decide) (by decide) (by decide)

/-- C15: for the text `The quick brown fox jumps over the lazy dog` repeated
100 times `fuzzy_hash_buf` returns 0 and leaves a signature of blocksize 6, and
comparing that signature with itself gives 100. -/
theorem C15_fox_text :
    fuzzy_hash_buf
        (List.replicate 100 (chars "The quick brown fox jumps over the lazy dog")).flatten =
      Outcome.ok
        (chars "6:FHIGYIGYIGYIGYIGYIGYIGYIGYIGYIGYIGYIGYIGYIGYIGYIGYIGYIGYIGYIGYIw:Fp") ∧
    fuzzy_compare
        (chars "6:FHIGYIGYIGYIGYIGYIGYIGYIGYIGYIGYIGYIGYIGYIGYIGYIGYIGYIGYIGYIGYIw:Fp")
        (chars "6:FHIGYIGYIGYIGYIGYIGYIGYIGYIGYIGYIGYIGYIGYIGYIGYIGYIGYIGYIGYIGYIw:Fp") =
      100 := by
  refine ⟨fox_hash, ?_⟩
  exact self_compare _ 6
    (chars "FHIGYIGYIGYIGYIGYIGYIGYIGYIGYIGYIGYIGYIGYIGYIGYIGYIGYIGYIGYIGYIw", chars "Fp")
    (by decide) (by decide) (by decide) (by decide) (by decide)

/-- C16: `fuzzy_compare` gives the same result when its two arguments are
exchanged, for all strings. -/
theorem C16_symmetric (x y : List Nat) : fuzzy_compare x y = fuzzy_compare y x := by
  rw [fuzzy_compare_eq, fuzzy_compare_eq]
  cases hx : scan_u x with
  | none => cases hy : scan_u y <;> rfl
  | some b1 =>
    cases hy : scan_u y with
    | none => rfl
    | some b2 =>
      simp only []
      by_cases h : b1 ≠ b2 ∧ b1 ≠ (b2 * 2) % 2 ^ 32 ∧ b2 ≠ (b1 * 2) % 2 ^ 32
      · rw [if_pos h, if_pos ⟨h.1.symm, h.2.2, h.2.1⟩]
      · rw [if_neg h, if_neg (fun h' => h ⟨h'.1.symm, h'.2.2, h'.2.1⟩)]
        cases pieces x with
        | none => cases pieces y <;> rfl
        | some p1 =>
          cases pieces y with
          | none => rfl
          | some p2 => exact combine_symm b1 b2 p1 p2 h

/-- C17: the blocksizes are compared as `unsigned int`, so `2 * B` is taken
modulo `2 ^ 32`: the blocksizes 6 and 2147483651 are none of equal, double and
half of each other, and yet `fuzzy_compare` gives 16. When none of the three
tests of the code holds, with the doubling modulo `2 ^ 32`, the result is 0; and
for two signatures made by `fuzzy_hash_buf`, whose blocksizes are `3 * 2 ^ k1`
and `3 * 2 ^ k2` with `k1`, `k2` at most 30, the result is 0 when `k1` and `k2`
differ by more than one. -/
theorem C17_incompatible :
    fuzzy_compare (chars "6:ABCDEFGH:x") (chars "2147483651:y:ABCDEFGH") = 16 ∧
    (∀ (str1 str2 : List Nat) (b1 b2 : Nat), scan_u str1 = some b1 → scan_u str2 = some b2 →
      b1 ≠ b2 → b1 ≠ (b2 * 2) % 2 ^ 32 → b2 ≠ (b1 * 2) % 2 ^ 32 →
      fuzzy_compare str1 str2 = 0) ∧
    (∀ (X Y : List Nat), X.length < 2 ^ 32 → Y.length < 2 ^ 32 →
      ∃ dX dY k1 k2, fuzzy_hash_buf X = Outcome.ok dX ∧ fuzzy_hash_buf Y = Outcome.ok dY ∧
        k1 ≤ 30 ∧ k2 ≤ 30 ∧ scan_u dX = some (3 * 2 ^ k1) ∧ scan_u dY = some (3 * 2 ^ k2) ∧
        (k1 ≠ k2 → k1 ≠ k2 + 1 → k2 ≠ k1 + 1 → fuzzy_compare dX dY = 0)) := by
  have gen : ∀ (str1 str2 : List Nat) (b1 b2 : Nat), scan_u str1 = some b1 →
      scan_u str2 = some b2 → b1 ≠ b2 → b1 ≠ (b2 * 2) % 2 ^ 32 → b2 ≠ (b1 * 2) % 2 ^ 32 →
      fuzzy_compare str1 str2 = 0 := by
    intro str1 str2 b1 b2 h1 h2 n1 n2 n3
    rw [fuzzy_compare_eq, h1, h2]
    simp only []
    rw [if_pos ⟨n1, n2, n3⟩]
  refine ⟨by decide, gen, ?_⟩
  intro X Y hX hY
  obtain ⟨k1, dX, _, hk1, eX, sX, _, _⟩ := hash_buf_pieces X hX
  obtain ⟨k2, dY, _, hk2, eY, sY, _, _⟩ := hash_buf_pieces Y hY
  rw [SSDEEP_BS_eq k1 (by omega)] at sX
  rw [SSDEEP_BS_eq k2 (by omega)] at sY
  refine ⟨dX, dY, k1, k2, eX, eY, by omega, by omega, sX, sY, ?_⟩
  intro n1 n2 n3
  refine gen dX dY _ _ sX sY ?_ (blocksize_ne k1 k2 (by omega) (by omega) n2)
    (blocksize_ne k2 k1 (by omega) (by omega) n3)
  intro e
  have e2 : 2 ^ k1 = 2 ^ k2 := by omega
  exact n1 (Nat.pow_right_injective (le_refl 2) e2)

theorem C17_incompatible_witness :
    fuzzy_compare (chars "3:ABCDEFGH:x") (chars "12:y:ABCDEFGH") = 0 :=
  C17_incompatible.2.1 (chars "3:ABCDEFGH:x") (chars "12:y:ABCDEFGH") 3 12 (by decide)
    (by decide) (by decide) (by decide) (by decide)

/-- C18: `fuzzy_compare` returns -1 or a value in 0..100, and `score_strings`
never returns more than 100. -/
theorem C18_score_range (str1 str2 s1 s2 : List Nat) (block_size : Nat) :
    (fuzzy_compare str1 str2 = -1 ∨
      (0 ≤ fuzzy_compare str1 str2 ∧ fuzzy_compare str1 str2 ≤ 100)) ∧
    score_strings s1 s2 block_size ≤ 100 := by
  refine ⟨?_, score_strings_le _ _ _⟩
  rw [fuzzy_compare_eq]
  split
  · split_ifs
    · right; omega
    · split
      · right; exact combine_range _ _ _ _
      · left; rfl
  · left; rfl

/-- C19: a filename behind a comma is ignored. For a signature `X:S1:S2` without
a comma, whose `X` and `S1` hold no colon, and for any strings `t` and `d2`,
appending `,t` to the signature changes the result of `fuzzy_compare` in
neither argument position. -/
theorem C19_comma_tail (X S1 S2 t d2 : List Nat) (hX : 58 ∉ X) (hS : 58 ∉ S1)
    (hc : 44 ∉ X ++ 58 :: S1 ++ 58 :: S2) :
    fuzzy_compare ((X ++ 58 :: S1 ++ 58 :: S2) ++ 44 :: t) d2 =
        fuzzy_compare (X ++ 58 :: S1 ++ 58 :: S2) d2 ∧
      fuzzy_compare d2 ((X ++ 58 :: S1 ++ 58 :: S2) ++ 44 :: t) =
        fuzzy_compare d2 (X ++ 58 :: S1 ++ 58 :: S2) := by
  have hc' : 44 ∉ S1 ++ 58 :: S2 := by
    intro h; apply hc
    simp only [List.append_assoc, List.cons_append, List.mem_append, List.mem_cons] at h ⊢
    tauto
  have hp := annot_pieces X S1 S2 t hX hS hc'
  have hs : scan_u ((X ++ 58 :: S1 ++ 58 :: S2) ++ 44 :: t) = scan_u (X ++ 58 :: S1 ++ 58 :: S2) := by
    have := annot_scan X (S1 ++ 58 :: S2) t
    simpa using this
  constructor <;> rw [fuzzy_compare_eq, fuzzy_compare_eq, hs, hp]

theorem C19_comma_tail_witness :
    fuzzy_compare (chars "6:ABCDEFGH:x,a.bin") (chars "6:ABCDEFGH:y") =
        fuzzy_compare (chars "6:ABCDEFGH:x") (chars "6:ABCDEFGH:y") ∧
      fuzzy_compare (chars "6:ABCDEFGH:y") (chars "6:ABCDEFGH:x,a.bin") =
        fuzzy_compare (chars "6:ABCDEFGH:y") (chars "6:ABCDEFGH:x") :=
  C19_comma_tail (chars "6") (chars "ABCDEFGH") (chars "x") (chars "a.bin")
    (chars "6:ABCDEFGH:y") (by decide) (by decide) (by decide)

/-- C20: the digest does not depend on how the input is cut into chunks. When
`a` and `b` together are shorter than `2 ^ 64` bytes, both `fuzzy_update` with
`a ++ b` and `fuzzy_update` with `a` followed by `fuzzy_update` with `b` succeed
on a new state, and `fuzzy_digest` gives the same result for the two states
under every `flags`. -/
theorem C20_chunking (a b : List Nat) (flags : Nat) (hsz : a.length + b.length < 2 ^ 64) :
    ∃ s1 s2, fuzzy_update fuzzy_new (a ++ b) = some s1 ∧
      (fuzzy_update fuzzy_new a).bind (fun s => fuzzy_update s b) = some s2 ∧
      fuzzy_digest s2 flags = fuzzy_digest s1 flags := by
  have e0 : ∀ n : Nat, (fuzzy_new.total_size + n) = n := by
    intro n; show 0 + n = n; omega
  have hA0 : Inv { fuzzy_new with total_size := (a ++ b).length % 2 ^ 64 } :=
    inv_congr fuzzy_new _ inv_new rfl rfl rfl (Nat.zero_le _) (fun _ => rfl)
  have hB0 : Inv { fuzzy_new with total_size := a.length % 2 ^ 64 } :=
    inv_congr fuzzy_new _ inv_new rfl rfl rfl (Nat.zero_le _) (fun _ => rfl)
  have hL0 : Lag { fuzzy_new with total_size := (a ++ b).length % 2 ^ 64 }
      { fuzzy_new with total_size := a.length % 2 ^ 64 } := by
    refine ⟨rfl, rfl, le_refl _, ?_, fun _ _ => rfl⟩
    show a.length % 2 ^ 64 ≤ (a ++ b).length % 2 ^ 64
    rw [List.length_append, Nat.mod_eq_of_lt (by omega), Nat.mod_eq_of_lt hsz]
    omega
  obtain ⟨A1, B1, eA1, eB1, hA1, hB1, hL1, tA1, tB1⟩ := feed_lag a _ _ hA0 hB0 hL0
  have tA1' : A1.total_size = a.length + b.length := by
    rw [tA1]
    show (a ++ b).length % 2 ^ 64 = _
    rw [List.length_append, Nat.mod_eq_of_lt hsz]
  have tB1' : B1.total_size = a.length := by
    rw [tB1]
    show a.length % 2 ^ 64 = _
    rw [Nat.mod_eq_of_lt (by omega)]
  have hB1' : Inv { B1 with total_size := (B1.total_size + b.length) % 2 ^ 64 } := by
    refine inv_congr B1 _ hB1 rfl rfl rfl ?_ (fun _ => rfl)
    show B1.total_size ≤ (B1.total_size + b.length) % 2 ^ 64
    rw [tB1', Nat.mod_eq_of_lt hsz]; omega
  have hL1' : Lag A1 { B1 with total_size := (B1.total_size + b.length) % 2 ^ 64 } := by
    refine ⟨hL1.roll, hL1.bhend, hL1.start_le, ?_, hL1.slots⟩
    show (B1.total_size + b.length) % 2 ^ 64 ≤ A1.total_size
    rw [tB1', tA1', Nat.mod_eq_of_lt hsz]
  obtain ⟨A2, B2, eA2, eB2, hA2, hB2, hL2, tA2, tB2⟩ := feed_lag b _ _ hA1 hB1' hL1'
  refine ⟨A2, B2, ?_, ?_, ?_⟩
  · unfold fuzzy_update
    rw [e0, feed_append, eA1]
    exact eA2
  · have : fuzzy_update fuzzy_new a = some B1 := by
      unfold fuzzy_update; rw [e0]; exact eB1
    rw [this]
    simp only [Option.some_bind]
    unfold fuzzy_update
    exact eB2
  · refine digest_lag A2 B2 flags hA2 hB2 hL2 ?_
    rw [tA2, tB2, tA1']
    show (B1.total_size + b.length) % 2 ^ 64 = _
    rw [tB1', Nat.mod_eq_of_lt hsz]

theorem C20_chunking_witness :
    ∃ s1 s2, fuzzy_update fuzzy_new (chars "The quick " ++ chars "brown fox") = some s1 ∧
      (fuzzy_update fuzzy_new (chars "The quick ")).bind
        (fun s => fuzzy_update s (chars "brown fox")) = some s2 ∧
      fuzzy_digest s2 1 = fuzzy_digest s1 1 :=
  C20_chunking (chars "The quick ") (chars "brown fox") 1 (by decide)

/-- C21: in every state that calls of `fuzzy_update` reach from `fuzzy_new`, and
for every value of `flags`, a digest that `fuzzy_digest` returns has at most
`FUZZY_MAX_RESULT - 1` characters, and no `assert` about the room left in
`result` fails (lines 297, 301, 310, 320, 330, 339 and 355): the only lines at
which the call can stop are the three other `assert`s, at 274, 291 and 354. -/
theorem C21_digest_room (chunks : List (List Nat)) (s : fuzzy_state) (flags : Nat)
    (hs : updates fuzzy_new chunks = some s) :
    (∀ r, fuzzy_digest s flags = Outcome.ok r → r.length ≤ FUZZY_MAX_RESULT - 1) ∧
    ∀ line, fuzzy_digest_at s flags = Ended.abort_at line →
      line = 274 ∨ line = 291 ∨ line = 354 := by
  have hS := short_updates chunks fuzzy_new s short_new hs
  have hc := digest_at_cases s flags hS
  constructor
  · intro r hr
    rw [← digest_forget] at hr
    rcases hc with e | e | e | e | ⟨r', e, hl⟩ <;> rw [e] at hr <;>
      simp only [Ended.forget] at hr
    · cases hr
    · cases hr
    · cases hr
    · cases hr
    · cases hr
      simp only [FUZZY_MAX_RESULT, SPAMSUM_LENGTH]
      omega
  · intro line hl
    rcases hc with e | e | e | e | ⟨r', e, _⟩ <;> rw [e] at hl
    · cases hl; exact Or.inl rfl
    · cases hl
    · cases hl; exact Or.inr (Or.inl rfl)
    · cases hl; exact Or.inr (Or.inr rfl)
    · cases hl

theorem C21_digest_room_witness :
    (∀ r, fuzzy_digest ((updates fuzzy_new [chars "ab", chars "c"]).getD fuzzy_new) 2 =
        Outcome.ok r → r.length ≤ FUZZY_MAX_RESULT - 1) ∧
    ∀ line, fuzzy_digest_at ((updates fuzzy_new [chars "ab", chars "c"]).getD fuzzy_new) 2 =
        Ended.abort_at line → line = 274 ∨ line = 291 ∨ line = 354 :=
  C21_digest_room [chars "ab", chars "c"] _ 2 (by decide)

/-- C22: the two routines that shorten runs agree. For every string `s` the
characters `memcpy_eliminate_sequences` writes (their number is its return
value) are the string `eliminate_sequences` returns. That string is `s` with
every run of identical characters cut down to its first three: a run of `k`
characters `c` in front of a rest that does not start with `c` becomes
`min k 3` characters `c`, followed by what the rest becomes. -/
theorem C22_eliminations :
    (∀ s : List Nat, memcpy_eliminate_sequences s = eliminate_sequences s) ∧
    (∀ s : List Nat, eliminate_sequences s = cap_runs s) ∧
    eliminate_sequences [] = [] ∧
    ∀ (c k : Nat) (rest : List Nat), 1 ≤ k → rest.head? ≠ some c →
      eliminate_sequences (List.replicate k c ++ rest) =
        List.replicate (min k 3) c ++ eliminate_sequences rest := by
  refine ⟨fun s => ?_, eliminate_cap, rfl, ?_⟩
  · rw [memcpy_cap, eliminate_cap]
  · intro c k rest hk hr
    rw [eliminate_cap, eliminate_cap, cap_runs_run c k rest hk hr]

theorem C22_eliminations_witness :
    eliminate_sequences (List.replicate 5 97 ++ chars "bbbbc") =
      List.replicate (min 5 3) 97 ++ eliminate_sequences (chars "bbbbc") :=
  C22_eliminations.2.2.2 97 5 (chars "bbbbc") (by decide) (by decide)

/-- C23, as stated, fails: the string `3` holds no colon at all, and compared
with `12:a:b` it gives 0, not -1, since the blocksizes 3 and 12 are tested
before the colons are looked for. -/
theorem C23_missing_colons : fuzzy_compare (chars "3") (chars "12:a:b") = 0 := by
  decide

/-- C23, amended: `fuzzy_compare` returns -1 whenever `sscanf` reads no
blocksize from one of its arguments, whatever the other is; that is so for an
empty string and for one whose first character is neither a digit nor white
space nor a sign. When both blocksizes are read and they are equal or one is
the double of the other (modulo `2 ^ 32`), it returns -1 whenever one of the
arguments holds fewer than two colons. -/
theorem C23_unparseable (x y : List Nat) :
    ((scan_u x = none ∨ scan_u y = none) → fuzzy_compare x y = -1) ∧
    ((∀ c, x.head? = some c → isdigit c = false ∧ isspace c = false ∧ c ≠ 43 ∧ c ≠ 45) →
      scan_u x = none) ∧
    (∀ b1 b2 : Nat, scan_u x = some b1 → scan_u y = some b2 →
      (b1 = b2 ∨ b1 = (b2 * 2) % 2 ^ 32 ∨ b2 = (b1 * 2) % 2 ^ 32) →
      (x.count 58 < 2 ∨ y.count 58 < 2) → fuzzy_compare x y = -1) := by
  refine ⟨?_, scan_u_none x, ?_⟩
  · intro h
    rw [fuzzy_compare_eq]
    rcases h with h | h
    · rw [h]
    · rw [h]
      cases scan_u x <;> rfl
  · intro b1 b2 h1 h2 hc hn
    rw [fuzzy_compare_eq, h1, h2]
    simp only []
    rw [if_neg (fun h => by rcases hc with e | e | e
                            · exact h.1 e
                            · exact h.2.1 e
                            · exact h.2.2 e)]
    rcases hn with h | h
    · rw [pieces_none x h]
    · rw [pieces_none y h]
      cases pieces x <;> rfl

theorem C23_unparseable_witness :
    fuzzy_compare (chars "3:abc") (chars "6:abc:def") = -1 :=
  (C23_unparseable (chars "3:abc") (chars "6:abc:def")).2.2 3 6 (by decide) (by decide)
    (Or.inr (Or.inr (by decide))) (Or.inl (by decide))

/-- C30: the counter `n` of the rolling hash is a `uint32_t`, and `2 ^ 32` is no
multiple of 7: after `2 ^ 32 - 1` bytes `0x01` and five bytes `0x00` the field
`h1` is 3, while the last seven bytes sum up to 2. For an input of bytes that is
shorter than `2 ^ 32`, `h1` is the sum of the last seven bytes, `h2` is the sum
of the last seven bytes times their positions 1 (oldest) to 7 (newest), both
modulo `2 ^ 32`, and `roll_sum` is what it is after the last seven bytes alone,
an input shorter than seven bytes being padded with zero bytes on the left. -/
theorem C30_rolling_window :
    (roll_feed (List.replicate (2 ^ 32 - 1) 1 ++ [0, 0, 0, 0, 0])).h1 = 3 ∧
    (last7 (List.replicate (2 ^ 32 - 1) 1 ++ [0, 0, 0, 0, 0])).sum = 2 ∧
    ∀ xs : List Nat, (∀ c ∈ xs, c < 256) → xs.length < 2 ^ 32 →
      (roll_feed xs).h1 = (last7 xs).sum % 2 ^ 32 ∧
      (roll_feed xs).h2 = weigh 1 (last7 xs) % 2 ^ 32 ∧
      roll_sum (roll_feed xs) = roll_sum (roll_feed (last7 xs)) := by
  refine ⟨?_, ?_, ?_⟩
  · rw [roll_feed_append, roll_feed_ones _ (by norm_num) (by norm_num)]
    decide
  · have e : List.replicate (2 ^ 32 - 1) 1 ++ [0, 0, 0, 0, 0] =
        List.replicate (2 ^ 32 - 3) 1 ++ [1, 1, 0, 0, 0, 0, 0] := by
      rw [show (2 ^ 32 - 1 : Nat) = (2 ^ 32 - 3) + 2 from by norm_num, List.replicate_add,
        List.append_assoc]
      rfl
    rw [e, last7_append _ [1, 1, 0, 0, 0, 0, 0] rfl]
    rfl
  · intro xs h hl
    obtain ⟨_, _, _, a1, a2⟩ := roll_window xs h hl
    have hb := last7_lt xs h
    obtain ⟨w0, w1, w2, w3, w4, w5, w6, hw⟩ := seven_cells _ (last7_length xs)
    rw [hw] at hb
    have b0 := hb w0 (by simp)
    have b1 := hb w1 (by simp)
    have b2 := hb w2 (by simp)
    have b3 := hb w3 (by simp)
    have b4 := hb w4 (by simp)
    have b5 := hb w5 (by simp)
    have b6 := hb w6 (by simp)
    refine ⟨?_, ?_, roll_sum_window xs h hl⟩
    · rw [a1, hw]
      simp only [List.sum_cons, List.sum_nil]
      omega
    · rw [a2, hw]
      simp only [weigh]
      omega

theorem C30_rolling_window_witness :
    (roll_feed (chars "The quick brown fox")).h1 = (last7 (chars "The quick brown fox")).sum % 2 ^ 32 ∧
      (roll_feed (chars "The quick brown fox")).h2 =
        weigh 1 (last7 (chars "The quick brown fox")) % 2 ^ 32 ∧
      roll_sum (roll_feed (chars "The quick brown fox")) =
        roll_sum (roll_feed (last7 (chars "The quick brown fox"))) :=
  C30_rolling_window.2.2 (chars "The quick brown fox") (by decide) (by decide)

/-- C31: in every state `s` that calls of `fuzzy_update` reach from `fuzzy_new`
(the sizes of the buffers add up to less than `2 ^ 64`, the range of `size_t`),
`bhstart < bhend ≤ 31`, every slot below `bhend` holds at most 63 characters,
and while `bhend < 31` every slot below `bhend - 1` holds at least one character
and the slot `bhend - 1` holds none. A further call of `fuzzy_update`, and a
single `fuzzy_engine_step`, return and lower neither `bhstart` nor `bhend`. -/
theorem C31_state_invariant (chunks : List (List Nat)) (s : fuzzy_state)
    (hsz : (chunks.map List.length).sum < 2 ^ 64)
    (hs : updates fuzzy_new chunks = some s) :
    (s.bhstart < s.bhend ∧ s.bhend ≤ 31) ∧
    (∀ i, i < s.bhend → (s.slot i).dlen ≤ 63) ∧
    (s.bhend < 31 → (∀ i, i < s.bhend - 1 → 0 < (s.slot i).dlen) ∧
      (s.slot (s.bhend - 1)).dlen = 0) ∧
    (∀ buf : List Nat, (chunks.map List.length).sum + buf.length < 2 ^ 64 →
      ∃ s', fuzzy_update s buf = some s' ∧ s.bhstart ≤ s'.bhstart ∧ s.bhend ≤ s'.bhend) ∧
    (∀ c : Nat, ∃ s', fuzzy_engine_step s c = some s' ∧
      s.bhstart ≤ s'.bhstart ∧ s.bhend ≤ s'.bhend) := by
  obtain ⟨s', e, hI, ht⟩ := updates_inv chunks fuzzy_new inv_new
    (by show 0 + _ < 2 ^ 64; omega)
  rw [hs] at e
  have e' : s = s' := by simpa using e
  subst e'
  have ht' : s.total_size = (chunks.map List.length).sum := by
    rw [ht]; show 0 + _ = _; omega
  refine ⟨⟨hI.start_lt, hI.end_le⟩, ?_, ?_, ?_, ?_⟩
  · intro i hi
    exact hI.dlen_le i hi
  · intro h31
    exact ⟨fun i hi => hI.used i (by omega), hI.last h31⟩
  · intro buf hb
    obtain ⟨s1, e1, _, _⟩ := update_inv s buf hI (by rw [ht']; exact hb)
    exact ⟨s1, e1, update_mono s s1 buf hI (by rw [ht']; exact hb) e1⟩
  · intro c
    obtain ⟨s1, e1, _, _⟩ := engine_step_inv s c hI
    exact ⟨s1, e1, engine_step_mono s s1 c hI e1⟩

theorem C31_state_invariant_witness :
    (((updates fuzzy_new [chars "ab", chars "c"]).getD fuzzy_new).bhstart <
        ((updates fuzzy_new [chars "ab", chars "c"]).getD fuzzy_new).bhend ∧
      ((updates fuzzy_new [chars "ab", chars "c"]).getD fuzzy_new).bhend ≤ 31) ∧
    (∀ i, i < ((updates fuzzy_new [chars "ab", chars "c"]).getD fuzzy_new).bhend →
      (((updates fuzzy_new [chars "ab", chars "c"]).getD fuzzy_new).slot i).dlen ≤ 63) ∧
    (((updates fuzzy_new [chars "ab", chars "c"]).getD fuzzy_new).bhend < 31 →
      (∀ i, i < ((updates fuzzy_new [chars "ab", chars "c"]).getD fuzzy_new).bhend - 1 →
        0 < (((updates fuzzy_new [chars "ab", chars "c"]).getD fuzzy_new).slot i).dlen) ∧
      (((updates fuzzy_new [chars "ab", chars "c"]).getD fuzzy_new).slot
        (((updates fuzzy_new [chars "ab", chars "c"]).getD fuzzy_new).bhend - 1)).dlen = 0) ∧
    (∀ buf : List Nat, ([chars "ab", chars "c"].map List.length).sum + buf.length < 2 ^ 64 →
      ∃ s', fuzzy_update ((updates fuzzy_new [chars "ab", chars "c"]).getD fuzzy_new) buf =
          some s' ∧
        ((updates fuzzy_new [chars "ab", chars "c"]).getD fuzzy_new).bhstart ≤ s'.bhstart ∧
        ((updates fuzzy_new [chars "ab", chars "c"]).getD fuzzy_new).bhend ≤ s'.bhend) ∧
    (∀ c : Nat, ∃ s',
      fuzzy_engine_step ((updates fuzzy_new [chars "ab", chars "c"]).getD fuzzy_new) c =
          some s' ∧
        ((updates fuzzy_new [chars "ab", chars "c"]).getD fuzzy_new).bhstart ≤ s'.bhstart ∧
        ((updates fuzzy_new [chars "ab", chars "c"]).getD fuzzy_new).bhend ≤ s'.bhend) :=
  C31_state_invariant [chars "ab", chars "c"] _ (by decide) (by decide)

/-- C32: in every state that calls of `fuzzy_update` reach from `fuzzy_new`
with less than `2 ^ 32` bytes of input in all, the `assert`s of `fuzzy_digest`
hold. `bhstart` is 0 or `SSDEEP_BS(bhstart) / 2 * SPAMSUM_LENGTH` is below
`total_size` (line 274); a slot `bi` is selected, and it is not the case that
`bi > 0` and `bh[bi].dlen < SPAMSUM_LENGTH / 2` (line 291); when `bi` is
`bhend - 1` and the rolling sum is not zero, `bh[bi].dlen` is 0 (line 354); and
for every value of `flags` the call runs to its end and returns a digest, so
no other `assert` fails either. -/
theorem C32_digest_asserts (chunks : List (List Nat)) (s : fuzzy_state)
    (hsz : (chunks.map List.length).sum < 2 ^ 32)
    (hs : updates fuzzy_new chunks = some s) :
    (s.bhstart = 0 ∨ SSDEEP_BS s.bhstart / 2 * SPAMSUM_LENGTH < s.total_size) ∧
    (∃ bi, choose_bi s = some bi ∧
      ¬ (bi > 0 ∧ (s.slot bi).dlen < SPAMSUM_LENGTH / 2) ∧
      (bi = s.bhend - 1 → roll_sum s.roll ≠ 0 → (s.slot bi).dlen = 0)) ∧
    ∀ flags, ∃ r, fuzzy_digest_at s flags = Ended.ok r := by
  obtain ⟨s', e, hI, ht⟩ := updates_inv chunks fuzzy_new inv_new
    (by show 0 + _ < 2 ^ 64; omega)
  rw [hs] at e
  have e' : s = s' := by simpa using e
  subst e'
  have ht' : s.total_size < 2 ^ 32 := by
    rw [ht]; show 0 + _ < _; omega
  obtain ⟨bi, hc, _, hlt, h291, h354⟩ := choose_bi_small s hI ht'
  refine ⟨inv_first_check s hI, ⟨bi, hc, h291, ?_⟩, ?_⟩
  · intro hb _
    exact h354 (by omega)
  · intro flags
    obtain ⟨S1, S2, ed, _⟩ := digest_form s flags bi hI hc (fun hb _ => h354 hb)
    have hf := digest_forget s flags
    rw [ed] at hf
    cases hd : fuzzy_digest_at s flags with
    | ok r => exact ⟨r, rfl⟩
    | fail => rw [hd] at hf; cases hf
    | abort_at l => rw [hd] at hf; cases hf

theorem C32_digest_asserts_witness :
    (((updates fuzzy_new [chars "ab", chars "c"]).getD fuzzy_new).bhstart = 0 ∨
      SSDEEP_BS ((updates fuzzy_new [chars "ab", chars "c"]).getD fuzzy_new).bhstart / 2 *
          SPAMSUM_LENGTH <
        ((updates fuzzy_new [chars "ab", chars "c"]).getD fuzzy_new).total_size) ∧
    (∃ bi, choose_bi ((updates fuzzy_new [chars "ab", chars "c"]).getD fuzzy_new) = some bi ∧
      ¬ (bi > 0 ∧
        (((updates fuzzy_new [chars "ab", chars "c"]).getD fuzzy_new).slot bi).dlen <
          SPAMSUM_LENGTH / 2) ∧
      (bi = ((updates fuzzy_new [chars "ab", chars "c"]).getD fuzzy_new).bhend - 1 →
        roll_sum ((updates fuzzy_new [chars "ab", chars "c"]).getD fuzzy_new).roll ≠ 0 →
        (((updates fuzzy_new [chars "ab", chars "c"]).getD fuzzy_new).slot bi).dlen = 0)) ∧
    ∀ flags, ∃ r,
      fuzzy_digest_at ((updates fuzzy_new [chars "ab", chars "c"]).getD fuzzy_new) flags =
        Ended.ok r :=
  C32_digest_asserts [chars "ab", chars "c"] _ (by decide) (by decide)

/-- C33, as stated, fails: after the 200 bytes `i * i % 256` the slot 0 is in
use and holds 60 characters, and the next byte, a zero byte, changes its `halfh`
from 1002168947 to 2076539657 (the byte ends no block: the slot still holds 60
characters). -/
theorem C33_halfh_moves :
    (updates fuzzy_new [(List.range 200).map (fun i => i * i % 256)]).map
        (fun s => (s.bhstart, s.bhend, (s.slot 0).dlen, (s.slot 0).halfh)) =
      some (0, 8, 60, 1002168947) ∧
    (updates fuzzy_new [(List.range 200).map (fun i => i * i % 256), [0]]).map
        (fun s => (s.bhstart, s.bhend, (s.slot 0).dlen, (s.slot 0).halfh)) =
      some (0, 8, 60, 2076539657) := by
  constructor <;> decide!

/-- C33, amended: `halfh` is no longer reset to `HASH_INIT` once the digest of
a slot has 32 characters (31 are enough), but it is not frozen: in every state
that calls of `fuzzy_update` reach from `fuzzy_new`, for every slot `i` in use
(`bhstart ≤ i < bhend`) that holds 31 characters or more and for every further
byte `c`, `fuzzy_engine_step` returns and the new `halfh` of the slot is
`sum_hash c` of the old one, the same FNV step that `h` takes. -/
theorem C33_halfh_not_reset (chunks : List (List Nat)) (s : fuzzy_state) (i c : Nat)
    (hsz : (chunks.map List.length).sum < 2 ^ 64)
    (hs : updates fuzzy_new chunks = some s)
    (h1 : s.bhstart ≤ i) (h2 : i < s.bhend) (h3 : 31 ≤ (s.slot i).dlen) :
    ∃ s', fuzzy_engine_step s c = some s' ∧
      (s'.slot i).halfh = sum_hash c (s.slot i).halfh := by
  obtain ⟨s', e, hI, ht⟩ := updates_inv chunks fuzzy_new inv_new
    (by show 0 + _ < 2 ^ 64; omega)
  rw [hs] at e
  have e' : s = s' := by simpa using e
  subst e'
  obtain ⟨s1, e1, _, _⟩ := engine_step_inv s c hI
  have hl : s.bhend ≤ s.bh.length := by rw [hI.len]; exact hI.end_le
  exact ⟨s1, e1, engine_step_halfh s s1 c i h1 h2 h3 hl e1⟩

set_option maxRecDepth 100000 in
theorem C33_halfh_not_reset_witness :
    ∃ s', fuzzy_engine_step
        ((updates fuzzy_new [(List.range 200).map (fun i => i * i % 256)]).getD fuzzy_new) 0 =
          some s' ∧
      (s'.slot 0).halfh = sum_hash 0
        (((updates fuzzy_new [(List.range 200).map (fun i => i * i % 256)]).getD
          fuzzy_new).slot 0).halfh :=
  C33_halfh_not_reset [(List.range 200).map (fun i => i * i % 256)] _ 0 0 (by decide)
    (by decide) (by decide) (by decide) (by decide)

/-- C34, as stated, fails: `fuzzy_try_reduce_blockhash` advances `bhstart` once,
not until a condition fails. After the 385 bytes of `reduce_input` the state has
`bhstart = 0` and `bhend = 11`; the call moves `bhstart` to 1, and on return all
three conditions still hold: `bhend - bhstart ≥ 2`, `SSDEEP_BS(bhstart) * 64 <
total_size` and `bh[bhstart + 1].dlen ≥ 32`. -/
theorem C34_conditions_remain :
    (fuzzy_update fuzzy_new reduce_input).map (fun s => (s.bhstart, s.bhend)) = some (0, 11) ∧
    ((fuzzy_update fuzzy_new reduce_input).bind fuzzy_try_reduce_blockhash).map
        (fun s => (s.bhstart, decide (s.bhend - s.bhstart ≥ 2),
          decide (SSDEEP_BS s.bhstart * SPAMSUM_LENGTH < s.total_size),
          decide ((s.slot (s.bhstart + 1)).dlen ≥ SPAMSUM_LENGTH / 2))) =
      some (1, true, true, true) := by
  constructor <;> decide!

/-- C34, amended: for every state with `bhstart < bhend`,
`fuzzy_try_reduce_blockhash` returns, and it changes no field other than
`bhstart`. When the three conditions `bhend - bhstart ≥ 2`,
`SSDEEP_BS(bhstart) * 64 < total_size` and `bh[bhstart + 1].dlen ≥ 32` all hold
before the call, `bhstart` is advanced by exactly one; when one of them fails,
`bhstart` keeps its value. -/
theorem C34_reduce_once (s : fuzzy_state) (h : s.bhstart < s.bhend) :
    ∃ s', fuzzy_try_reduce_blockhash s = some s' ∧
      s'.bhend = s.bhend ∧ s'.bh = s.bh ∧ s'.total_size = s.total_size ∧ s'.roll = s.roll ∧
      s'.bhstart = (if 2 ≤ s.bhend - s.bhstart ∧
          SSDEEP_BS s.bhstart * SPAMSUM_LENGTH < s.total_size ∧
          32 ≤ (s.slot (s.bhstart + 1)).dlen
        then s.bhstart + 1 else s.bhstart) := by
  rw [reduce_spec s h]
  refine ⟨_, rfl, ?_⟩
  split_ifs <;> exact ⟨rfl, rfl, rfl, rfl, rfl⟩

set_option maxRecDepth 100000 in
theorem C34_reduce_once_witness :
    ((fuzzy_update fuzzy_new reduce_input).getD fuzzy_new).bhstart = 0 ∧
    (2 ≤ ((fuzzy_update fuzzy_new reduce_input).getD fuzzy_new).bhend -
        ((fuzzy_update fuzzy_new reduce_input).getD fuzzy_new).bhstart ∧
      SSDEEP_BS ((fuzzy_update fuzzy_new reduce_input).getD fuzzy_new).bhstart * SPAMSUM_LENGTH <
        ((fuzzy_update fuzzy_new reduce_input).getD fuzzy_new).total_size ∧
      32 ≤ (((fuzzy_update fuzzy_new reduce_input).getD fuzzy_new).slot
        (((fuzzy_update fuzzy_new reduce_input).getD fuzzy_new).bhstart + 1)).dlen) ∧
    ∃ s', fuzzy_try_reduce_blockhash ((fuzzy_update fuzzy_new reduce_input).getD fuzzy_new) =
        some s' ∧
      s'.bhend = ((fuzzy_update fuzzy_new reduce_input).getD fuzzy_new).bhend ∧
      s'.bh = ((fuzzy_update fuzzy_new reduce_input).getD fuzzy_new).bh ∧
      s'.total_size = ((fuzzy_update fuzzy_new reduce_input).getD fuzzy_new).total_size ∧
      s'.roll = ((fuzzy_update fuzzy_new reduce_input).getD fuzzy_new).roll ∧
      s'.bhstart = (if 2 ≤ ((fuzzy_update fuzzy_new reduce_input).getD fuzzy_new).bhend -
            ((fuzzy_update fuzzy_new reduce_input).getD fuzzy_new).bhstart ∧
          SSDEEP_BS ((fuzzy_update fuzzy_new reduce_input).getD fuzzy_new).bhstart *
            SPAMSUM_LENGTH < ((fuzzy_update fuzzy_new reduce_input).getD fuzzy_new).total_size ∧
          32 ≤ (((fuzzy_update fuzzy_new reduce_input).getD fuzzy_new).slot
            (((fuzzy_update fuzzy_new reduce_input).getD fuzzy_new).bhstart + 1)).dlen
        then ((fuzzy_update fuzzy_new reduce_input).getD fuzzy_new).bhstart + 1
        else ((fuzzy_update fuzzy_new reduce_input).getD fuzzy_new).bhstart) :=
  ⟨by decide, by decide,
    C34_reduce_once ((fuzzy_update fuzzy_new reduce_input).getD fuzzy_new) (by decide)⟩

/-- C35: `fuzzy_update` never fails and overflow is the only failure of
`fuzzy_digest`. In every state that calls of `fuzzy_update` reach from
`fuzzy_new` (the sizes of the buffers add up to less than `2 ^ 64`, the range of
`size_t`) a further call of `fuzzy_update` returns, and its only return value is
0. For every state with `bhstart ≤ 30` and every value of `flags`,
`fuzzy_digest` returns -1 if and only if `total_size` is above
`64 * SSDEEP_BS(30)`, which is `64 * 3 * 2 ^ 30`. And `fuzzy_hash_buf`, whose
length is below `2 ^ 32`, returns 0 and leaves a digest. -/
theorem C35_only_overflow :
    (∀ (chunks : List (List Nat)) (s : fuzzy_state) (buf : List Nat),
      (chunks.map List.length).sum + buf.length < 2 ^ 64 →
      updates fuzzy_new chunks = some s → ∃ s', fuzzy_update s buf = some s') ∧
    (∀ (s : fuzzy_state) (flags : Nat), s.bhstart ≤ 30 →
      (fuzzy_digest s flags = Outcome.fail ↔ 64 * SSDEEP_BS 30 < s.total_size)) ∧
    64 * SSDEEP_BS 30 = 64 * 3 * 2 ^ 30 ∧
    (∀ B : List Nat, B.length < 2 ^ 32 → ∃ d, fuzzy_hash_buf B = Outcome.ok d) := by
  refine ⟨?_, fun s flags hb => digest_fail_iff s flags hb, by decide, ?_⟩
  · intro chunks s buf hsz hs
    obtain ⟨s', e, hI, ht⟩ := updates_inv chunks fuzzy_new inv_new
      (by show 0 + _ < 2 ^ 64; omega)
    rw [hs] at e
    have e' : s = s' := by simpa using e
    subst e'
    have ht' : s.total_size = (chunks.map List.length).sum := by
      rw [ht]; show 0 + _ = _; omega
    obtain ⟨s1, e1, _, _⟩ := update_inv s buf hI (by rw [ht']; exact hsz)
    exact ⟨s1, e1⟩
  · intro B hB
    obtain ⟨bi, S1, S2, _, e, _⟩ := hash_buf_form B hB
    exact ⟨_, e⟩

theorem C35_only_overflow_witness :
    (fuzzy_digest { fuzzy_new with total_size := 64 * 3 * 2 ^ 30 + 1 } 0 = Outcome.fail ↔
      64 * SSDEEP_BS 30 < 64 * 3 * 2 ^ 30 + 1) :=
  C35_only_overflow.2.1 { fuzzy_new with total_size := 64 * 3 * 2 ^ 30 + 1 } 0 (by decide)

/-- C36: `has_common_substring` is not exact. The seven characters
`01 58 F8 F8 F8 3B E9` (none is NUL) have the rolling sum 0, the test
`hashes[j] != 0` skips them, and the function returns 0 for this string and
itself. What the function computes, for strings of characters of at most 64
characters: it returns 1 if and only if some string of seven characters whose
rolling sum is not zero occurs in both strings as a contiguous substring, and 0
otherwise. -/
theorem C36_common_substring :
    (has_common_substring [1, 88, 248, 248, 248, 59, 233] [1, 88, 248, 248, 248, 59, 233] = 0 ∧
      roll_sum (roll_feed [1, 88, 248, 248, 248, 59, 233]) = 0) ∧
    (∀ s1 s2 : List Nat, (∀ c ∈ s1, 0 < c ∧ c < 256) → (∀ c ∈ s2, 0 < c ∧ c < 256) →
      s1.length ≤ 64 → s2.length ≤ 64 →
      (has_common_substring s1 s2 = 1 ↔
        ∃ w a1 b1 a2 b2, w.length = 7 ∧ s1 = a1 ++ w ++ b1 ∧ s2 = a2 ++ w ++ b2 ∧
          roll_sum (roll_feed w) ≠ 0) ∧
      (has_common_substring s1 s2 = 1 ∨ has_common_substring s1 s2 = 0)) := by
  refine ⟨⟨by decide, by decide⟩, ?_⟩
  intro s1 s2 h1 h2 l1 l2
  refine ⟨hcs_exact s1 s2 (fun c hc => (h1 c hc).2) (fun c hc => (h2 c hc).2)
    (by omega) (by omega), ?_⟩
  rcases hcs_cases s1 s2 with h | h
  · exact Or.inr h
  · exact Or.inl h

theorem C36_common_substring_witness :
    (has_common_substring (chars "ABCDEFGH") (chars "xBCDEFGHy") = 1 ↔
      ∃ w a1 b1 a2 b2, w.length = 7 ∧ chars "ABCDEFGH" = a1 ++ w ++ b1 ∧
        chars "xBCDEFGHy" = a2 ++ w ++ b2 ∧ roll_sum (roll_feed w) ≠ 0) ∧
    (has_common_substring (chars "ABCDEFGH") (chars "xBCDEFGHy") = 1 ∨
      has_common_substring (chars "ABCDEFGH") (chars "xBCDEFGHy") = 0) :=
  C36_common_substring.2 (chars "ABCDEFGH") (chars "xBCDEFGHy") (by decide) (by decide)
    (by decide) (by decide)

/-- C37: for strings `a` and `b` of at most 64 characters, the lengths
`score_strings` passes, `edit_distn(a, |a|, b, |b|)` is the least cost of a
sequence of edit operations that turns `a` into `b`, an insertion and a
deletion costing 1, a change of a character 3 and an exchange of two adjacent
characters 5: some sequence has this cost and none has a smaller one. The value
is `|a| + |b| - 2 * lcs a b`, where `lcs a b` is the length of a longest common
subsequence; it is the length of the other string when one string is empty, and
0 when `a = b`. -/
theorem C37_edit_distance (a b : List Nat) (ha : a.length ≤ 64) (hb : b.length ≤ 64) :
    (∃ n, Script a b n ∧ edit_distn a a.length b b.length = (n : Int)) ∧
    (∀ n, Script a b n → edit_distn a a.length b b.length ≤ (n : Int)) ∧
    edit_distn a a.length b b.length = (a.length : Int) + b.length - 2 * lcs a b ∧
    ((∃ w : List Nat, w.Sublist a ∧ w.Sublist b ∧ w.length = lcs a b) ∧
      ∀ w : List Nat, w.Sublist a → w.Sublist b → w.length ≤ lcs a b) ∧
    (a = [] → edit_distn a a.length b b.length = (b.length : Int)) ∧
    (b = [] → edit_distn a a.length b b.length = (a.length : Int)) ∧
    (a = b → edit_distn a a.length b b.length = 0) := by
  have e := edit_distn_lcs a b (by simp only [STRLENTHRESHOLD]; omega) (by omega)
  have l1 := lcs_le_left a b
  have l2 := lcs_le_right a b
  refine ⟨?_, ?_, e, ⟨lcs_attained a b, lcs_upper a b⟩, ?_, ?_, ?_⟩
  · obtain ⟨n, hs, hn⟩ := script_exists a b
    exact ⟨n, hs, by rw [e]; omega⟩
  · intro n hs
    have := script_lower a b n hs
    rw [e]; omega
  · intro h
    subst h
    rw [e]; simp [lcs]
  · intro h
    subst h
    rw [e, lcs_nil_right]; simp
  · intro h
    subst h
    rw [e, lcs_self]; omega

theorem C37_edit_distance_witness :
    (∃ n, Script (chars "kitten") (chars "sitting") n ∧
      edit_distn (chars "kitten") (chars "kitten").length (chars "sitting")
        (chars "sitting").length = (n : Int)) ∧
    (∀ n, Script (chars "kitten") (chars "sitting") n →
      edit_distn (chars "kitten") (chars "kitten").length (chars "sitting")
        (chars "sitting").length ≤ (n : Int)) ∧
    edit_distn (chars "kitten") (chars "kitten").length (chars "sitting")
        (chars "sitting").length =
      ((chars "kitten").length : Int) + (chars "sitting").length -
        2 * lcs (chars "kitten") (chars "sitting") ∧
    ((∃ w : List Nat, w.Sublist (chars "kitten") ∧ w.Sublist (chars "sitting") ∧
        w.length = lcs (chars "kitten") (chars "sitting")) ∧
      ∀ w : List Nat, w.Sublist (chars "kitten") → w.Sublist (chars "sitting") →
        w.length ≤ lcs (chars "kitten") (chars "sitting")) ∧
    (chars "kitten" = [] →
      edit_distn (chars "kitten") (chars "kitten").length (chars "sitting")
        (chars "sitting").length = ((chars "sitting").length : Int)) ∧
    (chars "sitting" = [] →
      edit_distn (chars "kitten") (chars "kitten").length (chars "sitting")
        (chars "sitting").length = ((chars "kitten").length : Int)) ∧
    (chars "kitten" = chars "sitting" →
      edit_distn (chars "kitten") (chars "kitten").length (chars "sitting")
        (chars "sitting").length = 0) :=
  C37_edit_distance (chars "kitten") (chars "sitting") (by decide) (by decide)

/-- C38: the early exit of `edit_distn` is taken too early by one. For the
string `x` and the string of 100 characters `y` followed by `x` the least cost
of a sequence of edit operations (insertion 1, deletion 1, change 3, exchange
5) is 100, which does not exceed `MIN_DIST`, and yet the loop over the rows is
left at row 99 and `edit_distn` returns 101. What holds for strings `a` and `b`
that are not empty and have at most 498 characters, with the least cost `n`:
when the `break` is not taken `edit_distn` returns `n`; when it is taken, `n` is
at least 100 and the value returned is above 100; so `edit_distn` returns `n`
whenever `n` is at most 99. -/
theorem C38_early_exit :
    (Distance [120] (List.replicate 100 121 ++ [120]) 100 ∧
      edit_distn_break [120] 1 (List.replicate 100 121 ++ [120]) 101 = some 99 ∧
      edit_distn [120] 1 (List.replicate 100 121 ++ [120]) 101 = 101) ∧
    ∀ (a b : List Nat) (n : Nat), a ≠ [] → b ≠ [] → a.length ≤ 498 → b.length ≤ 498 →
      Distance a b n →
      (edit_distn_break a a.length b b.length = none →
        edit_distn a a.length b b.length = (n : Int)) ∧
      (∀ r, edit_distn_break a a.length b b.length = some r →
        100 ≤ n ∧ 100 < edit_distn a a.length b b.length) ∧
      (n ≤ 99 → edit_distn_break a a.length b b.length = none ∧
        edit_distn a a.length b b.length = (n : Int)) := by
  refine ⟨⟨(distance_lcs _ _ _).2 (by decide!), by decide!, by decide!⟩, ?_⟩
  intro a b n ha hb la lb hd
  have hm : 1 ≤ a.length := Nat.pos_of_ne_zero (fun h => ha (List.length_eq_zero.1 h))
  have hn : 1 ≤ b.length := Nat.pos_of_ne_zero (fun h => hb (List.length_eq_zero.1 h))
  have hD := matrix_distance a b n hd
  have key : ∀ r, edit_distn_break a a.length b b.length = some r →
      100 ≤ n ∧ 100 < edit_distn a a.length b b.length := by
    intro r hr
    rcases edit_distn_cases a b a.length b.length hm hn (by simp only [STRLENTHRESHOLD]; omega)
      with ⟨b1, _⟩ | ⟨r', b1, b2, b3, b4, b5⟩
    · rw [b1] at hr; cases hr
    · have h1 := b5 0 (by omega)
      rw [Nat.zero_add] at h1
      have h2 := matrix_first_col a b (r' + 1)
      have hrow : ∀ c, c ≤ a.length → (100 : Int) ≤ matrix a b (r' + 1) c := by
        intro c hc
        cases c with
        | zero => rw [matrix_col_zero]; push_cast at h2 ⊢; omega
        | succ c => have := b5 c (by omega); omega
      have hfin := rows_ge a b 100 a.length (le_refl _) (b.length - (r' + 1)) (r' + 1)
        (by omega) hrow a.length (le_refl _)
      rw [Nat.add_sub_cancel' (by omega), hD] at hfin
      have hlast := b5 (a.length - 1) (by omega)
      rw [Nat.sub_add_cancel hm] at hlast
      rw [b4]
      exact ⟨by omega, hlast⟩
  have exact : edit_distn_break a a.length b b.length = none →
      edit_distn a a.length b b.length = (n : Int) := by
    intro hnone
    rcases edit_distn_cases a b a.length b.length hm hn (by simp only [STRLENTHRESHOLD]; omega)
      with ⟨_, b2⟩ | ⟨r', b1, _⟩
    · rw [b2, hD]
    · rw [b1] at hnone; cases hnone
  refine ⟨exact, key, ?_⟩
  intro h99
  have hnone : edit_distn_break a a.length b b.length = none := by
    cases hb : edit_distn_break a a.length b b.length with
    | none => rfl
    | some r => have := (key r hb).1; omega
  exact ⟨hnone, exact hnone⟩

theorem C38_early_exit_witness :
    (edit_distn_break (chars "kitten") (chars "kitten").length (chars "sitting")
        (chars "sitting").length = none →
      edit_distn (chars "kitten") (chars "kitten").length (chars "sitting")
        (chars "sitting").length = ((5 : Nat) : Int)) ∧
    (∀ r, edit_distn_break (chars "kitten") (chars "kitten").length (chars "sitting")
        (chars "sitting").length = some r →
      100 ≤ 5 ∧ 100 < edit_distn (chars "kitten") (chars "kitten").length (chars "sitting")
        (chars "sitting").length) ∧
    (5 ≤ 99 → edit_distn_break (chars "kitten") (chars "kitten").length (chars "sitting")
        (chars "sitting").length = none ∧
      edit_distn (chars "kitten") (chars "kitten").length (chars "sitting")
        (chars "sitting").length = ((5 : Nat) : Int)) :=
  C38_early_exit.2 (chars "kitten") (chars "sitting") 5 (by decide) (by decide) (by decide)
    (by decide) ((distance_lcs _ _ _).2 (by decide))

end Ssdeep
